import Mathlib

/-!
# Huffman log compressor (`src/Q5/huffman.c`)

A shallow embedding of the compressor and decompressor of `src/Q5/huffman.c`,
followed by theorems about them.

Conventions of the embedding.

* A value of C type `MinHeapNode*` is a `MinHeapNode`: either `null` or a node
  carrying its four fields.  Dereferencing `null` is the fault `nullDeref`.
* `unsigned` values are natural numbers kept below `2^32` by an explicit
  `% 4294967296`; `int` values are integers wrapped by `toInt32`.
* An array access outside the allocated block is the fault `outOfBounds`.
* Files are lists of bytes (`Fin 256`).  `fgetc` walks the list, `fputc`
  appends to the output list.
* Loops whose termination is not structural carry a fuel argument; running
  out of fuel is the separate fault `fuel`, so that it can never be confused
  with a result or with a memory fault.
-/

namespace Huffman

/-! ## Machine integers, bytes and faults -/

/-- A byte of a file, as returned by `fgetc` and accepted by `fputc`. -/
abbrev Byte := Fin 256

/-- The size of a code row and of the path buffer, `#define MAX_TREE_HT 256`. -/
def MAX_TREE_HT : Nat := 256

/-- The modulus of `unsigned` arithmetic. -/
def U32 : Nat := 4294967296

/-- Conversion of a mathematical integer to `int`.  Results of `int`
arithmetic that leave the range wrap in two's complement, which is what the
machine arithmetic of the usual targets does. -/
def toInt32 (x : Int) : Int := (x + 2147483648) % 4294967296 - 2147483648

/-- Conversion of an `int` to `unsigned`, as done by the usual arithmetic
conversions when an `int` is compared with an `unsigned`. -/
def toUInt32 (x : Int) : Nat := (x % 4294967296).toNat

/-- The ways in which a run of the program can go wrong. -/
inductive Fault
  | outOfBounds
  | nullDeref
  | shortHeader
  | fuel
  deriving DecidableEq, Repr

/-- Conversion to `unsigned char`, as done by `fputc`. -/
def toByte (n : Nat) : Byte := ⟨n % 256, Nat.mod_lt n (by decide)⟩

/-! ## Tree nodes and the heap -/

/-- A value of type `MinHeapNode*`.  `data` holds the character as its
`unsigned char` value (the only way the program ever reads it back), `freq`
is an `unsigned`. -/
inductive MinHeapNode
  | null
  | node (data : Nat) (freq : Nat) (left right : MinHeapNode)
  deriving DecidableEq, Repr

/-- Translation of `newNode`: a node without children. -/
def newNode (data : Nat) (freq : Nat) : MinHeapNode :=
  MinHeapNode.node data freq MinHeapNode.null MinHeapNode.null

/-- Reads `p->freq`. -/
def MinHeapNode.getFreq : MinHeapNode → Except Fault Nat
  | MinHeapNode.null => Except.error Fault.nullDeref
  | MinHeapNode.node _ f _ _ => Except.ok f

/-- The test `p == NULL`. -/
def MinHeapNode.isNull : MinHeapNode → Bool
  | MinHeapNode.null => true
  | MinHeapNode.node _ _ _ _ => false

/-- Reads `p->left`. -/
def MinHeapNode.getLeft : MinHeapNode → Except Fault MinHeapNode
  | MinHeapNode.null => Except.error Fault.nullDeref
  | MinHeapNode.node _ _ l _ => Except.ok l

/-- Reads `p->right`. -/
def MinHeapNode.getRight : MinHeapNode → Except Fault MinHeapNode
  | MinHeapNode.null => Except.error Fault.nullDeref
  | MinHeapNode.node _ _ _ r => Except.ok r

/-- Reads `p->data`. -/
def MinHeapNode.getData : MinHeapNode → Except Fault Nat
  | MinHeapNode.null => Except.error Fault.nullDeref
  | MinHeapNode.node d _ _ _ => Except.ok d

/-- The struct `MinHeap`.  `array` is the block obtained from `malloc`; its
length is the number of slots allocated.  Slots never written hold `null`. -/
structure MinHeap where
  size : Nat
  capacity : Nat
  array : List MinHeapNode
  deriving DecidableEq, Repr

/-- Translation of `createMinHeap`. -/
def createMinHeap (capacity : Nat) : MinHeap :=
  { size := 0, capacity := capacity, array := List.replicate capacity MinHeapNode.null }

/-- Reads `minHeap->array[i]`. -/
def MinHeap.read (h : MinHeap) (i : Int) : Except Fault MinHeapNode :=
  if 0 ≤ i ∧ i < h.array.length then Except.ok (h.array.getD i.toNat MinHeapNode.null)
  else Except.error Fault.outOfBounds

/-- Performs `minHeap->array[i] = p`. -/
def MinHeap.write (h : MinHeap) (i : Int) (p : MinHeapNode) : Except Fault MinHeap :=
  if 0 ≤ i ∧ i < h.array.length then Except.ok { h with array := h.array.set i.toNat p }
  else Except.error Fault.outOfBounds

/-- Translation of `swapMinHeapNode(&array[a], &array[b])`. -/
def swapMinHeapNode (h : MinHeap) (a b : Int) : Except Fault MinHeap := do
  let t ← h.read a
  let y ← h.read b
  let h1 ← h.write a y
  h1.write b t

/-- One test of `minHeapify`:
`if (child < size && array[child]->freq < array[smallest]->freq) smallest = child;`
returning the new value of `smallest`.  `child` is an `int`, the comparison
with `minHeap->size` is made in `unsigned`. -/
def pickSmaller (h : MinHeap) (child smallest : Int) : Except Fault Int :=
  if toUInt32 child < h.size then do
    let fc ← (← h.read child).getFreq
    let fs ← (← h.read smallest).getFreq
    pure (if fc < fs then child else smallest)
  else pure smallest

/-- Translation of `minHeapify`, with the recursion depth bounded by fuel.
`left = 2 * idx + 1` and `right = 2 * idx + 2` are computed in `int`. -/
def minHeapifyAux : Nat → MinHeap → Int → Except Fault MinHeap
  | 0, _, _ => Except.error Fault.fuel
  | fuel + 1, h, idx => do
    let s1 ← pickSmaller h (toInt32 (2 * idx + 1)) idx
    let s2 ← pickSmaller h (toInt32 (2 * idx + 2)) s1
    if s2 ≠ idx then do
      let h1 ← swapMinHeapNode h s2 idx
      minHeapifyAux fuel h1 s2
    else pure h

/-- Translation of `minHeapify`.  Every recursive call is made on a child
index, so `size + 1` calls are enough whenever they stay inside the heap. -/
def minHeapify (h : MinHeap) (idx : Int) : Except Fault MinHeap :=
  minHeapifyAux (h.size + 1) h idx

/-- Translation of `extractMin`.  `size - 1` and `--size` are `unsigned`. -/
def extractMin (h : MinHeap) : Except Fault (MinHeapNode × MinHeap) := do
  let temp ← h.read 0
  let last ← h.read (((h.size + U32 - 1) % U32 : Nat) : Int)
  let h1 ← h.write 0 last
  let h2 ← minHeapify { h1 with size := (h.size + U32 - 1) % U32 } 0
  pure (temp, h2)

/-- The `while` loop of `insertMinHeap`; returns the heap and the final `i`. -/
def insertLoop : Nat → MinHeap → MinHeapNode → Int → Except Fault (MinHeap × Int)
  | 0, _, _, _ => Except.error Fault.fuel
  | fuel + 1, h, p, i =>
    if i ≠ 0 then do
      let f ← p.getFreq
      let parent ← h.read (Int.tdiv (toInt32 (i - 1)) 2)
      let fp ← parent.getFreq
      if f < fp then do
        let h1 ← h.write i parent
        insertLoop fuel h1 p (Int.tdiv (toInt32 (i - 1)) 2)
      else pure (h, i)
    else pure (h, i)

/-- Translation of `insertMinHeap`. -/
def insertMinHeap (h : MinHeap) (p : MinHeapNode) : Except Fault MinHeap := do
  let size := (h.size + 1) % U32
  let i := toInt32 ((size + U32 - 1) % U32 : Nat)
  let (h1, j) ← insertLoop (size + 1) { h with size := size } p i
  h1.write j p

/-! ## Tree construction -/

/-- The seeding loop of `buildHuffmanTree`, run over the indices `i` given as
a list (the program runs it over `0, 1, ..., 255`):
`if (freq[i] > 0) array[size++] = newNode((char)i, freq[i])`. -/
def seedLoop (freq : List Nat) : List Nat → MinHeap → Except Fault MinHeap
  | [], h => pure h
  | i :: rest, h =>
    if freq.getD i 0 > 0 then do
      let h1 ← h.write (h.size : Int) (newNode i (freq.getD i 0))
      seedLoop freq rest { h1 with size := (h.size + 1) % U32 }
    else seedLoop freq rest h

/-- The loop `for (i = start; i >= 0; --i) minHeapify(minHeap, i)`. -/
def buildHeapLoop : Nat → MinHeap → Except Fault MinHeap
  | 0, h => minHeapify h 0
  | i + 1, h => do
    let h1 ← minHeapify h ((i + 1 : Nat) : Int)
    buildHeapLoop i h1

/-- The loop `while (minHeap->size != 1)` of `buildHuffmanTree`.  The
internal node is created with marker `'$'` (36) and the `unsigned` sum of the
two frequencies. -/
def mergeLoop : Nat → MinHeap → Except Fault MinHeap
  | 0, _ => Except.error Fault.fuel
  | fuel + 1, h =>
    if h.size ≠ 1 then do
      let (left, h1) ← extractMin h
      let (right, h2) ← extractMin h1
      let fl ← left.getFreq
      let fr ← right.getFreq
      let top := MinHeapNode.node 36 ((fl + fr) % U32) left right
      let h3 ← insertMinHeap h2 top
      mergeLoop fuel h3
    else pure h

/-- Translation of `buildHuffmanTree`.  `freq` is a table of 256 `unsigned`
counts.  The start index of the build-heap loop is `(size - 2) / 2` computed
in `unsigned` and then stored in an `int`. -/
def buildHuffmanTree (freq : List Nat) (unique_chars : Int) : Except Fault MinHeapNode := do
  let h0 := createMinHeap (toUInt32 unique_chars)
  let h1 ← seedLoop freq (List.range 256) h0
  let start := ((h1.size + U32 - 2) % U32) / 2
  let h2 ← buildHeapLoop start h1
  let h3 ← mergeLoop (h2.size + 1) h2
  let (root, _) ← extractMin h3
  pure root

/-! ## Code table -/

/-- The global `huffman_codes`: row `c` read as a C string (the characters
before the first NUL). -/
abbrev CodeTable := Nat → List Char

/-- The character `storeCodes` writes for a path entry: `arr[i] ? '1' : '0'`. -/
def charOfInt (b : Nat) : Char := if b ≠ 0 then '1' else '0'

/-- Performs `arr[top] = v` on the path buffer `int arr[MAX_TREE_HT]`. -/
def writeArr (arr : List Nat) (top : Nat) (v : Nat) : Except Fault (List Nat) :=
  if top < arr.length then Except.ok (arr.set top v) else Except.error Fault.outOfBounds

/-- Translation of `storeCodes`.  The path buffer `arr` and the code table
are updated in place by the program, so both are threaded through.  At a
leaf the row `(unsigned char)data` receives `top` characters and a NUL at
index `top`, which must lie inside the row. -/
def storeCodes : MinHeapNode → List Nat → Nat → CodeTable → Except Fault (List Nat × CodeTable)
  | MinHeapNode.null, _, _, _ => Except.error Fault.nullDeref
  | MinHeapNode.node d _ l r, arr, top, codes => do
    let (arr1, codes1) ← if !l.isNull then (do
        let a ← writeArr arr top 0
        storeCodes l a (top + 1) codes)
      else pure (arr, codes)
    let (arr2, codes2) ← if !r.isNull then (do
        let a ← writeArr arr1 top 1
        storeCodes r a (top + 1) codes1)
      else pure (arr1, codes1)
    if l.isNull && r.isNull then
      if top < MAX_TREE_HT then
        pure (arr2, Function.update codes2 (d % 256)
          ((arr2.take top).map charOfInt))
      else Except.error Fault.outOfBounds
    else pure (arr2, codes2)

/-! ## Compression -/

/-- The locals of the counting pass of `compressFile`. -/
structure Counts where
  freq : List Nat
  total_chars : Nat
  unique_chars : Int
  deriving DecidableEq, Repr

/-- One iteration of the counting loop:
`if (freq[ch] == 0) unique_chars++; freq[ch]++; total_chars++;`. -/
def countStep (c : Counts) (ch : Byte) : Counts :=
  { freq := c.freq.set ch.val ((c.freq.getD ch.val 0 + 1) % U32),
    total_chars := (c.total_chars + 1) % U32,
    unique_chars := if c.freq.getD ch.val 0 = 0 then toInt32 (c.unique_chars + 1)
      else c.unique_chars }

/-- The counting pass of `compressFile`. -/
def countPass (input : List Byte) : Counts :=
  input.foldl countStep { freq := List.replicate 256 0, total_chars := 0, unique_chars := 0 }

/-- The four bytes `fwrite` emits for one `unsigned`: `unsigned` is taken to
be 32 bits wide and stored least significant byte first, the layout the
format description gives. -/
def le32 (x : Nat) : List Byte :=
  [toByte x, toByte (x / 256), toByte (x / 65536), toByte (x / 16777216)]

/-- The locals `buffer` (an `unsigned char`) and `bit_count` of the packing
loop, with the bytes written to the output file so far. -/
structure BitWriter where
  buffer : Nat
  bit_count : Nat
  out : List Byte
  deriving DecidableEq, Repr

/-- The inner `for` loop of the packing loop, over the characters of one
code string. -/
def writeCode : BitWriter → List Char → BitWriter
  | w, [] => w
  | w, c :: cs =>
    let b1 := (w.buffer * 2) % 256
    let b2 := if c = '1' then b1 ||| 1 else b1
    if w.bit_count + 1 = 8 then
      writeCode { buffer := 0, bit_count := 0, out := w.out ++ [toByte b2] } cs
    else writeCode { buffer := b2, bit_count := w.bit_count + 1, out := w.out } cs

/-- The flush after the packing loop. -/
def flushBits (w : BitWriter) : BitWriter :=
  if w.bit_count > 0 then
    { w with buffer := (w.buffer * 2 ^ (8 - w.bit_count)) % 256,
             out := w.out ++ [toByte ((w.buffer * 2 ^ (8 - w.bit_count)) % 256)] }
  else w

/-- The header written by `compressFile`: 256 counts and the total. -/
def writeHeader (freq : List Nat) (total_chars : Nat) : List Byte :=
  freq.flatMap le32 ++ le32 total_chars

/-- Step 2 of `compressFile`: build the tree, clear `huffman_codes` and fill
it with `storeCodes(root, arr, 0)`. -/
def buildCodes (freq : List Nat) (unique_chars : Int) : Except Fault CodeTable := do
  let root ← buildHuffmanTree freq unique_chars
  let (_, codes) ← storeCodes root (List.replicate MAX_TREE_HT 0) 0 (fun _ => [])
  pure codes

/-- The packing loop of `compressFile` over the bytes of the input. -/
def packLoop (codes : CodeTable) (input : List Byte) (w : BitWriter) : BitWriter :=
  input.foldl (fun w ch => writeCode w (codes ch.val)) w

/-- Translation of `compressFile`, from the content of the input file to the
content of the output file. -/
def compressFile (input : List Byte) : Except Fault (List Byte) := do
  let c := countPass input
  let codes ← buildCodes c.freq c.unique_chars
  let w0 : BitWriter := { buffer := 0, bit_count := 0, out := writeHeader c.freq c.total_chars }
  pure (flushBits (packLoop codes input w0)).out

/-! ## Decompression -/

/-- Reads one `unsigned` from the first four bytes of `bs`. -/
def readLE32 (bs : List Byte) : Nat :=
  (bs.getD 0 0).val + 256 * (bs.getD 1 0).val + 65536 * (bs.getD 2 0).val
    + 16777216 * (bs.getD 3 0).val

/-- The locals of the decoding loop of `decompressFile`. -/
structure DecodeState where
  current : MinHeapNode
  chars_written : Nat
  out : List Byte
  deriving DecidableEq, Repr

/-- The inner loop `for (i = 7; i >= 0; i--)` over the bits of `ch`; the
first argument is the number of bits still to read, so that the bit read is
bit `n` when it is `n + 1`.  Stops early on `break`. -/
def decodeByte (root : MinHeapNode) (total_chars : Nat) (ch : Nat) :
    Nat → DecodeState → Except Fault DecodeState
  | 0, s => pure s
  | i + 1, s => do
    let bit := (ch >>> i) &&& 1
    let cur ← if bit = 0 then s.current.getLeft else s.current.getRight
    let l ← cur.getLeft
    let r ← cur.getRight
    if l.isNull && r.isNull then do
      let d ← cur.getData
      let written := (s.chars_written + 1) % U32
      let s1 : DecodeState := { current := root, chars_written := written, out := s.out ++ [toByte d] }
      if written = total_chars then pure s1 else decodeByte root total_chars ch i s1
    else decodeByte root total_chars ch i { s with current := cur }

/-- The loop `while ((ch = fgetc(in)) != EOF && chars_written < total_chars)`. -/
def decodeLoop (root : MinHeapNode) (total_chars : Nat) :
    List Byte → DecodeState → Except Fault DecodeState
  | [], s => pure s
  | ch :: rest, s =>
    if s.chars_written < total_chars then do
      let s1 ← decodeByte root total_chars ch.val 8 s
      decodeLoop root total_chars rest s1
    else pure s

/-- The frequency table read by `fread(freq, sizeof(unsigned), 256, in)`. -/
def readFreq (input : List Byte) : List Nat :=
  (List.range 256).map (fun i => readLE32 (input.drop (4 * i)))

/-- The loop counting the nonzero entries of the table read from the header. -/
def countUnique (freq : List Nat) : Int :=
  (List.range 256).foldl (fun u i => if freq.getD i 0 > 0 then toInt32 (u + 1) else u) 0

/-- Translation of `decompressFile`, from the content of the compressed file
to the content of the output file.  A file too short to hold the 1028-byte
header leaves `freq` or `total_chars` uninitialised: fault `shortHeader`. -/
def decompressFile (input : List Byte) : Except Fault (List Byte) :=
  if input.length < 1028 then Except.error Fault.shortHeader
  else do
    let freq := readFreq input
    let total_chars := readLE32 (input.drop 1024)
    let root ← buildHuffmanTree freq (countUnique freq)
    let s ← decodeLoop root total_chars (input.drop 1028)
      { current := root, chars_written := 0, out := [] }
    pure s.out

/-! ## Predicates used to state the theorems -/

/-- A heap as the program keeps it: the block has `capacity` slots, the first
`size` of them hold nodes, and every slot can be indexed by an `int`
(`capacity` is at most `INT_MAX`, as it is when it comes from the `int`
`unique_chars`). -/
structure MinHeap.WF (h : MinHeap) : Prop where
  len : h.array.length = h.capacity
  size_le : h.size ≤ h.capacity
  cap_le : h.capacity ≤ 2147483647
  live : ∀ p ∈ h.array.take h.size, p ≠ MinHeapNode.null

/-- The symbols with a nonzero count in a frequency table, in increasing
order: the leaves seeded by `buildHuffmanTree` and the number counted by
`unique_chars`. -/
def nonzeroSymbols (freq : List Nat) : List Nat :=
  (List.range 256).filter (fun i => 0 < freq.getD i 0)

/-- The leaves of a tree from left to right, each as the pair of its `data`
and `freq` fields.  A leaf is a node whose two children are both `NULL`, the
test used by `storeCodes` and by `decompressFile`. -/
def MinHeapNode.leafPairs : MinHeapNode → List (Nat × Nat)
  | MinHeapNode.null => []
  | MinHeapNode.node d f l r =>
    if l.isNull && r.isNull then [(d, f)] else l.leafPairs ++ r.leafPairs

/-- The symbols at the leaves of a tree, from left to right. -/
def MinHeapNode.leaves (t : MinHeapNode) : List Nat := t.leafPairs.map Prod.fst

/-- A tree in which every node has either no child or two children. -/
inductive MinHeapNode.Proper : MinHeapNode → Prop
  | leaf (d f : Nat) : MinHeapNode.Proper (MinHeapNode.node d f MinHeapNode.null MinHeapNode.null)
  | inner (d f : Nat) (l r : MinHeapNode) : MinHeapNode.Proper l → MinHeapNode.Proper r →
      MinHeapNode.Proper (MinHeapNode.node d f l r)

/-- The nodes currently in the heap: the first `size` slots of the block. -/
def MinHeap.live (h : MinHeap) : List MinHeapNode := h.array.take h.size

/-- The leaves of a tree from left to right, each as the pair of its `data`
field and of the path leading to it from the root (`false` for a left edge,
`true` for a right edge). -/
def MinHeapNode.codePaths : MinHeapNode → List (Nat × List Bool)
  | MinHeapNode.null => []
  | MinHeapNode.node d _ l r =>
    if l.isNull && r.isNull then [(d, [])]
    else l.codePaths.map (fun p => (p.1, false :: p.2))
      ++ r.codePaths.map (fun p => (p.1, true :: p.2))

/-- The number of edges on the longest path from a node down to a leaf. -/
def MinHeapNode.height : MinHeapNode → Nat
  | MinHeapNode.null => 0
  | MinHeapNode.node _ _ l r =>
    if l.isNull && r.isNull then 0 else 1 + max l.height r.height

/-- The character written for an edge: `'0'` for left, `'1'` for right. -/
def charOfBit (b : Bool) : Char := if b then '1' else '0'

/-- The bit the packing loop writes for a character of a code string:
`if (code[i] == '1') buffer = buffer | 1`. -/
def bitOfChar (c : Char) : Bool := decide (c = '1')

/-- The `n` low-order bits of `x`, most significant first. -/
def bitsMSB : Nat → Nat → List Bool
  | 0, _ => []
  | n + 1, x => decide (x / 2 ^ n % 2 = 1) :: bitsMSB n x

/-- A byte sequence read as bits, byte by byte, most significant bit first. -/
def bitsOfBytes (bs : List Byte) : List Bool := bs.flatMap (fun b => bitsMSB 8 b.val)

/-- The codes of the bytes of the input, concatenated in input order, as bits. -/
def encodeBits (codes : CodeTable) (input : List Byte) : List Bool :=
  input.flatMap (fun ch => (codes ch.val).map bitOfChar)

/-- All bits a `BitWriter` has accepted so far: those of the bytes already
written followed by the `bit_count` bits still held in `buffer`. -/
def BitWriter.stream (w : BitWriter) : List Bool :=
  bitsOfBytes w.out ++ bitsMSB w.bit_count w.buffer

/-- The state of a `BitWriter` between two bits: fewer than eight pending
bits, and nothing above them in `buffer`. -/
def BitWriter.Ok (w : BitWriter) : Prop := w.bit_count < 8 ∧ w.buffer < 2 ^ w.bit_count

/-- What the decoding loop does once `current` has been moved to `cur`: at a
leaf it writes the symbol, counts it and resets the walk to the root,
otherwise it keeps `cur`; the rest of the run is `k`. -/
def afterMove (root cur : MinHeapNode) (s : DecodeState)
    (k : DecodeState → Except Fault DecodeState) : Except Fault DecodeState := do
  let l ← cur.getLeft
  let r ← cur.getRight
  if l.isNull && r.isNull then do
    let d ← cur.getData
    k { current := root, chars_written := (s.chars_written + 1) % U32, out := s.out ++ [toByte d] }
  else k { s with current := cur }

/-- The decoding loop of `decompressFile` seen as a loop over the bits of the
body: a bit is consumed only while fewer than `total_chars` symbols have been
written. -/
def decodeBits (root : MinHeapNode) (total_chars : Nat) :
    List Bool → DecodeState → Except Fault DecodeState
  | [], s => Except.ok s
  | b :: bs, s =>
    if s.chars_written < total_chars then do
      let cur ← if b then s.current.getRight else s.current.getLeft
      afterMove root cur s (decodeBits root total_chars bs)
    else Except.ok s

/-- The counters of the counting pass agree with the bytes `S` read so far:
256 entries, entry `i` is the number of occurrences of `i`, `total_chars` is
the number of bytes and `unique_chars` the number of nonzero entries. -/
def Counts.Matches (c : Counts) (S : List Byte) : Prop :=
  c.freq.length = 256 ∧ (∀ i, c.freq.getD i 0 = (S.map Fin.val).count i)
    ∧ c.total_chars = S.length
    ∧ c.unique_chars = ((nonzeroSymbols c.freq).length : Int)

/-! ## Concrete inputs used in the examples -/

/-- The 14-byte input `"AAAAAABCCCCCCD"`. -/
def sampleInput : List Byte := [65, 65, 65, 65, 65, 65, 66, 67, 67, 67, 67, 67, 67, 68]

/-- A frequency table with three nonzero counts: `'A'` 500, `'B'` 250 and
`'C'` 250, which add up to 1000. -/
def sampleFreq : List Nat := ((List.replicate 256 0).set 65 500 |>.set 66 250).set 67 250

/-- The code table `buildCodes` produces for `sampleFreq`: `'A'` is `0`,
`'B'` is `10` and `'C'` is `11`. -/
def sampleCodes : CodeTable :=
  Function.update (Function.update (Function.update (fun _ => []) 65 ['0']) 66 ['1', '0'])
    67 ['1', '1']

/-- Ten symbols whose codes under `sampleCodes` fill exactly two bytes. -/
def sampleSymbols : List Byte := [66, 66, 66, 67, 67, 67, 65, 65, 65, 65]

/-- An input of `2^32 + 1` bytes: `2^32` times `'A'`, then one `'B'`. -/
def wrapInput : List Byte := List.replicate 4294967295 65 ++ [65, 66]

/-- The frequency table of an input made of 500 copies of `'A'`. -/
def singleFreq : List Nat := (List.replicate 256 0).set 65 500

/-- A heap of three leaves in heap order (frequencies 2, 5, 3) in a block of
four slots. -/
def sampleHeap : MinHeap :=
  MinHeap.mk 3 4 [newNode 65 2, newNode 66 5, newNode 67 3, MinHeapNode.null]

/-- A heap of three leaves that is not in heap order (frequencies 5, 2, 3). -/
def sampleUnordered : MinHeap :=
  MinHeap.mk 3 4 [newNode 65 5, newNode 66 2, newNode 67 3, MinHeapNode.null]

/-! ## Heap order -/

/-- The `freq` field of a node, with 0 standing for `NULL`; used to state
properties of nodes that are known to exist. -/
def MinHeapNode.freqVal : MinHeapNode → Nat
  | MinHeapNode.null => 0
  | MinHeapNode.node _ f _ _ => f

/-- The frequency `array[i]->freq` of the node in slot `i` of a heap. -/
def MinHeap.freqAt (h : MinHeap) (i : Nat) : Nat :=
  (h.array.getD i MinHeapNode.null).freqVal

/-- The value `minHeapify` computes for `smallest` at index `idx`: the left
child when it exists and is strictly smaller than `idx`, then the right child
when it exists and is strictly smaller than that. -/
def MinHeap.smallest (h : MinHeap) (idx : Nat) : Nat :=
  if 2 * idx + 2 < h.size ∧ h.freqAt (2 * idx + 2)
      < h.freqAt (if 2 * idx + 1 < h.size ∧ h.freqAt (2 * idx + 1) < h.freqAt idx
          then 2 * idx + 1 else idx)
  then 2 * idx + 2
  else (if 2 * idx + 1 < h.size ∧ h.freqAt (2 * idx + 1) < h.freqAt idx then 2 * idx + 1
    else idx)

/-- The heap with the contents of slots `a` and `b` exchanged. -/
def MinHeap.swap (h : MinHeap) (a b : Nat) : MinHeap :=
  MinHeap.mk h.size h.capacity
    ((h.array.set a (h.array.getD b MinHeapNode.null)).set b (h.array.getD a MinHeapNode.null))

/-- Heap order on the edges whose parent index is at least `k`: the parent's
frequency is at most the child's. -/
def MinHeap.OrderedFrom (h : MinHeap) (k : Nat) : Prop :=
  ∀ i, 0 < i → i < h.size → k ≤ (i - 1) / 2 → h.freqAt ((i - 1) / 2) ≤ h.freqAt i

/-- The min-heap order on frequency: every parent's frequency is at most that
of each of its children. -/
def MinHeap.Ordered (h : MinHeap) : Prop :=
  ∀ i, 0 < i → i < h.size → h.freqAt ((i - 1) / 2) ≤ h.freqAt i

/-- The state of the heap while `minHeapify` sifts down at index `j`: the
order holds on every edge with parent at least `k` other than the edges below
`j`, and the children of `j` are not smaller than the parent of `j`. -/
def MinHeap.SiftInv (h : MinHeap) (k j : Nat) : Prop :=
  (∀ i, 0 < i → i < h.size → k ≤ (i - 1) / 2 → (i - 1) / 2 ≠ j →
      h.freqAt ((i - 1) / 2) ≤ h.freqAt i)
  ∧ (∀ c, 0 < c → c < h.size → (c - 1) / 2 = j → 0 < j → k ≤ (j - 1) / 2 →
      h.freqAt ((j - 1) / 2) ≤ h.freqAt c)

/-- The state of the heap while `insertMinHeap` moves the free slot `i` up
for a node of frequency `fv`: the order holds on every edge that does not
touch slot `i`, and the children of `i` are not smaller than `fv` nor than
the parent of `i`. -/
def MinHeap.UpInv (h : MinHeap) (i fv : Nat) : Prop :=
  (∀ c, 0 < c → c < h.size → c ≠ i → (c - 1) / 2 ≠ i →
      h.freqAt ((c - 1) / 2) ≤ h.freqAt c)
  ∧ (∀ c, 0 < c → c < h.size → (c - 1) / 2 = i →
      fv ≤ h.freqAt c ∧ (0 < i → h.freqAt ((i - 1) / 2) ≤ h.freqAt c))

/-! ## Properties of trees -/

/-- The test `p->left == NULL && p->right == NULL` on an existing node. -/
def MinHeapNode.isLeaf : MinHeapNode → Bool
  | MinHeapNode.null => false
  | MinHeapNode.node _ _ l r => l.isNull && r.isNull

/-- The number of nodes of a tree that have a child. -/
def MinHeapNode.internalCount : MinHeapNode → Nat
  | MinHeapNode.null => 0
  | MinHeapNode.node _ _ l r =>
    if l.isNull && r.isNull then 0 else 1 + l.internalCount + r.internalCount

/-- The sum of the frequencies carried by the leaves of a tree. -/
def MinHeapNode.weight (t : MinHeapNode) : Nat := (t.leafPairs.map Prod.snd).sum

/-- Every node with a child carries exactly the sum of the frequencies of its
two children. -/
def MinHeapNode.SumExact : MinHeapNode → Prop
  | MinHeapNode.null => True
  | MinHeapNode.node _ f l r =>
    (l.isNull && r.isNull) = true
      ∨ (f = l.freqVal + r.freqVal ∧ l.SumExact ∧ r.SumExact)

/-- In every node with a child the frequency of the left child is at most
that of the right child. -/
def MinHeapNode.LeftLe : MinHeapNode → Prop
  | MinHeapNode.null => True
  | MinHeapNode.node _ _ l r =>
    (l.isNull && r.isNull) = true
      ∨ (l.freqVal ≤ r.freqVal ∧ l.LeftLe ∧ r.LeftLe)

/-- The node reached from `t` by following a string of `'0'` (left) and `'1'`
(right) characters; `NULL` when the walk leaves the tree. -/
def MinHeapNode.walk : MinHeapNode → List Char → MinHeapNode
  | t, [] => t
  | MinHeapNode.null, _ :: _ => MinHeapNode.null
  | MinHeapNode.node _ _ l r, c :: cs => if c = '1' then r.walk cs else l.walk cs

/-- The heaps found at the head of the loop `while (minHeap->size != 1)` in a
run of `buildHuffmanTree(freq, unique_chars)`: the heap left by the build-heap
loop, and the heap left by one more merge step. -/
inductive MergeState (freq : List Nat) (unique_chars : Int) : MinHeap → Prop
  | start (h1 h2 : MinHeap) :
      seedLoop freq (List.range 256) (createMinHeap (toUInt32 unique_chars)) = Except.ok h1 →
      buildHeapLoop (((h1.size + U32 - 2) % U32) / 2) h1 = Except.ok h2 →
      MergeState freq unique_chars h2
  | step (h h1 h2 h3 : MinHeap) (l r : MinHeapNode) (fl fr : Nat) :
      MergeState freq unique_chars h → h.size ≠ 1 →
      extractMin h = Except.ok (l, h1) → extractMin h1 = Except.ok (r, h2) →
      l.getFreq = Except.ok fl → r.getFreq = Except.ok fr →
      insertMinHeap h2 (MinHeapNode.node 36 ((fl + fr) % U32) l r) = Except.ok h3 →
      MergeState freq unique_chars h3

end Huffman

/-!
# Social interaction graph (`src/Q3/social_graph.c`)

A shallow embedding of the adjacency-matrix graph of `src/Q3/social_graph.c`.
The arrays `user_ids` and `adj_matrix` are functions from indices to values;
every access checks the index against `MAX_USERS`, and an access outside the
array is the fault `outOfBounds`.  A user id is the list of the characters
before the terminating NUL; copying an id that does not fit in `ID_LEN` bytes
is the fault `overflow`.
-/

namespace SocialNet

/-- The number of rows of `user_ids` and of `adj_matrix`, `#define MAX_USERS 20`. -/
def MAX_USERS : Nat := 20

/-- The size of one id buffer, `#define ID_LEN 10`. -/
def ID_LEN : Nat := 10

/-- The ways in which a run can go wrong. -/
inductive Fault
  | outOfBounds
  | overflow
  deriving DecidableEq, Repr

/-- The struct `SocialGraph`. -/
structure SocialGraph where
  user_ids : Nat → List Char
  adj_matrix : Nat → Nat → Int
  num_users : Int

/-- The loop `for (i = lo; i < lo + cnt; i++) body`, the body being run on the
state `s`. -/
def forLoop {σ : Type} (body : Nat → σ → Except Fault σ) : Nat → Nat → σ → Except Fault σ
  | _, 0, s => pure s
  | i, cnt + 1, s => do
    let s1 ← body i s
    forLoop body (i + 1) cnt s1

/-- Reads `g->adj_matrix[i][j]`. -/
def readAdj (g : SocialGraph) (i j : Int) : Except Fault Int :=
  if 0 ≤ i ∧ i < MAX_USERS ∧ 0 ≤ j ∧ j < MAX_USERS then
    Except.ok (g.adj_matrix i.toNat j.toNat)
  else Except.error Fault.outOfBounds

/-- Performs `g->adj_matrix[i][j] = v`. -/
def writeAdj (g : SocialGraph) (i j : Int) (v : Int) : Except Fault SocialGraph :=
  if 0 ≤ i ∧ i < MAX_USERS ∧ 0 ≤ j ∧ j < MAX_USERS then
    Except.ok { g with adj_matrix := fun a b =>
      if a = i.toNat ∧ b = j.toNat then v else g.adj_matrix a b }
  else Except.error Fault.outOfBounds

/-- Reads the string in `g->user_ids[i]`. -/
def readId (g : SocialGraph) (i : Int) : Except Fault (List Char) :=
  if 0 ≤ i ∧ i < MAX_USERS then Except.ok (g.user_ids i.toNat)
  else Except.error Fault.outOfBounds

/-- Performs `strcpy(g->user_ids[i], id)`: the id and its NUL must fit in the
`ID_LEN` bytes of the row. -/
def strcpyId (g : SocialGraph) (i : Int) (id : List Char) : Except Fault SocialGraph :=
  if 0 ≤ i ∧ i < MAX_USERS then
    if id.length < ID_LEN then
      Except.ok { g with user_ids := fun a => if a = i.toNat then id else g.user_ids a }
    else Except.error Fault.overflow
  else Except.error Fault.outOfBounds

/-- Translation of `init_graph`, applied to the struct as it is found: the
ids are left as they are, the count and the whole matrix are set to 0. -/
def init_graph (g : SocialGraph) : SocialGraph :=
  { g with num_users := 0, adj_matrix := fun _ _ => 0 }

/-- The loop of `get_user_index`, with `cnt` iterations left from index `i`. -/
def get_user_index_loop (g : SocialGraph) (id : List Char) : Nat → Nat → Except Fault Int
  | 0, _ => pure (-1)
  | cnt + 1, i => do
    let s ← readId g i
    if s = id then pure (i : Int) else get_user_index_loop g id cnt (i + 1)

/-- Translation of `get_user_index`: the index of the first of the
`num_users` ids equal to `id` (`strcmp(...) == 0`), or `-1`. -/
def get_user_index (g : SocialGraph) (id : List Char) : Except Fault Int :=
  get_user_index_loop g id g.num_users.toNat 0

/-- Translation of `add_user`; returns the graph and the returned index. -/
def add_user (g : SocialGraph) (id : List Char) : Except Fault (SocialGraph × Int) := do
  let idx ← get_user_index g id
  if idx ≠ -1 then pure (g, idx)
  else if g.num_users ≥ MAX_USERS then pure (g, -1)
  else do
    let g1 ← strcpyId g g.num_users id
    pure ({ g1 with num_users := g.num_users + 1 }, g.num_users + 1 - 1)

/-- Translation of `add_interaction`. -/
def add_interaction (g : SocialGraph) (from_id to_id : List Char) : Except Fault SocialGraph := do
  let (g1, u) ← add_user g from_id
  let (g2, v) ← add_user g1 to_id
  if u ≠ -1 ∧ v ≠ -1 then writeAdj g2 u v 1 else pure g2

/-- Translation of `remove_interaction`. -/
def remove_interaction (g : SocialGraph) (from_id to_id : List Char) :
    Except Fault SocialGraph := do
  let u ← get_user_index g from_id
  let v ← get_user_index g to_id
  if u ≠ -1 ∧ v ≠ -1 then writeAdj g u v 0 else pure g

/-- Translation of `remove_user`: the three shifting loops, then
`g->num_users--`. -/
def remove_user (g : SocialGraph) (id : List Char) : Except Fault SocialGraph := do
  let k ← get_user_index g id
  if k = -1 then pure g
  else do
    let n := g.num_users
    let g1 ← forLoop (fun i g => do
        let s ← readId g ((i : Int) + 1)
        strcpyId g i s) k.toNat (n - 1 - k).toNat g
    let g2 ← forLoop (fun i g =>
        forLoop (fun j g => do
          let v ← readAdj g ((i : Int) + 1) j
          writeAdj g i j v) 0 n.toNat g) k.toNat (n - 1 - k).toNat g1
    let g3 ← forLoop (fun i g =>
        forLoop (fun j g => do
          let v ← readAdj g i ((j : Int) + 1)
          writeAdj g i j v) k.toNat (n - 1 - k).toNat g) 0 n.toNat g2
    pure { g3 with num_users := n - 1 }

end SocialNet

/-!
# Command authorisation (`src/Q2/command_auth.c`)

A shallow embedding of the edit distance and of the search tree of
`src/Q2/command_auth.c`.  A C string is the list of its characters before the
terminating NUL.  A value of type `TreeNode*` is a `TreeNode`: `null` or a
node with its three fields; `malloc` is taken to succeed.  The
variable-length array of `calculate_edit_distance` is a table of cells that
hold nothing until they are written: reading such a cell is the fault
`uninitialised`, an access outside the array is the fault `outOfBounds`.
The array lives on the stack: the function takes the number of `int` cells
the stack can still hold as an argument, and an array that needs more is the
fault `stackOverflow`.  `int` values wrap in two's complement.
-/

namespace CommandAuth

/-- The size of the `command` buffer of a node, `#define MAX_CMD_LEN 50`. -/
def MAX_CMD_LEN : Nat := 50

/-- Conversion of a mathematical integer to `int`. -/
def toInt32 (x : Int) : Int := (x + 2147483648) % 4294967296 - 2147483648

/-- The ways in which a run can go wrong. -/
inductive Fault
  | outOfBounds
  | uninitialised
  | badArraySize
  | stackOverflow
  deriving DecidableEq, Repr

/-- The loop `for (i = lo; i < lo + cnt; i++) body`, the body being run on the
state `s`. -/
def forLoop {σ : Type} (body : Nat → σ → Except Fault σ) : Nat → Nat → σ → Except Fault σ
  | _, 0, s => pure s
  | i, cnt + 1, s => do
    let s1 ← body i s
    forLoop body (i + 1) cnt s1

/-- The array `int matrix[len1 + 1][len2 + 1]`: its two dimensions and its
cells, `none` for a cell not written yet. -/
structure Matrix where
  rows : Nat
  cols : Nat
  cell : Nat → Nat → Option Int

/-- Reads `matrix[i][j]`. -/
def Matrix.read (m : Matrix) (i j : Int) : Except Fault Int :=
  if 0 ≤ i ∧ i < m.rows ∧ 0 ≤ j ∧ j < m.cols then
    match m.cell i.toNat j.toNat with
    | some v => Except.ok v
    | none => Except.error Fault.uninitialised
  else Except.error Fault.outOfBounds

/-- Performs `matrix[i][j] = v`. -/
def Matrix.write (m : Matrix) (i j : Int) (v : Int) : Except Fault Matrix :=
  if 0 ≤ i ∧ i < m.rows ∧ 0 ≤ j ∧ j < m.cols then
    Except.ok { m with cell := fun a b =>
      if a = i.toNat ∧ b = j.toNat then some v else m.cell a b }
  else Except.error Fault.outOfBounds

/-- Reads `s[i]` for an index inside the string. -/
def charAt (s : List Char) (i : Int) : Except Fault Char :=
  if 0 ≤ i ∧ i < s.length then Except.ok (s.getD i.toNat 'x')
  else Except.error Fault.outOfBounds

/-- The body of the inner loop of `calculate_edit_distance` at `(i, j)`. -/
def editCell (s1 s2 : List Char) (i j : Int) (m : Matrix) : Except Fault Matrix := do
  let a ← charAt s1 (toInt32 (i - 1))
  let b ← charAt s2 (toInt32 (j - 1))
  let cost : Int := if a = b then 0 else 1
  let del := toInt32 ((← m.read (toInt32 (i - 1)) j) + 1)
  let ins := toInt32 ((← m.read i (toInt32 (j - 1))) + 1)
  let sub := toInt32 ((← m.read (toInt32 (i - 1)) (toInt32 (j - 1))) + cost)
  let min := if del < ins then del else ins
  m.write i j (if min < sub then min else sub)

/-- Translation of `calculate_edit_distance`.  `strlen` is converted to
`int`; an array dimension that is not positive is the fault `badArraySize`.
The array `int matrix[len1 + 1][len2 + 1]` is allocated on the stack: `stack`
is the number of `int` cells the stack can still hold when the function is
entered, and an array of more cells is the fault `stackOverflow`. -/
def calculate_edit_distance (stack : Nat) (s1 s2 : List Char) : Except Fault Int := do
  let len1 := toInt32 s1.length
  let len2 := toInt32 s2.length
  if toInt32 (len1 + 1) ≤ 0 ∨ toInt32 (len2 + 1) ≤ 0 then Except.error Fault.badArraySize
  else if stack < (len1 + 1).toNat * (len2 + 1).toNat then
    Except.error Fault.stackOverflow
  else do
    let m0 : Matrix := { rows := (len1 + 1).toNat, cols := (len2 + 1).toNat,
                         cell := fun _ _ => none }
    let m1 ← forLoop (fun i m => m.write i 0 i) 0 (len1 + 1).toNat m0
    let m2 ← forLoop (fun j m => m.write 0 j j) 0 (len2 + 1).toNat m1
    let m3 ← forLoop (fun i m =>
        forLoop (fun j m => editCell s1 s2 i j m) 1 len2.toNat m) 1 len1.toNat m2
    m3.read len1 len2

/-- A value of type `TreeNode*`. -/
inductive TreeNode
  | null
  | node (command : List Char) (left right : TreeNode)
  deriving DecidableEq, Repr

/-- The sign of `strcmp(a, b)`: the first position where the strings differ
decides, characters being compared by their codes; a string that ends first
is smaller. -/
def strcmp : List Char → List Char → Int
  | [], [] => 0
  | [], _ :: _ => -1
  | _ :: _, [] => 1
  | a :: as, b :: bs => if a = b then strcmp as bs else if a < b then -1 else 1

/-- Translation of `create_node`: `strncpy` of at most `MAX_CMD_LEN` bytes,
then a NUL in the last byte, so that at most `MAX_CMD_LEN - 1` characters of
`cmd` are kept. -/
def create_node (cmd : List Char) : TreeNode :=
  TreeNode.node (cmd.take (MAX_CMD_LEN - 1)) TreeNode.null TreeNode.null

/-- Translation of `insert_command`. -/
def insert_command : TreeNode → List Char → TreeNode
  | TreeNode.null, cmd => create_node cmd
  | TreeNode.node c l r, cmd =>
    if strcmp cmd c < 0 then TreeNode.node c (insert_command l cmd) r
    else if strcmp cmd c > 0 then TreeNode.node c l (insert_command r cmd)
    else TreeNode.node c l r

/-- Translation of `search_exact`. -/
def search_exact : TreeNode → List Char → Int
  | TreeNode.null, _ => 0
  | TreeNode.node c l r, cmd =>
    if strcmp cmd c = 0 then 1
    else if strcmp cmd c < 0 then search_exact l cmd
    else search_exact r cmd

/-- The commands stored in a tree, from left to right. -/
def TreeNode.commands : TreeNode → List (List Char)
  | TreeNode.null => []
  | TreeNode.node c l r => l.commands ++ c :: r.commands

/-- A binary search tree under `strcmp`: at every node the commands of the
left subtree are smaller than the command of the node and those of the right
subtree are greater. -/
def TreeNode.IsBST : TreeNode → Prop
  | TreeNode.null => True
  | TreeNode.node c l r =>
    l.IsBST ∧ r.IsBST ∧ (∀ x ∈ l.commands, strcmp x c < 0) ∧ (∀ x ∈ r.commands, strcmp c x < 0)

/-- The tree obtained by inserting the commands of a list, in order, into an
initially empty tree. -/
def insertAll (cmds : List (List Char)) : TreeNode :=
  cmds.foldl insert_command TreeNode.null

/-- One single-character edit of a string: an insertion, a deletion or a
substitution at some position. -/
inductive EditStep : List Char → List Char → Prop
  | ins (c : Char) (s : List Char) : EditStep s (c :: s)
  | del (c : Char) (s : List Char) : EditStep (c :: s) s
  | sub (c d : Char) (s : List Char) : EditStep (c :: s) (d :: s)
  | cons (x : Char) {s t : List Char} : EditStep s t → EditStep (x :: s) (x :: t)

/-- The string `t` is obtained from `s` by `n` single-character edits. -/
inductive EditSeq : List Char → List Char → Nat → Prop
  | refl (s : List Char) : EditSeq s s 0
  | step {s t u : List Char} {n : Nat} : EditStep s t → EditSeq t u n → EditSeq s u (n + 1)

/-- The textbook recurrence for the edit distance, on the first characters
of the two strings. -/
def lev : List Char → List Char → Nat
  | [], t => t.length
  | a :: s, [] => (a :: s).length
  | a :: s, b :: t =>
    min (min (lev s (b :: t) + 1) (lev (a :: s) t + 1)) (lev s t + if a = b then 0 else 1)
termination_by s t => s.length + t.length

/-- The recurrence applied to the first `i` characters of `s1` and the first
`j` characters of `s2`, each read from its last character backwards: the
value `calculate_edit_distance` stores in `matrix[i][j]`. -/
def prefixDist (s1 s2 : List Char) (i j : Nat) : Nat :=
  lev (s1.take i).reverse (s2.take j).reverse

/-- The matrix has the dimensions of the array for `s1` and `s2`, and its
cells in the region `S` have been written with the values of `prefixDist`. -/
def Filled (s1 s2 : List Char) (m : Matrix) (S : Nat → Nat → Prop) : Prop :=
  m.rows = s1.length + 1 ∧ m.cols = s2.length + 1
    ∧ ∀ a b, a ≤ s1.length → b ≤ s2.length → S a b →
        m.cell a b = some ((prefixDist s1 s2 a b : Nat) : Int)

end CommandAuth

/-!
# Event log of the energy meter (`src/Q1/energy_meter.c`)

A shallow embedding of the doubly linked event log of `src/Q1/energy_meter.c`.
A pointer is a natural number, 0 for `NULL`.  The heap is the list of the
blocks obtained from `malloc` and not yet freed, each with the `Node` stored
in it; an access through a pointer that is not in the heap is the fault
`badPointer`.  The block `malloc` returns is chosen by an allocator, a
function of the heap.  `int` values wrap in two's complement.  The `float`
value of an event is only stored and is represented by an integer; the value
of `time(NULL)` is an argument of `add_event`.
-/

namespace EnergyMeter

/-- The capacity of the log, `#define MAX_EVENTS 20`. -/
def MAX_EVENTS : Int := 20

/-- Conversion of a mathematical integer to `int`. -/
def toInt32 (x : Int) : Int := (x + 2147483648) % 4294967296 - 2147483648

/-- The ways in which a run can go wrong. -/
inductive Fault
  | badPointer
  deriving DecidableEq, Repr

/-- The enumeration `EventType`. -/
inductive EventType
  | POWER_CONSUMPTION
  | VOLTAGE_LEVEL
  | FREQUENCY_STABILITY
  | FAULT_ALERT
  deriving DecidableEq, Repr

/-- The struct `MeterEvent`. -/
structure MeterEvent where
  id : Int
  type : EventType
  value : Int
  timestamp : Int
  deriving DecidableEq, Repr

/-- The struct `Node`. -/
structure Node where
  data : MeterEvent
  next : Nat
  prev : Nat
  deriving DecidableEq, Repr

/-- The struct `EventLog`. -/
structure EventLog where
  head : Nat
  tail : Nat
  cursor : Nat
  count : Int
  live_mode : Int
  next_id : Int
  deriving DecidableEq, Repr

/-- The heap: the live blocks with their contents. -/
abbrev Mem := List (Nat × Node)

/-- Reads the node `*p`. -/
def readNode (mem : Mem) (p : Nat) : Except Fault Node :=
  match mem.lookup p with
  | some n => Except.ok n
  | none => Except.error Fault.badPointer

/-- The heap without the block `p`. -/
def dropBlock (mem : Mem) (p : Nat) : Mem := mem.filter (fun x => x.1 ≠ p)

/-- Performs `*p = n` on a live block. -/
def writeNode (mem : Mem) (p : Nat) (n : Node) : Except Fault Mem :=
  match mem.lookup p with
  | some _ => Except.ok ((p, n) :: dropBlock mem p)
  | none => Except.error Fault.badPointer

/-- Performs `free(p)` on a live block. -/
def freeNode (mem : Mem) (p : Nat) : Except Fault Mem :=
  match mem.lookup p with
  | some _ => Except.ok (dropBlock mem p)
  | none => Except.error Fault.badPointer

/-- Translation of `init_log`, applied to the struct as it is found. -/
def init_log (_log : EventLog) : EventLog :=
  EventLog.mk 0 0 0 0 0 101

/-- Translation of `remove_oldest`. -/
def remove_oldest (log : EventLog) (mem : Mem) : Except Fault (EventLog × Mem) :=
  if log.head = 0 then pure (log, mem)
  else do
    let temp := log.head
    let cursor ← if log.cursor = temp then (do
        let t ← readNode mem temp
        pure t.next)
      else pure log.cursor
    let (head, tail, mem1) ← if log.head = log.tail then pure (0, 0, mem)
      else (do
        let h ← readNode mem log.head
        let n ← readNode mem h.next
        let mem1 ← writeNode mem h.next (Node.mk n.data n.next 0)
        pure (h.next, log.tail, mem1))
    let mem2 ← freeNode mem1 temp
    pure (EventLog.mk head tail cursor (toInt32 (log.count - 1)) log.live_mode log.next_id,
      mem2)

/-- Translation of `add_event`.  `malloc` is the allocator, `now` the value
returned by `time(NULL)`.  The output of live mode is not modelled. -/
def add_event (malloc : Mem → Nat) (s : EventLog × Mem) (type : EventType) (value : Int)
    (now : Int) : Except Fault (EventLog × Mem) := do
  let (log, mem) ← if s.1.count ≥ MAX_EVENTS then remove_oldest s.1 s.2 else pure s
  let p := malloc mem
  if p = 0 then pure (log, mem)
  else do
    let data : MeterEvent := MeterEvent.mk log.next_id type value now
    let log1 : EventLog := { log with next_id := toInt32 (log.next_id + 1) }
    if log1.count = 0 then
      pure (EventLog.mk p p p (toInt32 (log1.count + 1)) log1.live_mode log1.next_id,
        (p, Node.mk data 0 0) :: mem)
    else do
      let mem1 : Mem := (p, Node.mk data 0 log1.tail) :: mem
      let t ← readNode mem1 log1.tail
      let mem2 ← writeNode mem1 log1.tail (Node.mk t.data p t.prev)
      pure (EventLog.mk log1.head p log1.cursor (toInt32 (log1.count + 1)) log1.live_mode
        log1.next_id, mem2)

/-- One call of `add_event`: the type, the value and the time of the event. -/
structure Call where
  type : EventType
  value : Int
  now : Int
  deriving DecidableEq, Repr

/-- A sequence of calls of `add_event`, one after the other. -/
def addEvents (malloc : Mem → Nat) : EventLog × Mem → List Call → Except Fault (EventLog × Mem)
  | s, [] => pure s
  | s, c :: cs => do
    let s1 ← add_event malloc s c.type c.value c.now
    addEvents malloc s1 cs

/-- The events met from the node `p` on by following `next` down to `NULL`,
which must be reached after exactly `k` nodes. -/
def eventsFrom (mem : Mem) : Nat → Nat → Option (List MeterEvent)
  | 0, p => if p = 0 then some [] else none
  | k + 1, p =>
    if p = 0 then none
    else match mem.lookup p with
      | some n => (eventsFrom mem k n.next).map (fun l => n.data :: l)
      | none => none

/-- The events met from the node `p` on by following `prev` down to `NULL`,
which must be reached after exactly `k` nodes. -/
def eventsBack (mem : Mem) : Nat → Nat → Option (List MeterEvent)
  | 0, p => if p = 0 then some [] else none
  | k + 1, p =>
    if p = 0 then none
    else match mem.lookup p with
      | some n => (eventsBack mem k n.prev).map (fun l => n.data :: l)
      | none => none

/-- An allocator that never fails: whatever the heap, it returns a block that
is not `NULL` and is not live. -/
def GoodAlloc (malloc : Mem → Nat) : Prop :=
  ∀ mem : Mem, malloc mem ≠ 0 ∧ mem.lookup (malloc mem) = none

/-- The allocator that returns the block after the highest live block. -/
def bumpAlloc (mem : Mem) : Nat := (mem.map Prod.fst).foldr max 0 + 1

/-- The events a sequence of calls creates when no id overflows, the first
of them with id `first`: ids go up by one from call to call. -/
def eventsOf : Int → List Call → List MeterEvent
  | _, [] => []
  | first, c :: cs =>
    MeterEvent.mk first c.type c.value c.now :: eventsOf (first + 1) cs

/-- The events a sequence of calls creates, the id of the first being the
value `first` of `next_id`, with the wrap-around of `next_id++`. -/
def eventsWrap : Int → List Call → List MeterEvent
  | _, [] => []
  | first, c :: cs =>
    MeterEvent.mk first c.type c.value c.now :: eventsWrap (toInt32 (first + 1)) cs

/-- The nodes of a doubly linked list laid out in the heap: `cells` lists the
blocks from the one `p` points to, with their events; the first has `prev` as
its `prev` field, each is the `prev` of the next, and `last` is the last
block (or `prev` when there is no block). -/
def Seg (mem : Mem) : Nat → Nat → List (Nat × MeterEvent) → Nat → Prop
  | prev, p, [], last => p = 0 ∧ last = prev
  | prev, p, (q, e) :: rest, last =>
    p = q ∧ q ≠ 0 ∧ ∃ nxt, mem.lookup q = some (Node.mk e nxt prev)
      ∧ Seg mem q nxt rest last

/-- The state of the program represents the list `cells`: the live blocks
form a doubly linked list from `head` to `tail`, `count` is its length. -/
def Represents (s : EventLog × Mem) (cells : List (Nat × MeterEvent)) : Prop :=
  Seg s.2 0 s.1.head cells s.1.tail ∧ (cells.map Prod.fst).Nodup
    ∧ s.1.count = (cells.length : Int) ∧ cells.length ≤ 20

end EnergyMeter

/-!
# Network routing (`src/Q4/network_routing.c`)

A shallow embedding of the latency graph and of the shortest-path search of
`src/Q4/network_routing.c`.  The arrays of the graph are functions from
indices to values, every access checks the index against `MAX_NODES`; the
local arrays `dist`, `prev` and `visited` hold nothing until they are
written, and reading such a cell is the fault `uninitialised`.  A name is the
list of the characters before the terminating NUL; copying a name that does
not fit in `NAME_LEN` bytes is the fault `overflow`.  What the search prints
is returned as a value: the total latency and the route, as node indices
from the source to the target.
-/

namespace Routing

/-- The number of rows of `names` and of `adj_matrix`, `#define MAX_NODES 20`. -/
def MAX_NODES : Nat := 20

/-- The size of one name buffer, `#define NAME_LEN 10`. -/
def NAME_LEN : Nat := 10

/-- The latency that stands for "no link", `#define INF 999999`. -/
def INF : Int := 999999

/-- Conversion of a mathematical integer to `int`. -/
def toInt32 (x : Int) : Int := (x + 2147483648) % 4294967296 - 2147483648

/-- The ways in which a run can go wrong. -/
inductive Fault
  | outOfBounds
  | overflow
  | uninitialised
  deriving DecidableEq, Repr

/-- The struct `NetworkGraph`. -/
structure NetworkGraph where
  names : Nat → List Char
  adj_matrix : Nat → Nat → Int
  num_nodes : Int

/-- The loop `for (i = lo; i < lo + cnt; i++) body`, the body being run on the
state `s`. -/
def forLoop {σ : Type} (body : Nat → σ → Except Fault σ) : Nat → Nat → σ → Except Fault σ
  | _, 0, s => pure s
  | i, cnt + 1, s => do
    let s1 ← body i s
    forLoop body (i + 1) cnt s1

/-- Reads `g->adj_matrix[i][j]`. -/
def readAdj (g : NetworkGraph) (i j : Int) : Except Fault Int :=
  if 0 ≤ i ∧ i < MAX_NODES ∧ 0 ≤ j ∧ j < MAX_NODES then
    Except.ok (g.adj_matrix i.toNat j.toNat)
  else Except.error Fault.outOfBounds

/-- Performs `g->adj_matrix[i][j] = v`. -/
def writeAdj (g : NetworkGraph) (i j : Int) (v : Int) : Except Fault NetworkGraph :=
  if 0 ≤ i ∧ i < MAX_NODES ∧ 0 ≤ j ∧ j < MAX_NODES then
    Except.ok (NetworkGraph.mk g.names
      (fun a b => if a = i.toNat ∧ b = j.toNat then v else g.adj_matrix a b) g.num_nodes)
  else Except.error Fault.outOfBounds

/-- Reads the string in `g->names[i]`. -/
def readName (g : NetworkGraph) (i : Int) : Except Fault (List Char) :=
  if 0 ≤ i ∧ i < MAX_NODES then Except.ok (g.names i.toNat)
  else Except.error Fault.outOfBounds

/-- Translation of `init_network`, applied to the struct as it is found: the
names are left as they are. -/
def init_network (g : NetworkGraph) : NetworkGraph :=
  NetworkGraph.mk g.names (fun i j => if i = j then 0 else INF) 0

/-- The loop of `get_node_index`, with `cnt` iterations left from index `i`. -/
def get_node_index_loop (g : NetworkGraph) (name : List Char) : Nat → Nat → Except Fault Int
  | 0, _ => pure (-1)
  | cnt + 1, i => do
    let s ← readName g i
    if s = name then pure (i : Int) else get_node_index_loop g name cnt (i + 1)

/-- Translation of `get_node_index`: the index of the first of the
`num_nodes` names equal to `name` (`strcmp(...) == 0`), or `-1`. -/
def get_node_index (g : NetworkGraph) (name : List Char) : Except Fault Int :=
  get_node_index_loop g name g.num_nodes.toNat 0

/-- Translation of `add_node`; returns the graph and the returned index. -/
def add_node (g : NetworkGraph) (name : List Char) : Except Fault (NetworkGraph × Int) := do
  let idx ← get_node_index g name
  if idx ≠ -1 then pure (g, idx)
  else if g.num_nodes ≥ MAX_NODES then pure (g, -1)
  else if 0 ≤ g.num_nodes then
    if name.length < NAME_LEN then
      pure (NetworkGraph.mk (fun a => if a = g.num_nodes.toNat then name else g.names a)
        g.adj_matrix (g.num_nodes + 1), g.num_nodes)
    else Except.error Fault.overflow
  else Except.error Fault.outOfBounds

/-- Translation of `add_link`. -/
def add_link (g : NetworkGraph) (u_name v_name : List Char) (latency : Int) :
    Except Fault NetworkGraph := do
  let r1 ← add_node g u_name
  let r2 ← add_node r1.1 v_name
  if r1.2 ≠ -1 ∧ r2.2 ≠ -1 then do
    let g1 ← writeAdj r2.1 r1.2 r2.2 latency
    writeAdj g1 r2.2 r1.2 latency
  else pure r2.1

/-- The local arrays `dist`, `prev` and `visited` of `find_shortest_path`. -/
structure Locals where
  dist : Nat → Option Int
  prev : Nat → Option Int
  visited : Nat → Option Bool

/-- Reads `a[i]` in a local array of `MAX_NODES` cells. -/
def readCell {α : Type} (a : Nat → Option α) (i : Int) : Except Fault α :=
  if 0 ≤ i ∧ i < MAX_NODES then
    match a i.toNat with
    | some v => Except.ok v
    | none => Except.error Fault.uninitialised
  else Except.error Fault.outOfBounds

/-- Performs `a[i] = v` in a local array of `MAX_NODES` cells. -/
def writeCell {α : Type} (a : Nat → Option α) (i : Int) (v : α) :
    Except Fault (Nat → Option α) :=
  if 0 ≤ i ∧ i < MAX_NODES then Except.ok (fun k => if k = i.toNat then some v else a k)
  else Except.error Fault.outOfBounds

/-- The body of the initialisation loop: `dist[i] = INF; prev[i] = -1;
visited[i] = false`. -/
def initCell (i : Nat) (l : Locals) : Except Fault Locals := do
  let d ← writeCell l.dist i INF
  let p ← writeCell l.prev i (-1)
  let v ← writeCell l.visited i false
  pure (Locals.mk d p v)

/-- The body of the loop that picks the unvisited node of least distance;
the state is the pair of `min_dist` and `u`. -/
def pickCell (l : Locals) (i : Nat) (s : Int × Int) : Except Fault (Int × Int) := do
  let vis ← readCell l.visited i
  if vis then pure s
  else do
    let d ← readCell l.dist i
    if d < s.1 then pure (d, (i : Int)) else pure s

/-- The body of the loop that updates the distances of the neighbours of `u`. -/
def relaxCell (g : NetworkGraph) (u : Int) (v : Nat) (l : Locals) : Except Fault Locals := do
  let vis ← readCell l.visited v
  if vis then pure l
  else do
    let w ← readAdj g u v
    if w ≠ INF then do
      let du ← readCell l.dist u
      let alt_dist := toInt32 (du + w)
      let dv ← readCell l.dist v
      if alt_dist < dv then do
        let d ← writeCell l.dist v alt_dist
        let p ← writeCell l.prev v u
        pure (Locals.mk d p l.visited)
      else pure l
    else pure l

/-- The main loop of `find_shortest_path`, with `cnt` iterations left; the
`break` ends it at once. -/
def mainLoop (g : NetworkGraph) (target : Int) : Nat → Locals → Except Fault Locals
  | 0, l => pure l
  | cnt + 1, l => do
    let s ← forLoop (pickCell l) 0 g.num_nodes.toNat (INF, -1)
    if s.2 = -1 ∨ s.2 = target then pure l
    else do
      let vis ← writeCell l.visited s.2 true
      let l1 ← forLoop (relaxCell g s.2) 0 g.num_nodes.toNat (Locals.mk l.dist l.prev vis)
      mainLoop g target cnt l1

/-- The loop `while (curr != -1) { path[path_len++] = curr; curr = prev[curr]; }`,
with `cap` cells of `path` still free; returns the cells written, in order. -/
def tracePath (l : Locals) : Nat → Int → List Int → Except Fault (List Int)
  | cap, curr, path =>
    if curr = -1 then pure path
    else match cap with
      | 0 => Except.error Fault.outOfBounds
      | cap1 + 1 => do
        let p ← readCell l.prev curr
        tracePath l cap1 p (path ++ [curr])

/-- What `find_shortest_path` prints: the error message for an unknown name,
"No valid route", or the total latency and the route (the nodes from the
source to the target, printed by their names). -/
inductive Outcome
  | invalidName
  | noRoute
  | route (total : Int) (path : List Int)
  deriving DecidableEq, Repr

/-- Translation of `find_shortest_path`. -/
def find_shortest_path (g : NetworkGraph) (start_name target_name : List Char) :
    Except Fault Outcome := do
  let start ← get_node_index g start_name
  let target ← get_node_index g target_name
  if start = -1 ∨ target = -1 then pure Outcome.invalidName
  else do
    let l0 ← forLoop initCell 0 g.num_nodes.toNat
      (Locals.mk (fun _ => none) (fun _ => none) (fun _ => none))
    let d0 ← writeCell l0.dist start 0
    let l ← mainLoop g target (g.num_nodes - 1).toNat (Locals.mk d0 l0.prev l0.visited)
    let d ← readCell l.dist target
    if d = INF then pure Outcome.noRoute
    else do
      let path ← tracePath l MAX_NODES target []
      pure (Outcome.route d path.reverse)

/-- The networks built by `add_link` with non-negative latencies, from
`init_network`. -/
inductive Built : NetworkGraph → Prop
  | init (g : NetworkGraph) : Built (init_network g)
  | link (g g1 : NetworkGraph) (u_name v_name : List Char) (latency : Int) :
      Built g → 0 ≤ latency → add_link g u_name v_name latency = Except.ok g1 → Built g1

/-- A walk in the network: a sequence of existing nodes in which each node
has a link to the next (an entry of the matrix other than `INF`). -/
def IsWalk (g : NetworkGraph) (p : List Nat) : Prop :=
  (∀ x ∈ p, (x : Int) < g.num_nodes) ∧ p.Chain' (fun a b => g.adj_matrix a b ≠ INF)

/-- The total latency of a walk: the sum of the latencies of its links. -/
def walkCost (g : NetworkGraph) : List Nat → Int
  | [] => 0
  | [_] => 0
  | a :: b :: rest => g.adj_matrix a b + walkCost g (b :: rest)

/-- A walk from `s` to `t`. -/
def WalkFromTo (g : NetworkGraph) (s t : Nat) (p : List Nat) : Prop :=
  IsWalk g p ∧ p.head? = some s ∧ p.getLast? = some t

/-- The value of `dist[i]`, 0 standing for a cell not written. -/
def Locals.D (l : Locals) (i : Nat) : Int := (l.dist i).getD 0

/-- The value of `prev[i]`, 0 standing for a cell not written. -/
def Locals.P (l : Locals) (i : Nat) : Int := (l.prev i).getD 0

/-- The value of `visited[i]`, `false` standing for a cell not written. -/
def Locals.V (l : Locals) (i : Nat) : Bool := (l.visited i).getD false

/-- The first `n` cells of the three local arrays have been written. -/
def Locals.Init (l : Locals) (n : Nat) : Prop :=
  ∀ i, i < n → (l.dist i).isSome = true ∧ (l.prev i).isSome = true
    ∧ (l.visited i).isSome = true

/-- The route the arrays record for the node `v`: a walk from `start` to `v`
without repeated node, of total latency `dist[v]`, in which each node after
the first has its predecessor in `prev` and every node but `v` is visited. -/
def Route (g : NetworkGraph) (start : Nat) (l : Locals) (v : Nat) (r : List Nat) : Prop :=
  WalkFromTo g start v r ∧ r.Nodup ∧ walkCost g r = l.D v
    ∧ r.Chain' (fun a b => l.P b = (a : Int)) ∧ ∀ x ∈ r, x ≠ v → l.V x = true

/-- The state of the local arrays at the head of the main loop. -/
structure Inv (g : NetworkGraph) (n start : Nat) (l : Locals) : Prop where
  init : l.Init n
  dstart : l.D start = 0
  pstart : l.P start = -1
  range : ∀ v, v < n → 0 ≤ l.D v ∧ l.D v ≤ INF
  vfin : ∀ u, u < n → l.V u = true → l.D u < INF
  order : ∀ u v, u < n → v < n → l.V u = true → l.V v = false → l.D u ≤ l.D v
  relaxed : ∀ u v, u < n → v < n → l.V u = true → g.adj_matrix u v ≠ INF →
    l.D v ≤ l.D u + g.adj_matrix u v
  route : ∀ v, v < n → l.D v < INF → ∃ r : List Nat, Route g start l v r
  first : ∀ u, u < n → l.V u = true → l.V start = true

/-- What the proofs use of a network: `n` nodes, at most `MAX_NODES`, no
negative latency and distinct names. -/
structure GraphOK (g : NetworkGraph) (n : Nat) : Prop where
  nodes : g.num_nodes = (n : Int)
  bound : n ≤ 20
  nonneg : ∀ i j, 0 ≤ g.adj_matrix i j
  distinct : ∀ i j, i < n → j < n → g.names i = g.names j → i = j

/-- The number of unvisited nodes among the first `n`. -/
def Locals.unvisited (l : Locals) (n : Nat) : Nat :=
  ((List.range n).filter (fun i => l.V i = false)).length

/-- The network after `add_link(g, u_name, v_name, latency)`, and `g` itself
when the call faults. -/
def linked (g : NetworkGraph) (u_name v_name : List Char) (latency : Int) : NetworkGraph :=
  match add_link g u_name v_name latency with
  | Except.ok g1 => g1
  | Except.error _ => g

/-- A sample network: the links A-B of latency 8, B-C of latency 7 and A-C of
latency 20. -/
def sampleNet : NetworkGraph :=
  linked (linked (linked (init_network (NetworkGraph.mk (fun _ => []) (fun _ _ => 0) 0))
    ['A'] ['B'] 8) ['B'] ['C'] 7) ['A'] ['C'] 20

end Routing

namespace Huffman

/-! ## Prefix-free codes and their weighted length -/

/-- No word of the list is a prefix of another word of the list. -/
def PrefixFree (ws : List (List Bool)) : Prop :=
  ws.Pairwise (fun u v => ¬ u <+: v ∧ ¬ v <+: u)

/-- The weighted length of a code given as the list of its words, each with
the weight of its symbol: the sum of weight times length. -/
def codeCost (cs : List (Nat × List Bool)) : Nat :=
  (cs.map (fun p => p.1 * p.2.length)).sum

/-- The total length of the words of a code. -/
def codeTotal (cs : List (Nat × List Bool)) : Nat :=
  (cs.map (fun p => p.2.length)).sum

/-- The sum of the frequencies of the nodes created when the two least
weights of an increasing list are replaced by their sum until one weight is
left. -/
def huffCost : List Nat → Nat
  | [] => 0
  | [_] => 0
  | a :: b :: rest => a + b + huffCost (List.orderedInsert (fun x y => x ≤ y) (a + b) rest)
termination_by l => l.length
decreasing_by
  simp only [List.orderedInsert_length, List.length_cons]
  omega

/-- The weighted path length of a tree: the sum over its leaves of the
frequency times the depth. -/
def MinHeapNode.cost : MinHeapNode → Nat
  | MinHeapNode.null => 0
  | MinHeapNode.node _ _ l r =>
    if l.isNull && r.isNull then 0 else l.cost + r.cost + l.weight + r.weight

/-! # Theorems -/

/-! ## Basic facts: results, machine integers, array access -/

@[simp] theorem bind_ok {α β : Type} (a : α) (f : α → Except Fault β) :
    (Except.ok a >>= f) = f a := rfl

@[simp] theorem bind_error {α β : Type} (e : Fault) (f : α → Except Fault β) :
    ((Except.error e : Except Fault α) >>= f) = Except.error e := rfl

@[simp] theorem pure_eq_ok {α : Type} (a : α) : (pure a : Except Fault α) = Except.ok a := rfl

theorem toInt32_small {x : Int} (h0 : 0 ≤ x) (h1 : x < 2147483648) : toInt32 x = x := by
  unfold toInt32; omega

theorem toUInt32_small {x : Int} (h0 : 0 ≤ x) (h1 : x < 4294967296) : toUInt32 x = x.toNat := by
  unfold toUInt32
  rw [Int.emod_eq_of_lt h0 h1]

theorem read_nat (h : MinHeap) (i : Nat) (hi : i < h.array.length) :
    h.read (i : Int) = Except.ok (h.array.getD i MinHeapNode.null) := by
  unfold MinHeap.read
  rw [if_pos ⟨by omega, by omega⟩]
  simp

theorem read_oob (h : MinHeap) (i : Int) (hi : (h.array.length : Int) ≤ i) :
    h.read i = Except.error Fault.outOfBounds := by
  unfold MinHeap.read
  rw [if_neg (by omega)]

theorem write_nat (h : MinHeap) (i : Nat) (p : MinHeapNode) (hi : i < h.array.length) :
    h.write (i : Int) p = Except.ok { h with array := h.array.set i p } := by
  unfold MinHeap.write
  rw [if_pos ⟨by omega, by omega⟩]
  simp

theorem getFreq_of_ne_null {p : MinHeapNode} (hp : p ≠ MinHeapNode.null) :
    ∃ f, p.getFreq = Except.ok f := by
  cases p with
  | null => exact absurd rfl hp
  | node d f l r => exact ⟨f, rfl⟩

/-! ## Exchanging two entries of a list -/

theorem getD_eq_getElem {α : Type} (l : List α) (d : α) (i : Nat) (hi : i < l.length) :
    l.getD i d = l[i] := by
  simp [List.getD, List.getElem?_eq_getElem hi]

theorem set_getElem_same {α : Type} (l : List α) (i : Nat) (hi : i < l.length) :
    l.set i l[i] = l := by
  apply List.ext_getElem?
  intro k
  rw [List.getElem?_set]
  split
  · next h => subst h; simp [hi]
  · rfl

theorem set_set_perm {α : Type} [DecidableEq α] (l : List α) (d : α) (i j : Nat)
    (hi : i < l.length) (hj : j < l.length) :
    ((l.set i (l.getD j d)).set j (l.getD i d)).Perm l := by
  rw [List.perm_iff_count]
  intro a
  rw [getD_eq_getElem l d i hi, getD_eq_getElem l d j hj]
  by_cases hij : i = j
  · subst hij
    simp [set_getElem_same]
  · rw [List.count_set _ _ _ _ (by simpa using hj), List.count_set _ _ _ _ hi]
    rw [List.getElem_set_ne hij]
    have h1 := List.count_pos_iff.mpr (List.getElem_mem hi)
    have h2 := List.count_pos_iff.mpr (List.getElem_mem hj)
    simp only [beq_iff_eq]
    by_cases e1 : l[i] = a <;> by_cases e2 : l[j] = a
    · simp only [e1, e2, if_true] at h1 h2 ⊢; omega
    · simp only [e1, e2, if_true, if_false] at h1 h2 ⊢; omega
    · simp only [e1, e2, if_true, if_false] at h1 h2 ⊢; omega
    · simp only [e1, e2, if_true, if_false] at h1 h2 ⊢; omega

theorem take_set_perm {α : Type} [DecidableEq α] (l : List α) (d : α) (i j n : Nat)
    (hi : i < n) (hj : j < n) (hn : n ≤ l.length) :
    (((l.set i (l.getD j d)).set j (l.getD i d)).take n).Perm (l.take n) := by
  have h := set_set_perm (l.take n) d i j (by simp; omega) (by simp; omega)
  have e1 : (l.take n).getD j d = l.getD j d := by
    simp [List.getD, List.getElem?_take, hj]
  have e2 : (l.take n).getD i d = l.getD i d := by
    simp [List.getD, List.getElem?_take, hi]
  rw [e1, e2] at h
  have e3 : ((l.set i (l.getD j d)).set j (l.getD i d)).take n
      = ((l.take n).set i (l.getD j d)).set j (l.getD i d) := by
    apply List.ext_getElem?
    intro k
    simp only [List.getElem?_take, List.getElem?_set]
    by_cases hk : k < n
    · simp [hk, List.getElem?_take, hi, hj]
    · have h1 : ¬ j = k := by omega
      have h2 : ¬ i = k := by omega
      simp [hk, h1, h2]
  rw [e3]
  exact h

/-! ## Heap operations stay inside the block and permute the live nodes -/

theorem MinHeap.WF.getD_ne_null {h : MinHeap} (hw : h.WF) {i : Nat} (hi : i < h.size) :
    h.array.getD i MinHeapNode.null ≠ MinHeapNode.null := by
  apply hw.live
  have hlen : i < h.array.length := by have := hw.len; have := hw.size_le; omega
  rw [getD_eq_getElem _ _ _ hlen]
  rw [List.mem_take_iff_getElem]
  exact ⟨i, by simp; omega, rfl⟩

theorem MinHeap.WF.of_perm {h g : MinHeap} (hw : h.WF) (hs : g.size = h.size)
    (hc : g.capacity = h.capacity) (hl : g.array.length = h.array.length)
    (hp : (g.array.take h.size).Perm (h.array.take h.size)) : g.WF := by
  refine ⟨by rw [hl, hc]; exact hw.len, by rw [hs, hc]; exact hw.size_le,
    by rw [hc]; exact hw.cap_le, ?_⟩
  intro p hp1
  rw [hs] at hp1
  exact hw.live p (hp.mem_iff.mp hp1)

theorem toUInt32_toInt32 (c : Nat) (hc : c < 4294967296) : toUInt32 (toInt32 (c : Int)) = c := by
  unfold toUInt32 toInt32
  omega

theorem getFreq_eq_freqVal {p : MinHeapNode} (hp : p ≠ MinHeapNode.null) :
    p.getFreq = Except.ok p.freqVal := by
  cases p with
  | null => exact absurd rfl hp
  | node d f l r => rfl

/-- One test of `minHeapify` on a well-formed heap, in terms of indices and
frequencies. -/
theorem pickSmaller_spec (h : MinHeap) (hw : h.WF) (c i : Nat) (hc : c < 4294967296)
    (hi : c < h.size → i < h.size) :
    pickSmaller h (toInt32 (c : Int)) (i : Int)
      = Except.ok (((if c < h.size ∧ h.freqAt c < h.freqAt i then c else i : Nat)) : Int) := by
  unfold pickSmaller
  rw [toUInt32_toInt32 c hc]
  have hlen := hw.len
  have hsz := hw.size_le
  have hcap := hw.cap_le
  by_cases hcs : c < h.size
  · rw [if_pos hcs]
    have his := hi hcs
    rw [@toInt32_small (c : Int) (by omega) (by omega)]
    rw [read_nat h c (by omega), read_nat h i (by omega)]
    simp only [bind_ok]
    rw [getFreq_eq_freqVal (hw.getD_ne_null hcs), getFreq_eq_freqVal (hw.getD_ne_null his)]
    simp only [bind_ok, pure_eq_ok]
    unfold MinHeap.freqAt
    by_cases hlt : (h.array.getD c MinHeapNode.null).freqVal
        < (h.array.getD i MinHeapNode.null).freqVal
    · rw [if_pos hlt, if_pos ⟨hcs, hlt⟩]
    · rw [if_neg hlt, if_neg (fun hx => hlt hx.2)]
  · rw [if_neg hcs, if_neg (fun hx => hcs hx.1)]
    rfl

theorem swapMinHeapNode_spec (h : MinHeap) (hw : h.WF) (a b : Nat) (ha : a < h.size)
    (hb : b < h.size) :
    swapMinHeapNode h (a : Int) (b : Int) = Except.ok
      { h with
        array := (h.array.set a (h.array.getD b MinHeapNode.null)).set b (h.array.getD a MinHeapNode.null) } := by
  unfold swapMinHeapNode
  have hlen := hw.len
  have hsz := hw.size_le
  rw [read_nat h a (by omega), read_nat h b (by omega)]
  simp only [bind_ok]
  rw [write_nat h a _ (by omega)]
  simp only [bind_ok]
  rw [write_nat _ b _ (by simp; omega)]

theorem swapMinHeapNode_eq (h : MinHeap) (hw : h.WF) (a b : Nat) (ha : a < h.size)
    (hb : b < h.size) : swapMinHeapNode h (a : Int) (b : Int) = Except.ok (h.swap a b) :=
  swapMinHeapNode_spec h hw a b ha hb

theorem smallest_cases (h : MinHeap) (n : Nat) :
    h.smallest n = n ∨ (h.smallest n = 2 * n + 1 ∧ 2 * n + 1 < h.size)
      ∨ (h.smallest n = 2 * n + 2 ∧ 2 * n + 2 < h.size) := by
  unfold MinHeap.smallest
  by_cases h1 : 2 * n + 1 < h.size ∧ h.freqAt (2 * n + 1) < h.freqAt n
  · rw [if_pos h1]
    by_cases h2 : 2 * n + 2 < h.size ∧ h.freqAt (2 * n + 2) < h.freqAt (2 * n + 1)
    · rw [if_pos h2]; exact Or.inr (Or.inr ⟨rfl, h2.1⟩)
    · rw [if_neg h2]; exact Or.inr (Or.inl ⟨rfl, h1.1⟩)
  · rw [if_neg h1]
    by_cases h2 : 2 * n + 2 < h.size ∧ h.freqAt (2 * n + 2) < h.freqAt n
    · rw [if_pos h2]; exact Or.inr (Or.inr ⟨rfl, h2.1⟩)
    · rw [if_neg h2]; exact Or.inl rfl

/-- One call of `minHeapify` on a well-formed heap: nothing to do when
`smallest` is `idx`, otherwise the two slots are exchanged and the call
recurses on `smallest`. -/
theorem minHeapifyAux_eq (fuel : Nat) (h : MinHeap) (n : Nat) (hw : h.WF)
    (hn : n ≤ 2147483646) :
    minHeapifyAux (fuel + 1) h (n : Int)
      = if h.smallest n = n then Except.ok h
        else minHeapifyAux fuel (h.swap (h.smallest n) n) ((h.smallest n : Nat) : Int) := by
  have hsz := hw.size_le
  have hcap := hw.cap_le
  rw [minHeapifyAux]
  have e1 : (2 * (n : Int) + 1) = ((2 * n + 1 : Nat) : Int) := by push_cast; ring
  have e2 : (2 * (n : Int) + 2) = ((2 * n + 2 : Nat) : Int) := by push_cast; ring
  rw [e1, e2, pickSmaller_spec h hw (2 * n + 1) n (by omega) (fun _ => by omega), bind_ok]
  rw [pickSmaller_spec h hw (2 * n + 2) _ (by omega) (fun _ => by split <;> omega), bind_ok]
  have hdef : (if 2 * n + 2 < h.size ∧ h.freqAt (2 * n + 2)
        < h.freqAt (if 2 * n + 1 < h.size ∧ h.freqAt (2 * n + 1) < h.freqAt n
            then 2 * n + 1 else n)
      then 2 * n + 2
      else (if 2 * n + 1 < h.size ∧ h.freqAt (2 * n + 1) < h.freqAt n then 2 * n + 1
        else n)) = h.smallest n := rfl
  rw [hdef]
  by_cases hne : h.smallest n = n
  · rw [if_pos hne, hne]
    simp only [ne_eq, not_true_eq_false, if_false, pure_eq_ok]
  · have hne2 : ((h.smallest n : Nat) : Int) ≠ (n : Int) := by omega
    rw [if_neg hne, if_pos hne2]
    have hs : h.smallest n < h.size ∧ n < h.size := by
      rcases smallest_cases h n with h0 | h0 | h0 <;> omega
    rw [swapMinHeapNode_eq h hw _ n hs.1 hs.2, bind_ok]

theorem swap_WF (h : MinHeap) (hw : h.WF) (a b : Nat) (ha : a < h.size) (hb : b < h.size) :
    (h.swap a b).WF ∧ ((h.swap a b).array.take h.size).Perm (h.array.take h.size) := by
  have hsz := hw.size_le
  have hlen := hw.len
  have hperm := take_set_perm h.array MinHeapNode.null a b h.size ha hb (by omega)
  exact ⟨MinHeap.WF.of_perm hw rfl rfl (by simp [MinHeap.swap]) hperm, hperm⟩

theorem minHeapifyAux_spec : ∀ (fuel : Nat) (h : MinHeap) (n : Nat), h.WF →
    h.size < n + fuel → 0 < fuel → n ≤ 2147483646 →
    ∃ g, minHeapifyAux fuel h (n : Int) = Except.ok g ∧ g.WF ∧ g.size = h.size
      ∧ g.capacity = h.capacity ∧ (g.array.take h.size).Perm (h.array.take h.size) := by
  intro fuel
  induction fuel with
  | zero =>
    intro h n hw hf h0 hn
    omega
  | succ fuel ih =>
    intro h n hw hf _ hn
    have hsz := hw.size_le
    have hcap := hw.cap_le
    rw [minHeapifyAux_eq fuel h n hw hn]
    by_cases hne : h.smallest n = n
    · rw [if_pos hne]
      exact ⟨h, rfl, hw, rfl, rfl, List.Perm.refl _⟩
    · rw [if_neg hne]
      have hs : h.smallest n < h.size ∧ n < h.size ∧ n < h.smallest n := by
        rcases smallest_cases h n with h0 | h0 | h0 <;> omega
      obtain ⟨hw1, hperm⟩ := swap_WF h hw _ n hs.1 hs.2.1
      obtain ⟨g, hg, hgw, hgs, hgc, hgp⟩ := ih _ (h.smallest n) hw1
        (by simp only [MinHeap.swap]; omega) (by omega) (by omega)
      exact ⟨g, hg, hgw, hgs, hgc, hgp.trans hperm⟩

theorem minHeapify_spec (h : MinHeap) (n : Nat) (hw : h.WF) (hn : n ≤ 2147483646) :
    ∃ g, minHeapify h (n : Int) = Except.ok g ∧ g.WF ∧ g.size = h.size
      ∧ g.capacity = h.capacity ∧ (g.array.take h.size).Perm (h.array.take h.size) :=
  minHeapifyAux_spec (h.size + 1) h n hw (by omega) (by omega) hn

theorem head_cons_take_perm {α : Type} (l : List α) (d : α) (n : Nat) (h1 : 1 ≤ n)
    (hn : n ≤ l.length) :
    (l.getD 0 d :: ((l.set 0 (l.getD (n - 1) d)).take (n - 1))).Perm (l.take n) := by
  cases l with
  | nil => simp at hn; omega
  | cons a rest =>
    obtain ⟨m, rfl⟩ : ∃ m, n = m + 1 := ⟨n - 1, by omega⟩
    cases m with
    | zero => simp
    | succ k =>
      have hk : k < rest.length := by simp at hn; omega
      simp only [List.getD_cons_zero, List.set_cons_zero, Nat.add_sub_cancel,
        List.getD_cons_succ, List.take_succ_cons]
      rw [getD_eq_getElem rest d k hk]
      apply List.Perm.cons
      rw [List.take_succ, List.getElem?_eq_getElem hk]
      simp only [Option.toList_some]
      exact (List.perm_append_singleton _ _).symm

theorem extractMin_spec (h : MinHeap) (hw : h.WF) (h1 : 1 ≤ h.size) :
    ∃ t g, extractMin h = Except.ok (t, g) ∧ g.WF ∧ g.size = h.size - 1
      ∧ g.capacity = h.capacity ∧ t = h.array.getD 0 MinHeapNode.null
      ∧ (t :: g.array.take g.size).Perm (h.array.take h.size) := by
  have hlen := hw.len
  have hsz := hw.size_le
  have hcap := hw.cap_le
  unfold extractMin
  have e0 : h.read 0 = Except.ok (h.array.getD 0 MinHeapNode.null) := by
    have := read_nat h 0 (by omega)
    simpa using this
  have e1 : (h.size + U32 - 1) % U32 = h.size - 1 := by
    unfold U32; omega
  rw [e0, e1]
  simp only [bind_ok]
  rw [read_nat h (h.size - 1) (by omega)]
  simp only [bind_ok]
  have e2 : h.write 0 (h.array.getD (h.size - 1) MinHeapNode.null)
      = Except.ok (MinHeap.mk h.size h.capacity
          (h.array.set 0 (h.array.getD (h.size - 1) MinHeapNode.null))) := by
    have := write_nat h 0 (h.array.getD (h.size - 1) MinHeapNode.null) (by omega)
    simpa using this
  rw [e2]
  simp only [bind_ok]
  have hperm := head_cons_take_perm h.array MinHeapNode.null h.size h1 (by omega)
  have hw1 : MinHeap.WF (MinHeap.mk (h.size - 1) h.capacity
      (h.array.set 0 (h.array.getD (h.size - 1) MinHeapNode.null))) := by
    refine ⟨by simp [hlen], by simp only; omega, hcap, ?_⟩
    intro p hp
    apply hw.live p
    exact hperm.mem_iff.mp (List.mem_cons_of_mem _ hp)
  obtain ⟨g, hg, hgw, hgs, hgc, hgp⟩ := minHeapify_spec _ 0 hw1 (by omega)
  simp only [Nat.cast_zero] at hg
  rw [hg]
  simp only [bind_ok, pure_eq_ok]
  refine ⟨_, g, rfl, hgw, hgs, hgc, rfl, ?_⟩
  rw [hgs]
  exact (List.Perm.cons _ hgp).trans hperm

theorem tdiv_parent (i : Nat) (hi : 1 ≤ i) (h2 : i ≤ 2147483647) :
    Int.tdiv (toInt32 ((i : Int) - 1)) 2 = (((i - 1) / 2 : Nat) : Int) := by
  rw [@toInt32_small ((i : Int) - 1) (by omega) (by omega)]
  rw [Int.tdiv_eq_ediv (by omega) (by omega)]
  omega

theorem insertLoop_spec (p : MinHeapNode) (hp : p ≠ MinHeapNode.null) (n : Nat) :
    ∀ (fuel : Nat) (h : MinHeap) (i : Nat), i < fuel → i < n → n ≤ h.array.length →
      n ≤ 2147483647 →
      (∀ k, k < i → h.array.getD k MinHeapNode.null ≠ MinHeapNode.null) →
      ∃ (g : MinHeap) (j : Nat), insertLoop fuel h p (i : Int) = Except.ok (g, (j : Int)) ∧ j ≤ i
        ∧ g.size = h.size ∧ g.capacity = h.capacity ∧ g.array.length = h.array.length
        ∧ ((g.array.set j p).take n).Perm ((h.array.set i p).take n) := by
  obtain ⟨f, hf⟩ := getFreq_of_ne_null hp
  intro fuel
  induction fuel with
  | zero => intro h i hi; omega
  | succ fuel ih =>
    intro h i hi hin hn hn2 hlive
    unfold insertLoop
    by_cases hi0 : i = 0
    · subst hi0
      simp only [Nat.cast_zero, ne_eq, not_true_eq_false, if_false, pure_eq_ok]
      exact ⟨h, 0, rfl, Nat.le_refl _, rfl, rfl, rfl, List.Perm.refl _⟩
    · have hne : (i : Int) ≠ 0 := by omega
      rw [if_pos hne, hf]
      simp only [bind_ok]
      rw [tdiv_parent i (by omega) (by omega), read_nat h ((i - 1) / 2) (by omega)]
      simp only [bind_ok]
      obtain ⟨fp, hfp⟩ := getFreq_of_ne_null (hlive ((i - 1) / 2) (by omega))
      rw [hfp]
      simp only [bind_ok]
      by_cases hlt : f < fp
      · rw [if_pos hlt, write_nat h i _ (by omega)]
        simp only [bind_ok]
        obtain ⟨g, j, hg, hj, hgs, hgc, hgl, hgp⟩ := ih
          (MinHeap.mk h.size h.capacity
            (h.array.set i (h.array.getD ((i - 1) / 2) MinHeapNode.null)))
          ((i - 1) / 2) (by omega) (by omega) (by simp; omega) hn2
          (by
            intro k hk
            have hki : i ≠ k := by omega
            simp only [List.getD_eq_getElem?_getD, List.getElem?_set_ne hki]
            have := hlive k (by omega)
            simpa [List.getD_eq_getElem?_getD] using this)
        refine ⟨g, j, hg, by omega, hgs, hgc, by simpa using hgl, ?_⟩
        refine hgp.trans ?_
        have hsw := take_set_perm (h.array.set i p) MinHeapNode.null i ((i - 1) / 2) n
          hin (by omega) (by simp; omega)
        have hpar : i ≠ (i - 1) / 2 := by omega
        have ea : (h.array.set i p).getD ((i - 1) / 2) MinHeapNode.null
            = h.array.getD ((i - 1) / 2) MinHeapNode.null := by
          simp only [List.getD_eq_getElem?_getD, List.getElem?_set_ne hpar]
        have eb : (h.array.set i p).getD i MinHeapNode.null = p := by
          simp [List.getD_eq_getElem?_getD, List.getElem?_set_self (show i < h.array.length by omega)]
        rw [ea, eb, List.set_set] at hsw
        exact hsw
      · rw [if_neg hlt]
        exact ⟨h, i, rfl, Nat.le_refl _, rfl, rfl, rfl, List.Perm.refl _⟩

theorem take_succ_set {α : Type} (l : List α) (p : α) (n : Nat) (hn : n < l.length) :
    (l.set n p).take (n + 1) = l.take n ++ [p] := by
  rw [List.take_succ, List.getElem?_set_self hn]
  simp only [Option.toList_some]
  congr 1
  apply List.ext_getElem?
  intro k
  simp only [List.getElem?_take]
  by_cases hk : k < n
  · simp [hk, List.getElem?_set_ne (show n ≠ k by omega)]
  · simp [hk]

theorem insertMinHeap_spec (h : MinHeap) (hw : h.WF) (p : MinHeapNode)
    (hp : p ≠ MinHeapNode.null) (hs : h.size < h.capacity) :
    ∃ g, insertMinHeap h p = Except.ok g ∧ g.WF ∧ g.size = h.size + 1
      ∧ g.capacity = h.capacity
      ∧ (g.array.take g.size).Perm (p :: h.array.take h.size) := by
  have hlen := hw.len
  have hcap := hw.cap_le
  unfold insertMinHeap
  have e1 : (h.size + 1) % U32 = h.size + 1 := by unfold U32; omega
  have e2 : toInt32 (((h.size + 1 + U32 - 1) % U32 : Nat) : Int) = ((h.size : Nat) : Int) := by
    have : (h.size + 1 + U32 - 1) % U32 = h.size := by unfold U32; omega
    rw [this, toInt32_small (by omega) (by omega)]
  simp only [e1, e2]
  obtain ⟨g, j, hg, hj, hgs, hgc, hgl, hgp⟩ := insertLoop_spec p hp (h.size + 1) (h.size + 1 + 1)
    (MinHeap.mk (h.size + 1) h.capacity h.array) h.size (by omega) (by omega)
    (by simp only; omega) (by omega) (fun k hk => hw.getD_ne_null hk)
  rw [hg]
  simp only [bind_ok]
  simp only at hgs hgc hgl hgp
  rw [write_nat g j p (by omega)]
  have hperm : ((g.array.set j p).take (h.size + 1)).Perm (p :: h.array.take h.size) := by
    refine hgp.trans ?_
    rw [take_succ_set _ _ _ (by omega)]
    exact List.perm_append_singleton _ _
  refine ⟨_, rfl, ?_, hgs, hgc, by simp only [hgs]; exact hperm⟩
  refine ⟨by simp only [List.length_set]; omega, by simp only; omega, by simp only; omega, ?_⟩
  intro q hq
  simp only [hgs] at hq
  have hq2 := hperm.mem_iff.mp hq
  rcases List.mem_cons.mp hq2 with rfl | hq3
  · exact hp
  · exact hw.live q hq3

/-! ## Tree construction -/

theorem Proper.ne_null {t : MinHeapNode} (ht : t.Proper) : t ≠ MinHeapNode.null := by
  cases ht <;> simp

theorem seedLoop_spec (freq : List Nat) : ∀ (is : List Nat) (h : MinHeap), h.WF →
    h.size + (is.filter (fun i => 0 < freq.getD i 0)).length ≤ h.capacity →
    ∃ g, seedLoop freq is h = Except.ok g ∧ g.WF ∧ g.capacity = h.capacity
      ∧ g.size = h.size + (is.filter (fun i => 0 < freq.getD i 0)).length
      ∧ g.live = h.live ++ (is.filter (fun i => 0 < freq.getD i 0)).map
          (fun i => newNode i (freq.getD i 0)) := by
  intro is
  induction is with
  | nil =>
    intro h hw _
    exact ⟨h, rfl, hw, rfl, by simp, by simp⟩
  | cons i rest ih =>
    intro h hw hcap
    have hlen := hw.len
    have hc := hw.cap_le
    unfold seedLoop
    by_cases hpos : 0 < freq.getD i 0
    · have hf : (i :: rest).filter (fun i => 0 < freq.getD i 0)
          = i :: rest.filter (fun i => 0 < freq.getD i 0) :=
        List.filter_cons_of_pos (by simp only [hpos, decide_True])
      rw [hf] at hcap ⊢
      simp only [List.length_cons] at hcap
      rw [if_pos (by simpa using hpos), write_nat h h.size _ (by omega)]
      simp only [bind_ok]
      have e1 : (h.size + 1) % U32 = h.size + 1 := by unfold U32; omega
      rw [e1]
      have hlive : (MinHeap.mk (h.size + 1) h.capacity
          (h.array.set h.size (newNode i (freq.getD i 0)))).live
          = h.live ++ [newNode i (freq.getD i 0)] := by
        unfold MinHeap.live
        exact take_succ_set _ _ _ (by omega)
      have hw1 : MinHeap.WF (MinHeap.mk (h.size + 1) h.capacity
          (h.array.set h.size (newNode i (freq.getD i 0)))) := by
        refine ⟨by simp [hlen], by simp only; omega, hc, ?_⟩
        intro p hp
        have hp2 : p ∈ h.live ++ [newNode i (freq.getD i 0)] := by
          rw [← hlive]; exact hp
        rcases List.mem_append.mp hp2 with hp3 | hp3
        · exact hw.live p hp3
        · simp only [List.mem_singleton] at hp3
          rw [hp3]; simp [newNode]
      obtain ⟨g, hg, hgw, hgc, hgs, hgl⟩ := ih _ hw1 (by simp only; omega)
      refine ⟨g, hg, hgw, hgc, by rw [hgs]; simp only [List.length_cons]; omega, ?_⟩
      rw [hgl, hlive]
      simp
    · have hf : (i :: rest).filter (fun i => 0 < freq.getD i 0)
          = rest.filter (fun i => 0 < freq.getD i 0) :=
        List.filter_cons_of_neg (by simp only [hpos, decide_False]; exact Bool.false_ne_true)
      rw [hf] at hcap ⊢
      rw [if_neg (by simpa using hpos)]
      exact ih h hw hcap

theorem buildHeapLoop_spec : ∀ (i : Nat) (h : MinHeap), h.WF → i ≤ 2147483646 →
    ∃ g, buildHeapLoop i h = Except.ok g ∧ g.WF ∧ g.size = h.size
      ∧ g.capacity = h.capacity ∧ g.live.Perm h.live := by
  intro i
  induction i with
  | zero =>
    intro h hw _
    obtain ⟨g, hg, hgw, hgs, hgc, hgp⟩ := minHeapify_spec h 0 hw (by omega)
    refine ⟨g, by simpa [buildHeapLoop] using hg, hgw, hgs, hgc, ?_⟩
    unfold MinHeap.live
    rw [hgs]; exact hgp
  | succ i ih =>
    intro h hw hi
    obtain ⟨g, hg, hgw, hgs, hgc, hgp⟩ := minHeapify_spec h (i + 1) hw hi
    obtain ⟨k, hk, hkw, hks, hkc, hkp⟩ := ih g hgw (by omega)
    unfold buildHeapLoop
    rw [hg]
    simp only [bind_ok]
    refine ⟨k, hk, hkw, by omega, by omega, hkp.trans ?_⟩
    unfold MinHeap.live
    rw [hgs]; exact hgp

theorem leafPairs_node_of_ne_null (d f : Nat) (l r : MinHeapNode) (hl : l ≠ MinHeapNode.null) :
    (MinHeapNode.node d f l r).leafPairs = l.leafPairs ++ r.leafPairs := by
  cases l with
  | null => exact absurd rfl hl
  | node d1 f1 l1 r1 => simp [MinHeapNode.leafPairs, MinHeapNode.isNull]

theorem mergeLoop_spec : ∀ (fuel : Nat) (h : MinHeap), h.WF → 1 ≤ h.size → h.size ≤ fuel →
    (∀ t ∈ h.live, t.Proper) →
    ∃ g, mergeLoop fuel h = Except.ok g ∧ g.WF ∧ g.size = 1 ∧ (∀ t ∈ g.live, t.Proper)
      ∧ (g.live.flatMap MinHeapNode.leafPairs).Perm (h.live.flatMap MinHeapNode.leafPairs) := by
  intro fuel
  induction fuel with
  | zero => intro h _ h1 hf; omega
  | succ fuel ih =>
    intro h hw h1 hf hpr
    unfold mergeLoop
    by_cases hs : h.size = 1
    · rw [if_neg (by simpa using hs)]
      exact ⟨h, rfl, hw, hs, hpr, List.Perm.refl _⟩
    · rw [if_pos hs]
      obtain ⟨l, h1', e1, hw1, hs1, hc1, _, hp1⟩ := extractMin_spec h hw h1
      obtain ⟨r, h2, e2, hw2, hs2, hc2, _, hp2⟩ := extractMin_spec h1' hw1 (by omega)
      have hl_mem : l ∈ h.live := hp1.mem_iff.mp (List.mem_cons_self _ _)
      have hr_mem : r ∈ h.live :=
        hp1.mem_iff.mp (List.mem_cons_of_mem _ (hp2.mem_iff.mp (List.mem_cons_self _ _)))
      have hlp := hpr l hl_mem
      have hrp := hpr r hr_mem
      obtain ⟨fl, hfl⟩ := getFreq_of_ne_null (Proper.ne_null hlp)
      obtain ⟨fr, hfr⟩ := getFreq_of_ne_null (Proper.ne_null hrp)
      have hsz := hw.size_le
      obtain ⟨h3, e3, hw3, hs3, hc3, hp3⟩ := insertMinHeap_spec h2 hw2
        (MinHeapNode.node 36 ((fl + fr) % U32) l r) (by simp) (by omega)
      rw [e1]
      simp only [bind_ok]
      rw [e2]
      simp only [bind_ok]
      rw [hfl, hfr, bind_ok, bind_ok, e3, bind_ok]
      have hpr3 : ∀ t ∈ h3.live, t.Proper := by
        intro t ht
        rcases List.mem_cons.mp (hp3.mem_iff.mp ht) with rfl | ht2
        · exact MinHeapNode.Proper.inner _ _ _ _ hlp hrp
        · exact hpr t (hp1.mem_iff.mp (List.mem_cons_of_mem _
            (hp2.mem_iff.mp (List.mem_cons_of_mem _ ht2))))
      obtain ⟨g, hg, hgw, hgs, hgpr, hgp⟩ := ih h3 hw3 (by omega) (by omega) hpr3
      refine ⟨g, hg, hgw, hgs, hgpr, hgp.trans ?_⟩
      have q3 := hp3.flatMap_right MinHeapNode.leafPairs
      have q12 : (l :: r :: h2.array.take h2.size).Perm h.live :=
        (List.Perm.cons l hp2).trans hp1
      have q := q12.flatMap_right MinHeapNode.leafPairs
      refine q3.trans ?_
      refine List.Perm.trans ?_ q
      simp only [List.flatMap_cons]
      rw [leafPairs_node_of_ne_null _ _ _ _ (Proper.ne_null hlp), List.append_assoc]

theorem buildHuffmanTree_spec (freq : List Nat) (unique_chars : Int)
    (h2 : 2 ≤ (nonzeroSymbols freq).length)
    (hcap : (nonzeroSymbols freq).length ≤ toUInt32 unique_chars)
    (hmax : toUInt32 unique_chars ≤ 2147483647) :
    ∃ root, buildHuffmanTree freq unique_chars = Except.ok root ∧ root.Proper
      ∧ root.leafPairs.Perm ((nonzeroSymbols freq).map (fun i => (i, freq.getD i 0))) := by
  unfold buildHuffmanTree
  have hw0 : (createMinHeap (toUInt32 unique_chars)).WF :=
    ⟨by simp [createMinHeap], by simp [createMinHeap], hmax, by simp [createMinHeap]⟩
  obtain ⟨h1, e1, hw1, hc1, hs1, hl1⟩ := seedLoop_spec freq (List.range 256) _ hw0
    (by simpa [createMinHeap, nonzeroSymbols] using hcap)
  have hs1' : h1.size = (nonzeroSymbols freq).length := by
    rw [hs1]; simp [createMinHeap, nonzeroSymbols]
  have hl1' : h1.live = (nonzeroSymbols freq).map (fun i => newNode i (freq.getD i 0)) := by
    rw [hl1]; simp [createMinHeap, nonzeroSymbols, MinHeap.live]
  have hsz1 := hw1.size_le
  have hcp1 := hw1.cap_le
  have est : ((h1.size + U32 - 2) % U32) / 2 = (h1.size - 2) / 2 := by
    have : (h1.size + U32 - 2) % U32 = h1.size - 2 := by unfold U32; omega
    rw [this]
  obtain ⟨g2, e2, hw2, hs2, hc2, hp2⟩ := buildHeapLoop_spec ((h1.size - 2) / 2) h1 hw1 (by omega)
  have hpr2 : ∀ t ∈ g2.live, t.Proper := by
    intro t ht
    have := hp2.mem_iff.mp ht
    rw [hl1'] at this
    obtain ⟨i, _, rfl⟩ := List.mem_map.mp this
    exact MinHeapNode.Proper.leaf _ _
  obtain ⟨g3, e3, hw3, hs3, hpr3, hp3⟩ := mergeLoop_spec (g2.size + 1) g2 hw2 (by omega)
    (by omega) hpr2
  obtain ⟨root, g4, e4, _, _, _, _, hp4⟩ := extractMin_spec g3 hw3 (by omega)
  dsimp only
  rw [e1, bind_ok, est, e2, bind_ok, e3, bind_ok, e4, bind_ok]
  have hmem : root ∈ g3.live := hp4.mem_iff.mp (List.mem_cons_self _ _)
  refine ⟨root, rfl, hpr3 root hmem, ?_⟩
  have hlen : g3.live.length = 1 := by
    unfold MinHeap.live
    have := hw3.len
    have := hw3.size_le
    simp only [List.length_take]; omega
  have hroot : g3.live = [root] := by
    match hg : g3.live, hlen, hmem with
    | [x], _, hm => simp at hm; rw [hm]
  have q := hp3
  rw [hroot] at q
  simp only [List.flatMap_cons, List.flatMap_nil, List.append_nil] at q
  refine q.trans ?_
  refine (hp2.flatMap_right MinHeapNode.leafPairs).trans ?_
  rw [hl1']
  rw [List.flatMap_def, List.map_map]
  have : (MinHeapNode.leafPairs ∘ fun i => newNode i (freq.getD i 0))
      = fun i => [(i, freq.getD i 0)] := by
    funext i; simp [newNode, MinHeapNode.leafPairs, MinHeapNode.isNull]
  rw [this]
  induction (nonzeroSymbols freq) with
  | nil => simp
  | cons a t ih => simpa using ih

/-! ## Shape of proper trees -/

theorem Proper.cases_inner {d f : Nat} {l r : MinHeapNode}
    (h : (MinHeapNode.node d f l r).Proper) :
    (l = MinHeapNode.null ∧ r = MinHeapNode.null) ∨ (l.Proper ∧ r.Proper) := by
  cases h with
  | leaf => exact Or.inl ⟨rfl, rfl⟩
  | inner _ _ _ _ hl hr => exact Or.inr ⟨hl, hr⟩

theorem isNull_of_proper {t : MinHeapNode} (h : t.Proper) : t.isNull = false := by
  cases h <;> rfl

theorem leaves_inner (d f : Nat) (l r : MinHeapNode) (hl : l.Proper) :
    (MinHeapNode.node d f l r).leaves = l.leaves ++ r.leaves := by
  unfold MinHeapNode.leaves
  rw [leafPairs_node_of_ne_null _ _ _ _ (Proper.ne_null hl), List.map_append]

theorem codePaths_inner (d f : Nat) (l r : MinHeapNode) (hl : l.Proper) :
    (MinHeapNode.node d f l r).codePaths
      = l.codePaths.map (fun p => (p.1, false :: p.2))
        ++ r.codePaths.map (fun p => (p.1, true :: p.2)) := by
  simp [MinHeapNode.codePaths, isNull_of_proper hl]

theorem height_inner (d f : Nat) (l r : MinHeapNode) (hl : l.Proper) :
    (MinHeapNode.node d f l r).height = 1 + max l.height r.height := by
  simp [MinHeapNode.height, isNull_of_proper hl]

theorem codePaths_fst : ∀ t : MinHeapNode, t.codePaths.map Prod.fst = t.leaves := by
  intro t
  induction t with
  | null => rfl
  | node d f l r ihl ihr =>
    unfold MinHeapNode.leaves at ihl ihr ⊢
    unfold MinHeapNode.codePaths MinHeapNode.leafPairs
    by_cases hn : (l.isNull && r.isNull) = true
    · simp [hn]
    · simp only [hn, if_false, Bool.false_eq_true, List.map_append, List.map_map]
      rw [← ihl, ← ihr]
      simp [Function.comp_def]

theorem mem_leaves_of_mem_codePaths {t : MinHeapNode} {p : Nat × List Bool}
    (hp : p ∈ t.codePaths) : p.1 ∈ t.leaves := by
  rw [← codePaths_fst]
  exact List.mem_map_of_mem _ hp

theorem height_lt_leaves {t : MinHeapNode} (h : t.Proper) : t.height + 1 ≤ t.leaves.length := by
  induction h with
  | leaf d f => simp [MinHeapNode.height, MinHeapNode.leaves, MinHeapNode.leafPairs, MinHeapNode.isNull]
  | inner d f l r hl hr ihl ihr =>
    rw [height_inner _ _ _ _ hl, leaves_inner _ _ _ _ hl, List.length_append]
    omega

/-! ## The code table written by `storeCodes` -/

theorem storeCodes_leaf (d f : Nat) (arr : List Nat) (top : Nat) (codes : CodeTable) :
    storeCodes (MinHeapNode.node d f MinHeapNode.null MinHeapNode.null) arr top codes
      = if top < MAX_TREE_HT then
          Except.ok (arr, Function.update codes (d % 256) ((arr.take top).map charOfInt))
        else Except.error Fault.outOfBounds := by
  simp [storeCodes, MinHeapNode.isNull]

theorem storeCodes_inner (d f : Nat) (l r : MinHeapNode) (hl : l.Proper) (hr : r.Proper)
    (arr : List Nat) (top : Nat) (codes : CodeTable) :
    storeCodes (MinHeapNode.node d f l r) arr top codes
      = (writeArr arr top 0 >>= fun a => storeCodes l a (top + 1) codes >>= fun s1 =>
          writeArr s1.1 top 1 >>= fun b => storeCodes r b (top + 1) s1.2) := by
  rw [storeCodes]
  simp only [isNull_of_proper hl, isNull_of_proper hr, Bool.not_false, if_true,
    Bool.and_self, Bool.false_eq_true, if_false]
  cases writeArr arr top 0 with
  | error e => rfl
  | ok a =>
    simp only [bind_ok]
    cases storeCodes l a (top + 1) codes with
    | error e => rfl
    | ok s1 =>
      obtain ⟨arr1, codes1⟩ := s1
      simp only [bind_ok]
      cases writeArr arr1 top 1 with
      | error e => rfl
      | ok b =>
        simp only [bind_ok]
        cases storeCodes r b (top + 1) codes1 with
        | error e => rfl
        | ok s2 => rfl

theorem writeArr_ok (arr : List Nat) (top v : Nat) (h : top < arr.length) :
    writeArr arr top v = Except.ok (arr.set top v) := by
  unfold writeArr
  rw [if_pos h]

theorem take_of_take_succ {α : Type} (a b : List α) (x : α) (n : Nat) (hn : n ≤ b.length)
    (h : a.take (n + 1) = b.take n ++ [x]) : a.take n = b.take n := by
  have h1 : (a.take (n + 1)).take n = a.take n := by
    rw [List.take_take]; congr 1; omega
  rw [← h1, h, List.take_append_of_le_length (by simp; omega), List.take_take]
  congr 1; omega

theorem storeCodes_spec : ∀ t : MinHeapNode, t.Proper → ∀ (arr : List Nat) (top : Nat)
    (codes : CodeTable), arr.length = MAX_TREE_HT → top + t.height < MAX_TREE_HT →
    (t.leaves.map (fun d => d % 256)).Nodup →
    ∃ arr1 codes1, storeCodes t arr top codes = Except.ok (arr1, codes1)
      ∧ arr1.length = MAX_TREE_HT ∧ arr1.take top = arr.take top
      ∧ (∀ p ∈ t.codePaths,
          codes1 (p.1 % 256) = (arr.take top).map charOfInt ++ p.2.map charOfBit)
      ∧ (∀ c, c ∉ t.leaves.map (fun d => d % 256) → codes1 c = codes c) := by
  intro t ht
  induction ht with
  | leaf d f =>
    intro arr top codes hlen htop _
    rw [storeCodes_leaf]
    have h0 : top < MAX_TREE_HT := by omega
    rw [if_pos h0]
    refine ⟨arr, _, rfl, hlen, rfl, ?_, ?_⟩
    · intro p hp
      simp only [MinHeapNode.codePaths, MinHeapNode.isNull, Bool.and_self, if_true,
        List.mem_singleton] at hp
      subst hp
      simp
    · intro c hc
      simp only [MinHeapNode.leaves, MinHeapNode.leafPairs, MinHeapNode.isNull, Bool.and_self,
        if_true, List.map_cons, List.map_nil, List.mem_singleton] at hc
      exact Function.update_noteq hc _ _
  | inner d f l r hl hr ihl ihr =>
    intro arr top codes hlen htop hnd
    rw [height_inner _ _ _ _ hl] at htop
    rw [leaves_inner _ _ _ _ hl, List.map_append] at hnd
    obtain ⟨hndl, hndr, hdisj⟩ := List.nodup_append.mp hnd
    rw [storeCodes_inner _ _ _ _ hl hr]
    have htl : top < arr.length := by omega
    rw [writeArr_ok _ _ _ htl, bind_ok]
    obtain ⟨arr1, codes1, e1, hlen1, htk1, hc1, hk1⟩ := ihl (arr.set top 0) (top + 1) codes
      (by simpa using hlen) (by omega) hndl
    rw [e1, bind_ok]
    dsimp only
    rw [writeArr_ok _ _ _ (by omega), bind_ok]
    obtain ⟨arr2, codes2, e2, hlen2, htk2, hc2, hk2⟩ := ihr (arr1.set top 1) (top + 1) codes1
      (by simpa using hlen1) (by omega) hndr
    rw [e2]
    rw [take_succ_set _ _ _ htl] at htk1
    have ha1 : arr1.take top = arr.take top := take_of_take_succ _ _ _ _ (by omega) htk1
    rw [take_succ_set _ _ _ (by omega), ha1] at htk2
    have ha2 : arr2.take top = arr.take top := take_of_take_succ _ _ _ _ (by omega) htk2
    refine ⟨arr2, codes2, rfl, hlen2, ha2, ?_, ?_⟩
    · intro p hp
      rw [codePaths_inner _ _ _ _ hl] at hp
      rcases List.mem_append.mp hp with hp1 | hp1
      · obtain ⟨q, hq, rfl⟩ := List.mem_map.mp hp1
        have hql : q.1 % 256 ∈ l.leaves.map (fun d => d % 256) :=
          List.mem_map_of_mem _ (mem_leaves_of_mem_codePaths hq)
        have hqr : q.1 % 256 ∉ r.leaves.map (fun d => d % 256) := fun hx => hdisj hql hx
        rw [hk2 _ hqr, hc1 q hq, take_succ_set _ _ _ htl]
        simp [charOfInt, charOfBit]
      · obtain ⟨q, hq, rfl⟩ := List.mem_map.mp hp1
        rw [hc2 q hq, take_succ_set _ _ _ (by omega), ha1]
        simp [charOfInt, charOfBit]
    · intro c hc
      rw [leaves_inner _ _ _ _ hl, List.map_append, List.mem_append, not_or] at hc
      rw [hk2 c hc.2, hk1 c hc.1]

/-! ## The tree and the code table of a frequency table -/

theorem nonzeroSymbols_lt {freq : List Nat} {i : Nat} (h : i ∈ nonzeroSymbols freq) : i < 256 := by
  unfold nonzeroSymbols at h
  exact List.mem_range.mp (List.mem_filter.mp h).1

theorem nonzeroSymbols_pos {freq : List Nat} {i : Nat} (h : i ∈ nonzeroSymbols freq) :
    0 < freq.getD i 0 := by
  unfold nonzeroSymbols at h
  simpa using (List.mem_filter.mp h).2

theorem mem_nonzeroSymbols {freq : List Nat} {i : Nat} (h1 : i < 256) (h2 : 0 < freq.getD i 0) :
    i ∈ nonzeroSymbols freq := by
  unfold nonzeroSymbols
  exact List.mem_filter.mpr ⟨List.mem_range.mpr h1, by simpa using h2⟩

theorem nonzeroSymbols_nodup (freq : List Nat) : (nonzeroSymbols freq).Nodup :=
  (List.nodup_range 256).filter _

theorem nonzeroSymbols_length_le (freq : List Nat) : (nonzeroSymbols freq).length ≤ 256 := by
  unfold nonzeroSymbols
  have := List.length_filter_le (fun i => decide (0 < freq.getD i 0)) (List.range 256)
  simpa using this

/-- The facts about the tree and the table built from a frequency table with
at least two nonzero counts that the later proofs rely on. -/
theorem buildCodes_spec (freq : List Nat) (unique_chars : Int)
    (h2 : 2 ≤ (nonzeroSymbols freq).length)
    (hcap : (nonzeroSymbols freq).length ≤ toUInt32 unique_chars)
    (hmax : toUInt32 unique_chars ≤ 2147483647) :
    ∃ root codes, buildHuffmanTree freq unique_chars = Except.ok root
      ∧ buildCodes freq unique_chars = Except.ok codes
      ∧ root.Proper
      ∧ root.leafPairs.Perm ((nonzeroSymbols freq).map (fun i => (i, freq.getD i 0)))
      ∧ root.leaves.Perm (nonzeroSymbols freq)
      ∧ (∀ p ∈ root.codePaths, codes p.1 = p.2.map charOfBit)
      ∧ (∀ c, c ∉ nonzeroSymbols freq → codes c = []) := by
  obtain ⟨root, e1, hpr, hperm⟩ := buildHuffmanTree_spec freq unique_chars h2 hcap hmax
  have hleaves : root.leaves.Perm (nonzeroSymbols freq) := by
    unfold MinHeapNode.leaves
    have := hperm.map Prod.fst
    simpa [Function.comp_def] using this
  have hmod : root.leaves.map (fun d => d % 256) = root.leaves := by
    conv_rhs => rw [← List.map_id root.leaves]
    apply List.map_congr_left
    intro d hd
    have := nonzeroSymbols_lt (hleaves.mem_iff.mp hd)
    simp only [id]
    omega
  have hnd : (root.leaves.map (fun d => d % 256)).Nodup := by
    rw [hmod]
    exact hleaves.nodup_iff.mpr (nonzeroSymbols_nodup freq)
  have hh := height_lt_leaves hpr
  have hl := hleaves.length_eq
  have hle := nonzeroSymbols_length_le freq
  obtain ⟨arr1, codes, e2, _, _, hc, hk⟩ := storeCodes_spec root hpr
    (List.replicate MAX_TREE_HT 0) 0 (fun _ => []) (by simp) (by unfold MAX_TREE_HT; omega) hnd
  refine ⟨root, codes, e1, ?_, hpr, hperm, hleaves, ?_, ?_⟩
  · unfold buildCodes
    rw [e1, bind_ok, e2]
    rfl
  · intro p hp
    have hlt := nonzeroSymbols_lt (hleaves.mem_iff.mp (mem_leaves_of_mem_codePaths hp))
    have := hc p hp
    rw [Nat.mod_eq_of_lt hlt] at this
    simpa using this
  · intro c hc2
    apply hk
    rw [hmod]
    intro hx
    exact hc2 (hleaves.mem_iff.mp hx)

/-! ## Paths of a proper tree form a prefix code -/

theorem codePaths_prefix_eq {t : MinHeapNode} (ht : t.Proper) :
    ∀ p ∈ t.codePaths, ∀ q ∈ t.codePaths, p.2 <+: q.2 → p = q := by
  induction ht with
  | leaf d f =>
    intro p hp q hq _
    simp only [MinHeapNode.codePaths, MinHeapNode.isNull, Bool.and_self, if_true,
      List.mem_singleton] at hp hq
    rw [hp, hq]
  | inner d f l r hl hr ihl ihr =>
    intro p hp q hq hpre
    rw [codePaths_inner _ _ _ _ hl] at hp hq
    rcases List.mem_append.mp hp with hp1 | hp1 <;> rcases List.mem_append.mp hq with hq1 | hq1
    · obtain ⟨p0, hp0, rfl⟩ := List.mem_map.mp hp1
      obtain ⟨q0, hq0, rfl⟩ := List.mem_map.mp hq1
      have := ihl p0 hp0 q0 hq0 (by simpa using hpre)
      rw [this]
    · obtain ⟨p0, hp0, rfl⟩ := List.mem_map.mp hp1
      obtain ⟨q0, hq0, rfl⟩ := List.mem_map.mp hq1
      simp at hpre
    · obtain ⟨p0, hp0, rfl⟩ := List.mem_map.mp hp1
      obtain ⟨q0, hq0, rfl⟩ := List.mem_map.mp hq1
      simp at hpre
    · obtain ⟨p0, hp0, rfl⟩ := List.mem_map.mp hp1
      obtain ⟨q0, hq0, rfl⟩ := List.mem_map.mp hq1
      have := ihr p0 hp0 q0 hq0 (by simpa using hpre)
      rw [this]

theorem codePaths_ne_nil_of_two {t : MinHeapNode} (ht : t.Proper) (h2 : 2 ≤ t.leaves.length) :
    ∀ p ∈ t.codePaths, p.2 ≠ [] := by
  cases ht with
  | leaf d f =>
    simp [MinHeapNode.leaves, MinHeapNode.leafPairs, MinHeapNode.isNull] at h2
  | inner d f l r hl hr =>
    intro p hp
    rw [codePaths_inner _ _ _ _ hl] at hp
    rcases List.mem_append.mp hp with hp1 | hp1
    · obtain ⟨p0, _, rfl⟩ := List.mem_map.mp hp1
      simp
    · obtain ⟨p0, _, rfl⟩ := List.mem_map.mp hp1
      simp

theorem exists_codePath {t : MinHeapNode} {d : Nat} (h : d ∈ t.leaves) :
    ∃ bs, (d, bs) ∈ t.codePaths := by
  rw [← codePaths_fst] at h
  obtain ⟨p, hp, rfl⟩ := List.mem_map.mp h
  exact ⟨p.2, hp⟩

theorem charOfBit_injective : Function.Injective charOfBit := by
  intro a b h
  cases a <;> cases b <;> simp [charOfBit] at h ⊢

theorem bitOfChar_charOfBit (b : Bool) : bitOfChar (charOfBit b) = b := by
  cases b <;> simp [bitOfChar, charOfBit]

theorem map_bitOfChar_charOfBit (bs : List Bool) : (bs.map charOfBit).map bitOfChar = bs := by
  induction bs with
  | nil => rfl
  | cons b t ih => simp [bitOfChar_charOfBit, ih]

theorem isPrefix_of_map {α β : Type} (f : α → β) (hf : Function.Injective f)
    {l1 l2 : List α} (h : l1.map f <+: l2.map f) : l1 <+: l2 := by
  rw [List.prefix_iff_eq_take] at h ⊢
  rw [List.length_map, ← List.map_take] at h
  exact List.map_injective_iff.mpr hf h

/-! ## Bit packing -/

theorem bitsMSB_length (n x : Nat) : (bitsMSB n x).length = n := by
  induction n with
  | zero => rfl
  | succ n ih => simp [bitsMSB, ih]

theorem bitsMSB_double (n x b : Nat) (hb : b < 2) :
    bitsMSB (n + 1) (2 * x + b) = bitsMSB n x ++ [decide (b = 1)] := by
  induction n with
  | zero =>
    simp only [bitsMSB, pow_zero, Nat.div_one, List.nil_append]
    have : (2 * x + b) % 2 = b := by omega
    rw [this]
  | succ n ih =>
    rw [bitsMSB, ih, bitsMSB, List.cons_append]
    congr 2
    have h1 : (2 * x + b) / 2 ^ (n + 1) = x / 2 ^ n := by
      rw [pow_succ', ← Nat.div_div_eq_div_mul]
      have h2 : (2 * x + b) / 2 = x := by omega
      rw [h2]
    rw [h1]

theorem bitsMSB_shift (n k x : Nat) :
    bitsMSB (n + k) (x * 2 ^ k) = bitsMSB n x ++ List.replicate k false := by
  induction k with
  | zero => simp
  | succ k ih =>
    have h1 : x * 2 ^ (k + 1) = 2 * (x * 2 ^ k) + 0 := by rw [pow_succ]; ring
    rw [← Nat.add_assoc, h1, bitsMSB_double _ _ _ (by omega), ih, List.replicate_succ',
      List.append_assoc]
    simp

theorem bitsOfBytes_append (a b : List Byte) :
    bitsOfBytes (a ++ b) = bitsOfBytes a ++ bitsOfBytes b := by
  simp [bitsOfBytes]

theorem bitsOfBytes_length (a : List Byte) : (bitsOfBytes a).length = 8 * a.length := by
  induction a with
  | nil => rfl
  | cons x t ih =>
    have : bitsOfBytes (x :: t) = bitsMSB 8 x.val ++ bitsOfBytes t := by simp [bitsOfBytes]
    rw [this, List.length_append, bitsMSB_length, ih, List.length_cons]
    omega

theorem or_one_of_small : ∀ x : Nat, x < 128 → (x * 2) ||| 1 = x * 2 + 1 := by
  decide

theorem toByte_val (n : Nat) (h : n < 256) : (toByte n).val = n := by
  simp [toByte, Nat.mod_eq_of_lt h]

theorem writeCode_spec : ∀ (cs : List Char) (w : BitWriter), w.Ok →
    (writeCode w cs).Ok ∧ (writeCode w cs).stream = w.stream ++ cs.map bitOfChar
      ∧ ∃ t, (writeCode w cs).out = w.out ++ t := by
  intro cs
  induction cs with
  | nil =>
    intro w hw
    exact ⟨hw, by simp [writeCode], ⟨[], by simp [writeCode]⟩⟩
  | cons c cs ih =>
    intro w hw
    obtain ⟨hbc, hbuf⟩ := hw
    have hb128 : w.buffer < 128 := by
      have : 2 ^ w.bit_count ≤ 2 ^ 7 := Nat.pow_le_pow_right (by omega) (by omega)
      omega
    have hb1 : (w.buffer * 2) % 256 = w.buffer * 2 := Nat.mod_eq_of_lt (by omega)
    have hb2 : (if c = '1' then (w.buffer * 2) % 256 ||| 1 else (w.buffer * 2) % 256)
        = 2 * w.buffer + (if c = '1' then 1 else 0) := by
      rw [hb1]
      split
      · rw [or_one_of_small _ hb128]; omega
      · omega
    have hbit : decide ((if c = '1' then 1 else 0) = 1) = bitOfChar c := by
      unfold bitOfChar
      by_cases hc : c = '1' <;> simp [hc]
    have hlt2 : (if c = '1' then 1 else 0) < 2 := by split <;> omega
    rw [writeCode]
    simp only [hb2]
    by_cases h8 : w.bit_count + 1 = 8
    · rw [if_pos h8]
      have hok : BitWriter.Ok (BitWriter.mk 0 0
          (w.out ++ [toByte (2 * w.buffer + (if c = '1' then 1 else 0))])) := by
        constructor <;> simp
      obtain ⟨h1, h2, t, h3⟩ := ih _ hok
      refine ⟨h1, ?_, ⟨toByte (2 * w.buffer + (if c = '1' then 1 else 0)) :: t, by rw [h3]; simp⟩⟩
      rw [h2]
      unfold BitWriter.stream
      simp only [bitsOfBytes_append, bitsMSB, List.append_nil, List.map_cons]
      have h7 : w.bit_count = 7 := by omega
      have hval : (toByte (2 * w.buffer + (if c = '1' then 1 else 0))).val
          = 2 * w.buffer + (if c = '1' then 1 else 0) := toByte_val _ (by omega)
      have : bitsOfBytes [toByte (2 * w.buffer + (if c = '1' then 1 else 0))]
          = bitsMSB w.bit_count w.buffer ++ [bitOfChar c] := by
        simp only [bitsOfBytes, List.flatMap_cons, List.flatMap_nil, List.append_nil]
        rw [hval, h7, bitsMSB_double _ _ _ hlt2, hbit]
      rw [this]
      simp
    · rw [if_neg h8]
      have hok : BitWriter.Ok (BitWriter.mk (2 * w.buffer + (if c = '1' then 1 else 0))
          (w.bit_count + 1) w.out) := by
        constructor
        · simp only; omega
        · simp only [pow_succ]; omega
      obtain ⟨h1, h2, t, h3⟩ := ih _ hok
      refine ⟨h1, ?_, ⟨t, h3⟩⟩
      rw [h2]
      unfold BitWriter.stream
      simp only [List.map_cons]
      rw [bitsMSB_double _ _ _ hlt2, hbit]
      simp

theorem packLoop_spec (codes : CodeTable) : ∀ (input : List Byte) (w : BitWriter), w.Ok →
    (packLoop codes input w).Ok
      ∧ (packLoop codes input w).stream = w.stream ++ encodeBits codes input
      ∧ ∃ t, (packLoop codes input w).out = w.out ++ t := by
  intro input
  induction input with
  | nil =>
    intro w hw
    exact ⟨hw, by simp [packLoop, encodeBits], ⟨[], by simp [packLoop]⟩⟩
  | cons ch rest ih =>
    intro w hw
    obtain ⟨h1, h2, t1, h3⟩ := writeCode_spec (codes ch.val) w hw
    obtain ⟨k1, k2, t2, k3⟩ := ih _ h1
    have e : packLoop codes (ch :: rest) w = packLoop codes rest (writeCode w (codes ch.val)) := rfl
    rw [e]
    refine ⟨k1, ?_, ⟨t1 ++ t2, by rw [k3, h3, List.append_assoc]⟩⟩
    rw [k2, h2]
    simp [encodeBits]

/-- The bytes that follow the header in the output of the packing loop and
the flush, read as bits, are the code bits followed by the zero padding. -/
theorem pack_flush_spec (codes : CodeTable) (input : List Byte) (hdr : List Byte) :
    ∃ body, (flushBits (packLoop codes input { buffer := 0, bit_count := 0, out := hdr })).out
        = hdr ++ body
      ∧ bitsOfBytes body = encodeBits codes input
          ++ List.replicate ((8 - (encodeBits codes input).length % 8) % 8) false := by
  have hok : BitWriter.Ok (BitWriter.mk 0 0 hdr) := by constructor <;> simp
  obtain ⟨⟨hbc, hbuf⟩, hs, t, ht⟩ := packLoop_spec codes input _ hok
  generalize packLoop codes input (BitWriter.mk 0 0 hdr) = w at hbc hbuf hs ht
  unfold BitWriter.stream at hs
  simp only [bitsMSB, List.append_nil] at hs
  simp only at ht
  rw [ht, bitsOfBytes_append, List.append_assoc] at hs
  have hs2 := List.append_cancel_left hs
  have hlen := congrArg List.length hs2
  rw [List.length_append, bitsOfBytes_length, bitsMSB_length] at hlen
  unfold flushBits
  by_cases hpos : w.bit_count > 0
  · rw [if_pos hpos]
    have hlt : w.buffer * 2 ^ (8 - w.bit_count) < 256 := by
      have h1 : w.buffer * 2 ^ (8 - w.bit_count) < 2 ^ w.bit_count * 2 ^ (8 - w.bit_count) :=
        Nat.mul_lt_mul_of_pos_right hbuf (by positivity)
      rw [← pow_add] at h1
      have h2 : w.bit_count + (8 - w.bit_count) = 8 := by omega
      rw [h2] at h1
      omega
    refine ⟨t ++ [toByte (w.buffer * 2 ^ (8 - w.bit_count) % 256)], by simp [ht], ?_⟩
    rw [bitsOfBytes_append]
    have hb : bitsOfBytes [toByte (w.buffer * 2 ^ (8 - w.bit_count) % 256)]
        = bitsMSB w.bit_count w.buffer ++ List.replicate (8 - w.bit_count) false := by
      simp only [bitsOfBytes, List.flatMap_cons, List.flatMap_nil, List.append_nil]
      rw [Nat.mod_eq_of_lt hlt, toByte_val _ hlt]
      have := bitsMSB_shift w.bit_count (8 - w.bit_count) w.buffer
      rw [show w.bit_count + (8 - w.bit_count) = 8 by omega] at this
      exact this
    rw [hb, ← List.append_assoc, hs2]
    congr 2
    omega
  · rw [if_neg hpos]
    have h0 : w.bit_count = 0 := by omega
    rw [h0] at hs2 hlen
    simp only [bitsMSB, List.append_nil] at hs2
    refine ⟨t, ht, ?_⟩
    rw [hs2]
    have : (8 - (encodeBits codes input).length % 8) % 8 = 0 := by omega
    rw [this]
    simp

/-! ## The decoding loop, bit by bit -/

theorem decodeBits_done (root : MinHeapNode) (total : Nat) (bs : List Bool) (s : DecodeState)
    (h : ¬ s.chars_written < total) : decodeBits root total bs s = Except.ok s := by
  cases bs with
  | nil => rfl
  | cons b t => rw [decodeBits, if_neg h]

theorem bit_test (ch n : Nat) : ((ch >>> n) &&& 1 = 0) ↔ decide (ch / 2 ^ n % 2 = 1) = false := by
  rw [Nat.shiftRight_eq_div_pow, Nat.and_one_is_mod]
  simp only [decide_eq_false_iff_not]
  omega

theorem decodeByte_eq (root : MinHeapNode) (total ch : Nat) (htot : total < U32)
    (rest : List Bool) : ∀ (n : Nat) (s : DecodeState), s.chars_written < total →
    (decodeByte root total ch n s >>= decodeBits root total rest)
      = decodeBits root total (bitsMSB n ch ++ rest) s := by
  intro n
  induction n with
  | zero =>
    intro s _
    rfl
  | succ n ih =>
    intro s hs
    rw [decodeByte, bitsMSB, List.cons_append, decodeBits, if_pos hs]
    have key : ∀ x : Except Fault MinHeapNode,
        ((do
          let y ← x
          let l ← y.getLeft
          let r ← y.getRight
          if (l.isNull && r.isNull) = true then do
            let d ← y.getData
            if (s.chars_written + 1) % U32 = total then
              pure (DecodeState.mk root ((s.chars_written + 1) % U32) (s.out ++ [toByte d]))
            else
              decodeByte root total ch n
                (DecodeState.mk root ((s.chars_written + 1) % U32) (s.out ++ [toByte d]))
          else decodeByte root total ch n (DecodeState.mk y s.chars_written s.out)) >>=
          decodeBits root total rest)
        = (do
          let y ← x
          afterMove root y s (decodeBits root total (bitsMSB n ch ++ rest))) := by
      intro x
      cases x with
      | error e => rfl
      | ok cur =>
        simp only [bind_ok]
        cases cur with
        | null => rfl
        | node d f l r =>
          simp only [MinHeapNode.getLeft, MinHeapNode.getRight, MinHeapNode.getData, bind_ok,
            afterMove]
          by_cases hleaf : (l.isNull && r.isNull) = true
          · simp only [hleaf, if_true]
            by_cases hstop : (s.chars_written + 1) % U32 = total
            · rw [if_pos hstop]
              simp only [pure_eq_ok, bind_ok]
              rw [decodeBits_done _ _ _ _ (by simp only [hstop]; omega),
                decodeBits_done _ _ _ _ (by simp only [hstop]; omega)]
            · rw [if_neg hstop]
              apply ih
              simp only
              unfold U32 at htot hstop ⊢
              omega
          · simp only [hleaf, if_false, Bool.false_eq_true]
            exact ih _ hs
    by_cases hb : (ch >>> n) &&& 1 = 0
    · rw [if_pos hb, (bit_test ch n).mp hb]
      simp only [Bool.false_eq_true, if_false]
      exact key _
    · have hd : decide (ch / 2 ^ n % 2 = 1) = true := by
        cases hd : decide (ch / 2 ^ n % 2 = 1) with
        | true => rfl
        | false => exact absurd ((bit_test ch n).mpr hd) hb
      rw [if_neg hb, hd]
      simp only [if_true]
      exact key _

theorem decodeLoop_eq (root : MinHeapNode) (total : Nat) (htot : total < U32) :
    ∀ (bytes : List Byte) (s : DecodeState),
    decodeLoop root total bytes s = decodeBits root total (bitsOfBytes bytes) s := by
  intro bytes
  induction bytes with
  | nil => intro s; rfl
  | cons ch rest ih =>
    intro s
    have hb : bitsOfBytes (ch :: rest) = bitsMSB 8 ch.val ++ bitsOfBytes rest := by
      simp [bitsOfBytes]
    rw [decodeLoop, hb]
    by_cases hs : s.chars_written < total
    · rw [if_pos hs, ← decodeByte_eq root total ch.val htot _ 8 s hs]
      congr 1
      funext s1
      exact ih s1
    · rw [if_neg hs, decodeBits_done _ _ _ _ hs]
      rfl

/-! ## Walking the tree along a code -/

theorem afterMove_leaf (root : MinHeapNode) (d f : Nat) (s : DecodeState)
    (k : DecodeState → Except Fault DecodeState) :
    afterMove root (MinHeapNode.node d f MinHeapNode.null MinHeapNode.null) s k
      = k (DecodeState.mk root ((s.chars_written + 1) % U32) (s.out ++ [toByte d])) := by
  simp [afterMove, MinHeapNode.getLeft, MinHeapNode.getRight, MinHeapNode.getData,
    MinHeapNode.isNull]

theorem afterMove_inner (root : MinHeapNode) (d f : Nat) (l r : MinHeapNode) (hl : l.Proper)
    (s : DecodeState) (k : DecodeState → Except Fault DecodeState) :
    afterMove root (MinHeapNode.node d f l r) s k
      = k (DecodeState.mk (MinHeapNode.node d f l r) s.chars_written s.out) := by
  simp [afterMove, MinHeapNode.getLeft, MinHeapNode.getRight, isNull_of_proper hl]

theorem afterMove_code (root : MinHeapNode) (total : Nat) : ∀ c : MinHeapNode, c.Proper →
    ∀ q ∈ c.codePaths, ∀ (s : DecodeState) (rest : List Bool), s.chars_written < total →
    afterMove root c s (decodeBits root total (q.2 ++ rest))
      = decodeBits root total rest
          (DecodeState.mk root ((s.chars_written + 1) % U32) (s.out ++ [toByte q.1])) := by
  intro c hc
  induction hc with
  | leaf d f =>
    intro q hq s rest _
    simp only [MinHeapNode.codePaths, MinHeapNode.isNull, Bool.and_self, if_true,
      List.mem_singleton] at hq
    subst hq
    rw [afterMove_leaf]
    rfl
  | inner d f l r hl hr ihl ihr =>
    intro q hq s rest hs
    rw [afterMove_inner _ _ _ _ _ hl]
    rw [codePaths_inner _ _ _ _ hl] at hq
    rcases List.mem_append.mp hq with hq1 | hq1
    · obtain ⟨q0, hq0, rfl⟩ := List.mem_map.mp hq1
      simp only [List.cons_append]
      rw [decodeBits, if_pos hs]
      simp only [Bool.false_eq_true, if_false, MinHeapNode.getLeft, bind_ok]
      exact ihl q0 hq0 _ rest hs
    · obtain ⟨q0, hq0, rfl⟩ := List.mem_map.mp hq1
      simp only [List.cons_append]
      rw [decodeBits, if_pos hs]
      simp only [if_true, MinHeapNode.getRight, bind_ok]
      exact ihr q0 hq0 _ rest hs

theorem decodeBits_code (root : MinHeapNode) (total : Nat) (c : MinHeapNode) (hc : c.Proper)
    (q : Nat × List Bool) (hq : q ∈ c.codePaths) (hne : q.2 ≠ []) (w : Nat) (out : List Byte)
    (rest : List Bool) (hs : w < total) :
    decodeBits root total (q.2 ++ rest) (DecodeState.mk c w out)
      = decodeBits root total rest (DecodeState.mk root ((w + 1) % U32) (out ++ [toByte q.1])) := by
  cases hc with
  | leaf d f =>
    simp only [MinHeapNode.codePaths, MinHeapNode.isNull, Bool.and_self, if_true,
      List.mem_singleton] at hq
    subst hq
    exact absurd rfl hne
  | inner d f l r hl hr =>
    rw [codePaths_inner _ _ _ _ hl] at hq
    rcases List.mem_append.mp hq with hq1 | hq1
    · obtain ⟨q0, hq0, rfl⟩ := List.mem_map.mp hq1
      simp only [List.cons_append]
      rw [decodeBits, if_pos hs]
      simp only [Bool.false_eq_true, if_false, MinHeapNode.getLeft, bind_ok]
      exact afterMove_code root total l hl q0 hq0 _ rest hs
    · obtain ⟨q0, hq0, rfl⟩ := List.mem_map.mp hq1
      simp only [List.cons_append]
      rw [decodeBits, if_pos hs]
      simp only [if_true, MinHeapNode.getRight, bind_ok]
      exact afterMove_code root total r hr q0 hq0 _ rest hs

theorem toByte_fin (b : Byte) : toByte b.val = b := by
  apply Fin.ext
  simp [toByte, Nat.mod_eq_of_lt b.isLt]

/-- Decoding the concatenated codes of `S` writes `S` and leaves the walk at
the root, whatever bits follow. -/
theorem decodeBits_encode (root : MinHeapNode) (total : Nat) (htot : total < U32)
    (hpr : root.Proper) (h2 : 2 ≤ root.leaves.length) (codes : CodeTable)
    (hc : ∀ p ∈ root.codePaths, codes p.1 = p.2.map charOfBit) :
    ∀ (S : List Byte), (∀ b ∈ S, b.val ∈ root.leaves) →
    ∀ (k : Nat) (out : List Byte) (rest : List Bool), k + S.length ≤ total →
    decodeBits root total (encodeBits codes S ++ rest) (DecodeState.mk root k out)
      = decodeBits root total rest (DecodeState.mk root (k + S.length) (out ++ S)) := by
  intro S
  induction S with
  | nil =>
    intro _ k out rest _
    simp [encodeBits]
  | cons b S ih =>
    intro hmem k out rest hk
    simp only [List.length_cons] at hk
    obtain ⟨bs, hbs⟩ := exists_codePath (hmem b (List.mem_cons_self _ _))
    have hne := codePaths_ne_nil_of_two hpr h2 _ hbs
    have hcode : (codes b.val).map bitOfChar = bs := by
      rw [hc _ hbs]; exact map_bitOfChar_charOfBit bs
    have hen : encodeBits codes (b :: S) = bs ++ encodeBits codes S := by
      simp [encodeBits, hcode]
    rw [hen, List.append_assoc]
    have := decodeBits_code root total root hpr (b.val, bs) hbs hne k out
      (encodeBits codes S ++ rest) (by omega)
    simp only at this
    rw [this, toByte_fin]
    have hk1 : (k + 1) % U32 = k + 1 := Nat.mod_eq_of_lt (by omega)
    rw [hk1, ih (fun x hx => hmem x (List.mem_cons_of_mem _ hx)) (k + 1) (out ++ [b]) rest
      (by omega)]
    congr 2
    · simp only [List.length_cons]; omega
    · simp

/-- Decoding a proper prefix of a code writes nothing and stops inside the
tree without any fault. -/
theorem decodeBits_partial (root : MinHeapNode) (total : Nat) : ∀ c : MinHeapNode, c.Proper →
    ∀ q ∈ c.codePaths, ∀ r : List Bool, r <+: q.2 → r ≠ q.2 → ∀ (w : Nat) (out : List Byte),
    ∃ cur, decodeBits root total r (DecodeState.mk c w out)
      = Except.ok (DecodeState.mk cur w out) := by
  intro c hc
  induction hc with
  | leaf d f =>
    intro q hq r hr hne
    simp only [MinHeapNode.codePaths, MinHeapNode.isNull, Bool.and_self, if_true,
      List.mem_singleton] at hq
    subst hq
    simp only [List.prefix_nil] at hr
    exact absurd hr hne
  | inner d f l r0 hl hr0 ihl ihr =>
    intro q hq r hr hne w out
    cases r with
    | nil => exact ⟨_, rfl⟩
    | cons b r1 =>
      by_cases hs : w < total
      · rw [decodeBits, if_pos hs]
        rw [codePaths_inner _ _ _ _ hl] at hq
        have side : ∀ (c1 : MinHeapNode), c1.Proper →
            (∀ q ∈ c1.codePaths, ∀ r : List Bool, r <+: q.2 → r ≠ q.2 → ∀ (w : Nat)
              (out : List Byte), ∃ cur, decodeBits root total r (DecodeState.mk c1 w out)
                = Except.ok (DecodeState.mk cur w out)) →
            ∀ q1 ∈ c1.codePaths, r1 <+: q1.2 → r1 ≠ q1.2 →
            ∃ cur, afterMove root c1 (DecodeState.mk (MinHeapNode.node d f l r0) w out)
              (decodeBits root total r1) = Except.ok (DecodeState.mk cur w out) := by
          intro c1 hc1 ih1 q1 hq1 hp1 hn1
          cases hc1 with
          | leaf d1 f1 =>
            simp only [MinHeapNode.codePaths, MinHeapNode.isNull, Bool.and_self, if_true,
              List.mem_singleton] at hq1
            subst hq1
            simp only [List.prefix_nil] at hp1
            exact absurd hp1 hn1
          | inner d1 f1 l1 r1 hl1 hr1 =>
            rw [afterMove_inner _ _ _ _ _ hl1]
            exact ih1 q1 hq1 _ hp1 hn1 w out
        rcases List.mem_append.mp hq with hq1 | hq1
        · obtain ⟨q0, hq0, rfl⟩ := List.mem_map.mp hq1
          simp only at hr hne
          have hb : b = false ∧ r1 <+: q0.2 := by
            simpa [List.cons_prefix_cons] using hr
          obtain ⟨rfl, hp⟩ := hb
          have hn : r1 ≠ q0.2 := fun h => hne (by rw [h])
          simp only [Bool.false_eq_true, if_false, MinHeapNode.getLeft, bind_ok]
          exact side l hl ihl q0 hq0 hp hn
        · obtain ⟨q0, hq0, rfl⟩ := List.mem_map.mp hq1
          simp only at hr hne
          have hb : b = true ∧ r1 <+: q0.2 := by
            simpa [List.cons_prefix_cons] using hr
          obtain ⟨rfl, hp⟩ := hb
          have hn : r1 ≠ q0.2 := fun h => hne (by rw [h])
          simp only [if_true, MinHeapNode.getRight, bind_ok]
          exact side r0 hr0 ihr q0 hq0 hp hn
      · exact ⟨_, decodeBits_done _ _ _ _ (by simpa using hs)⟩

/-! ## The header -/

theorem readLE32_le32 (x : Nat) (hx : x < U32) (rest : List Byte) :
    readLE32 (le32 x ++ rest) = x := by
  unfold U32 at hx
  simp only [readLE32, le32, List.cons_append, List.nil_append, List.getD_cons_zero,
    List.getD_cons_succ, toByte]
  omega

theorem le32_length (x : Nat) : (le32 x).length = 4 := rfl

theorem flatMap_le32_length (l : List Nat) : (l.flatMap le32).length = 4 * l.length := by
  induction l with
  | nil => rfl
  | cons x t ih =>
    simp only [List.flatMap_cons, List.length_append, le32_length, ih, List.length_cons]
    omega

theorem drop_flatMap_le32 : ∀ (l : List Nat) (i : Nat) (rest : List Byte), i < l.length →
    (l.flatMap le32 ++ rest).drop (4 * i)
      = le32 (l.getD i 0) ++ ((l.drop (i + 1)).flatMap le32 ++ rest) := by
  intro l
  induction l with
  | nil => intro i rest hi; simp at hi
  | cons x t ih =>
    intro i rest hi
    cases i with
    | zero => simp
    | succ j =>
      have hj : j < t.length := by simpa using hi
      have e : 4 * (j + 1) = (le32 x).length + 4 * j := by rw [le32_length]; omega
      rw [List.flatMap_cons, List.append_assoc, e, List.drop_append, ih j rest hj]
      simp

theorem readFreq_writeHeader (freq : List Nat) (total : Nat) (rest : List Byte)
    (hlen : freq.length = 256) (hlt : ∀ x ∈ freq, x < U32) :
    readFreq (writeHeader freq total ++ rest) = freq := by
  unfold readFreq writeHeader
  apply List.ext_getElem
  · simp [hlen]
  · intro i h1 h2
    simp only [List.getElem_map, List.getElem_range]
    rw [List.append_assoc, drop_flatMap_le32 _ _ _ (by omega), readLE32_le32]
    · exact getD_eq_getElem _ _ _ h2
    · apply hlt
      rw [getD_eq_getElem _ _ _ h2]
      exact List.getElem_mem h2

theorem drop_header (freq : List Nat) (total : Nat) (rest : List Byte)
    (hlen : freq.length = 256) :
    (writeHeader freq total ++ rest).drop 1024 = le32 total ++ rest := by
  unfold writeHeader
  rw [List.append_assoc]
  exact List.drop_left' (by rw [flatMap_le32_length, hlen])

theorem drop_header_body (freq : List Nat) (total : Nat) (rest : List Byte)
    (hlen : freq.length = 256) :
    (writeHeader freq total ++ rest).drop 1028 = rest := by
  exact List.drop_left' (by
    unfold writeHeader
    rw [List.length_append, flatMap_le32_length, hlen, le32_length])

theorem writeHeader_length (freq : List Nat) (total : Nat) (hlen : freq.length = 256) :
    (writeHeader freq total).length = 1028 := by
  unfold writeHeader
  rw [List.length_append, flatMap_le32_length, hlen, le32_length]

/-! ## Counting the nonzero entries -/

theorem countUnique_foldl (freq : List Nat) : ∀ (is : List Nat) (u : Nat),
    u + is.length ≤ 2147483647 →
    is.foldl (fun (u : Int) i => if freq.getD i 0 > 0 then toInt32 (u + 1) else u) (u : Int)
      = ((u + (is.filter (fun i => 0 < freq.getD i 0)).length : Nat) : Int) := by
  intro is
  induction is with
  | nil => intro u _; simp
  | cons i rest ih =>
    intro u hu
    simp only [List.length_cons] at hu
    rw [List.foldl_cons]
    by_cases hpos : 0 < freq.getD i 0
    · rw [if_pos hpos, List.filter_cons_of_pos (by simp only [hpos, decide_True])]
      have e : toInt32 ((u : Int) + 1) = ((u + 1 : Nat) : Int) := by
        rw [@toInt32_small ((u : Int) + 1) (by omega) (by omega)]; push_cast; rfl
      rw [e, ih (u + 1) (by omega), List.length_cons]
      omega
    · rw [if_neg hpos, List.filter_cons_of_neg
        (by simp only [hpos, decide_False]; exact Bool.false_ne_true)]
      exact ih u (by omega)

theorem countUnique_eq (freq : List Nat) :
    countUnique freq = ((nonzeroSymbols freq).length : Int) := by
  unfold countUnique nonzeroSymbols
  have := countUnique_foldl freq (List.range 256) 0 (by rw [List.length_range]; omega)
  rw [Nat.cast_zero, Nat.zero_add] at this
  exact this

/-! ## The counting pass -/

theorem getD_set (l : List Nat) (i j v : Nat) (hi : i < l.length) :
    (l.set i v).getD j 0 = if j = i then v else l.getD j 0 := by
  simp only [List.getD_eq_getElem?_getD, List.getElem?_set]
  by_cases h : i = j
  · subst h; simp [hi]
  · have h2 : ¬ j = i := fun e => h e.symm
    simp [h, h2]

theorem nonzeroSymbols_set_pos (freq : List Nat) (ch v : Nat) (hlen : ch < freq.length)
    (hv : 0 < v) (hold : 0 < freq.getD ch 0) :
    nonzeroSymbols (freq.set ch v) = nonzeroSymbols freq := by
  unfold nonzeroSymbols
  apply List.filter_congr
  intro i _
  rw [getD_set _ _ _ _ hlen]
  by_cases h : i = ch
  · rw [if_pos h, h]
    simp only [hv, hold]
  · rw [if_neg h]

theorem nonzeroSymbols_set_zero (freq : List Nat) (ch v : Nat) (hch : ch < 256)
    (hlen : ch < freq.length) (hv : 0 < v) (hold : freq.getD ch 0 = 0) :
    (nonzeroSymbols (freq.set ch v)).length = (nonzeroSymbols freq).length + 1 := by
  have hnot : ch ∉ nonzeroSymbols freq := by
    intro h
    have := nonzeroSymbols_pos h
    omega
  have hperm : (nonzeroSymbols (freq.set ch v)).Perm (ch :: nonzeroSymbols freq) := by
    rw [List.perm_ext_iff_of_nodup (nonzeroSymbols_nodup _)
      (List.nodup_cons.mpr ⟨hnot, nonzeroSymbols_nodup _⟩)]
    intro a
    constructor
    · intro ha
      have h1 := nonzeroSymbols_lt ha
      have h2 := nonzeroSymbols_pos ha
      rw [getD_set _ _ _ _ hlen] at h2
      by_cases e : a = ch
      · rw [e]; exact List.mem_cons_self _ _
      · rw [if_neg e] at h2
        exact List.mem_cons_of_mem _ (mem_nonzeroSymbols h1 h2)
    · intro ha
      rcases List.mem_cons.mp ha with e | ha2
      · rw [e]
        apply mem_nonzeroSymbols hch
        rw [getD_set _ _ _ _ hlen, if_pos rfl]
        exact hv
      · apply mem_nonzeroSymbols (nonzeroSymbols_lt ha2)
        rw [getD_set _ _ _ _ hlen]
        have e : a ≠ ch := fun e => hnot (e ▸ ha2)
        rw [if_neg e]
        exact nonzeroSymbols_pos ha2
  rw [hperm.length_eq, List.length_cons]

theorem count_le_length_val (S : List Byte) (i : Nat) : (S.map Fin.val).count i ≤ S.length := by
  have := List.count_le_length i (S.map Fin.val)
  simpa using this

theorem countStep_matches (c : Counts) (S : List Byte) (ch : Byte) (h : c.Matches S)
    (hlen : S.length + 1 < U32) : (countStep c ch).Matches (S ++ [ch]) := by
  obtain ⟨h1, h2, h3, h4⟩ := h
  have hch : ch.val < c.freq.length := by rw [h1]; exact ch.isLt
  have hcnt := count_le_length_val S ch.val
  have hmod : (c.freq.getD ch.val 0 + 1) % U32 = c.freq.getD ch.val 0 + 1 := by
    apply Nat.mod_eq_of_lt
    rw [h2]; omega
  unfold countStep
  refine ⟨by simp [h1], ?_, ?_, ?_⟩
  · intro i
    simp only
    rw [getD_set _ _ _ _ hch, hmod, List.map_append, List.count_append]
    by_cases e : i = ch.val
    · rw [if_pos e, e, h2]; simp
    · rw [if_neg e, h2]
      have : List.count i (List.map Fin.val [ch]) = 0 := by
        simp [List.count_cons, Ne.symm e]
      omega
  · simp only
    rw [h3, List.length_append, List.length_singleton]
    exact Nat.mod_eq_of_lt hlen
  · simp only
    rw [hmod]
    have hle := nonzeroSymbols_length_le c.freq
    by_cases hz : c.freq.getD ch.val 0 = 0
    · rw [if_pos hz, nonzeroSymbols_set_zero _ _ _ ch.isLt hch (by omega) hz, h4]
      rw [@toInt32_small (((nonzeroSymbols c.freq).length : Int) + 1) (by omega) (by omega)]
      push_cast; rfl
    · rw [if_neg hz, nonzeroSymbols_set_pos _ _ _ hch (by omega) (by omega), h4]

theorem countPass_foldl : ∀ (T S : List Byte) (c : Counts), c.Matches S →
    S.length + T.length < U32 → (T.foldl countStep c).Matches (S ++ T) := by
  intro T
  induction T with
  | nil => intro S c h _; simpa using h
  | cons ch T ih =>
    intro S c h hlen
    simp only [List.length_cons] at hlen
    rw [List.foldl_cons]
    have := ih (S ++ [ch]) (countStep c ch) (countStep_matches c S ch h (by omega))
      (by simp only [List.length_append, List.length_singleton]; omega)
    simpa using this

theorem countPass_matches (S : List Byte) (hlen : S.length < U32) : (countPass S).Matches S := by
  have h0 : Counts.Matches (Counts.mk (List.replicate 256 0) 0 0) [] := by
    have hz : ∀ i, (List.replicate 256 0).getD i 0 = 0 := by
      intro i
      simp only [List.getD_eq_getElem?_getD, List.getElem?_replicate]
      split <;> rfl
    refine ⟨List.length_replicate _ _, ?_, rfl, ?_⟩
    · intro i
      rw [hz i]; rfl
    · have : nonzeroSymbols (List.replicate 256 0) = [] := by
        unfold nonzeroSymbols
        rw [List.filter_eq_nil_iff]
        intro a _
        rw [hz a]
        simp only [Nat.lt_irrefl, decide_False, Bool.false_eq_true, not_false_eq_true]
      rw [this]; rfl
  have := countPass_foldl S [] _ h0 (by rw [List.length_nil, Nat.zero_add]; exact hlen)
  rw [List.nil_append] at this
  exact this

theorem matches_lt (c : Counts) (S : List Byte) (h : c.Matches S) (hlen : S.length < U32) :
    ∀ x ∈ c.freq, x < U32 := by
  intro x hx
  obtain ⟨i, hi, rfl⟩ := List.getElem_of_mem hx
  have := h.2.1 i
  rw [getD_eq_getElem _ _ _ hi] at this
  rw [this]
  have := count_le_length_val S i
  omega

theorem matches_nonzero (c : Counts) (S : List Byte) (h : c.Matches S) (i : Nat) :
    i ∈ nonzeroSymbols c.freq ↔ i ∈ S.map Fin.val := by
  constructor
  · intro hi
    have := nonzeroSymbols_pos hi
    rw [h.2.1 i] at this
    exact List.count_pos_iff.mp this
  · intro hi
    have hlt : i < 256 := by
      obtain ⟨b, _, rfl⟩ := List.mem_map.mp hi
      exact b.isLt
    apply mem_nonzeroSymbols hlt
    rw [h.2.1 i]
    exact List.count_pos_iff.mpr hi

/-! ## Compression and decompression as a whole -/

theorem two_le_length_of_mem {α : Type} {l : List α} {a b : α} (ha : a ∈ l) (hb : b ∈ l)
    (hab : a ≠ b) : 2 ≤ l.length := by
  match l, ha, hb with
  | [x], ha, hb =>
    simp only [List.mem_singleton] at ha hb
    exact absurd (ha.trans hb.symm) hab
  | _ :: _ :: _, _, _ => simp

theorem toUInt32_natCast (n : Nat) (h : n < 4294967296) : toUInt32 (n : Int) = n := by
  rw [toUInt32_small (by omega) (by omega)]
  simp

theorem two_le_nonzero (S : List Byte) (c : Counts) (hm : c.Matches S) (a b : Byte)
    (ha : a ∈ S) (hb : b ∈ S) (hab : a ≠ b) : 2 ≤ (nonzeroSymbols c.freq).length := by
  have h1 : a.val ∈ nonzeroSymbols c.freq :=
    (matches_nonzero c S hm a.val).mpr (List.mem_map_of_mem _ ha)
  have h2 : b.val ∈ nonzeroSymbols c.freq :=
    (matches_nonzero c S hm b.val).mpr (List.mem_map_of_mem _ hb)
  exact two_le_length_of_mem h1 h2 (fun e => hab (Fin.ext e))

/-- What `compressFile` produces on an input of fewer than `2^32` bytes with
two distinct byte values: the header of the counted table followed by a body
whose bits are the codes of the input bytes and the zero padding. -/
theorem compressFile_spec (S : List Byte) (hlen : S.length < U32) (a b : Byte)
    (ha : a ∈ S) (hb : b ∈ S) (hab : a ≠ b) :
    ∃ root codes body, (countPass S).Matches S
      ∧ 2 ≤ (nonzeroSymbols (countPass S).freq).length
      ∧ buildHuffmanTree (countPass S).freq (countPass S).unique_chars = Except.ok root
      ∧ buildCodes (countPass S).freq (countPass S).unique_chars = Except.ok codes
      ∧ root.Proper
      ∧ root.leaves.Perm (nonzeroSymbols (countPass S).freq)
      ∧ (∀ p ∈ root.codePaths, codes p.1 = p.2.map charOfBit)
      ∧ compressFile S
          = Except.ok (writeHeader (countPass S).freq (countPass S).total_chars ++ body)
      ∧ bitsOfBytes body = encodeBits codes S
          ++ List.replicate ((8 - (encodeBits codes S).length % 8) % 8) false := by
  have hm := countPass_matches S hlen
  have h2 := two_le_nonzero S _ hm a b ha hb hab
  have hle := nonzeroSymbols_length_le (countPass S).freq
  have hu : toUInt32 (countPass S).unique_chars = (nonzeroSymbols (countPass S).freq).length := by
    rw [hm.2.2.2, toUInt32_natCast _ (by omega)]
  obtain ⟨root, codes, e1, e2, hpr, _, hleaves, hc, _⟩ := buildCodes_spec (countPass S).freq
    (countPass S).unique_chars h2 (by rw [hu]) (by rw [hu]; omega)
  obtain ⟨body, hb1, hb2⟩ := pack_flush_spec codes S
    (writeHeader (countPass S).freq (countPass S).total_chars)
  refine ⟨root, codes, body, hm, h2, e1, e2, hpr, hleaves, hc, ?_, hb2⟩
  unfold compressFile
  dsimp only
  rw [e2, bind_ok, pure_eq_ok, hb1]

/-- What `decompressFile` does on a file made of a well-formed header with at
least two nonzero counts and an arbitrary body: it rebuilds the tree and runs
the bit-level decoding loop over the bits of the body. -/
theorem decompressFile_spec (freq : List Nat) (total : Nat) (body : List Byte)
    (hlen : freq.length = 256) (hlt : ∀ x ∈ freq, x < U32) (htot : total < U32)
    (h2 : 2 ≤ (nonzeroSymbols freq).length) :
    ∃ root, buildHuffmanTree freq ((nonzeroSymbols freq).length : Int) = Except.ok root
      ∧ decompressFile (writeHeader freq total ++ body)
        = (decodeBits root total (bitsOfBytes body) (DecodeState.mk root 0 []) >>=
            fun s => Except.ok s.out) := by
  have hle := nonzeroSymbols_length_le freq
  have hu : toUInt32 ((nonzeroSymbols freq).length : Int) = (nonzeroSymbols freq).length :=
    toUInt32_natCast _ (by omega)
  obtain ⟨root, e1, _⟩ := buildHuffmanTree_spec freq ((nonzeroSymbols freq).length : Int) h2
    (by rw [hu]) (by rw [hu]; omega)
  refine ⟨root, e1, ?_⟩
  unfold decompressFile
  have hl : ¬ (writeHeader freq total ++ body).length < 1028 := by
    rw [List.length_append, writeHeader_length _ _ hlen]; omega
  rw [if_neg hl]
  dsimp only
  rw [readFreq_writeHeader _ _ _ hlen hlt, countUnique_eq, e1, bind_ok, drop_header _ _ _ hlen,
    readLE32_le32 _ htot, drop_header_body _ _ _ hlen, decodeLoop_eq _ _ htot]
  rfl

/-! ## Frequency tables with fewer than two nonzero counts -/

theorem minHeapify_size_zero (h : MinHeap) (hs : h.size = 0) (idx : Int) :
    minHeapify h idx = Except.ok h := by
  unfold minHeapify
  rw [hs]
  unfold minHeapifyAux pickSmaller
  have h1 : ¬ toUInt32 (toInt32 (2 * idx + 1)) < h.size := by omega
  have h2 : ¬ toUInt32 (toInt32 (2 * idx + 2)) < h.size := by omega
  rw [if_neg h1]
  simp only [pure_eq_ok, bind_ok]
  rw [if_neg h2]
  simp only [pure_eq_ok, bind_ok, ne_eq, not_true_eq_false, if_false]

theorem buildHeapLoop_size_zero (h : MinHeap) (hs : h.size = 0) :
    ∀ i : Nat, buildHeapLoop i h = Except.ok h := by
  intro i
  induction i with
  | zero => exact minHeapify_size_zero h hs 0
  | succ i ih =>
    unfold buildHeapLoop
    rw [minHeapify_size_zero h hs, bind_ok]
    exact ih

theorem read_zero_empty (h : MinHeap) (hl : h.array.length = 0) :
    h.read 0 = Except.error Fault.outOfBounds :=
  read_oob h 0 (by omega)

/-- With no nonzero count and `unique_chars = 0` the build-heap loop runs over
an empty heap and the first `extractMin` reads slot 0 of an empty block. -/
theorem buildHuffmanTree_fault_zero (freq : List Nat) (unique_chars : Int)
    (h0 : nonzeroSymbols freq = []) (hU : toUInt32 unique_chars = 0) :
    buildHuffmanTree freq unique_chars = Except.error Fault.outOfBounds := by
  have hw0 : (createMinHeap (toUInt32 unique_chars)).WF :=
    ⟨by simp [createMinHeap], by simp [createMinHeap], by simp [createMinHeap, hU],
      by simp [createMinHeap]⟩
  have hf : (List.range 256).filter (fun i => 0 < freq.getD i 0) = [] := h0
  obtain ⟨h1, e1, hw1, hc1, hs1, _⟩ := seedLoop_spec freq (List.range 256) _ hw0
    (by rw [hf]; simp [createMinHeap])
  rw [hf] at hs1
  have hs : h1.size = 0 := by rw [hs1]; simp [createMinHeap]
  have hl : h1.array.length = 0 := by rw [hw1.len, hc1]; simp [createMinHeap, hU]
  unfold buildHuffmanTree
  dsimp only
  rw [e1, bind_ok, buildHeapLoop_size_zero h1 hs, bind_ok, hs]
  unfold mergeLoop
  rw [if_pos (by omega)]
  unfold extractMin
  rw [read_zero_empty h1 hl]
  rfl

/-- With exactly one nonzero count the build-heap loop starts at index
`(1 - 2) / 2` computed in `unsigned`, that is `2147483647`; there `right`
wraps to 0, which is below `size`, and `array[2147483647]` is read. -/
theorem buildHuffmanTree_fault_one (freq : List Nat) (unique_chars : Int)
    (h1 : (nonzeroSymbols freq).length = 1) (hU1 : 1 ≤ toUInt32 unique_chars)
    (hU2 : toUInt32 unique_chars ≤ 2147483647) :
    buildHuffmanTree freq unique_chars = Except.error Fault.outOfBounds := by
  have hw0 : (createMinHeap (toUInt32 unique_chars)).WF :=
    ⟨by simp [createMinHeap], by simp [createMinHeap], hU2, by simp [createMinHeap]⟩
  have hf : ((List.range 256).filter (fun i => 0 < freq.getD i 0)).length = 1 := h1
  obtain ⟨g, e1, hw, hc, hs1, _⟩ := seedLoop_spec freq (List.range 256) _ hw0
    (by rw [hf]; simpa [createMinHeap] using hU1)
  rw [hf] at hs1
  have hs : g.size = 1 := by rw [hs1]; simp [createMinHeap]
  have hlen := hw.len
  have hcap := hw.cap_le
  have hsz := hw.size_le
  unfold buildHuffmanTree
  dsimp only
  rw [e1, bind_ok]
  have hstart : (g.size + U32 - 2) % U32 / 2 = 2147483646 + 1 := by
    rw [hs]; rfl
  rw [hstart, buildHeapLoop]
  have hfault : minHeapify g ((2147483646 + 1 : Nat) : Int) = Except.error Fault.outOfBounds := by
    unfold minHeapify
    rw [hs]
    unfold minHeapifyAux pickSmaller
    have e1 : toInt32 (2 * ((2147483646 + 1 : Nat) : Int) + 1) = -1 := by decide
    have e2 : toInt32 (2 * ((2147483646 + 1 : Nat) : Int) + 2) = 0 := by decide
    rw [e1, e2]
    have n1 : ¬ toUInt32 (-1) < g.size := by
      rw [hs]; decide
    have n2 : toUInt32 0 < g.size := by
      rw [hs]; decide
    rw [if_neg n1]
    simp only [pure_eq_ok, bind_ok]
    rw [if_pos n2]
    have r0 : g.read 0 = Except.ok (g.array.getD 0 MinHeapNode.null) := by
      have := read_nat g 0 (by omega)
      simpa using this
    obtain ⟨f0, hf0⟩ := getFreq_of_ne_null (hw.getD_ne_null (show 0 < g.size by omega))
    rw [r0]
    simp only [bind_ok]
    rw [hf0]
    simp only [bind_ok]
    rw [read_oob g _ (by push_cast; omega)]
    rfl
  rw [hfault]
  rfl

/-- Round trip with arbitrary bytes appended to the compressed file. -/
theorem roundtrip_append (S : List Byte) (hlen : S.length < U32) (a b : Byte)
    (ha : a ∈ S) (hb : b ∈ S) (hab : a ≠ b) (G : List Byte) :
    ∃ out, compressFile S = Except.ok out ∧ decompressFile (out ++ G) = Except.ok S := by
  obtain ⟨root, codes, body, hm, h2, e1, _, hpr, hleaves, hc, e3, hbits⟩ :=
    compressFile_spec S hlen a b ha hb hab
  refine ⟨_, e3, ?_⟩
  have htot : (countPass S).total_chars < U32 := by rw [hm.2.2.1]; exact hlen
  obtain ⟨root2, k1, k2⟩ := decompressFile_spec (countPass S).freq (countPass S).total_chars
    (body ++ G) hm.1 (matches_lt _ S hm hlen) htot h2
  rw [← hm.2.2.2, e1] at k1
  have hroot : root2 = root := by
    injection k1 with h
    exact h.symm
  subst hroot
  rw [List.append_assoc, k2, bitsOfBytes_append, hbits, List.append_assoc]
  have hmem : ∀ x ∈ S, x.val ∈ root2.leaves := by
    intro x hx
    exact hleaves.mem_iff.mpr ((matches_nonzero _ S hm x.val).mpr (List.mem_map_of_mem _ hx))
  have h2l : 2 ≤ root2.leaves.length := by rw [hleaves.length_eq]; exact h2
  rw [decodeBits_encode root2 _ htot hpr h2l codes hc S hmem 0 [] _
    (by rw [hm.2.2.1]; omega)]
  rw [decodeBits_done _ _ _ _ (by simp only [hm.2.2.1]; omega)]
  simp

theorem buildCodes_error (freq : List Nat) (u : Int) (e : Fault)
    (h : buildHuffmanTree freq u = Except.error e) : buildCodes freq u = Except.error e := by
  unfold buildCodes
  rw [h]
  rfl

theorem compressFile_error (S : List Byte) (e : Fault)
    (h : buildHuffmanTree (countPass S).freq (countPass S).unique_chars = Except.error e) :
    compressFile S = Except.error e := by
  unfold compressFile
  dsimp only
  rw [buildCodes_error _ _ _ h]
  rfl

theorem length_one_of_mem_iff {l : List Nat} (hnd : l.Nodup) (b : Nat)
    (h : ∀ i, i ∈ l ↔ i = b) : l.length = 1 := by
  have hp : l.Perm [b] := by
    rw [List.perm_ext_iff_of_nodup hnd (List.nodup_singleton b)]
    intro i
    rw [h i, List.mem_singleton]
  rw [hp.length_eq]
  rfl

theorem compressFile_nil_fault : compressFile [] = Except.error Fault.outOfBounds := by
  apply compressFile_error
  have hm := countPass_matches [] (by unfold U32; simp)
  apply buildHuffmanTree_fault_zero
  · have hz : ∀ i, i ∉ nonzeroSymbols (countPass []).freq := by
      intro i hi
      have := (matches_nonzero _ [] hm i).mp hi
      simp at this
    exact List.eq_nil_iff_forall_not_mem.mpr hz
  · rfl

theorem compressFile_replicate_fault (n : Nat) (b : Byte) (h1 : 1 ≤ n) (hn : n < U32) :
    compressFile (List.replicate n b) = Except.error Fault.outOfBounds := by
  apply compressFile_error
  have hm := countPass_matches (List.replicate n b) (by rw [List.length_replicate]; exact hn)
  have hone : (nonzeroSymbols (countPass (List.replicate n b)).freq).length = 1 := by
    apply length_one_of_mem_iff (nonzeroSymbols_nodup _) b.val
    intro i
    rw [matches_nonzero _ _ hm i, List.map_replicate, List.mem_replicate]
    constructor
    · intro h; exact h.2
    · intro h; exact ⟨by omega, h⟩
  have hu := hm.2.2.2
  rw [hone] at hu
  apply buildHuffmanTree_fault_one _ _ hone
  · rw [hu]; decide
  · rw [hu]; decide

/-- An input of `2^32` copies of `a` followed by one `b`: the count of `a`
wraps to 0, so the table has a single nonzero entry although `unique_chars`
is 2. -/
theorem compressFile_wrap_fault (n : Nat) (hn : n + 1 = U32) (a b : Byte) (hab : a ≠ b) :
    compressFile (List.replicate n a ++ [a, b]) = Except.error Fault.outOfBounds := by
  apply compressFile_error
  have hm := countPass_matches (List.replicate n a) (by rw [List.length_replicate]; omega)
  have hcp : countPass (List.replicate n a ++ [a, b])
      = countStep (countStep (countPass (List.replicate n a)) a) b := by
    unfold countPass
    rw [List.foldl_append]
    rfl
  obtain ⟨m1, m2, m3, m4⟩ := hm
  have hcnt : ∀ i, (countPass (List.replicate n a)).freq.getD i 0 = if i = a.val then n else 0 := by
    intro i
    rw [m2 i, List.map_replicate, List.count_replicate]
    by_cases e : i = a.val
    · rw [if_pos e, e]; simp
    · rw [if_neg e]
      have : ¬ (a.val == i) = true := by simpa using Ne.symm e
      rw [if_neg this]
  have hnz : nonzeroSymbols (countPass (List.replicate n a)).freq = [a.val] := by
    have hnd := nonzeroSymbols_nodup (countPass (List.replicate n a)).freq
    have hl := length_one_of_mem_iff hnd a.val (by
      intro i
      constructor
      · intro hi
        have := nonzeroSymbols_pos hi
        rw [hcnt i] at this
        by_contra e
        rw [if_neg e] at this
        omega
      · intro e
        apply mem_nonzeroSymbols (by rw [e]; exact a.isLt)
        rw [hcnt i, if_pos e]
        unfold U32 at hn
        omega)
    have hmem : a.val ∈ nonzeroSymbols (countPass (List.replicate n a)).freq := by
      apply mem_nonzeroSymbols a.isLt
      rw [hcnt a.val, if_pos rfl]
      unfold U32 at hn
      omega
    match hx : nonzeroSymbols (countPass (List.replicate n a)).freq, hl, hmem with
    | [x], _, hm2 =>
      simp only [List.mem_singleton] at hm2
      rw [hm2]
  rw [hnz] at m4
  have ha_len : a.val < (countPass (List.replicate n a)).freq.length := by rw [m1]; exact a.isLt
  have hab2 : b.val ≠ a.val := fun e => hab (Fin.ext e.symm)
  have hfa : (countPass (List.replicate n a)).freq.getD a.val 0 = n := by
    rw [hcnt, if_pos rfl]
  -- the table after the last two bytes
  have hfreq : ∀ i, (countStep (countStep (countPass (List.replicate n a)) a) b).freq.getD i 0
      = if i = b.val then 1 else 0 := by
    intro i
    unfold countStep
    simp only
    rw [getD_set _ _ _ _ (by rw [List.length_set, m1]; exact b.isLt),
      getD_set _ _ _ _ ha_len, getD_set _ _ _ _ ha_len, if_neg hab2, hcnt b.val, if_neg hab2,
      hfa, hcnt i]
    have hw : (n + 1) % U32 = 0 := by rw [hn]; exact Nat.mod_self _
    rw [hw]
    by_cases e1 : i = b.val
    · simp only [e1, if_true]
      rfl
    · by_cases e2 : i = a.val
      · have e3 : ¬ a.val = b.val := fun e => hab2 e.symm
        simp only [e1, e2, e3, if_true, if_false]
      · simp only [e1, e2, if_false]
  have hone : (nonzeroSymbols
      (countStep (countStep (countPass (List.replicate n a)) a) b).freq).length = 1 := by
    apply length_one_of_mem_iff (nonzeroSymbols_nodup _) b.val
    intro i
    constructor
    · intro hi
      have := nonzeroSymbols_pos hi
      rw [hfreq i] at this
      by_contra e
      rw [if_neg e] at this
      omega
    · intro e
      apply mem_nonzeroSymbols (by rw [e]; exact b.isLt)
      rw [hfreq i, if_pos e]
      omega
  have hu : (countStep (countStep (countPass (List.replicate n a)) a) b).unique_chars = 2 := by
    unfold countStep
    simp only
    rw [getD_set _ _ _ _ ha_len, if_neg hab2, hcnt b.val, if_neg hab2, hfa]
    have hn0 : ¬ n = 0 := by unfold U32 at hn; omega
    rw [if_pos rfl, if_neg hn0, m4, List.length_singleton]
    rw [@toInt32_small (((1 : Nat) : Int) + 1) (by omega) (by omega)]
    rfl
  rw [hcp]
  apply buildHuffmanTree_fault_one _ _ hone
  · rw [hu]; decide
  · rw [hu]; decide

/-! ## Further consequences used by the claims -/

/-- The number of code bits of an input, grouped by byte value. -/
theorem encodeBits_length (codes : CodeTable) (S : List Byte) :
    (encodeBits codes S).length
      = ∑ c ∈ Finset.range 256, (codes c).length * (S.map Fin.val).count c := by
  induction S with
  | nil => simp [encodeBits]
  | cons s S ih =>
    have h1 : encodeBits codes (s :: S) = (codes s.val).map bitOfChar ++ encodeBits codes S := by
      simp [encodeBits]
    rw [h1, List.length_append, List.length_map, ih]
    have h2 : ∀ c, (codes c).length * ((s :: S).map Fin.val).count c
        = (codes c).length * (S.map Fin.val).count c
          + (if s.val = c then (codes c).length else 0) := by
      intro c
      rw [List.map_cons, List.count_cons]
      by_cases e : s.val = c
      · simp [e, Nat.mul_add]
      · simp [e]
    simp only [h2]
    rw [Finset.sum_add_distrib, Finset.sum_ite_eq, if_pos (Finset.mem_range.mpr s.isLt)]
    omega

/-- A file whose body holds the codes of `T` followed by a proper prefix of
one more code, under a header announcing more than `T.length` symbols, is
decompressed to `T` without any fault. -/
theorem decompress_short_body (freq : List Nat) (total : Nat) (codes : CodeTable)
    (T : List Byte) (c : Byte) (r : List Char) (body : List Byte)
    (hlen : freq.length = 256) (hlt : ∀ x ∈ freq, x < U32) (htot : total < U32)
    (h2 : 2 ≤ (nonzeroSymbols freq).length)
    (hcodes : buildCodes freq ((nonzeroSymbols freq).length : Int) = Except.ok codes)
    (hT : ∀ t ∈ T, 0 < freq.getD t.val 0) (hc : 0 < freq.getD c.val 0)
    (hr : r <+: codes c.val) (hne : r ≠ codes c.val)
    (hbody : bitsOfBytes body = encodeBits codes T ++ r.map bitOfChar)
    (hshort : T.length < total) :
    decompressFile (writeHeader freq total ++ body) = Except.ok T := by
  have hle := nonzeroSymbols_length_le freq
  have hu : toUInt32 ((nonzeroSymbols freq).length : Int) = (nonzeroSymbols freq).length :=
    toUInt32_natCast _ (by omega)
  obtain ⟨root, codes2, e1, e2, hpr, _, hleaves, hcp, _⟩ := buildCodes_spec freq
    ((nonzeroSymbols freq).length : Int) h2 (by rw [hu]) (by rw [hu]; omega)
  rw [hcodes] at e2
  have hcc : codes2 = codes := by
    injection e2 with h
    exact h.symm
  subst hcc
  obtain ⟨root2, k1, k2⟩ := decompressFile_spec freq total body hlen hlt htot h2
  rw [e1] at k1
  have hroot : root2 = root := by
    injection k1 with h
    exact h.symm
  subst hroot
  rw [k2, hbody]
  have hmem : ∀ x ∈ T, x.val ∈ root2.leaves := by
    intro x hx
    exact hleaves.mem_iff.mpr (mem_nonzeroSymbols x.isLt (hT x hx))
  have h2l : 2 ≤ root2.leaves.length := by rw [hleaves.length_eq]; exact h2
  rw [decodeBits_encode root2 total htot hpr h2l codes2 hcp T hmem 0 [] _ (by omega)]
  obtain ⟨bs, hbs⟩ := exists_codePath (hleaves.mem_iff.mpr (mem_nonzeroSymbols c.isLt hc))
  have hcode := hcp _ hbs
  simp only at hcode
  have hpre : r.map bitOfChar <+: bs := by
    have := hr.map bitOfChar
    rw [hcode, map_bitOfChar_charOfBit] at this
    exact this
  have hne2 : r.map bitOfChar ≠ bs := by
    intro h
    apply hne
    have hl : r.length = (codes2 c.val).length := by
      rw [hcode, List.length_map, ← h, List.length_map]
    exact hr.eq_of_length hl
  obtain ⟨cur, hcur⟩ := decodeBits_partial root2 total root2 hpr (c.val, bs) hbs
    (r.map bitOfChar) hpre hne2 (0 + T.length) ([] ++ T)
  rw [hcur]
  simp

/-- The table built from a frequency table with at least two nonzero counts
is a prefix code on the symbols with nonzero counts. -/
theorem codes_prefix_free (freq : List Nat) (h2 : 2 ≤ (nonzeroSymbols freq).length) :
    ∃ codes, buildCodes freq (countUnique freq) = Except.ok codes
      ∧ ∀ a b, a < 256 → b < 256 → a ≠ b → 0 < freq.getD a 0 → 0 < freq.getD b 0 →
        ¬ codes a <+: codes b ∧ codes a ≠ [] := by
  have hle := nonzeroSymbols_length_le freq
  have hu : toUInt32 ((nonzeroSymbols freq).length : Int) = (nonzeroSymbols freq).length :=
    toUInt32_natCast _ (by omega)
  rw [countUnique_eq]
  obtain ⟨root, codes, _, e2, hpr, _, hleaves, hcp, _⟩ := buildCodes_spec freq
    ((nonzeroSymbols freq).length : Int) h2 (by rw [hu]) (by rw [hu]; omega)
  have h2l : 2 ≤ root.leaves.length := by rw [hleaves.length_eq]; exact h2
  refine ⟨codes, e2, ?_⟩
  intro a b ha hb hab hfa hfb
  obtain ⟨pa, hpa⟩ := exists_codePath (hleaves.mem_iff.mpr (mem_nonzeroSymbols ha hfa))
  obtain ⟨pb, hpb⟩ := exists_codePath (hleaves.mem_iff.mpr (mem_nonzeroSymbols hb hfb))
  have hca := hcp _ hpa
  have hcb := hcp _ hpb
  simp only at hca hcb
  refine ⟨?_, ?_⟩
  · intro hpre
    rw [hca, hcb] at hpre
    have := codePaths_prefix_eq hpr _ hpa _ hpb (isPrefix_of_map _ charOfBit_injective hpre)
    exact hab (congrArg Prod.fst this)
  · rw [hca]
    intro h
    exact codePaths_ne_nil_of_two hpr h2l _ hpa (List.map_eq_nil_iff.mp h)

/-- A header whose table has no nonzero count makes `decompressFile` fault in
`buildHuffmanTree`, before the decoding loop is reached. -/
theorem decompressFile_fault_zero (freq : List Nat) (total : Nat) (body : List Byte)
    (hlen : freq.length = 256) (hlt : ∀ x ∈ freq, x < U32)
    (h0 : nonzeroSymbols freq = []) :
    decompressFile (writeHeader freq total ++ body) = Except.error Fault.outOfBounds := by
  unfold decompressFile
  have hl : ¬ (writeHeader freq total ++ body).length < 1028 := by
    rw [List.length_append, writeHeader_length _ _ hlen]; omega
  rw [if_neg hl]
  dsimp only
  rw [readFreq_writeHeader _ _ _ hlen hlt, countUnique_eq,
    buildHuffmanTree_fault_zero freq _ h0 (by rw [h0]; rfl)]
  rfl

/-! # The claims -/

theorem wrapInput_two : (65 : Byte) ∈ wrapInput ∧ (66 : Byte) ∈ wrapInput := by
  unfold wrapInput
  constructor
  · exact List.mem_append_right _ (by decide)
  · exact List.mem_append_right _ (by decide)

theorem wrapInput_fault : compressFile wrapInput = Except.error Fault.outOfBounds :=
  compressFile_wrap_fault 4294967295 (by decide) 65 66 (by decide)

/-- C1, as stated, fails on the code: for the empty input, for a one-byte
input and for an input of `2^32 + 1` bytes `compressFile` faults with an
out-of-bounds read, so compressing and then decompressing does not give the
input back. -/
theorem roundtrip_fails_outside_domain :
    (compressFile [] >>= decompressFile) = Except.error Fault.outOfBounds
    ∧ (compressFile [65] >>= decompressFile) = Except.error Fault.outOfBounds
    ∧ (compressFile wrapInput >>= decompressFile) = Except.error Fault.outOfBounds := by
  refine ⟨?_, ?_, ?_⟩
  · rw [compressFile_nil_fault]; rfl
  · have := compressFile_replicate_fault 1 65 (by decide) (by decide)
    rw [show ([65] : List Byte) = List.replicate 1 65 from rfl, this]; rfl
  · rw [wrapInput_fault]; rfl

/-- C1, amended: for every byte sequence `S` of fewer than `2^32` bytes that
contains two distinct byte values, `decompressFile` applied to the output of
`compressFile` on `S` yields exactly `S`. -/
theorem roundtrip (S : List Byte) (hlen : S.length < 4294967296) (a b : Byte)
    (ha : a ∈ S) (hb : b ∈ S) (hab : a ≠ b) :
    (compressFile S >>= decompressFile) = Except.ok S := by
  obtain ⟨out, h1, h2⟩ := roundtrip_append S hlen a b ha hb hab []
  rw [List.append_nil] at h2
  rw [h1, bind_ok, h2]

/-- C1, amended, on the two-byte input `"AB"`. -/
theorem roundtrip_witness :
    (compressFile [65, 66] >>= decompressFile) = Except.ok [65, 66] :=
  roundtrip [65, 66] (by decide) 65 66 (by decide) (by decide) (by decide)

/-- C2: for every byte sequence `S` of fewer than `2^32` bytes with at least
two distinct byte values, `compressFile` succeeds and `decompressFile` applied
to its output returns a sequence of the same length whose bytes are those of
`S` in the same order, that is `S` itself. -/
theorem decompress_compress (S : List Byte) (hlen : S.length < 4294967296) (a b : Byte)
    (ha : a ∈ S) (hb : b ∈ S) (hab : a ≠ b) :
    ∃ out T, compressFile S = Except.ok out ∧ decompressFile out = Except.ok T
      ∧ T.length = S.length ∧ ∀ i (h1 : i < T.length) (h2 : i < S.length), T[i] = S[i] := by
  obtain ⟨out, h1, h2⟩ := roundtrip_append S hlen a b ha hb hab []
  rw [List.append_nil] at h2
  exact ⟨out, S, h1, h2, rfl, fun _ _ _ => rfl⟩

/-- C2 on the 14-byte input `"AAAAAABCCCCCCD"`. -/
theorem decompress_compress_witness :
    ∃ out T, compressFile sampleInput = Except.ok out ∧ decompressFile out = Except.ok T
      ∧ T.length = sampleInput.length
      ∧ ∀ i (h1 : i < T.length) (h2 : i < sampleInput.length), T[i] = sampleInput[i] :=
  decompress_compress sampleInput (by decide) 65 66 (by decide) (by decide) (by decide)
set_option maxRecDepth 100000

/-- C3, as stated, fails on the code: a header announcing 1000 symbols
followed by a two-byte body that holds the codes of only ten symbols is
decompressed to those ten symbols and the run ends as a success; no error is
reported. -/
theorem truncated_stream_not_detected :
    readLE32 ((writeHeader sampleFreq 1000 ++ [0xAB, 0xF0]).drop 1024) = 1000
    ∧ decompressFile (writeHeader sampleFreq 1000 ++ [0xAB, 0xF0]) = Except.ok sampleSymbols := by
  constructor
  · rw [drop_header _ _ _ (by decide), readLE32_le32 _ (by decide)]
  · exact decompress_short_body sampleFreq 1000 sampleCodes sampleSymbols 65 [] [0xAB, 0xF0]
      (by decide) (by decide) (by decide) (by decide) (by rfl) (by decide) (by decide)
      List.nil_prefix (by decide) (by decide) (by decide)

/-- C3, amended: when the header announces `total` symbols and the body is
exhausted after fewer symbols have been decoded (its bits are the codes of a
sequence `T` shorter than `total`, followed by an incomplete code `r`),
`decompressFile` writes exactly `T` and finishes as a success; it reports no
error. -/
theorem truncated_stream_silent (freq : List Nat) (total : Nat) (codes : CodeTable)
    (T : List Byte) (c : Byte) (r : List Char) (body : List Byte)
    (hlen : freq.length = 256) (hlt : ∀ x ∈ freq, x < 4294967296) (htot : total < 4294967296)
    (h2 : 2 ≤ (nonzeroSymbols freq).length)
    (hcodes : buildCodes freq (countUnique freq) = Except.ok codes)
    (hT : ∀ t ∈ T, 0 < freq.getD t.val 0) (hc : 0 < freq.getD c.val 0)
    (hr : r <+: codes c.val) (hne : r ≠ codes c.val)
    (hbody : bitsOfBytes body = encodeBits codes T ++ r.map bitOfChar)
    (hshort : T.length < total) :
    decompressFile (writeHeader freq total ++ body) = Except.ok T := by
  rw [countUnique_eq] at hcodes
  exact decompress_short_body freq total codes T c r body hlen hlt htot h2 hcodes hT hc hr hne
    hbody hshort

/-- C3, amended, on a header announcing 1000 symbols and a body holding ten. -/
theorem truncated_stream_silent_witness :
    decompressFile (writeHeader sampleFreq 1000 ++ [0xAB, 0xF0]) = Except.ok sampleSymbols :=
  truncated_stream_silent sampleFreq 1000 sampleCodes sampleSymbols 65 [] [0xAB, 0xF0]
    (by decide) (by decide) (by decide) (by decide) (by rfl) (by decide) (by decide)
    List.nil_prefix (by decide) (by decide) (by decide)
/-- C4 on the code: compressing the empty input does not complete.  The
build-heap loop runs over an empty heap and `extractMin` then reads slot 0 of
an empty block; and decompressing the header the claim describes (256 zero
counts, total 0) faults in the same way before the decoding loop starts. -/
theorem empty_input_faults :
    compressFile [] = Except.error Fault.outOfBounds
    ∧ decompressFile (writeHeader (List.replicate 256 0) 0) = Except.error Fault.outOfBounds := by
  refine ⟨compressFile_nil_fault, ?_⟩
  have h := decompressFile_fault_zero (List.replicate 256 0) 0 [] (by decide) (by decide)
    (by decide)
  rw [List.append_nil] at h
  exact h

/-- C5 on the code: compressing 500 copies of `'A'` does not complete; with a
single nonzero count the build-heap loop of `buildHuffmanTree` starts at index
2147483647 and reads outside the heap block. -/
theorem single_symbol_input_faults :
    compressFile (List.replicate 500 65) = Except.error Fault.outOfBounds :=
  compressFile_replicate_fault 500 65 (by decide) (by decide)

/-- C6 on the code: for the table whose only nonzero count is that of `'A'`
no code table is produced, because `buildHuffmanTree` faults; and
`storeCodes` run on the lone leaf itself stores the empty string for `'A'`,
not the one-character string `0`. -/
theorem single_symbol_code_missing :
    buildCodes singleFreq 1 = Except.error Fault.outOfBounds
    ∧ storeCodes (newNode 65 500) (List.replicate MAX_TREE_HT 0) 0 (fun _ => [])
        = Except.ok (List.replicate MAX_TREE_HT 0, Function.update (fun _ => []) 65 []) := by
  constructor
  · apply buildCodes_error
    exact buildHuffmanTree_fault_one singleFreq 1 (by decide) (by decide) (by decide)
  · rfl

/-- C7: for every frequency table and any two distinct symbols `a` and `b`
with nonzero counts, the code table generated by `buildHuffmanTree` followed
by `storeCodes` exists, and in it neither code is a prefix of the other; the
two codes differ and neither is empty. -/
theorem prefix_free (freq : List Nat) (a b : Nat) (ha : a < 256) (hb : b < 256) (hab : a ≠ b)
    (hfa : 0 < freq.getD a 0) (hfb : 0 < freq.getD b 0) :
    ∃ codes, buildCodes freq (countUnique freq) = Except.ok codes
      ∧ ¬ codes a <+: codes b ∧ ¬ codes b <+: codes a
      ∧ codes a ≠ codes b ∧ codes a ≠ [] ∧ codes b ≠ [] := by
  have h2 := two_le_length_of_mem (mem_nonzeroSymbols ha hfa) (mem_nonzeroSymbols hb hfb) hab
  obtain ⟨codes, e, h⟩ := codes_prefix_free freq h2
  have h1 := h a b ha hb hab hfa hfb
  have h3 := h b a hb ha (Ne.symm hab) hfb hfa
  refine ⟨codes, e, h1.1, h3.1, ?_, h1.2, h3.2⟩
  intro heq
  apply h1.1
  rw [heq]

/-- C7 on the table of `'A'` 500, `'B'` 250, `'C'` 250, for `'A'` and `'B'`. -/
theorem prefix_free_witness :
    ∃ codes, buildCodes sampleFreq (countUnique sampleFreq) = Except.ok codes
      ∧ ¬ codes 65 <+: codes 66 ∧ ¬ codes 66 <+: codes 65
      ∧ codes 65 ≠ codes 66 ∧ codes 65 ≠ [] ∧ codes 66 ≠ [] :=
  prefix_free sampleFreq 65 66 (by decide) (by decide) (by decide) (by decide) (by decide)

/-- C8: for every input `S` of fewer than `2^32` bytes with at least two
distinct byte values, the output of `compressFile` has exactly
`1028 + ceil(sum over c of code_length[c] * freq[c] / 8)` bytes, where `freq`
is the table of the counting pass (entry `c` is the number of occurrences of
`c` in `S`) and the codes are those of `buildCodes`. -/
theorem compressed_size (S : List Byte) (hlen : S.length < 4294967296) (a b : Byte)
    (ha : a ∈ S) (hb : b ∈ S) (hab : a ≠ b) :
    ∃ codes out, buildCodes (countPass S).freq (countPass S).unique_chars = Except.ok codes
      ∧ compressFile S = Except.ok out
      ∧ (∀ c, (countPass S).freq.getD c 0 = (S.map Fin.val).count c)
      ∧ out.length = 1028
          + (∑ c ∈ Finset.range 256, (codes c).length * (countPass S).freq.getD c 0 + 7) / 8 := by
  obtain ⟨root, codes, body, hm, _, _, e2, _, _, _, e3, hbits⟩ :=
    compressFile_spec S hlen a b ha hb hab
  refine ⟨codes, _, e2, e3, hm.2.1, ?_⟩
  have hl := congrArg List.length hbits
  rw [bitsOfBytes_length, List.length_append, List.length_replicate, encodeBits_length] at hl
  have hs : ∑ c ∈ Finset.range 256, (codes c).length * (countPass S).freq.getD c 0
      = ∑ c ∈ Finset.range 256, (codes c).length * (S.map Fin.val).count c := by
    apply Finset.sum_congr rfl
    intro c _
    rw [hm.2.1 c]
  rw [hs, List.length_append, writeHeader_length _ _ hm.1]
  omega

/-- C8 on the 14-byte input `"AAAAAABCCCCCCD"`. -/
theorem compressed_size_witness :
    ∃ codes out, buildCodes (countPass sampleInput).freq (countPass sampleInput).unique_chars
        = Except.ok codes
      ∧ compressFile sampleInput = Except.ok out
      ∧ (∀ c, (countPass sampleInput).freq.getD c 0 = (sampleInput.map Fin.val).count c)
      ∧ out.length = 1028 + (∑ c ∈ Finset.range 256,
          (codes c).length * (countPass sampleInput).freq.getD c 0 + 7) / 8 :=
  compressed_size sampleInput (by decide) 65 66 (by decide) (by decide) (by decide)

/-- C9, as stated, fails on the code: the input of `2^32` bytes `'A'` followed
by one `'B'` has two distinct byte values, yet `compressFile` writes no body
for it; the count of `'A'` wraps to 0 and `buildHuffmanTree` faults. -/
theorem bit_packing_fails_on_wrap :
    (65 : Byte) ∈ wrapInput ∧ (66 : Byte) ∈ wrapInput ∧ (65 : Byte) ≠ 66
    ∧ compressFile wrapInput = Except.error Fault.outOfBounds :=
  ⟨wrapInput_two.1, wrapInput_two.2, by decide, wrapInput_fault⟩

/-- C9, amended: for every input `S` of fewer than `2^32` bytes with at least
two distinct byte values, the bytes written by `compressFile` after the
1028-byte header, read as bits most significant bit first, are the codes of
the bytes of `S` in order, followed by `p` zero bits, where `p` is at most 7
and is the least number that makes the bit count a multiple of 8. -/
theorem bit_packing (S : List Byte) (hlen : S.length < 4294967296) (a b : Byte)
    (ha : a ∈ S) (hb : b ∈ S) (hab : a ≠ b) :
    ∃ codes out p, buildCodes (countPass S).freq (countPass S).unique_chars = Except.ok codes
      ∧ compressFile S = Except.ok out
      ∧ bitsOfBytes (out.drop 1028) = encodeBits codes S ++ List.replicate p false
      ∧ p ≤ 7 ∧ ((encodeBits codes S).length + p) % 8 = 0
      ∧ ∀ q, ((encodeBits codes S).length + q) % 8 = 0 → p ≤ q := by
  obtain ⟨root, codes, body, hm, _, _, e2, _, _, _, e3, hbits⟩ :=
    compressFile_spec S hlen a b ha hb hab
  refine ⟨codes, _, (8 - (encodeBits codes S).length % 8) % 8, e2, e3, ?_, by omega, by omega,
    fun q hq => by omega⟩
  rw [drop_header_body _ _ _ hm.1]
  exact hbits

/-- C9, amended, on the 14-byte input `"AAAAAABCCCCCCD"`. -/
theorem bit_packing_witness :
    ∃ codes out p, buildCodes (countPass sampleInput).freq (countPass sampleInput).unique_chars
        = Except.ok codes
      ∧ compressFile sampleInput = Except.ok out
      ∧ bitsOfBytes (out.drop 1028) = encodeBits codes sampleInput ++ List.replicate p false
      ∧ p ≤ 7 ∧ ((encodeBits codes sampleInput).length + p) % 8 = 0
      ∧ ∀ q, ((encodeBits codes sampleInput).length + q) % 8 = 0 → p ≤ q :=
  bit_packing sampleInput (by decide) 65 66 (by decide) (by decide) (by decide)

/-- C10, as stated, fails on the code: for the input of `2^32` bytes `'A'`
followed by one `'B'`, which has two distinct byte values, there is no
compressed output to append bytes to, and decompression does not yield the
input. -/
theorem trailing_bytes_fails_on_wrap :
    (65 : Byte) ∈ wrapInput ∧ (66 : Byte) ∈ wrapInput ∧ (65 : Byte) ≠ 66
    ∧ (compressFile wrapInput >>= fun out => decompressFile (out ++ [0]))
        = Except.error Fault.outOfBounds := by
  refine ⟨wrapInput_two.1, wrapInput_two.2, by decide, ?_⟩
  rw [wrapInput_fault]
  rfl

/-- C10, amended: for every input `S` of fewer than `2^32` bytes with at
least two distinct byte values and every byte sequence `G`, decompressing the
output of `compressFile` on `S` with `G` appended yields exactly `S`: neither
the padding bits nor the bytes of `G` produce any output symbol. -/
theorem trailing_bytes_ignored (S : List Byte) (hlen : S.length < 4294967296) (a b : Byte)
    (ha : a ∈ S) (hb : b ∈ S) (hab : a ≠ b) (G : List Byte) :
    ∃ out, compressFile S = Except.ok out ∧ decompressFile (out ++ G) = Except.ok S :=
  roundtrip_append S hlen a b ha hb hab G

/-- C10, amended, on `"AAAAAABCCCCCCD"` with three bytes appended. -/
theorem trailing_bytes_ignored_witness :
    ∃ out, compressFile sampleInput = Except.ok out
      ∧ decompressFile (out ++ [255, 0, 170]) = Except.ok sampleInput :=
  trailing_bytes_ignored sampleInput (by decide) 65 66 (by decide) (by decide) (by decide)
    [255, 0, 170]

/-! ## Heap order is established and preserved -/

theorem getD_set_node (l : List MinHeapNode) (i j : Nat) (v : MinHeapNode) (hi : i < l.length) :
    (l.set i v).getD j MinHeapNode.null = if j = i then v else l.getD j MinHeapNode.null := by
  simp only [List.getD_eq_getElem?_getD, List.getElem?_set]
  by_cases h : i = j
  · subst h; simp [hi]
  · have h2 : ¬ j = i := fun e => h e.symm
    simp [h, h2]

theorem freqAt_swap (h : MinHeap) (a b i : Nat) (ha : a < h.array.length)
    (hb : b < h.array.length) :
    (h.swap a b).freqAt i
      = if i = b then h.freqAt a else if i = a then h.freqAt b else h.freqAt i := by
  unfold MinHeap.freqAt MinHeap.swap
  simp only
  rw [getD_set_node _ _ _ _ (by rw [List.length_set]; exact hb), getD_set_node _ _ _ _ ha]
  by_cases e1 : i = b
  · rw [if_pos e1, if_pos e1]
  · rw [if_neg e1, if_neg e1]
    by_cases e2 : i = a
    · rw [if_pos e2, if_pos e2]
    · rw [if_neg e2, if_neg e2]

theorem smallest_facts (h : MinHeap) (n : Nat) :
    h.freqAt (h.smallest n) ≤ h.freqAt n
    ∧ (2 * n + 1 < h.size → h.freqAt (h.smallest n) ≤ h.freqAt (2 * n + 1))
    ∧ (2 * n + 2 < h.size → h.freqAt (h.smallest n) ≤ h.freqAt (2 * n + 2))
    ∧ (h.smallest n ≠ n → h.freqAt (h.smallest n) < h.freqAt n) := by
  unfold MinHeap.smallest
  by_cases h1 : 2 * n + 1 < h.size ∧ h.freqAt (2 * n + 1) < h.freqAt n
  · rw [if_pos h1]
    by_cases h2 : 2 * n + 2 < h.size ∧ h.freqAt (2 * n + 2) < h.freqAt (2 * n + 1)
    · rw [if_pos h2]
      refine ⟨by omega, fun _ => by omega, fun _ => by omega, fun _ => by omega⟩
    · rw [if_neg h2]
      refine ⟨by omega, fun _ => by omega, fun hx => ?_, fun _ => by omega⟩
      have : ¬ h.freqAt (2 * n + 2) < h.freqAt (2 * n + 1) := fun hy => h2 ⟨hx, hy⟩
      omega
  · rw [if_neg h1]
    by_cases h2 : 2 * n + 2 < h.size ∧ h.freqAt (2 * n + 2) < h.freqAt n
    · rw [if_pos h2]
      refine ⟨by omega, fun hx => ?_, fun _ => by omega, fun _ => by omega⟩
      have : ¬ h.freqAt (2 * n + 1) < h.freqAt n := fun hy => h1 ⟨hx, hy⟩
      omega
    · rw [if_neg h2]
      refine ⟨by omega, fun hx => ?_, fun hx => ?_, fun hx => absurd rfl hx⟩
      · have : ¬ h.freqAt (2 * n + 1) < h.freqAt n := fun hy => h1 ⟨hx, hy⟩
        omega
      · have : ¬ h.freqAt (2 * n + 2) < h.freqAt n := fun hy => h2 ⟨hx, hy⟩
        omega

theorem child_cases (i j : Nat) (hi : 0 < i) (hp : (i - 1) / 2 = j) :
    i = 2 * j + 1 ∨ i = 2 * j + 2 := by
  omega

/-- Sifting down at `j` a heap that is ordered everywhere except below `j`
yields a heap ordered on all edges with parent at least `k`. -/
theorem minHeapifyAux_ordered (k : Nat) : ∀ (fuel : Nat) (h : MinHeap) (j : Nat) (g : MinHeap),
    h.WF → j ≤ 2147483646 → h.SiftInv k j →
    minHeapifyAux fuel h (j : Int) = Except.ok g → g.OrderedFrom k := by
  intro fuel
  induction fuel with
  | zero =>
    intro h j g _ _ _ he
    rw [minHeapifyAux] at he
    exact Except.noConfusion he
  | succ fuel ih =>
    intro h j g hw hj hinv he
    have hsz := hw.size_le
    have hcap := hw.cap_le
    have hlen := hw.len
    rw [minHeapifyAux_eq fuel h j hw hj] at he
    obtain ⟨f1, f2, f3, f4⟩ := smallest_facts h j
    obtain ⟨inv1, inv2⟩ := hinv
    by_cases hne : h.smallest j = j
    · rw [if_pos hne] at he
      injection he with he
      subst he
      rw [hne] at f2 f3
      intro i hi0 hi hk
      by_cases hp : (i - 1) / 2 = j
      · rw [hp]
        rcases child_cases i j hi0 hp with e | e
        · rw [e]; exact f2 (by omega)
        · rw [e]; exact f3 (by omega)
      · exact inv1 i hi0 hi hk hp
    · rw [if_neg hne] at he
      have hs : h.smallest j < h.size ∧ j < h.size ∧ j < h.smallest j
          ∧ (h.smallest j - 1) / 2 = j := by
        rcases smallest_cases h j with h0 | h0 | h0 <;> omega
      obtain ⟨hs1, hs2, hs3, hs4⟩ := hs
      have f5 := f4 hne
      generalize h.smallest j = s at *
      obtain ⟨hw1, _⟩ := swap_WF h hw s j hs1 hs2
      have hfa : ∀ i, (h.swap s j).freqAt i
          = if i = j then h.freqAt s else if i = s then h.freqAt j else h.freqAt i :=
        fun i => freqAt_swap h s j i (by omega) (by omega)
      apply ih (h.swap s j) s g hw1 (by omega) ?_ he
      constructor
      · intro i hi0 hi hk hp
        have hi' : i < h.size := hi
        rw [hfa, hfa]
        by_cases e1 : (i - 1) / 2 = j
        · rw [if_pos e1]
          have hij : ¬ i = j := by omega
          rw [if_neg hij]
          by_cases e2 : i = s
          · rw [if_pos e2]; omega
          · rw [if_neg e2]
            rcases child_cases i j hi0 e1 with e | e
            · rw [e]; exact f2 (by omega)
            · rw [e]; exact f3 (by omega)
        · rw [if_neg e1, if_neg hp]
          by_cases e2 : i = j
          · rw [if_pos e2]
            have := inv2 s (by omega) hs1 hs4 (by omega) (by rw [← e2]; exact hk)
            rw [e2]
            exact this
          · rw [if_neg e2]
            have e3 : ¬ i = s := by
              intro e; apply e1; rw [e]; exact hs4
            rw [if_neg e3]
            exact inv1 i hi0 hi' hk e1
      · intro c hc0 hc hp hs0 hk
        have hc' : c < h.size := hc
        rw [hfa, hfa, hs4, if_pos rfl]
        have e1 : ¬ c = j := by omega
        have e2 : ¬ c = s := by omega
        rw [if_neg e1, if_neg e2]
        have := inv1 c hc0 hc' (by omega) (by omega)
        rw [hp] at this
        exact this

theorem ordered_iff_from_zero (h : MinHeap) : h.Ordered ↔ h.OrderedFrom 0 := by
  unfold MinHeap.Ordered MinHeap.OrderedFrom
  constructor
  · intro hx i h0 hi _; exact hx i h0 hi
  · intro hx i h0 hi; exact hx i h0 hi (Nat.zero_le _)

/-- The build-heap loop, run downwards from an index above which the order
already holds, leaves an ordered heap. -/
theorem buildHeapLoop_ordered : ∀ (i : Nat) (h g : MinHeap), h.WF → i ≤ 2147483646 →
    h.OrderedFrom (i + 1) → buildHeapLoop i h = Except.ok g → g.Ordered := by
  intro i
  induction i with
  | zero =>
    intro h g hw _ ho he
    rw [buildHeapLoop] at he
    rw [ordered_iff_from_zero]
    have he2 : minHeapifyAux (h.size + 1) h ((0 : Nat) : Int) = Except.ok g := he
    apply minHeapifyAux_ordered 0 _ h 0 g hw (by omega) ?_ he2
    constructor
    · intro c hc0 hc _ hp
      exact ho c hc0 hc (by omega)
    · intro c _ _ _ hj; omega
  | succ i ih =>
    intro h g hw hi ho he
    rw [buildHeapLoop] at he
    obtain ⟨g1, e1, hw1, hs1, _, _⟩ := minHeapify_spec h (i + 1) hw hi
    rw [e1, bind_ok] at he
    apply ih g1 g hw1 (by omega) ?_ he
    have e2 : minHeapifyAux (h.size + 1) h ((i + 1 : Nat) : Int) = Except.ok g1 := e1
    apply minHeapifyAux_ordered (i + 1) _ h (i + 1) g1 hw hi ?_ e2
    constructor
    · intro c hc0 hc hk hp
      exact ho c hc0 hc (by omega)
    · intro c _ _ _ _ hk; omega

theorem orderedFrom_of_small (h : MinHeap) (k : Nat) (hk : h.size ≤ 2 * k + 1) :
    h.OrderedFrom k := by
  intro i hi0 hi hp
  omega

theorem extractMin_eq (h : MinHeap) (hw : h.WF) (h1 : 1 ≤ h.size) :
    extractMin h = (minHeapify (MinHeap.mk (h.size - 1) h.capacity
        (h.array.set 0 (h.array.getD (h.size - 1) MinHeapNode.null))) 0 >>=
      fun h2 => Except.ok (h.array.getD 0 MinHeapNode.null, h2)) := by
  have hlen := hw.len
  have hsz := hw.size_le
  have hcap := hw.cap_le
  unfold extractMin
  have e0 : h.read 0 = Except.ok (h.array.getD 0 MinHeapNode.null) := by
    have := read_nat h 0 (by omega)
    simpa using this
  have e1 : (h.size + U32 - 1) % U32 = h.size - 1 := by
    unfold U32; omega
  have e2 : h.write 0 (h.array.getD (h.size - 1) MinHeapNode.null)
      = Except.ok (MinHeap.mk h.size h.capacity
          (h.array.set 0 (h.array.getD (h.size - 1) MinHeapNode.null))) := by
    have := write_nat h 0 (h.array.getD (h.size - 1) MinHeapNode.null) (by omega)
    simpa using this
  rw [e0, e1, bind_ok, read_nat h (h.size - 1) (by omega), bind_ok, e2, bind_ok]
  rfl

theorem root_le_of_ordered (h : MinHeap) (ho : h.Ordered) :
    ∀ i, i < h.size → h.freqAt 0 ≤ h.freqAt i := by
  intro i
  induction i using Nat.strong_induction_on with
  | _ i ih =>
    intro hi
    by_cases h0 : i = 0
    · rw [h0]
    · have h1 := ho i (by omega) hi
      have h2 := ih ((i - 1) / 2) (by omega) (by omega)
      omega

theorem mem_live_iff (h : MinHeap) (hw : h.WF) (p : MinHeapNode) :
    p ∈ h.live ↔ ∃ i, i < h.size ∧ h.array.getD i MinHeapNode.null = p := by
  have hsz := hw.size_le
  have hlen := hw.len
  unfold MinHeap.live
  rw [List.mem_take_iff_getElem]
  constructor
  · rintro ⟨i, hi, rfl⟩
    have hi2 : i < h.size ∧ i < h.array.length := by
      simp only [lt_min_iff] at hi; exact hi
    exact ⟨i, hi2.1, getD_eq_getElem _ _ _ hi2.2⟩
  · rintro ⟨i, hi, rfl⟩
    have hi2 : i < h.array.length := by omega
    exact ⟨i, by simp only [lt_min_iff]; exact ⟨hi, hi2⟩, (getD_eq_getElem _ _ _ hi2).symm⟩

/-- On an ordered heap `extractMin` returns a node of least frequency and
leaves an ordered heap. -/
theorem extractMin_ordered (h : MinHeap) (hw : h.WF) (h1 : 1 ≤ h.size) (ho : h.Ordered)
    (t : MinHeapNode) (g : MinHeap) (he : extractMin h = Except.ok (t, g)) :
    g.Ordered ∧ ∀ p ∈ h.live, t.freqVal ≤ p.freqVal := by
  have hlen := hw.len
  have hsz := hw.size_le
  have hcap := hw.cap_le
  rw [extractMin_eq h hw h1] at he
  cases hm : minHeapify (MinHeap.mk (h.size - 1) h.capacity
      (h.array.set 0 (h.array.getD (h.size - 1) MinHeapNode.null))) 0 with
  | error e => rw [hm] at he; exact Except.noConfusion he
  | ok g1 =>
    rw [hm, bind_ok] at he
    injection he with he
    injection he with ht hg
    subst ht hg
    constructor
    · rw [ordered_iff_from_zero]
      have hperm := head_cons_take_perm h.array MinHeapNode.null h.size h1 (by omega)
      have hw1 : MinHeap.WF (MinHeap.mk (h.size - 1) h.capacity
          (h.array.set 0 (h.array.getD (h.size - 1) MinHeapNode.null))) := by
        refine ⟨by simp [hlen], by simp only; omega, hcap, ?_⟩
        intro p hp
        apply hw.live p
        exact hperm.mem_iff.mp (List.mem_cons_of_mem _ hp)
      have hm2 : minHeapifyAux (h.size - 1 + 1) (MinHeap.mk (h.size - 1) h.capacity
          (h.array.set 0 (h.array.getD (h.size - 1) MinHeapNode.null))) ((0 : Nat) : Int)
          = Except.ok g1 := hm
      apply minHeapifyAux_ordered 0 _ _ 0 g1 hw1 (by omega) ?_ hm2
      constructor
      · intro c hc0 hc _ hp
        have hc' : c < h.size - 1 := hc
        have e1 : ∀ i, i ≠ 0 → (MinHeap.mk (h.size - 1) h.capacity
            (h.array.set 0 (h.array.getD (h.size - 1) MinHeapNode.null))).freqAt i
            = h.freqAt i := by
          intro i hi
          unfold MinHeap.freqAt
          simp only
          rw [getD_set_node _ _ _ _ (by omega), if_neg hi]
        rw [e1 _ hp, e1 c (by omega)]
        exact ho c hc0 (by omega)
      · intro c _ _ _ hj; omega
    · intro p hp
      obtain ⟨i, hi, rfl⟩ := (mem_live_iff h hw p).mp hp
      exact root_le_of_ordered h ho i hi

/-- One test of the loop of `insertMinHeap` at a slot `i > 0` whose parent
holds a node. -/
theorem insertLoop_eq (fuel : Nat) (h : MinHeap) (p : MinHeapNode) (i : Nat)
    (hp : p ≠ MinHeapNode.null) (hi0 : 0 < i) (hi : i < h.array.length)
    (hmax : i ≤ 2147483647)
    (hpar : h.array.getD ((i - 1) / 2) MinHeapNode.null ≠ MinHeapNode.null) :
    insertLoop (fuel + 1) h p (i : Int)
      = if p.freqVal < h.freqAt ((i - 1) / 2) then
          insertLoop fuel (MinHeap.mk h.size h.capacity
            (h.array.set i (h.array.getD ((i - 1) / 2) MinHeapNode.null))) p
            (((i - 1) / 2 : Nat) : Int)
        else Except.ok (h, (i : Int)) := by
  rw [insertLoop]
  have hne : (i : Int) ≠ 0 := by omega
  rw [if_pos hne, getFreq_eq_freqVal hp, bind_ok, tdiv_parent i (by omega) hmax,
    read_nat h ((i - 1) / 2) (by omega), bind_ok, getFreq_eq_freqVal hpar, bind_ok]
  unfold MinHeap.freqAt
  by_cases hlt : p.freqVal < (h.array.getD ((i - 1) / 2) MinHeapNode.null).freqVal
  · rw [if_pos hlt, if_pos hlt, write_nat h i _ hi, bind_ok]
  · rw [if_neg hlt, if_neg hlt]
    rfl

theorem insertLoop_zero (fuel : Nat) (h : MinHeap) (p : MinHeapNode) :
    insertLoop (fuel + 1) h p ((0 : Nat) : Int) = Except.ok (h, ((0 : Nat) : Int)) := by
  rw [insertLoop]
  simp

/-- The loop of `insertMinHeap` keeps the order around the free slot. -/
theorem insertLoop_ordered (p : MinHeapNode) (hp : p ≠ MinHeapNode.null) :
    ∀ (fuel : Nat) (h : MinHeap) (i : Nat) (g : MinHeap) (j : Nat),
      i < h.size → h.size ≤ h.array.length → h.array.length ≤ 2147483647 →
      (∀ k, k < i → h.array.getD k MinHeapNode.null ≠ MinHeapNode.null) →
      h.UpInv i p.freqVal →
      insertLoop fuel h p (i : Int) = Except.ok (g, (j : Int)) →
      g.size = h.size ∧ g.UpInv j p.freqVal
        ∧ (0 < j → g.freqAt ((j - 1) / 2) ≤ p.freqVal) := by
  intro fuel
  induction fuel with
  | zero =>
    intro h i g j _ _ _ _ _ he
    rw [insertLoop] at he
    exact Except.noConfusion he
  | succ fuel ih =>
    intro h i g j hi hsz hmax hlive hinv he
    by_cases hi0 : i = 0
    · subst hi0
      rw [insertLoop_zero] at he
      injection he with he
      injection he with hg hj
      have hj0 : j = 0 := by omega
      subst hg hj0
      exact ⟨rfl, hinv, fun hx => absurd hx (Nat.lt_irrefl 0)⟩
    · rw [insertLoop_eq fuel h p i hp (by omega) (by omega) (by omega)
        (hlive _ (by omega))] at he
      by_cases hlt : p.freqVal < h.freqAt ((i - 1) / 2)
      · rw [if_pos hlt] at he
        have hfa : ∀ c, (MinHeap.mk h.size h.capacity
            (h.array.set i (h.array.getD ((i - 1) / 2) MinHeapNode.null))).freqAt c
            = if c = i then h.freqAt ((i - 1) / 2) else h.freqAt c := by
          intro c
          unfold MinHeap.freqAt
          simp only
          rw [getD_set_node _ _ _ _ (by omega)]
          by_cases e : c = i
          · rw [if_pos e, if_pos e]
          · rw [if_neg e, if_neg e]
        obtain ⟨inv1, inv2⟩ := hinv
        have := ih _ ((i - 1) / 2) g j (by simp only; omega)
          (by simp only [List.length_set]; omega) (by simp only [List.length_set]; omega)
          (by
            intro k hk
            simp only
            rw [getD_set_node _ _ _ _ (by omega), if_neg (by omega)]
            exact hlive k (by omega))
          (by
            constructor
            · intro c hc0 hc hcq hpq
              have hc' : c < h.size := hc
              rw [hfa, hfa]
              have e1 : ¬ c = i := by
                intro e; apply hpq; rw [e]
              rw [if_neg e1]
              by_cases e2 : (c - 1) / 2 = i
              · rw [if_pos e2]
                exact (inv2 c hc0 hc' e2).2 (by omega)
              · rw [if_neg e2]
                exact inv1 c hc0 hc' e1 e2
            · intro c hc0 hc hpq
              have hc' : c < h.size := hc
              rw [hfa, hfa]
              have e0 : ¬ (((i - 1) / 2 - 1) / 2 = i) := by omega
              rw [if_neg e0]
              by_cases e1 : c = i
              · rw [if_pos e1]
                refine ⟨by omega, fun hq => ?_⟩
                exact inv1 ((i - 1) / 2) hq (by omega) (by omega) (by omega)
              · rw [if_neg e1]
                have h3 := inv1 c hc0 hc' e1 (by omega)
                rw [hpq] at h3
                refine ⟨by omega, fun hq => ?_⟩
                have h4 := inv1 ((i - 1) / 2) hq (by omega) (by omega) (by omega)
                omega)
          he
        exact this
      · rw [if_neg hlt] at he
        injection he with he
        injection he with hg hj
        have hji : j = i := by omega
        subst hg hji
        exact ⟨rfl, hinv, fun _ => by omega⟩

theorem insertMinHeap_eq (h : MinHeap) (hw : h.WF) (p : MinHeapNode)
    (hs : h.size < h.capacity) :
    insertMinHeap h p = (insertLoop (h.size + 1 + 1) (MinHeap.mk (h.size + 1) h.capacity h.array)
        p ((h.size : Nat) : Int) >>= fun r => r.1.write r.2 p) := by
  have hcap := hw.cap_le
  unfold insertMinHeap
  have e1 : (h.size + 1) % U32 = h.size + 1 := by unfold U32; omega
  have e2 : toInt32 (((h.size + 1 + U32 - 1) % U32 : Nat) : Int) = ((h.size : Nat) : Int) := by
    have : (h.size + 1 + U32 - 1) % U32 = h.size := by unfold U32; omega
    rw [this, toInt32_small (by omega) (by omega)]
  simp only [e1, e2]

/-- `insertMinHeap` on an ordered heap with a free slot leaves an ordered
heap. -/
theorem insertMinHeap_ordered (h : MinHeap) (hw : h.WF) (p : MinHeapNode)
    (hp : p ≠ MinHeapNode.null) (hs : h.size < h.capacity) (ho : h.Ordered)
    (g : MinHeap) (he : insertMinHeap h p = Except.ok g) : g.Ordered := by
  have hlen := hw.len
  have hcap := hw.cap_le
  rw [insertMinHeap_eq h hw p hs] at he
  obtain ⟨g1, j, hg, hj, hgs, hgc, hgl, _⟩ := insertLoop_spec p hp (h.size + 1) (h.size + 1 + 1)
    (MinHeap.mk (h.size + 1) h.capacity h.array) h.size (by omega) (by omega)
    (by simp only; omega) (by omega) (fun k hk => hw.getD_ne_null hk)
  have hinv0 : (MinHeap.mk (h.size + 1) h.capacity h.array).UpInv h.size p.freqVal := by
    constructor
    · intro c hc0 hc hcs _
      have hc' : c < h.size + 1 := hc
      exact ho c hc0 (by omega)
    · intro c hc0 hc hpc
      have hc' : c < h.size + 1 := hc
      omega
  obtain ⟨_, ⟨inv1, inv2⟩, hpar⟩ := insertLoop_ordered p hp _
    (MinHeap.mk (h.size + 1) h.capacity h.array) h.size g1 j (by simp only; omega)
    (by simp only; omega) (by simp only; omega) (fun k hk => hw.getD_ne_null hk) hinv0 hg
  rw [hg, bind_ok] at he
  simp only at hgs hgl he
  rw [write_nat g1 j p (by omega)] at he
  injection he with he
  subst he
  have hfa : ∀ c, (MinHeap.mk g1.size g1.capacity (g1.array.set j p)).freqAt c
      = if c = j then p.freqVal else g1.freqAt c := by
    intro c
    unfold MinHeap.freqAt
    simp only
    rw [getD_set_node _ _ _ _ (by omega)]
    by_cases e : c = j
    · rw [if_pos e, if_pos e]
    · rw [if_neg e, if_neg e]
  intro c hc0 hc
  have hc' : c < g1.size := hc
  rw [hfa, hfa]
  by_cases e1 : c = j
  · have e2 : ¬ (c - 1) / 2 = j := by omega
    rw [if_pos e1, if_neg e2, e1]
    exact hpar (by omega)
  · rw [if_neg e1]
    by_cases e2 : (c - 1) / 2 = j
    · rw [if_pos e2]
      exact (inv2 c hc0 hc' e2).1
    · rw [if_neg e2]
      exact inv1 c hc0 hc' e1 e2

/-! ## The merge loop of `buildHuffmanTree` -/

theorem getFreq_ok_eq {p : MinHeapNode} {f : Nat} (h : p.getFreq = Except.ok f) :
    f = p.freqVal ∧ p ≠ MinHeapNode.null := by
  cases p with
  | null => exact Except.noConfusion h
  | node d f1 l r =>
    have : f1 = f := by injection h
    exact ⟨this.symm, by simp⟩

/-- What one pass through the body of the merge loop does to the heap. -/
theorem merge_step_facts (h h1 h2 h3 : MinHeap) (l r : MinHeapNode) (fl fr : Nat)
    (hw : h.WF) (hs : 2 ≤ h.size)
    (e1 : extractMin h = Except.ok (l, h1)) (e2 : extractMin h1 = Except.ok (r, h2))
    (e3 : l.getFreq = Except.ok fl) (e4 : r.getFreq = Except.ok fr)
    (e5 : insertMinHeap h2 (MinHeapNode.node 36 ((fl + fr) % U32) l r) = Except.ok h3) :
    h1.WF ∧ h2.WF ∧ h3.WF ∧ h1.size = h.size - 1 ∧ h2.size = h.size - 2
      ∧ h3.size = h.size - 1 ∧ h2.size < h2.capacity
      ∧ (l :: h1.live).Perm h.live ∧ (r :: h2.live).Perm h1.live
      ∧ h3.live.Perm (MinHeapNode.node 36 ((fl + fr) % U32) l r :: h2.live)
      ∧ fl = l.freqVal ∧ fr = r.freqVal := by
  obtain ⟨l', h1', e1', hw1, hs1, hc1, _, hp1⟩ := extractMin_spec h hw (by omega)
  rw [e1] at e1'
  have q1 : l = l' ∧ h1 = h1' := by
    have : (l, h1) = (l', h1') := by injection e1'
    exact ⟨congrArg Prod.fst this, congrArg Prod.snd this⟩
  obtain ⟨rfl, rfl⟩ := q1
  obtain ⟨r', h2', e2', hw2, hs2, hc2, _, hp2⟩ := extractMin_spec h1 hw1 (by omega)
  rw [e2] at e2'
  have q2 : r = r' ∧ h2 = h2' := by
    have : (r, h2) = (r', h2') := by injection e2'
    exact ⟨congrArg Prod.fst this, congrArg Prod.snd this⟩
  obtain ⟨rfl, rfl⟩ := q2
  have hsz := hw.size_le
  obtain ⟨h3', e5', hw3, hs3, hc3, hp3⟩ := insertMinHeap_spec h2 hw2
    (MinHeapNode.node 36 ((fl + fr) % U32) l r) (by simp) (by omega)
  rw [e5] at e5'
  have q3 : h3 = h3' := by injection e5'
  subst q3
  exact ⟨hw1, hw2, hw3, hs1, by omega, by omega, by omega, hp1, hp2, hp3,
    (getFreq_ok_eq e3).1, (getFreq_ok_eq e4).1⟩

/-- A property of heaps that every pass through the body of the merge loop
preserves holds for the heap the loop returns. -/
theorem mergeLoop_inv (I : MinHeap → Prop)
    (hstep : ∀ (h h1 h2 h3 : MinHeap) (l r : MinHeapNode) (fl fr : Nat), I h → h.size ≠ 1 →
      extractMin h = Except.ok (l, h1) → extractMin h1 = Except.ok (r, h2) →
      l.getFreq = Except.ok fl → r.getFreq = Except.ok fr →
      insertMinHeap h2 (MinHeapNode.node 36 ((fl + fr) % U32) l r) = Except.ok h3 → I h3) :
    ∀ (fuel : Nat) (h g : MinHeap), I h → mergeLoop fuel h = Except.ok g → I g := by
  intro fuel
  induction fuel with
  | zero =>
    intro h g _ he
    rw [mergeLoop] at he
    exact Except.noConfusion he
  | succ fuel ih =>
    intro h g hI he
    rw [mergeLoop] at he
    by_cases hs : h.size = 1
    · rw [if_neg (by simpa using hs)] at he
      have : h = g := by injection he
      rw [← this]; exact hI
    · rw [if_pos hs] at he
      cases e1 : extractMin h with
      | error e => rw [e1] at he; exact Except.noConfusion he
      | ok p1 =>
        obtain ⟨l, h1⟩ := p1
        rw [e1] at he
        simp only [bind_ok] at he
        cases e2 : extractMin h1 with
        | error e => rw [e2] at he; exact Except.noConfusion he
        | ok p2 =>
          obtain ⟨r, h2⟩ := p2
          rw [e2] at he
          simp only [bind_ok] at he
          cases e3 : l.getFreq with
          | error e => rw [e3] at he; exact Except.noConfusion he
          | ok fl =>
            rw [e3, bind_ok] at he
            cases e4 : r.getFreq with
            | error e => rw [e4] at he; exact Except.noConfusion he
            | ok fr =>
              rw [e4, bind_ok] at he
              cases e5 : insertMinHeap h2 (MinHeapNode.node 36 ((fl + fr) % U32) l r) with
              | error e => rw [e5] at he; exact Except.noConfusion he
              | ok h3 =>
                rw [e5, bind_ok] at he
                exact ih h3 g (hstep h h1 h2 h3 l r fl fr hI hs e1 e2 e3 e4 e5) he

/-- The heap at the first test of the merge loop: the seeded leaves, in heap
order. -/
theorem seeded_heap (freq : List Nat) (unique_chars : Int)
    (h2 : 2 ≤ (nonzeroSymbols freq).length)
    (hcap : (nonzeroSymbols freq).length ≤ toUInt32 unique_chars)
    (hmax : toUInt32 unique_chars ≤ 2147483647) :
    ∃ g1 g2, seedLoop freq (List.range 256) (createMinHeap (toUInt32 unique_chars))
        = Except.ok g1
      ∧ buildHeapLoop (((g1.size + U32 - 2) % U32) / 2) g1 = Except.ok g2
      ∧ g2.WF ∧ g2.size = (nonzeroSymbols freq).length ∧ g2.Ordered
      ∧ g2.live.Perm ((nonzeroSymbols freq).map (fun i => newNode i (freq.getD i 0))) := by
  have hw0 : (createMinHeap (toUInt32 unique_chars)).WF :=
    ⟨by simp [createMinHeap], by simp [createMinHeap], hmax, by simp [createMinHeap]⟩
  obtain ⟨h1, e1, hw1, hc1, hs1, hl1⟩ := seedLoop_spec freq (List.range 256) _ hw0
    (by simpa [createMinHeap, nonzeroSymbols] using hcap)
  have hs1' : h1.size = (nonzeroSymbols freq).length := by
    rw [hs1]; simp [createMinHeap, nonzeroSymbols]
  have hl1' : h1.live = (nonzeroSymbols freq).map (fun i => newNode i (freq.getD i 0)) := by
    rw [hl1]; simp [createMinHeap, nonzeroSymbols, MinHeap.live]
  have hsz1 := hw1.size_le
  have hcp1 := hw1.cap_le
  have est : ((h1.size + U32 - 2) % U32) / 2 = (h1.size - 2) / 2 := by
    have : (h1.size + U32 - 2) % U32 = h1.size - 2 := by unfold U32; omega
    rw [this]
  obtain ⟨g2, e2, hw2, hs2, hc2, hp2⟩ := buildHeapLoop_spec ((h1.size - 2) / 2) h1 hw1 (by omega)
  have ho2 : g2.Ordered := buildHeapLoop_ordered ((h1.size - 2) / 2) h1 g2 hw1 (by omega)
    (orderedFrom_of_small h1 _ (by omega)) e2
  refine ⟨h1, g2, e1, by rw [est]; exact e2, hw2, by omega, ho2, ?_⟩
  rw [← hl1']; exact hp2

theorem leftLe_inner (d f : Nat) (l r : MinHeapNode) (h : l.freqVal ≤ r.freqVal)
    (hl : l.LeftLe) (hr : r.LeftLe) : (MinHeapNode.node d f l r).LeftLe := by
  rw [MinHeapNode.LeftLe]
  exact Or.inr ⟨h, hl, hr⟩

theorem leftLe_leaf (d f : Nat) : (newNode d f).LeftLe := by
  rw [newNode, MinHeapNode.LeftLe]
  exact Or.inl rfl

/-- Every heap met at the head of the merge loop is a well-formed, non-empty,
ordered heap of proper trees in which left children are not heavier than
right children. -/
theorem MergeState.ordered (freq : List Nat) (unique_chars : Int)
    (h2 : 2 ≤ (nonzeroSymbols freq).length)
    (hcap : (nonzeroSymbols freq).length ≤ toUInt32 unique_chars)
    (hmax : toUInt32 unique_chars ≤ 2147483647) (h : MinHeap)
    (hm : MergeState freq unique_chars h) :
    h.WF ∧ 1 ≤ h.size ∧ h.Ordered ∧ ∀ t ∈ h.live, t.Proper ∧ t.LeftLe := by
  induction hm with
  | start g1 g2 e1 e2 =>
    obtain ⟨k1, k2, f1, f2, hw, hs, ho, hp⟩ := seeded_heap freq unique_chars h2 hcap hmax
    rw [e1] at f1
    have q1 : g1 = k1 := by injection f1
    subst q1
    rw [e2] at f2
    have q2 : g2 = k2 := by injection f2
    subst q2
    refine ⟨hw, by omega, ho, ?_⟩
    intro t ht
    obtain ⟨i, _, rfl⟩ := List.mem_map.mp (hp.mem_iff.mp ht)
    exact ⟨MinHeapNode.Proper.leaf _ _, leftLe_leaf _ _⟩
  | step h h1 h2 h3 l r fl fr _ hs e1 e2 e3 e4 e5 ih =>
    obtain ⟨hw, hs1, ho, ht⟩ := ih
    obtain ⟨hw1, hw2, hw3, s1, s2, s3, hroom, p1, p2, p3, _, _⟩ :=
      merge_step_facts h h1 h2 h3 l r fl fr hw (by omega) e1 e2 e3 e4 e5
    obtain ⟨ho1, hmin1⟩ := extractMin_ordered h hw hs1 ho l h1 e1
    obtain ⟨ho2, hmin2⟩ := extractMin_ordered h1 hw1 (by omega) ho1 r h2 e2
    have ho3 := insertMinHeap_ordered h2 hw2 _ (by simp) hroom ho2 h3 e5
    have hl_mem : l ∈ h.live := p1.mem_iff.mp (List.mem_cons_self _ _)
    have hr_mem1 : r ∈ h1.live := p2.mem_iff.mp (List.mem_cons_self _ _)
    have hr_mem : r ∈ h.live := p1.mem_iff.mp (List.mem_cons_of_mem _ hr_mem1)
    refine ⟨hw3, by omega, ho3, ?_⟩
    intro t ht3
    rcases List.mem_cons.mp (p3.mem_iff.mp ht3) with rfl | ht2
    · exact ⟨MinHeapNode.Proper.inner _ _ _ _ (ht l hl_mem).1 (ht r hr_mem).1,
        leftLe_inner _ _ _ _ (hmin1 r hr_mem) (ht l hl_mem).2 (ht r hr_mem).2⟩
    · exact ht t (p1.mem_iff.mp (List.mem_cons_of_mem _
        (p2.mem_iff.mp (List.mem_cons_of_mem _ ht2))))

/-- What a run of `buildHuffmanTree` goes through: the heap `g` the merge loop
starts from, the heap `k` it ends with, which holds the returned root alone. -/
theorem buildHuffmanTree_run (freq : List Nat) (unique_chars : Int)
    (h2 : 2 ≤ (nonzeroSymbols freq).length)
    (hcap : (nonzeroSymbols freq).length ≤ toUInt32 unique_chars)
    (hmax : toUInt32 unique_chars ≤ 2147483647) :
    ∃ g k root, MergeState freq unique_chars g ∧ MergeState freq unique_chars k
      ∧ g.live.Perm ((nonzeroSymbols freq).map (fun i => newNode i (freq.getD i 0)))
      ∧ k.live = [root]
      ∧ buildHuffmanTree freq unique_chars = Except.ok root := by
  obtain ⟨g1, g2, e1, e2, hw2, hs2, ho2, hp2⟩ := seeded_heap freq unique_chars h2 hcap hmax
  have hm2 : MergeState freq unique_chars g2 := MergeState.start g1 g2 e1 e2
  have hpr2 : ∀ t ∈ g2.live, t.Proper := fun t ht =>
    ((MergeState.ordered freq unique_chars h2 hcap hmax g2 hm2).2.2.2 t ht).1
  obtain ⟨g3, e3, hw3, hs3, hpr3, hp3⟩ := mergeLoop_spec (g2.size + 1) g2 hw2 (by omega)
    (by omega) hpr2
  have hm3 : MergeState freq unique_chars g3 :=
    mergeLoop_inv (MergeState freq unique_chars)
      (fun h h1 h2 h3 l r fl fr hI hs e1 e2 e3 e4 e5 =>
        MergeState.step h h1 h2 h3 l r fl fr hI hs e1 e2 e3 e4 e5) _ g2 g3 hm2 e3
  obtain ⟨root, g4, e4, _, _, _, _, hp4⟩ := extractMin_spec g3 hw3 (by omega)
  have hmem : root ∈ g3.live := hp4.mem_iff.mp (List.mem_cons_self _ _)
  have hlen : g3.live.length = 1 := by
    unfold MinHeap.live
    have := hw3.len
    have := hw3.size_le
    simp only [List.length_take]; omega
  have hroot : g3.live = [root] := by
    match hg : g3.live, hlen, hmem with
    | [x], _, hm => simp at hm; rw [hm]
  refine ⟨g2, g3, root, hm2, hm3, hp2, hroot, ?_⟩
  unfold buildHuffmanTree
  dsimp only
  rw [e1, bind_ok, e2, bind_ok, e3, bind_ok, e4, bind_ok]
  rfl

/-! ## Frequencies of internal nodes -/

theorem sum_filter_pos (f : Nat → Nat) : ∀ l : List Nat,
    ((l.filter (fun i => 0 < f i)).map f).sum = (l.map f).sum := by
  intro l
  induction l with
  | nil => rfl
  | cons a t ih =>
    by_cases h : 0 < f a
    · rw [List.filter_cons_of_pos (by simpa using h)]
      simp only [List.map_cons, List.sum_cons, ih]
    · rw [List.filter_cons_of_neg (by simpa using h)]
      simp only [List.map_cons, List.sum_cons, ih]
      omega

theorem weight_newNode (d f : Nat) : (newNode d f).weight = f := by
  simp [newNode, MinHeapNode.weight, MinHeapNode.leafPairs, MinHeapNode.isNull]

theorem weight_inner (d f : Nat) (l r : MinHeapNode) (hl : l ≠ MinHeapNode.null) :
    (MinHeapNode.node d f l r).weight = l.weight + r.weight := by
  unfold MinHeapNode.weight
  rw [leafPairs_node_of_ne_null _ _ _ _ hl, List.map_append, List.sum_append]

theorem sumExact_inner (d f : Nat) (l r : MinHeapNode) (h : f = l.freqVal + r.freqVal)
    (hl : l.SumExact) (hr : r.SumExact) : (MinHeapNode.node d f l r).SumExact := by
  rw [MinHeapNode.SumExact]
  exact Or.inr ⟨h, hl, hr⟩

theorem sumExact_leaf (d f : Nat) : (newNode d f).SumExact := by
  rw [newNode, MinHeapNode.SumExact]
  exact Or.inl rfl

/-- When the counts of the table add up to less than `2^32`, every heap met
at the head of the merge loop holds trees whose internal nodes carry exact
sums, and the frequencies of its trees add up to the sum of the table. -/
theorem MergeState.sums (freq : List Nat) (unique_chars : Int)
    (h2 : 2 ≤ (nonzeroSymbols freq).length)
    (hcap : (nonzeroSymbols freq).length ≤ toUInt32 unique_chars)
    (hmax : toUInt32 unique_chars ≤ 2147483647)
    (hsum : ((List.range 256).map (fun i => freq.getD i 0)).sum < U32) (h : MinHeap)
    (hm : MergeState freq unique_chars h) :
    (∀ t ∈ h.live, t.SumExact ∧ t.freqVal = t.weight)
      ∧ (h.live.map MinHeapNode.weight).sum
          = ((List.range 256).map (fun i => freq.getD i 0)).sum := by
  induction hm with
  | start g1 g2 e1 e2 =>
    obtain ⟨k1, k2, f1, f2, hw, hs, ho, hp⟩ := seeded_heap freq unique_chars h2 hcap hmax
    rw [e1] at f1
    have q1 : g1 = k1 := by injection f1
    subst q1
    rw [e2] at f2
    have q2 : g2 = k2 := by injection f2
    subst q2
    constructor
    · intro t ht
      obtain ⟨i, _, rfl⟩ := List.mem_map.mp (hp.mem_iff.mp ht)
      exact ⟨sumExact_leaf _ _, by rw [weight_newNode]; rfl⟩
    · rw [(hp.map MinHeapNode.weight).sum_eq, List.map_map]
      have : (MinHeapNode.weight ∘ fun i => newNode i (freq.getD i 0))
          = fun i => freq.getD i 0 := by
        funext i; exact weight_newNode _ _
      rw [this]
      exact sum_filter_pos (fun i => freq.getD i 0) (List.range 256)
  | step h h1 h2' h3 l r fl fr hm hs e1 e2 e3 e4 e5 ih =>
    obtain ⟨ht, hsm⟩ := ih
    obtain ⟨hw, hs1, _, hpr⟩ := MergeState.ordered freq unique_chars h2 hcap hmax h hm
    obtain ⟨hw1, hw2, hw3, s1, s2, s3, hroom, p1, p2, p3, efl, efr⟩ :=
      merge_step_facts h h1 h2' h3 l r fl fr hw (by omega) e1 e2 e3 e4 e5
    have hl_mem : l ∈ h.live := p1.mem_iff.mp (List.mem_cons_self _ _)
    have hr_mem1 : r ∈ h1.live := p2.mem_iff.mp (List.mem_cons_self _ _)
    have hr_mem : r ∈ h.live := p1.mem_iff.mp (List.mem_cons_of_mem _ hr_mem1)
    have q12 : (l :: r :: h2'.live).Perm h.live := (List.Perm.cons l p2).trans p1
    have hsum12 : l.weight + (r.weight + (h2'.live.map MinHeapNode.weight).sum)
        = ((List.range 256).map (fun i => freq.getD i 0)).sum := by
      rw [← hsm, ← (q12.map MinHeapNode.weight).sum_eq]
      simp only [List.map_cons, List.sum_cons]
    have hlne : l ≠ MinHeapNode.null := Proper.ne_null (hpr l hl_mem).1
    have hno : (fl + fr) % U32 = l.freqVal + r.freqVal := by
      rw [efl, efr]
      apply Nat.mod_eq_of_lt
      rw [(ht l hl_mem).2, (ht r hr_mem).2]
      omega
    constructor
    · intro t ht3
      rcases List.mem_cons.mp (p3.mem_iff.mp ht3) with rfl | ht2
      · refine ⟨sumExact_inner _ _ _ _ hno (ht l hl_mem).1 (ht r hr_mem).1, ?_⟩
        rw [weight_inner _ _ _ _ hlne]
        show (fl + fr) % U32 = _
        rw [hno, (ht l hl_mem).2, (ht r hr_mem).2]
      · exact ht t (p1.mem_iff.mp (List.mem_cons_of_mem _
          (p2.mem_iff.mp (List.mem_cons_of_mem _ ht2))))
    · rw [(p3.map MinHeapNode.weight).sum_eq]
      simp only [List.map_cons, List.sum_cons]
      rw [weight_inner _ _ _ _ hlne, ← hsum12]
      omega

/-! ## Shape of the tree, lengths of the codes, walks along a code -/

theorem internalCount_add_one {t : MinHeapNode} (h : t.Proper) :
    t.internalCount + 1 = t.leaves.length := by
  induction h with
  | leaf d f => simp [MinHeapNode.internalCount, MinHeapNode.leaves, MinHeapNode.leafPairs,
      MinHeapNode.isNull]
  | inner d f l r hl hr ihl ihr =>
    rw [leaves_inner d f l r hl, List.length_append]
    unfold MinHeapNode.internalCount
    rw [isNull_of_proper hl]
    simp only [Bool.false_and, Bool.false_eq_true, if_false]
    omega

theorem codePath_length_le {t : MinHeapNode} (h : t.Proper) :
    ∀ p ∈ t.codePaths, p.2.length ≤ t.height := by
  induction h with
  | leaf d f =>
    intro p hp
    simp [MinHeapNode.codePaths, MinHeapNode.isNull] at hp
    rw [hp]; simp
  | inner d f l r hl hr ihl ihr =>
    intro p hp
    rw [codePaths_inner d f l r hl] at hp
    rw [height_inner d f l r hl]
    rcases List.mem_append.mp hp with hp1 | hp1
    · obtain ⟨q, hq, rfl⟩ := List.mem_map.mp hp1
      have := ihl q hq
      simp only [List.length_cons]
      omega
    · obtain ⟨q, hq, rfl⟩ := List.mem_map.mp hp1
      have := ihr q hq
      simp only [List.length_cons]
      omega

theorem walk_null : ∀ cs : List Char, MinHeapNode.null.walk cs = MinHeapNode.null := by
  intro cs
  cases cs with
  | nil => rfl
  | cons c cs => rfl

theorem walk_nil (t : MinHeapNode) : t.walk [] = t := by
  cases t <;> rfl

theorem walk_append : ∀ (a : List Char) (t : MinHeapNode) (b : List Char),
    t.walk (a ++ b) = (t.walk a).walk b := by
  intro a
  induction a with
  | nil => intro t b; rw [List.nil_append, walk_nil]
  | cons c cs ih =>
    intro t b
    cases t with
    | null => rw [List.cons_append, walk_null, walk_null, walk_null]
    | node d f l r =>
      rw [List.cons_append]
      simp only [MinHeapNode.walk]
      split
      · exact ih r b
      · exact ih l b

theorem walk_cons_false (d f : Nat) (l r : MinHeapNode) (cs : List Char) :
    (MinHeapNode.node d f l r).walk (charOfBit false :: cs) = l.walk cs := by
  simp [MinHeapNode.walk, charOfBit]

theorem walk_cons_true (d f : Nat) (l r : MinHeapNode) (cs : List Char) :
    (MinHeapNode.node d f l r).walk (charOfBit true :: cs) = r.walk cs := by
  simp [MinHeapNode.walk, charOfBit]

/-- Walking a proper tree along the path of one of its leaves ends at that
leaf. -/
theorem walk_codePath {t : MinHeapNode} (h : t.Proper) :
    ∀ p ∈ t.codePaths, ∃ f, (p.1, f) ∈ t.leafPairs
      ∧ t.walk (p.2.map charOfBit) = MinHeapNode.node p.1 f MinHeapNode.null MinHeapNode.null := by
  induction h with
  | leaf d f =>
    intro p hp
    simp [MinHeapNode.codePaths, MinHeapNode.isNull] at hp
    rw [hp]
    exact ⟨f, by simp [MinHeapNode.leafPairs, MinHeapNode.isNull], rfl⟩
  | inner d f l r hl hr ihl ihr =>
    intro p hp
    rw [codePaths_inner d f l r hl] at hp
    rw [leafPairs_node_of_ne_null d f l r (Proper.ne_null hl)]
    rcases List.mem_append.mp hp with hp1 | hp1
    · obtain ⟨q, hq, rfl⟩ := List.mem_map.mp hp1
      obtain ⟨g, hg1, hg2⟩ := ihl q hq
      refine ⟨g, List.mem_append_left _ hg1, ?_⟩
      simp only [List.map_cons]
      rw [walk_cons_false]; exact hg2
    · obtain ⟨q, hq, rfl⟩ := List.mem_map.mp hp1
      obtain ⟨g, hg1, hg2⟩ := ihr q hq
      refine ⟨g, List.mem_append_right _ hg1, ?_⟩
      simp only [List.map_cons]
      rw [walk_cons_true]; exact hg2

/-- A walk in a proper tree that ends at a leaf has followed the path of that
leaf. -/
theorem codePath_of_walk {t : MinHeapNode} (h : t.Proper) :
    ∀ (bits : List Bool) (d f : Nat),
      t.walk (bits.map charOfBit) = MinHeapNode.node d f MinHeapNode.null MinHeapNode.null →
      (d, bits) ∈ t.codePaths := by
  induction h with
  | leaf d0 f0 =>
    intro bits d f hw
    cases bits with
    | nil =>
      have : d0 = d := by
        simp only [List.map_nil, MinHeapNode.walk] at hw
        injection hw
      rw [this]
      simp [MinHeapNode.codePaths, MinHeapNode.isNull]
    | cons b bs =>
      simp only [List.map_cons, MinHeapNode.walk] at hw
      split at hw
      · rw [walk_null] at hw; exact MinHeapNode.noConfusion hw
      · rw [walk_null] at hw; exact MinHeapNode.noConfusion hw
  | inner d0 f0 l r hl hr ihl ihr =>
    intro bits d f hw
    rw [codePaths_inner d0 f0 l r hl]
    cases bits with
    | nil =>
      simp only [List.map_nil, MinHeapNode.walk] at hw
      have : l = MinHeapNode.null := by injection hw
      exact absurd this (Proper.ne_null hl)
    | cons b bs =>
      cases b with
      | false =>
        rw [List.map_cons, walk_cons_false] at hw
        exact List.mem_append_left _ (List.mem_map.mpr ⟨(d, bs), ihl bs d f hw, rfl⟩)
      | true =>
        rw [List.map_cons, walk_cons_true] at hw
        exact List.mem_append_right _ (List.mem_map.mpr ⟨(d, bs), ihr bs d f hw, rfl⟩)

/-- A walk that ends at a leaf has met no leaf before its end. -/
theorem walk_no_leaf_before (t : MinHeapNode) (w q : List Char) (d f : Nat)
    (hw : t.walk w = MinHeapNode.node d f MinHeapNode.null MinHeapNode.null)
    (hq : q <+: w) (hne : q ≠ w) : (t.walk q).isLeaf = false := by
  obtain ⟨b, rfl⟩ := hq
  rw [walk_append] at hw
  cases b with
  | nil => exact absurd (List.append_nil q).symm hne
  | cons c cs =>
    cases hx : t.walk q with
    | null => rfl
    | node d1 f1 l1 r1 =>
      rw [hx] at hw
      simp only [MinHeapNode.walk] at hw
      cases l1 with
      | node d2 f2 l2 r2 => rfl
      | null =>
        cases r1 with
        | node d2 f2 l2 r2 => rfl
        | null =>
          split at hw
          · rw [walk_null] at hw; exact MinHeapNode.noConfusion hw
          · rw [walk_null] at hw; exact MinHeapNode.noConfusion hw

/-- The table `storeCodes` fills from the tree of a frequency table, whatever
the path buffer and the table hold before the call. -/
theorem storeCodes_tree (freq : List Nat) (root : MinHeapNode) (hpr : root.Proper)
    (hleaves : root.leaves.Perm (nonzeroSymbols freq))
    (arr : List Nat) (harr : arr.length = MAX_TREE_HT) (codes0 : CodeTable) :
    ∃ arr1 codes, storeCodes root arr 0 codes0 = Except.ok (arr1, codes)
      ∧ (∀ p ∈ root.codePaths, codes p.1 = p.2.map charOfBit)
      ∧ (∀ c, c ∉ nonzeroSymbols freq → codes c = codes0 c) := by
  have hmod : root.leaves.map (fun d => d % 256) = root.leaves := by
    conv_rhs => rw [← List.map_id root.leaves]
    apply List.map_congr_left
    intro d hd
    have := nonzeroSymbols_lt (hleaves.mem_iff.mp hd)
    simp only [id]
    omega
  have hnd : (root.leaves.map (fun d => d % 256)).Nodup := by
    rw [hmod]
    exact hleaves.nodup_iff.mpr (nonzeroSymbols_nodup freq)
  have hh := height_lt_leaves hpr
  have hl := hleaves.length_eq
  have hle := nonzeroSymbols_length_le freq
  obtain ⟨arr1, codes, e2, _, _, hc, hk⟩ := storeCodes_spec root hpr
    arr 0 codes0 harr (by unfold MAX_TREE_HT; omega) hnd
  refine ⟨arr1, codes, e2, ?_, ?_⟩
  · intro p hp
    have hlt := nonzeroSymbols_lt (hleaves.mem_iff.mp (mem_leaves_of_mem_codePaths hp))
    have := hc p hp
    rw [Nat.mod_eq_of_lt hlt] at this
    simpa using this
  · intro c hc2
    apply hk
    rw [hmod]
    intro hx
    exact hc2 (hleaves.mem_iff.mp hx)

/-! ## The decoding walk on an arbitrary body -/

theorem readLE32_lt (bs : List Byte) : readLE32 bs < U32 := by
  unfold readLE32 U32
  have h0 := (bs.getD 0 0).isLt
  have h1 := (bs.getD 1 0).isLt
  have h2 := (bs.getD 2 0).isLt
  have h3 := (bs.getD 3 0).isLt
  omega

theorem isLeaf_false_of_two {t : MinHeapNode} (h2 : 2 ≤ t.leaves.length) : t.isLeaf = false := by
  cases t with
  | null => rfl
  | node d f l r =>
    cases hx : (MinHeapNode.node d f l r).isLeaf with
    | false => rfl
    | true =>
      have hx2 : (l.isNull && r.isNull) = true := hx
      simp [MinHeapNode.leaves, MinHeapNode.leafPairs, hx2] at h2

/-- From a node with two children the decoding loop never faults, whatever
the bits: it keeps `current` on a node with two children and never counts
more than `total_chars` symbols; every symbol counted is a byte written. -/
theorem decodeBits_safe (root : MinHeapNode) (hroot : root.Proper) (hin : root.isLeaf = false)
    (total : Nat) (htot : total < U32) :
    ∀ (bits : List Bool) (s : DecodeState), s.current.Proper → s.current.isLeaf = false →
      s.chars_written ≤ total →
      ∃ s1, decodeBits root total bits s = Except.ok s1 ∧ s1.current.Proper
        ∧ s1.current.isLeaf = false ∧ s1.chars_written ≤ total
        ∧ s1.out.length + s.chars_written = s.out.length + s1.chars_written := by
  intro bits
  induction bits with
  | nil =>
    intro s hp hl hw
    exact ⟨s, rfl, hp, hl, hw, by omega⟩
  | cons b bs ih =>
    intro s hp hl hw
    obtain ⟨cur, w, out⟩ := s
    rw [decodeBits]
    by_cases hlt : w < total
    · rw [if_pos hlt]
      cases hp with
      | leaf d f => simp [MinHeapNode.isLeaf, MinHeapNode.isNull] at hl
      | inner d f l r hlp hrp =>
        have key : ∀ c : MinHeapNode, c.Proper →
            ∃ s1, afterMove root c (DecodeState.mk (MinHeapNode.node d f l r) w out)
                (decodeBits root total bs) = Except.ok s1 ∧ s1.current.Proper
              ∧ s1.current.isLeaf = false ∧ s1.chars_written ≤ total
              ∧ s1.out.length + w = out.length + s1.chars_written := by
          intro c hc
          cases hc with
          | leaf d1 f1 =>
            rw [afterMove_leaf]
            have e : (w + 1) % U32 = w + 1 := Nat.mod_eq_of_lt (by omega)
            obtain ⟨s1, h1, h2, h3, h4, h5⟩ := ih
              (DecodeState.mk root ((w + 1) % U32) (out ++ [toByte d1])) hroot hin
              (by simp only; omega)
            refine ⟨s1, h1, h2, h3, h4, ?_⟩
            simp only [List.length_append, List.length_singleton] at h5
            omega
          | inner d1 f1 l1 r1 hl1 hr1 =>
            rw [afterMove_inner root d1 f1 l1 r1 hl1]
            have hnl : (MinHeapNode.node d1 f1 l1 r1).isLeaf = false := by
              simp [MinHeapNode.isLeaf, isNull_of_proper hl1]
            exact ih (DecodeState.mk (MinHeapNode.node d1 f1 l1 r1) w out)
              (MinHeapNode.Proper.inner _ _ _ _ hl1 hr1) hnl hw
        cases b with
        | true => exact key r hrp
        | false => exact key l hlp
    · rw [if_neg hlt]
      exact ⟨_, rfl, hp, hl, hw, by omega⟩

theorem proper_inner_children {t : MinHeapNode} (hp : t.Proper) (hl : t.isLeaf = false) :
    ∃ d f l r, t = MinHeapNode.node d f l r ∧ l ≠ MinHeapNode.null ∧ r ≠ MinHeapNode.null := by
  cases hp with
  | leaf d f => simp [MinHeapNode.isLeaf, MinHeapNode.isNull] at hl
  | inner d f l r hlp hrp => exact ⟨d, f, l, r, rfl, Proper.ne_null hlp, Proper.ne_null hrp⟩

/-- The tree `decompressFile` builds from a header with at least two nonzero
counts: a proper tree whose root has two children. -/
theorem header_tree (freq : List Nat) (h2 : 2 ≤ (nonzeroSymbols freq).length) :
    ∃ root, buildHuffmanTree freq (countUnique freq) = Except.ok root ∧ root.Proper
      ∧ root.isLeaf = false
      ∧ root.leafPairs.Perm ((nonzeroSymbols freq).map (fun i => (i, freq.getD i 0))) := by
  have hle := nonzeroSymbols_length_le freq
  have hu : toUInt32 (countUnique freq) = (nonzeroSymbols freq).length := by
    rw [countUnique_eq]
    exact toUInt32_natCast _ (by omega)
  obtain ⟨root, e, hpr, hperm⟩ := buildHuffmanTree_spec freq (countUnique freq) h2
    (by rw [hu]) (by rw [hu]; omega)
  refine ⟨root, e, hpr, isLeaf_false_of_two ?_, hperm⟩
  unfold MinHeapNode.leaves
  rw [List.length_map, hperm.length_eq, List.length_map]
  exact h2

/-! ## Counts add up to the length -/

theorem length_filter_lt_succ (l : List Nat) (n : Nat) :
    (l.filter (fun x => decide (x < n + 1))).length
      = (l.filter (fun x => decide (x < n))).length + l.count n := by
  induction l with
  | nil => rfl
  | cons a t ih =>
    rw [List.count_cons]
    by_cases h1 : a < n
    · rw [List.filter_cons_of_pos (by simpa using (by omega : a < n + 1)),
        List.filter_cons_of_pos (by simpa using h1)]
      have hb : (a == n) = false := by simp; omega
      rw [hb]
      simp only [List.length_cons, ih, Bool.false_eq_true, if_false]
      omega
    · by_cases h2 : a = n
      · subst h2
        rw [List.filter_cons_of_pos (by simp), List.filter_cons_of_neg (by simp)]
        simp only [List.length_cons, ih, beq_self_eq_true, if_true]
        omega
      · rw [List.filter_cons_of_neg (by simpa using (by omega : ¬ a < n + 1)),
          List.filter_cons_of_neg (by simpa using h1)]
        have hb : (a == n) = false := by simpa using h2
        rw [hb]
        simp only [ih, Bool.false_eq_true, if_false]
        omega

theorem sum_count_range (l : List Nat) : ∀ n : Nat,
    ((List.range n).map (fun i => l.count i)).sum
      = (l.filter (fun x => decide (x < n))).length := by
  intro n
  induction n with
  | zero => simp
  | succ n ih =>
    rw [List.range_succ, List.map_append, List.sum_append, ih, length_filter_lt_succ]
    simp

theorem sum_count_vals (S : List Byte) :
    ((List.range 256).map (fun i => (S.map Fin.val).count i)).sum = S.length := by
  rw [sum_count_range]
  rw [List.filter_eq_self.mpr]
  · exact List.length_map _ _
  · intro x hx
    obtain ⟨b, _, rfl⟩ := List.mem_map.mp hx
    simp

/-! # The claims, continued -/

theorem sampleHeap_wf : sampleHeap.WF := ⟨rfl, by decide, by decide, by decide⟩

theorem sampleHeap_ordered : sampleHeap.Ordered := by
  intro i h0 hi
  have hs : sampleHeap.size = 3 := rfl
  have : i = 1 ∨ i = 2 := by omega
  rcases this with rfl | rfl <;> decide

theorem sampleUnordered_wf : sampleUnordered.WF := ⟨rfl, by decide, by decide, by decide⟩

/-- C11: for every input `S` of fewer than `2^32` bytes, after the counting
pass of `compressFile` the table has 256 entries, entry `b` is the number of
occurrences of `b` in `S`, `total_chars` is the length of `S` and the sum of
the 256 entries, and `unique_chars` is the number of nonzero entries (the
number `decompressFile` counts from the table); on the empty input every
entry and the total are 0. -/
theorem frequency_analysis (S : List Byte) (hlen : S.length < 4294967296) :
    (countPass S).freq.length = 256
      ∧ (∀ b : Byte, (countPass S).freq.getD b.val 0 = S.count b)
      ∧ (countPass S).total_chars = S.length
      ∧ ((List.range 256).map (fun i => (countPass S).freq.getD i 0)).sum
          = (countPass S).total_chars
      ∧ (countPass S).unique_chars
          = (((List.range 256).filter (fun i => 0 < (countPass S).freq.getD i 0)).length : Int)
      ∧ (countPass S).unique_chars = countUnique (countPass S).freq
      ∧ countPass [] = Counts.mk (List.replicate 256 0) 0 0 := by
  obtain ⟨h1, h2, h3, h4⟩ := countPass_matches S hlen
  refine ⟨h1, ?_, h3, ?_, h4, ?_, rfl⟩
  · intro b
    rw [h2 b.val]
    exact List.count_map_of_injective S Fin.val Fin.val_injective b
  · rw [h3, ← sum_count_vals S]
    congr 1
    apply List.map_congr_left
    intro i _
    exact h2 i
  · rw [countUnique_eq]; exact h4

/-- C11 on the 14-byte input `"AAAAAABCCCCCCD"`. -/
theorem frequency_analysis_witness :
    (countPass sampleInput).freq.length = 256
      ∧ (∀ b : Byte, (countPass sampleInput).freq.getD b.val 0 = sampleInput.count b)
      ∧ (countPass sampleInput).total_chars = sampleInput.length
      ∧ ((List.range 256).map (fun i => (countPass sampleInput).freq.getD i 0)).sum
          = (countPass sampleInput).total_chars
      ∧ (countPass sampleInput).unique_chars
          = (((List.range 256).filter
              (fun i => 0 < (countPass sampleInput).freq.getD i 0)).length : Int)
      ∧ (countPass sampleInput).unique_chars = countUnique (countPass sampleInput).freq
      ∧ countPass [] = Counts.mk (List.replicate 256 0) 0 0 :=
  frequency_analysis sampleInput (by decide)

/-- C13: for every frequency table with `U ≥ 2` nonzero entries
`buildHuffmanTree` returns one tree in which every node has no child or two
children; its leaves are the symbols with a nonzero frequency, each exactly
once and with its frequency from the table; it has `U` leaves and `U - 1`
nodes with children. -/
theorem tree_shape (freq : List Nat) (h2 : 2 ≤ (nonzeroSymbols freq).length) :
    ∃ root, buildHuffmanTree freq (countUnique freq) = Except.ok root
      ∧ root.Proper
      ∧ root.leafPairs.Perm ((nonzeroSymbols freq).map (fun i => (i, freq.getD i 0)))
      ∧ (∀ c, c ∈ root.leaves ↔ (c < 256 ∧ 0 < freq.getD c 0))
      ∧ root.leaves.Nodup
      ∧ (∀ c f, (c, f) ∈ root.leafPairs → f = freq.getD c 0)
      ∧ root.leaves.length = (nonzeroSymbols freq).length
      ∧ root.internalCount + 1 = (nonzeroSymbols freq).length := by
  obtain ⟨root, e, hpr, _, hperm⟩ := header_tree freq h2
  have hleaves : root.leaves.Perm (nonzeroSymbols freq) := by
    unfold MinHeapNode.leaves
    have := hperm.map Prod.fst
    simpa [Function.comp_def] using this
  refine ⟨root, e, hpr, hperm, ?_, hleaves.nodup_iff.mpr (nonzeroSymbols_nodup freq), ?_,
    hleaves.length_eq, ?_⟩
  · intro c
    rw [hleaves.mem_iff]
    exact ⟨fun h => ⟨nonzeroSymbols_lt h, nonzeroSymbols_pos h⟩,
      fun h => mem_nonzeroSymbols h.1 h.2⟩
  · intro c f hcf
    obtain ⟨i, _, hi⟩ := List.mem_map.mp (hperm.mem_iff.mp hcf)
    have h1 : i = c := congrArg Prod.fst hi
    have h2 : freq.getD i 0 = f := congrArg Prod.snd hi
    rw [← h2, h1]
  · rw [internalCount_add_one hpr, hleaves.length_eq]

/-- C13 on the table of `'A'` 500, `'B'` 250, `'C'` 250. -/
theorem tree_shape_witness :
    ∃ root, buildHuffmanTree sampleFreq (countUnique sampleFreq) = Except.ok root
      ∧ root.Proper
      ∧ root.leafPairs.Perm
          ((nonzeroSymbols sampleFreq).map (fun i => (i, sampleFreq.getD i 0)))
      ∧ (∀ c, c ∈ root.leaves ↔ (c < 256 ∧ 0 < sampleFreq.getD c 0))
      ∧ root.leaves.Nodup
      ∧ (∀ c f, (c, f) ∈ root.leafPairs → f = sampleFreq.getD c 0)
      ∧ root.leaves.length = (nonzeroSymbols sampleFreq).length
      ∧ root.internalCount + 1 = (nonzeroSymbols sampleFreq).length :=
  tree_shape sampleFreq (by decide)

/-- C14: on every non-empty heap in heap order `extractMin` returns a node of
the heap whose frequency is at most that of every node in the heap, leaves a
heap with one node less, and the nodes left together with the returned one
are the original nodes as a multiset. -/
theorem extractMin_returns_min (h : MinHeap) (hw : h.WF) (h1 : 1 ≤ h.size) (ho : h.Ordered) :
    ∃ t g, extractMin h = Except.ok (t, g)
      ∧ t ∈ h.live ∧ t.getFreq = Except.ok t.freqVal
      ∧ (∀ p ∈ h.live, t.freqVal ≤ p.freqVal)
      ∧ g.size + 1 = h.size
      ∧ (t :: g.live).Perm h.live := by
  obtain ⟨t, g, e, _, hs, _, _, hp⟩ := extractMin_spec h hw h1
  have hmin := (extractMin_ordered h hw h1 ho t g e).2
  have hmem : t ∈ h.live := hp.mem_iff.mp (List.mem_cons_self _ _)
  have hne : t ≠ MinHeapNode.null := hw.live t hmem
  refine ⟨t, g, e, hmem, ?_, hmin, by omega, hp⟩
  cases t with
  | null => exact absurd rfl hne
  | node d f l r => rfl

/-- C14 on a heap of three leaves with frequencies 2, 5 and 3. -/
theorem extractMin_returns_min_witness :
    ∃ t g, extractMin sampleHeap = Except.ok (t, g)
      ∧ t ∈ sampleHeap.live ∧ t.getFreq = Except.ok t.freqVal
      ∧ (∀ p ∈ sampleHeap.live, t.freqVal ≤ p.freqVal)
      ∧ g.size + 1 = sampleHeap.size
      ∧ (t :: g.live).Perm sampleHeap.live :=
  extractMin_returns_min sampleHeap sampleHeap_wf (by decide) sampleHeap_ordered

/-- C18: on every heap `h` of at least two nodes the build-heap loop of
`buildHuffmanTree`, started at index `(size - 2) / 2`, ends with the same
nodes in heap order; on every heap `k` in heap order, `insertMinHeap` of a
node (the heap having a free slot) gives a heap in heap order, and
`extractMin` (the heap being non-empty) leaves a heap in heap order. -/
theorem heap_order (h : MinHeap) (hw : h.WF) (h2 : 2 ≤ h.size)
    (k : MinHeap) (kw : k.WF) (ko : k.Ordered) (p : MinHeapNode) (hp : p ≠ MinHeapNode.null) :
    (∃ g, buildHeapLoop (((h.size + U32 - 2) % U32) / 2) h = Except.ok g
        ∧ g.Ordered ∧ g.size = h.size ∧ g.live.Perm h.live)
      ∧ (k.size < k.capacity →
          ∃ g, insertMinHeap k p = Except.ok g ∧ g.Ordered ∧ g.size = k.size + 1
            ∧ g.live.Perm (p :: k.live))
      ∧ (1 ≤ k.size →
          ∃ t g, extractMin k = Except.ok (t, g) ∧ g.Ordered ∧ g.size + 1 = k.size
            ∧ (t :: g.live).Perm k.live) := by
  have hsz := hw.size_le
  have hcp := hw.cap_le
  refine ⟨?_, ?_, ?_⟩
  · have est : ((h.size + U32 - 2) % U32) / 2 = (h.size - 2) / 2 := by
      have : (h.size + U32 - 2) % U32 = h.size - 2 := by unfold U32; omega
      rw [this]
    rw [est]
    obtain ⟨g, e, _, hs, _, hp⟩ := buildHeapLoop_spec ((h.size - 2) / 2) h hw (by omega)
    exact ⟨g, e, buildHeapLoop_ordered ((h.size - 2) / 2) h g hw (by omega)
      (orderedFrom_of_small h _ (by omega)) e, hs, hp⟩
  · intro hs
    obtain ⟨g, e, _, hgs, _, hgp⟩ := insertMinHeap_spec k kw p hp hs
    exact ⟨g, e, insertMinHeap_ordered k kw p hp hs ko g e, hgs, hgp⟩
  · intro h1
    obtain ⟨t, g, e, _, hs, _, _, hp⟩ := extractMin_spec k kw h1
    exact ⟨t, g, e, (extractMin_ordered k kw h1 ko t g e).1, by omega, hp⟩

/-- C18 on a heap of three leaves with frequencies 5, 2 and 3 for the
build-heap loop, and on the ordered heap with frequencies 2, 5 and 3, into
which a leaf of frequency 1 is inserted. -/
theorem heap_order_witness :
    (∃ g, buildHeapLoop (((sampleUnordered.size + U32 - 2) % U32) / 2) sampleUnordered
          = Except.ok g
        ∧ g.Ordered ∧ g.size = sampleUnordered.size ∧ g.live.Perm sampleUnordered.live)
      ∧ (∃ g, insertMinHeap sampleHeap (newNode 68 1) = Except.ok g ∧ g.Ordered
          ∧ g.size = sampleHeap.size + 1 ∧ g.live.Perm (newNode 68 1 :: sampleHeap.live))
      ∧ (∃ t g, extractMin sampleHeap = Except.ok (t, g) ∧ g.Ordered
          ∧ g.size + 1 = sampleHeap.size ∧ (t :: g.live).Perm sampleHeap.live) :=
  have w := heap_order sampleUnordered sampleUnordered_wf (by decide) sampleHeap sampleHeap_wf
    sampleHeap_ordered (newNode 68 1) (by decide)
  ⟨w.1, w.2.1 (by decide), w.2.2 (by decide)⟩

/-- C15: for the tree `buildHuffmanTree` returns on a table with at least two
nonzero entries, `storeCodes(root, arr, 0)` succeeds whatever the path buffer
and the table hold before; for every leaf, reached from the root by a
sequence of left (`'0'`) and right (`'1'`) edges, the row of its symbol is
that sequence; and walking from the root along the row of a symbol with a
nonzero count ends at the leaf of that symbol, with its frequency, and meets
no leaf before the end. -/
theorem code_assignment (freq : List Nat) (h2 : 2 ≤ (nonzeroSymbols freq).length)
    (arr : List Nat) (harr : arr.length = MAX_TREE_HT) (codes0 : CodeTable) :
    ∃ root arr1 codes, buildHuffmanTree freq (countUnique freq) = Except.ok root
      ∧ storeCodes root arr 0 codes0 = Except.ok (arr1, codes)
      ∧ (∀ (bits : List Bool) (d f : Nat),
          root.walk (bits.map charOfBit)
            = MinHeapNode.node d f MinHeapNode.null MinHeapNode.null →
          codes d = bits.map charOfBit)
      ∧ (∀ c, c < 256 → 0 < freq.getD c 0 →
          root.walk (codes c)
            = MinHeapNode.node c (freq.getD c 0) MinHeapNode.null MinHeapNode.null
          ∧ ∀ q, q <+: codes c → q ≠ codes c → (root.walk q).isLeaf = false) := by
  obtain ⟨root, e, hpr, _, hperm⟩ := header_tree freq h2
  have hleaves : root.leaves.Perm (nonzeroSymbols freq) := by
    unfold MinHeapNode.leaves
    have := hperm.map Prod.fst
    simpa [Function.comp_def] using this
  obtain ⟨arr1, codes, e2, hc, _⟩ := storeCodes_tree freq root hpr hleaves arr harr codes0
  refine ⟨root, arr1, codes, e, e2, ?_, ?_⟩
  · intro bits d f hw
    exact hc (d, bits) (codePath_of_walk hpr bits d f hw)
  · intro c hc1 hc2
    have hmem : c ∈ root.leaves := hleaves.mem_iff.mpr (mem_nonzeroSymbols hc1 hc2)
    obtain ⟨bs, hbs⟩ := exists_codePath hmem
    obtain ⟨f, hf1, hf2⟩ := walk_codePath hpr (c, bs) hbs
    have hcode : codes c = bs.map charOfBit := hc (c, bs) hbs
    have hfreq : f = freq.getD c 0 := by
      obtain ⟨i, _, hi⟩ := List.mem_map.mp (hperm.mem_iff.mp hf1)
      have h1 : i = c := congrArg Prod.fst hi
      have h2 : freq.getD i 0 = f := congrArg Prod.snd hi
      rw [← h2, h1]
    rw [hcode, ← hfreq]
    exact ⟨hf2, fun q hq hne => walk_no_leaf_before root _ q c f hf2 hq hne⟩

/-- C15 on the table of `'A'` 500, `'B'` 250, `'C'` 250, with a path buffer
of zeros and an empty table. -/
theorem code_assignment_witness :
    ∃ root arr1 codes, buildHuffmanTree sampleFreq (countUnique sampleFreq) = Except.ok root
      ∧ storeCodes root (List.replicate 256 0) 0 (fun _ => []) = Except.ok (arr1, codes)
      ∧ (∀ (bits : List Bool) (d f : Nat),
          root.walk (bits.map charOfBit)
            = MinHeapNode.node d f MinHeapNode.null MinHeapNode.null →
          codes d = bits.map charOfBit)
      ∧ (∀ c, c < 256 → 0 < sampleFreq.getD c 0 →
          root.walk (codes c)
            = MinHeapNode.node c (sampleFreq.getD c 0) MinHeapNode.null MinHeapNode.null
          ∧ ∀ q, q <+: codes c → q ≠ codes c → (root.walk q).isLeaf = false) :=
  code_assignment sampleFreq (by decide) (List.replicate 256 0) (by decide) (fun _ => [])

/-- C16: for every frequency table with at least two nonzero entries whose
256 counts add up to less than `2^32`, in the tree `buildHuffmanTree` returns
every node with children carries exactly the sum of the frequencies of its
two children, and the root carries the sum of the 256 counts. -/
theorem frequency_sums (freq : List Nat) (h2 : 2 ≤ (nonzeroSymbols freq).length)
    (hsum : ((List.range 256).map (fun i => freq.getD i 0)).sum < 4294967296) :
    ∃ root, buildHuffmanTree freq (countUnique freq) = Except.ok root
      ∧ root.SumExact
      ∧ root.getFreq = Except.ok (((List.range 256).map (fun i => freq.getD i 0)).sum) := by
  have hle := nonzeroSymbols_length_le freq
  have hu : toUInt32 (countUnique freq) = (nonzeroSymbols freq).length := by
    rw [countUnique_eq]
    exact toUInt32_natCast _ (by omega)
  obtain ⟨g, k, root, _, hk, _, hroot, e⟩ := buildHuffmanTree_run freq (countUnique freq) h2
    (by rw [hu]) (by rw [hu]; omega)
  obtain ⟨ht, hs⟩ := MergeState.sums freq (countUnique freq) h2 (by rw [hu])
    (by rw [hu]; omega) hsum k hk
  obtain ⟨_, _, _, hpr⟩ := MergeState.ordered freq (countUnique freq) h2 (by rw [hu])
    (by rw [hu]; omega) k hk
  have hmem : root ∈ k.live := by rw [hroot]; exact List.mem_singleton_self _
  refine ⟨root, e, (ht root hmem).1, ?_⟩
  rw [hroot] at hs
  simp only [List.map_cons, List.map_nil, List.sum_cons, List.sum_nil, Nat.add_zero] at hs
  rw [← hs, ← (ht root hmem).2]
  have hne := Proper.ne_null (hpr root hmem).1
  cases root with
  | null => exact absurd rfl hne
  | node d f l r => rfl

/-- C16 on the table of `'A'` 500, `'B'` 250, `'C'` 250, whose counts add up
to 1000. -/
theorem frequency_sums_witness :
    ∃ root, buildHuffmanTree sampleFreq (countUnique sampleFreq) = Except.ok root
      ∧ root.SumExact
      ∧ root.getFreq
          = Except.ok (((List.range 256).map (fun i => sampleFreq.getD i 0)).sum) :=
  frequency_sums sampleFreq (by decide) (by decide)

/-- C17: in every pass through the merge loop of `buildHuffmanTree`, on a
table with at least two nonzero entries, the first node taken is not heavier
than any node then in the heap, the second is not heavier than any node then
left, so that the left child of the node created is not heavier than its
right child and the right child is not heavier than any node that stays in
the heap; the loop starts from the heap `g` of the seeded leaves and ends
with a heap `k` holding the returned root alone; and in the returned tree
every node with children has a left child not heavier than its right child. -/
theorem two_smallest_merged (freq : List Nat) (h2 : 2 ≤ (nonzeroSymbols freq).length) :
    (∀ h, MergeState freq (countUnique freq) h → h.size ≠ 1 →
        ∃ l k1 r k2 k3, extractMin h = Except.ok (l, k1) ∧ extractMin k1 = Except.ok (r, k2)
          ∧ l.getFreq = Except.ok l.freqVal ∧ r.getFreq = Except.ok r.freqVal
          ∧ insertMinHeap k2 (MinHeapNode.node 36 ((l.freqVal + r.freqVal) % U32) l r)
              = Except.ok k3
          ∧ MergeState freq (countUnique freq) k3
          ∧ (l :: r :: k2.live).Perm h.live
          ∧ (∀ p ∈ h.live, l.freqVal ≤ p.freqVal)
          ∧ l.freqVal ≤ r.freqVal
          ∧ (∀ p ∈ k2.live, r.freqVal ≤ p.freqVal))
      ∧ ∃ g k root, MergeState freq (countUnique freq) g
          ∧ g.live.Perm ((nonzeroSymbols freq).map (fun i => newNode i (freq.getD i 0)))
          ∧ MergeState freq (countUnique freq) k ∧ k.live = [root]
          ∧ buildHuffmanTree freq (countUnique freq) = Except.ok root
          ∧ root.LeftLe := by
  have hle := nonzeroSymbols_length_le freq
  have hu : toUInt32 (countUnique freq) = (nonzeroSymbols freq).length := by
    rw [countUnique_eq]
    exact toUInt32_natCast _ (by omega)
  have hcap : (nonzeroSymbols freq).length ≤ toUInt32 (countUnique freq) := by rw [hu]
  have hmax : toUInt32 (countUnique freq) ≤ 2147483647 := by rw [hu]; omega
  constructor
  · intro h hm hs
    obtain ⟨hw, hs1, ho, ht⟩ := MergeState.ordered freq _ h2 hcap hmax h hm
    obtain ⟨l, k1, e1, hw1, s1, c1, _, p1⟩ := extractMin_spec h hw hs1
    obtain ⟨r, k2, e2, hw2, s2, c2, _, p2⟩ := extractMin_spec k1 hw1 (by omega)
    have hl_mem : l ∈ h.live := p1.mem_iff.mp (List.mem_cons_self _ _)
    have hr_mem1 : r ∈ k1.live := p2.mem_iff.mp (List.mem_cons_self _ _)
    have hr_mem : r ∈ h.live := p1.mem_iff.mp (List.mem_cons_of_mem _ hr_mem1)
    have e3 : l.getFreq = Except.ok l.freqVal := by
      have hne := hw.live l hl_mem
      cases l with
      | null => exact absurd rfl hne
      | node d f a b => rfl
    have e4 : r.getFreq = Except.ok r.freqVal := by
      have hne := hw.live r hr_mem
      cases r with
      | null => exact absurd rfl hne
      | node d f a b => rfl
    have hsz := hw.size_le
    obtain ⟨k3, e5, _, _, _, _⟩ := insertMinHeap_spec k2 hw2
      (MinHeapNode.node 36 ((l.freqVal + r.freqVal) % U32) l r) (by simp) (by omega)
    obtain ⟨ho1, hmin1⟩ := extractMin_ordered h hw hs1 ho l k1 e1
    obtain ⟨_, hmin2⟩ := extractMin_ordered k1 hw1 (by omega) ho1 r k2 e2
    refine ⟨l, k1, r, k2, k3, e1, e2, e3, e4, e5,
      MergeState.step h k1 k2 k3 l r _ _ hm hs e1 e2 e3 e4 e5,
      (List.Perm.cons l p2).trans p1, hmin1, hmin1 r hr_mem, ?_⟩
    intro p hp
    exact hmin2 p (p2.mem_iff.mp (List.mem_cons_of_mem _ hp))
  · obtain ⟨g, k, root, hg, hk, hp, hroot, e⟩ := buildHuffmanTree_run freq _ h2 hcap hmax
    obtain ⟨_, _, _, ht⟩ := MergeState.ordered freq _ h2 hcap hmax k hk
    have hmem : root ∈ k.live := by rw [hroot]; exact List.mem_singleton_self _
    exact ⟨g, k, root, hg, hp, hk, hroot, e, (ht root hmem).2⟩

/-- C17 on the table of `'A'` 500, `'B'` 250, `'C'` 250. -/
theorem two_smallest_merged_witness :
    (∀ h, MergeState sampleFreq (countUnique sampleFreq) h → h.size ≠ 1 →
        ∃ l k1 r k2 k3, extractMin h = Except.ok (l, k1) ∧ extractMin k1 = Except.ok (r, k2)
          ∧ l.getFreq = Except.ok l.freqVal ∧ r.getFreq = Except.ok r.freqVal
          ∧ insertMinHeap k2 (MinHeapNode.node 36 ((l.freqVal + r.freqVal) % U32) l r)
              = Except.ok k3
          ∧ MergeState sampleFreq (countUnique sampleFreq) k3
          ∧ (l :: r :: k2.live).Perm h.live
          ∧ (∀ p ∈ h.live, l.freqVal ≤ p.freqVal)
          ∧ l.freqVal ≤ r.freqVal
          ∧ (∀ p ∈ k2.live, r.freqVal ≤ p.freqVal))
      ∧ ∃ g k root, MergeState sampleFreq (countUnique sampleFreq) g
          ∧ g.live.Perm
              ((nonzeroSymbols sampleFreq).map (fun i => newNode i (sampleFreq.getD i 0)))
          ∧ MergeState sampleFreq (countUnique sampleFreq) k ∧ k.live = [root]
          ∧ buildHuffmanTree sampleFreq (countUnique sampleFreq) = Except.ok root
          ∧ root.LeftLe :=
  two_smallest_merged sampleFreq (by decide)

/-- C19: for every frequency table with `U ≥ 2` nonzero entries (`U` is at
most 256) and whatever the path buffer and the table hold before,
`storeCodes(root, arr, 0)` on the tree of `buildHuffmanTree` runs without an
access outside `arr` or a row, and the code of every symbol with a nonzero
count has between 1 and `U - 1` characters, hence at most 255, so that its
terminating NUL is at an index below 256. -/
theorem code_length_bound (freq : List Nat) (h2 : 2 ≤ (nonzeroSymbols freq).length)
    (arr : List Nat) (harr : arr.length = MAX_TREE_HT) (codes0 : CodeTable) :
    (nonzeroSymbols freq).length ≤ 256
      ∧ ∃ root arr1 codes, buildHuffmanTree freq (countUnique freq) = Except.ok root
        ∧ storeCodes root arr 0 codes0 = Except.ok (arr1, codes)
        ∧ ∀ c, c < 256 → 0 < freq.getD c 0 →
          1 ≤ (codes c).length ∧ (codes c).length + 1 ≤ (nonzeroSymbols freq).length
            ∧ (codes c).length + 1 ≤ MAX_TREE_HT := by
  have hle := nonzeroSymbols_length_le freq
  refine ⟨hle, ?_⟩
  obtain ⟨root, e, hpr, _, hperm⟩ := header_tree freq h2
  have hleaves : root.leaves.Perm (nonzeroSymbols freq) := by
    unfold MinHeapNode.leaves
    have := hperm.map Prod.fst
    simpa [Function.comp_def] using this
  obtain ⟨arr1, codes, e2, hc, _⟩ := storeCodes_tree freq root hpr hleaves arr harr codes0
  refine ⟨root, arr1, codes, e, e2, ?_⟩
  intro c hc1 hc2
  have hmem : c ∈ root.leaves := hleaves.mem_iff.mpr (mem_nonzeroSymbols hc1 hc2)
  obtain ⟨bs, hbs⟩ := exists_codePath hmem
  have hcode : codes c = bs.map charOfBit := hc (c, bs) hbs
  have hlen1 : bs.length ≤ root.height := codePath_length_le hpr (c, bs) hbs
  have hh := height_lt_leaves hpr
  have hl := hleaves.length_eq
  have hne : bs ≠ [] := codePaths_ne_nil_of_two hpr (by omega) (c, bs) hbs
  have hpos : 1 ≤ bs.length := by
    cases bs with
    | nil => exact absurd rfl hne
    | cons b t => simp
  rw [hcode, List.length_map]
  unfold MAX_TREE_HT
  omega

/-- C19 on the table of `'A'` 500, `'B'` 250, `'C'` 250, with a path buffer
of zeros and an empty table. -/
theorem code_length_bound_witness :
    (nonzeroSymbols sampleFreq).length ≤ 256
      ∧ ∃ root arr1 codes, buildHuffmanTree sampleFreq (countUnique sampleFreq) = Except.ok root
        ∧ storeCodes root (List.replicate 256 0) 0 (fun _ => []) = Except.ok (arr1, codes)
        ∧ ∀ c, c < 256 → 0 < sampleFreq.getD c 0 →
          1 ≤ (codes c).length ∧ (codes c).length + 1 ≤ (nonzeroSymbols sampleFreq).length
            ∧ (codes c).length + 1 ≤ MAX_TREE_HT :=
  code_length_bound sampleFreq (by decide) (List.replicate 256 0) (by decide) (fun _ => [])

/-- C20: for every header with at least two nonzero counts, every total and
every body, `decompressFile` builds its tree and its decoding loop never
faults: after any number of bits of the body the node `current` has two
children, no more than `total` symbols have been counted and as many bytes
written; the run ends with an output of at most `total` bytes. -/
theorem decoder_safe (freq : List Nat) (total : Nat) (body : List Byte)
    (hlen : freq.length = 256) (hlt : ∀ x ∈ freq, x < 4294967296) (htot : total < 4294967296)
    (h2 : 2 ≤ (nonzeroSymbols freq).length) :
    ∃ root, buildHuffmanTree freq (countUnique freq) = Except.ok root
      ∧ (∀ n, ∃ s, decodeBits root total ((bitsOfBytes body).take n)
            (DecodeState.mk root 0 []) = Except.ok s
          ∧ (∃ d f l r, s.current = MinHeapNode.node d f l r ∧ l ≠ MinHeapNode.null
              ∧ r ≠ MinHeapNode.null)
          ∧ s.out.length = s.chars_written ∧ s.chars_written ≤ total)
      ∧ (∀ k, decodeLoop root total (body.take k) (DecodeState.mk root 0 [])
          = decodeBits root total (bitsOfBytes (body.take k)) (DecodeState.mk root 0 []))
      ∧ ∃ out, decompressFile (writeHeader freq total ++ body) = Except.ok out
          ∧ out.length ≤ total := by
  obtain ⟨root, e, hpr, hin, _⟩ := header_tree freq h2
  have safe : ∀ bits, ∃ s, decodeBits root total bits (DecodeState.mk root 0 []) = Except.ok s
      ∧ (∃ d f l r, s.current = MinHeapNode.node d f l r ∧ l ≠ MinHeapNode.null
          ∧ r ≠ MinHeapNode.null)
      ∧ s.out.length = s.chars_written ∧ s.chars_written ≤ total := by
    intro bits
    obtain ⟨s, h1, h3, h4, h5, h6⟩ := decodeBits_safe root hpr hin total htot bits
      (DecodeState.mk root 0 []) hpr hin (Nat.zero_le _)
    refine ⟨s, h1, proper_inner_children h3 h4, ?_, h5⟩
    simpa using h6
  refine ⟨root, e, fun n => safe _, fun k => decodeLoop_eq root total htot _ _, ?_⟩
  obtain ⟨root1, e1, hd⟩ := decompressFile_spec freq total body hlen hlt htot h2
  rw [← countUnique_eq, e] at e1
  have hr : root = root1 := by injection e1
  subst hr
  obtain ⟨s, hs, _, hs2, hs3⟩ := safe (bitsOfBytes body)
  rw [hd, hs, bind_ok]
  exact ⟨s.out, rfl, by omega⟩

/-- C20 on a header with counts `'A'` 500, `'B'` 250, `'C'` 250 and total 3,
followed by the four bytes `FF 00 13 37`. -/
theorem decoder_safe_witness :
    ∃ root, buildHuffmanTree sampleFreq (countUnique sampleFreq) = Except.ok root
      ∧ (∀ n, ∃ s, decodeBits root 3 ((bitsOfBytes [0xFF, 0x00, 0x13, 0x37]).take n)
            (DecodeState.mk root 0 []) = Except.ok s
          ∧ (∃ d f l r, s.current = MinHeapNode.node d f l r ∧ l ≠ MinHeapNode.null
              ∧ r ≠ MinHeapNode.null)
          ∧ s.out.length = s.chars_written ∧ s.chars_written ≤ 3)
      ∧ (∀ k, decodeLoop root 3 (List.take k [0xFF, 0x00, 0x13, 0x37])
            (DecodeState.mk root 0 [])
          = decodeBits root 3 (bitsOfBytes (List.take k [0xFF, 0x00, 0x13, 0x37]))
            (DecodeState.mk root 0 []))
      ∧ ∃ out, decompressFile (writeHeader sampleFreq 3 ++ [0xFF, 0x00, 0x13, 0x37])
            = Except.ok out
          ∧ out.length ≤ 3 :=
  decoder_safe sampleFreq 3 [0xFF, 0x00, 0x13, 0x37] (by decide) (by decide) (by decide)
    (by decide)

/-- C12, as stated, fails on the code: the input of `2^32` bytes `'A'`
followed by one `'B'` has two distinct byte values, and `compressFile` writes
nothing for it, no header included: the count of `'A'` has wrapped to 0 and
`buildHuffmanTree`, called before the header is written, faults. -/
theorem header_missing_on_wrap :
    (65 : Byte) ∈ wrapInput ∧ (66 : Byte) ∈ wrapInput
      ∧ ∀ out, compressFile wrapInput ≠ Except.ok out := by
  refine ⟨wrapInput_two.1, wrapInput_two.2, ?_⟩
  intro out h
  rw [wrapInput_fault] at h
  exact Except.noConfusion h

/-- C12, amended: for every input `S` of fewer than `2^32` bytes with at
least two distinct byte values, the output of `compressFile` starts with the
1028 bytes of the header: for each `i` below 256 the four bytes at offset
`4 * i` are the count of `i`, least significant byte first, and the four
bytes at offset 1024 are `total_chars` in the same layout; the body, the
packed codes of `S`, starts at offset 1028; and the header read of
`decompressFile` gets the table and the total back. -/
theorem header_format (S : List Byte) (hlen : S.length < 4294967296) (a b : Byte)
    (ha : a ∈ S) (hb : b ∈ S) (hab : a ≠ b) :
    ∃ out codes, compressFile S = Except.ok out
      ∧ buildCodes (countPass S).freq (countPass S).unique_chars = Except.ok codes
      ∧ out.take 1028 = writeHeader (countPass S).freq (countPass S).total_chars
      ∧ (∀ i, i < 256 → (out.drop (4 * i)).take 4 = le32 ((countPass S).freq.getD i 0))
      ∧ (out.drop 1024).take 4 = le32 (countPass S).total_chars
      ∧ (∀ x, le32 x = [toByte x, toByte (x / 256), toByte (x / 256 ^ 2), toByte (x / 256 ^ 3)])
      ∧ 1028 ≤ out.length
      ∧ bitsOfBytes (out.drop 1028) = encodeBits codes S
          ++ List.replicate ((8 - (encodeBits codes S).length % 8) % 8) false
      ∧ readFreq out = (countPass S).freq
      ∧ readLE32 (out.drop 1024) = (countPass S).total_chars := by
  obtain ⟨root, codes, body, hm, _, _, ec, _, _, _, eo, hbits⟩ :=
    compressFile_spec S hlen a b ha hb hab
  have h256 : (countPass S).freq.length = 256 := hm.1
  have hlt := matches_lt _ S hm hlen
  have htot : (countPass S).total_chars < U32 := by rw [hm.2.2.1]; exact hlen
  refine ⟨_, codes, eo, ec, ?_, ?_, ?_, fun x => rfl, ?_, ?_, ?_, ?_⟩
  · exact List.take_left' (writeHeader_length _ _ h256)
  · intro i hi
    unfold writeHeader
    rw [List.append_assoc, drop_flatMap_le32 _ _ _ (by omega)]
    exact List.take_left' (le32_length _)
  · rw [drop_header _ _ _ h256]
    exact List.take_left' (le32_length _)
  · rw [List.length_append, writeHeader_length _ _ h256]; omega
  · rw [drop_header_body _ _ _ h256]; exact hbits
  · exact readFreq_writeHeader _ _ _ h256 hlt
  · rw [drop_header _ _ _ h256, readLE32_le32 _ htot]

/-- C12, amended, on the 14-byte input `"AAAAAABCCCCCCD"`. -/
theorem header_format_witness :
    ∃ out codes, compressFile sampleInput = Except.ok out
      ∧ buildCodes (countPass sampleInput).freq (countPass sampleInput).unique_chars
          = Except.ok codes
      ∧ out.take 1028
          = writeHeader (countPass sampleInput).freq (countPass sampleInput).total_chars
      ∧ (∀ i, i < 256 →
          (out.drop (4 * i)).take 4 = le32 ((countPass sampleInput).freq.getD i 0))
      ∧ (out.drop 1024).take 4 = le32 (countPass sampleInput).total_chars
      ∧ (∀ x, le32 x = [toByte x, toByte (x / 256), toByte (x / 256 ^ 2), toByte (x / 256 ^ 3)])
      ∧ 1028 ≤ out.length
      ∧ bitsOfBytes (out.drop 1028) = encodeBits codes sampleInput
          ++ List.replicate ((8 - (encodeBits codes sampleInput).length % 8) % 8) false
      ∧ readFreq out = (countPass sampleInput).freq
      ∧ readLE32 (out.drop 1024) = (countPass sampleInput).total_chars :=
  header_format sampleInput (by decide) 65 66 (by decide) (by decide) (by decide)

end Huffman

/-! # Social interaction graph: theorems -/

namespace SocialNet

/-- C22 on the code: after `init_graph`, `add_interaction("A", "B")` and
`remove_user("B")`, the graph has one user and the cell `adj_matrix[0][1]`,
outside the active part, still holds 1; `"C"` is not a user, and the user
`add_user("C")` then creates at index 1 has an incoming interaction from
`"A"`. -/
theorem phantom_interaction_after_removal (g0 : SocialGraph) :
    ∃ g1 g2 g3, add_interaction (init_graph g0) ['A'] ['B'] = Except.ok g1
      ∧ remove_user g1 ['B'] = Except.ok g2
      ∧ g2.num_users = 1 ∧ g2.adj_matrix 0 1 = 1
      ∧ get_user_index g2 ['C'] = Except.ok (-1)
      ∧ add_user g2 ['C'] = Except.ok (g3, 1)
      ∧ g3.num_users = 2 ∧ g3.user_ids 0 = ['A'] ∧ g3.user_ids 1 = ['C']
      ∧ g3.adj_matrix 0 1 = 1 := by
  refine ⟨_, _, _, rfl, rfl, rfl, rfl, rfl, rfl, rfl, rfl, rfl, rfl⟩

end SocialNet

/-! # Command authorisation: the search tree -/

namespace CommandAuth

theorem strcmp_self : ∀ a : List Char, strcmp a a = 0 := by
  intro a
  induction a with
  | nil => rfl
  | cons x t ih => simp [strcmp, ih]

theorem strcmp_eq_zero : ∀ a b : List Char, strcmp a b = 0 → a = b := by
  intro a
  induction a with
  | nil =>
    intro b h
    cases b with
    | nil => rfl
    | cons y u => simp [strcmp] at h
  | cons x t ih =>
    intro b h
    cases b with
    | nil => simp [strcmp] at h
    | cons y u =>
      rw [strcmp] at h
      by_cases e : x = y
      · rw [if_pos e] at h
        rw [e, ih u h]
      · rw [if_neg e] at h
        split at h <;> omega

theorem strcmp_lt_iff_gt : ∀ a b : List Char, strcmp a b < 0 ↔ 0 < strcmp b a := by
  intro a
  induction a with
  | nil =>
    intro b
    cases b with
    | nil => simp [strcmp]
    | cons y u => simp [strcmp]
  | cons x t ih =>
    intro b
    cases b with
    | nil => simp [strcmp]
    | cons y u =>
      rw [strcmp, strcmp]
      by_cases e : x = y
      · rw [if_pos e, if_pos e.symm]; exact ih u
      · have e' : ¬ y = x := fun h => e h.symm
        rw [if_neg e, if_neg e']
        rcases lt_trichotomy x y with h | h | h
        · rw [if_pos h, if_neg (lt_asymm h)]; omega
        · exact absurd h e
        · rw [if_neg (lt_asymm h), if_pos h]; omega

theorem strcmp_trans : ∀ a b c : List Char, strcmp a b < 0 → strcmp b c < 0 →
    strcmp a c < 0 := by
  intro a
  induction a with
  | nil =>
    intro b c h1 h2
    cases c with
    | nil =>
      cases b with
      | nil => simp [strcmp] at h1
      | cons y u => simp [strcmp] at h2
    | cons z v => simp [strcmp]
  | cons x t ih =>
    intro b c h1 h2
    cases b with
    | nil => simp [strcmp] at h1
    | cons y u =>
      cases c with
      | nil => simp [strcmp] at h2
      | cons z v =>
        rw [strcmp] at h1 h2 ⊢
        by_cases e1 : x = y
        · rw [if_pos e1] at h1
          subst e1
          by_cases e2 : x = z
          · rw [if_pos e2] at h2 ⊢
            exact ih u v h1 h2
          · rw [if_neg e2] at h2 ⊢
            exact h2
        · rw [if_neg e1] at h1
          have hxy : x < y := by
            by_contra hn
            rw [if_neg hn] at h1
            omega
          by_cases e2 : y = z
          · subst e2
            rw [if_neg e1, if_pos hxy]; omega
          · rw [if_neg e2] at h2
            have hyz : y < z := by
              by_contra hn
              rw [if_neg hn] at h2
              omega
            have hxz : x < z := lt_trans hxy hyz
            rw [if_neg (ne_of_lt hxz), if_pos hxz]; omega

theorem create_node_short (cmd : List Char) (h : cmd.length < 50) :
    create_node cmd = TreeNode.node cmd TreeNode.null TreeNode.null := by
  unfold create_node MAX_CMD_LEN
  rw [List.take_of_length_le (by omega)]

theorem mem_commands_insert (cmd : List Char) (h : cmd.length < 50) : ∀ (t : TreeNode)
    (x : List Char), x ∈ (insert_command t cmd).commands ↔ x ∈ t.commands ∨ x = cmd := by
  intro t
  induction t with
  | null =>
    intro x
    rw [insert_command, create_node_short cmd h]
    simp [TreeNode.commands]
  | node c l r ihl ihr =>
    intro x
    rw [insert_command]
    by_cases h1 : strcmp cmd c < 0
    · rw [if_pos h1]
      simp only [TreeNode.commands, List.mem_append, List.mem_cons, ihl x]
      tauto
    · rw [if_neg h1]
      by_cases h2 : strcmp cmd c > 0
      · rw [if_pos h2]
        simp only [TreeNode.commands, List.mem_append, List.mem_cons, ihr x]
        tauto
      · rw [if_neg h2]
        have h0 : cmd = c := strcmp_eq_zero cmd c (by omega)
        simp only [TreeNode.commands, List.mem_append, List.mem_cons]
        constructor
        · intro hx; exact Or.inl hx
        · rintro (hx | hx)
          · exact hx
          · rw [hx, h0]; exact Or.inr (Or.inl rfl)

theorem isBST_insert (cmd : List Char) (h : cmd.length < 50) : ∀ t : TreeNode, t.IsBST →
    (insert_command t cmd).IsBST := by
  intro t
  induction t with
  | null =>
    intro _
    rw [insert_command, create_node_short cmd h]
    simp [TreeNode.IsBST, TreeNode.commands]
  | node c l r ihl ihr =>
    intro hb
    obtain ⟨hl, hr, hlt, hgt⟩ := hb
    rw [insert_command]
    by_cases h1 : strcmp cmd c < 0
    · rw [if_pos h1]
      refine ⟨ihl hl, hr, ?_, hgt⟩
      intro x hx
      rcases (mem_commands_insert cmd h l x).mp hx with hx1 | hx1
      · exact hlt x hx1
      · rw [hx1]; exact h1
    · rw [if_neg h1]
      by_cases h2 : strcmp cmd c > 0
      · rw [if_pos h2]
        refine ⟨hl, ihr hr, hlt, ?_⟩
        intro x hx
        rcases (mem_commands_insert cmd h r x).mp hx with hx1 | hx1
        · exact hgt x hx1
        · rw [hx1]; exact (strcmp_lt_iff_gt c cmd).mpr h2
      · rw [if_neg h2]
        exact ⟨hl, hr, hlt, hgt⟩

theorem search_exact_values : ∀ (t : TreeNode) (cmd : List Char),
    search_exact t cmd = 0 ∨ search_exact t cmd = 1 := by
  intro t
  induction t with
  | null => intro cmd; exact Or.inl rfl
  | node c l r ihl ihr =>
    intro cmd
    rw [search_exact]
    split
    · exact Or.inr rfl
    · split
      · exact ihl cmd
      · exact ihr cmd

theorem search_exact_iff : ∀ t : TreeNode, t.IsBST → ∀ cmd : List Char,
    (search_exact t cmd = 1 ↔ cmd ∈ t.commands) := by
  intro t
  induction t with
  | null =>
    intro _ cmd
    simp [search_exact, TreeNode.commands]
  | node c l r ihl ihr =>
    intro hb cmd
    obtain ⟨hl, hr, hlt, hgt⟩ := hb
    rw [search_exact]
    simp only [TreeNode.commands, List.mem_append, List.mem_cons]
    by_cases h0 : strcmp cmd c = 0
    · rw [if_pos h0]
      have := strcmp_eq_zero cmd c h0
      simp [this]
    · rw [if_neg h0]
      have hne : cmd ≠ c := fun e => h0 (by rw [e]; exact strcmp_self c)
      by_cases h1 : strcmp cmd c < 0
      · rw [if_pos h1, ihl hl cmd]
        constructor
        · intro hx; exact Or.inl hx
        · rintro (hx | hx | hx)
          · exact hx
          · exact absurd hx hne
          · have := (strcmp_lt_iff_gt c cmd).mp (hgt cmd hx)
            omega
      · rw [if_neg h1, ihr hr cmd]
        constructor
        · intro hx; exact Or.inr (Or.inr hx)
        · rintro (hx | hx | hx)
          · exact absurd (hlt cmd hx) h1
          · exact absurd hx hne
          · exact hx

theorem commands_sorted : ∀ t : TreeNode, t.IsBST →
    t.commands.Pairwise (fun a b => strcmp a b < 0) := by
  intro t
  induction t with
  | null => intro _; exact List.Pairwise.nil
  | node c l r ihl ihr =>
    intro hb
    obtain ⟨hl, hr, hlt, hgt⟩ := hb
    simp only [TreeNode.commands]
    rw [List.pairwise_append]
    refine ⟨ihl hl, ?_, ?_⟩
    · rw [List.pairwise_cons]
      exact ⟨hgt, ihr hr⟩
    · intro a ha b hb
      rcases List.mem_cons.mp hb with rfl | hb1
      · exact hlt a ha
      · exact strcmp_trans a c b (hlt a ha) (hgt b hb1)

theorem foldl_insert_spec : ∀ (cmds : List (List Char)) (t : TreeNode),
    (∀ c ∈ cmds, c.length < 50) → t.IsBST →
    (cmds.foldl insert_command t).IsBST
      ∧ ∀ x, x ∈ (cmds.foldl insert_command t).commands ↔ x ∈ t.commands ∨ x ∈ cmds := by
  intro cmds
  induction cmds with
  | nil => intro t _ hb; exact ⟨hb, fun x => by simp⟩
  | cons c rest ih =>
    intro t hlen hb
    have hc : c.length < 50 := hlen c (List.mem_cons_self _ _)
    obtain ⟨h1, h2⟩ := ih (insert_command t c)
      (fun d hd => hlen d (List.mem_cons_of_mem _ hd)) (isBST_insert c hc t hb)
    refine ⟨h1, ?_⟩
    intro x
    rw [List.foldl_cons, h2 x, mem_commands_insert c hc t x, List.mem_cons]
    tauto

/-- C25: for every sequence of commands, each shorter than 50 characters,
inserted in order with `insert_command` into the empty tree, the tree is a
binary search tree under `strcmp`, its commands from left to right are
strictly increasing and so without duplicates, they are the commands
inserted, and `search_exact` returns 1 exactly on those commands and 0 on
every other string. -/
theorem approved_lookup (cmds : List (List Char)) (hlen : ∀ c ∈ cmds, c.length < 50) :
    (insertAll cmds).IsBST
      ∧ (insertAll cmds).commands.Pairwise (fun a b => strcmp a b < 0)
      ∧ (insertAll cmds).commands.Nodup
      ∧ (∀ x, x ∈ (insertAll cmds).commands ↔ x ∈ cmds)
      ∧ (∀ cmd, search_exact (insertAll cmds) cmd = 1 ↔ cmd ∈ cmds)
      ∧ (∀ cmd, search_exact (insertAll cmds) cmd = 0 ↔ cmd ∉ cmds) := by
  obtain ⟨hb, hm⟩ := foldl_insert_spec cmds TreeNode.null hlen trivial
  have hm2 : ∀ x, x ∈ (insertAll cmds).commands ↔ x ∈ cmds := by
    intro x
    have := hm x
    simpa [TreeNode.commands] using this
  have hs := commands_sorted _ hb
  have hiff : ∀ cmd, search_exact (insertAll cmds) cmd = 1 ↔ cmd ∈ cmds := fun cmd =>
    (search_exact_iff _ hb cmd).trans (hm2 cmd)
  refine ⟨hb, hs, ?_, hm2, hiff, ?_⟩
  · refine hs.imp ?_
    intro a b hab e
    rw [e, strcmp_self] at hab
    omega
  · intro cmd
    rw [← hiff cmd]
    rcases search_exact_values (insertAll cmds) cmd with h | h
    · rw [h]; simp
    · rw [h]; simp

/-- C25 on the commands `ls`, `cd`, `ls`, `pwd`. -/
theorem approved_lookup_witness :
    (insertAll [['l', 's'], ['c', 'd'], ['l', 's'], ['p', 'w', 'd']]).IsBST
      ∧ (insertAll [['l', 's'], ['c', 'd'], ['l', 's'], ['p', 'w', 'd']]).commands.Pairwise
          (fun a b => strcmp a b < 0)
      ∧ (insertAll [['l', 's'], ['c', 'd'], ['l', 's'], ['p', 'w', 'd']]).commands.Nodup
      ∧ (∀ x, x ∈ (insertAll [['l', 's'], ['c', 'd'], ['l', 's'], ['p', 'w', 'd']]).commands
          ↔ x ∈ [['l', 's'], ['c', 'd'], ['l', 's'], ['p', 'w', 'd']])
      ∧ (∀ cmd, search_exact (insertAll [['l', 's'], ['c', 'd'], ['l', 's'], ['p', 'w', 'd']])
            cmd = 1
          ↔ cmd ∈ [['l', 's'], ['c', 'd'], ['l', 's'], ['p', 'w', 'd']])
      ∧ (∀ cmd, search_exact (insertAll [['l', 's'], ['c', 'd'], ['l', 's'], ['p', 'w', 'd']])
            cmd = 0
          ↔ cmd ∉ [['l', 's'], ['c', 'd'], ['l', 's'], ['p', 'w', 'd']]) :=
  approved_lookup [['l', 's'], ['c', 'd'], ['l', 's'], ['p', 'w', 'd']] (by decide)

end CommandAuth

/-! # Command authorisation: the edit distance -/

namespace CommandAuth

theorem lev_nil_right : ∀ s : List Char, lev s [] = s.length := by
  intro s
  cases s with
  | nil => rw [lev]
  | cons a s => rw [lev]

theorem lev_self : ∀ s : List Char, lev s s = 0 := by
  intro s
  induction s with
  | nil => rw [lev]; rfl
  | cons a s ih => rw [lev, ih]; simp

theorem lev_cons_right_le (s : List Char) (d : Char) (t : List Char) :
    lev s (d :: t) ≤ lev s t + 1 := by
  cases s with
  | nil => rw [lev, lev]; simp
  | cons x s =>
    rw [lev]
    omega

theorem lev_cons_left_le (c : Char) (s t : List Char) :
    lev (c :: s) t ≤ lev s t + 1 := by
  cases t with
  | nil => rw [lev, lev_nil_right]; simp
  | cons y t =>
    rw [lev]
    omega

theorem lev_le_max : ∀ s t : List Char, lev s t ≤ max s.length t.length := by
  intro s
  induction s with
  | nil => intro t; rw [lev]; simp
  | cons a s ih =>
    intro t
    cases t with
    | nil => rw [lev]; simp
    | cons b t =>
      rw [lev]
      have := ih t
      simp only [List.length_cons]
      split <;> omega

theorem lev_step_le {s u : List Char} (h : EditStep s u) : ∀ t, lev s t ≤ lev u t + 1 := by
  induction h with
  | ins c s =>
    intro t
    induction t with
    | nil => rw [lev_nil_right, lev_nil_right]; simp only [List.length_cons]; omega
    | cons d t iht =>
      rw [lev.eq_3 c s d t]
      have h1 := lev_cons_right_le s d t
      split <;> omega
  | del c s => intro t; exact lev_cons_left_le c s t
  | sub c d s =>
    intro t
    induction t with
    | nil => rw [lev_nil_right, lev_nil_right]; simp only [List.length_cons]; omega
    | cons e t iht =>
      rw [lev.eq_3 c s e t, lev.eq_3 d s e t]
      split <;> split <;> omega
  | cons x hst ih =>
    rename_i s u
    intro t
    induction t with
    | nil =>
      have := ih []
      rw [lev_nil_right, lev_nil_right] at this ⊢
      simp only [List.length_cons]
      omega
    | cons e t iht =>
      rw [lev.eq_3 x s e t, lev.eq_3 x u e t]
      have h1 := ih (e :: t)
      have h2 := ih t
      split <;> omega

theorem lev_le_of_editSeq {s t : List Char} {n : Nat} (h : EditSeq s t n) : lev s t ≤ n := by
  induction h with
  | refl s => rw [lev_self]
  | @step s1 t1 u1 n1 hst _ ih =>
    have := lev_step_le hst u1
    omega

theorem editSeq_snoc {s t u : List Char} {n : Nat} (h : EditSeq s t n) (hs : EditStep t u) :
    EditSeq s u (n + 1) := by
  induction h with
  | refl s => exact EditSeq.step hs (EditSeq.refl _)
  | step hst _ ih => exact EditSeq.step hst (ih hs)

theorem EditSeq.consCongr (x : Char) {s t : List Char} {n : Nat} (h : EditSeq s t n) :
    EditSeq (x :: s) (x :: t) n := by
  induction h with
  | refl s => exact EditSeq.refl _
  | step hst _ ih => exact EditSeq.step (EditStep.cons x hst) ih

theorem editSeq_insert_all : ∀ t : List Char, EditSeq [] t t.length := by
  intro t
  induction t with
  | nil => exact EditSeq.refl _
  | cons c t ih => exact editSeq_snoc ih (EditStep.ins c t)

theorem editSeq_delete_all : ∀ s : List Char, EditSeq s [] s.length := by
  intro s
  induction s with
  | nil => exact EditSeq.refl _
  | cons c s ih => exact EditSeq.step (EditStep.del c s) ih

theorem editSeq_mono {s t : List Char} {n m : Nat} (h : EditSeq s t n) (e : n = m) :
    EditSeq s t m := by
  rw [← e]; exact h

theorem editSeq_lev : ∀ (k : Nat) (s t : List Char), s.length + t.length ≤ k →
    EditSeq s t (lev s t) := by
  intro k
  induction k with
  | zero =>
    intro s t h
    have hs : s = [] := List.eq_nil_of_length_eq_zero (by omega)
    have ht : t = [] := List.eq_nil_of_length_eq_zero (by omega)
    rw [hs, ht, lev]
    exact EditSeq.refl _
  | succ k ih =>
    intro s t h
    cases s with
    | nil => rw [lev]; exact editSeq_insert_all t
    | cons a s =>
      cases t with
      | nil => rw [lev]; exact editSeq_delete_all _
      | cons b t =>
        simp only [List.length_cons] at h
        have h1 := ih s (b :: t) (by simp only [List.length_cons]; omega)
        have h2 := ih (a :: s) t (by simp only [List.length_cons]; omega)
        have h3 := ih s t (by omega)
        have p1 : EditSeq (a :: s) (b :: t) (lev s (b :: t) + 1) :=
          editSeq_mono (EditSeq.step (EditStep.del a s) h1) rfl
        have p2 : EditSeq (a :: s) (b :: t) (lev (a :: s) t + 1) :=
          editSeq_snoc h2 (EditStep.ins b t)
        have p3 : EditSeq (a :: s) (b :: t) (lev s t + if a = b then 0 else 1) := by
          by_cases e : a = b
          · rw [if_pos e, e]
            exact EditSeq.consCongr b h3
          · rw [if_neg e]
            exact EditSeq.step (EditStep.sub a b s) (EditSeq.consCongr b h3)
        rw [lev]
        rcases Nat.le_total (min (lev s (b :: t) + 1) (lev (a :: s) t + 1))
            (lev s t + if a = b then 0 else 1) with hm | hm
        · rw [Nat.min_eq_left hm]
          rcases Nat.le_total (lev s (b :: t) + 1) (lev (a :: s) t + 1) with hn | hn
          · rw [Nat.min_eq_left hn]; exact p1
          · rw [Nat.min_eq_right hn]; exact p2
        · rw [Nat.min_eq_right hm]; exact p3

theorem EditStep.appendCongr (x : Char) {s t : List Char} (h : EditStep s t) :
    EditStep (s ++ [x]) (t ++ [x]) := by
  induction h with
  | ins c s => exact EditStep.ins c _
  | del c s => exact EditStep.del c _
  | sub c d s => exact EditStep.sub c d _
  | cons y _ ih => exact EditStep.cons y ih

theorem editStep_ins_end (c : Char) : ∀ s : List Char, EditStep s (s ++ [c]) := by
  intro s
  induction s with
  | nil => exact EditStep.ins c []
  | cons y s ih => exact EditStep.cons y ih

theorem editStep_del_end (c : Char) : ∀ s : List Char, EditStep (s ++ [c]) s := by
  intro s
  induction s with
  | nil => exact EditStep.del c []
  | cons y s ih => exact EditStep.cons y ih

theorem editStep_sub_end (c d : Char) : ∀ s : List Char, EditStep (s ++ [c]) (s ++ [d]) := by
  intro s
  induction s with
  | nil => exact EditStep.sub c d []
  | cons y s ih => exact EditStep.cons y ih

theorem editStep_reverse {s t : List Char} (h : EditStep s t) :
    EditStep s.reverse t.reverse := by
  induction h with
  | ins c s => rw [List.reverse_cons]; exact editStep_ins_end c _
  | del c s => rw [List.reverse_cons]; exact editStep_del_end c _
  | sub c d s => rw [List.reverse_cons, List.reverse_cons]; exact editStep_sub_end c d _
  | cons y _ ih => rw [List.reverse_cons, List.reverse_cons]; exact EditStep.appendCongr y ih

theorem editSeq_reverse {s t : List Char} {n : Nat} (h : EditSeq s t n) :
    EditSeq s.reverse t.reverse n := by
  induction h with
  | refl s => exact EditSeq.refl _
  | step hst _ ih => exact EditSeq.step (editStep_reverse hst) ih

theorem editStep_symm {s t : List Char} (h : EditStep s t) : EditStep t s := by
  induction h with
  | ins c s => exact EditStep.del c s
  | del c s => exact EditStep.ins c s
  | sub c d s => exact EditStep.sub d c s
  | cons y _ ih => exact EditStep.cons y ih

theorem editSeq_symm {s t : List Char} {n : Nat} (h : EditSeq s t n) : EditSeq t s n := by
  induction h with
  | refl s => exact EditSeq.refl _
  | step hst _ ih => exact editSeq_snoc ih (editStep_symm hst)

theorem editSeq_zero {s t : List Char} (h : EditSeq s t 0) : s = t := by
  cases h with
  | refl => rfl

/-- The recurrence, run on the reversed strings, gives the least number of
single-character edits that change `s` into `t`. -/
theorem lev_reverse_min (s t : List Char) :
    EditSeq s t (lev s.reverse t.reverse)
      ∧ ∀ n, EditSeq s t n → lev s.reverse t.reverse ≤ n := by
  constructor
  · have := editSeq_reverse (editSeq_lev _ s.reverse t.reverse (Nat.le_refl _))
    rw [List.reverse_reverse, List.reverse_reverse] at this
    exact this
  · intro n h
    exact lev_le_of_editSeq (editSeq_reverse h)

end CommandAuth

namespace CommandAuth

/-! ## The dynamic-programming table -/

theorem except_bind_ok {α β : Type} (a : α) (f : α → Except Fault β) :
    (Except.ok a >>= f) = f a := rfl

theorem toInt32_of_small {x : Int} (h0 : -2147483648 ≤ x) (h1 : x < 2147483648) :
    toInt32 x = x := by
  unfold toInt32; omega

/-- A loop whose body keeps an invariant indexed by the loop counter runs to
its end and establishes the invariant at the final value of the counter. -/
theorem forLoop_inv {σ : Type} (body : Nat → σ → Except Fault σ) (P : Nat → σ → Prop) :
    ∀ (cnt lo : Nat) (s : σ), P lo s →
      (∀ i s, lo ≤ i → i < lo + cnt → P i s → ∃ s1, body i s = Except.ok s1 ∧ P (i + 1) s1) →
      ∃ s1, forLoop body lo cnt s = Except.ok s1 ∧ P (lo + cnt) s1 := by
  intro cnt
  induction cnt with
  | zero => intro lo s h _; exact ⟨s, rfl, h⟩
  | succ cnt ih =>
    intro lo s h hb
    obtain ⟨s1, e1, h1⟩ := hb lo s (Nat.le_refl _) (by omega) h
    obtain ⟨s2, e2, h2⟩ := ih (lo + 1) s1 h1
      (fun i s hi1 hi2 hp => hb i s (by omega) (by omega) hp)
    refine ⟨s2, ?_, ?_⟩
    · rw [forLoop, e1, except_bind_ok, e2]
    · rw [show lo + (cnt + 1) = lo + 1 + cnt by omega]; exact h2

theorem prefixDist_zero_right (s1 s2 : List Char) (i : Nat) (hi : i ≤ s1.length) :
    prefixDist s1 s2 i 0 = i := by
  unfold prefixDist
  rw [List.take_zero, List.reverse_nil, lev_nil_right, List.length_reverse, List.length_take]
  omega

theorem prefixDist_zero_left (s1 s2 : List Char) (j : Nat) (hj : j ≤ s2.length) :
    prefixDist s1 s2 0 j = j := by
  unfold prefixDist
  rw [List.take_zero, List.reverse_nil, lev, List.length_reverse, List.length_take]
  omega

theorem reverse_take_succ (s : List Char) (i : Nat) (hi : i < s.length) :
    (s.take (i + 1)).reverse = s.getD i 'x' :: (s.take i).reverse := by
  rw [List.take_succ, List.reverse_append, List.getD_eq_getElem?_getD,
    List.getElem?_eq_getElem hi]
  rfl

theorem prefixDist_succ_succ (s1 s2 : List Char) (i j : Nat) (hi : i < s1.length)
    (hj : j < s2.length) :
    prefixDist s1 s2 (i + 1) (j + 1)
      = min (min (prefixDist s1 s2 i (j + 1) + 1) (prefixDist s1 s2 (i + 1) j + 1))
          (prefixDist s1 s2 i j + if s1.getD i 'x' = s2.getD j 'x' then 0 else 1) := by
  unfold prefixDist
  rw [reverse_take_succ s1 i hi, reverse_take_succ s2 j hj, lev]

theorem prefixDist_le (s1 s2 : List Char) (i j : Nat) :
    prefixDist s1 s2 i j ≤ max s1.length s2.length := by
  unfold prefixDist
  have := lev_le_max (s1.take i).reverse (s2.take j).reverse
  simp only [List.length_reverse, List.length_take] at this
  omega

theorem Filled.read {s1 s2 : List Char} {m : Matrix} {S : Nat → Nat → Prop}
    (h : Filled s1 s2 m S) (a b : Nat) (ha : a ≤ s1.length) (hb : b ≤ s2.length)
    (hs : S a b) : m.read (a : Int) (b : Int) = Except.ok ((prefixDist s1 s2 a b : Nat) : Int) := by
  obtain ⟨hr, hc, hcell⟩ := h
  unfold Matrix.read
  rw [if_pos ⟨by omega, by omega, by omega, by omega⟩]
  simp only [Int.toNat_ofNat]
  rw [hcell a b ha hb hs]

theorem Filled.write {s1 s2 : List Char} {m : Matrix} {S : Nat → Nat → Prop}
    (h : Filled s1 s2 m S) (a b : Nat) (ha : a ≤ s1.length) (hb : b ≤ s2.length)
    (v : Int) (hv : v = ((prefixDist s1 s2 a b : Nat) : Int)) :
    ∃ m1, m.write (a : Int) (b : Int) v = Except.ok m1
      ∧ Filled s1 s2 m1 (fun x y => S x y ∨ (x = a ∧ y = b)) := by
  obtain ⟨hr, hc, hcell⟩ := h
  unfold Matrix.write
  rw [if_pos ⟨by omega, by omega, by omega, by omega⟩]
  refine ⟨_, rfl, hr, hc, ?_⟩
  intro x y hx hy hxy
  simp only [Int.toNat_ofNat]
  by_cases e : x = a ∧ y = b
  · rw [if_pos e, hv, e.1, e.2]
  · rw [if_neg e]
    rcases hxy with h1 | h1
    · exact hcell x y hx hy h1
    · exact absurd h1 e

theorem Filled.mono {s1 s2 : List Char} {m : Matrix} {S T : Nat → Nat → Prop}
    (h : Filled s1 s2 m S)
    (hst : ∀ a b, a ≤ s1.length → b ≤ s2.length → T a b → S a b) : Filled s1 s2 m T :=
  ⟨h.1, h.2.1, fun a b ha hb hs => h.2.2 a b ha hb (hst a b ha hb hs)⟩

theorem charAt_nat (s : List Char) (i : Nat) (hi : i < s.length) :
    charAt s (i : Int) = Except.ok (s.getD i 'x') := by
  unfold charAt
  rw [if_pos ⟨by omega, by omega⟩]
  simp

/-- One pass through the body of the inner loop writes the value of the
recurrence into the cell `(i + 1, j + 1)`. -/
theorem editCell_spec (s1 s2 : List Char) (h1 : s1.length < 2147483647)
    (h2 : s2.length < 2147483647) (i j : Nat) (hi : i < s1.length) (hj : j < s2.length)
    (m : Matrix) (S : Nat → Nat → Prop) (hm : Filled s1 s2 m S)
    (hs1 : S i (j + 1)) (hs2 : S (i + 1) j) (hs3 : S i j) :
    ∃ m1, editCell s1 s2 ((i + 1 : Nat) : Int) ((j + 1 : Nat) : Int) m = Except.ok m1
      ∧ Filled s1 s2 m1 (fun x y => S x y ∨ (x = i + 1 ∧ y = j + 1)) := by
  have ei : toInt32 (((i + 1 : Nat) : Int) - 1) = (i : Int) := by
    rw [toInt32_of_small (by omega) (by omega)]; omega
  have ej : toInt32 (((j + 1 : Nat) : Int) - 1) = (j : Int) := by
    rw [toInt32_of_small (by omega) (by omega)]; omega
  have b1 := prefixDist_le s1 s2 i (j + 1)
  have b2 := prefixDist_le s1 s2 (i + 1) j
  have b3 := prefixDist_le s1 s2 i j
  have r1 := hm.read i (j + 1) (by omega) (by omega) hs1
  have r2 := hm.read (i + 1) j (by omega) (by omega) hs2
  have r3 := hm.read i j (by omega) (by omega) hs3
  unfold editCell
  rw [ei, ej, charAt_nat s1 i hi, except_bind_ok, charAt_nat s2 j hj, except_bind_ok]
  simp only [except_bind_ok, r1, r2, r3]
  apply hm.write (i + 1) (j + 1) (by omega) (by omega)
  rw [prefixDist_succ_succ s1 s2 i j hi hj]
  rw [toInt32_of_small (by omega) (by omega), toInt32_of_small (by omega) (by omega),
    toInt32_of_small (by split <;> omega) (by split <;> omega)]
  by_cases e : s1.getD i 'x' = s2.getD j 'x'
  · simp only [if_pos e]
    split <;> split <;> omega
  · simp only [if_neg e]
    split <;> split <;> omega

/-- For strings shorter than `2^31 - 1` characters whose table does not fit
in the stack `calculate_edit_distance` returns no value. -/
theorem calculate_edit_distance_overflow (stack : Nat) (s1 s2 : List Char)
    (h1 : s1.length < 2147483647) (h2 : s2.length < 2147483647)
    (hst : stack < (s1.length + 1) * (s2.length + 1)) :
    calculate_edit_distance stack s1 s2 = Except.error Fault.stackOverflow := by
  have e1 : toInt32 (s1.length : Int) = s1.length := toInt32_of_small (by omega) (by omega)
  have e2 : toInt32 (s2.length : Int) = s2.length := toInt32_of_small (by omega) (by omega)
  have e3 : toInt32 ((s1.length : Int) + 1) = s1.length + 1 :=
    toInt32_of_small (by omega) (by omega)
  have e4 : toInt32 ((s2.length : Int) + 1) = s2.length + 1 :=
    toInt32_of_small (by omega) (by omega)
  have n1 : ((s1.length : Int) + 1).toNat = s1.length + 1 := by omega
  have n2 : ((s2.length : Int) + 1).toNat = s2.length + 1 := by omega
  unfold calculate_edit_distance
  dsimp only
  rw [e1, e2, e3, e4, n1, n2, if_neg (by omega), if_pos hst]

/-- For strings shorter than `2^31 - 1` characters whose table fits in the
stack `calculate_edit_distance` returns the value of the recurrence on the two
reversed strings. -/
theorem calculate_edit_distance_eq (stack : Nat) (s1 s2 : List Char)
    (h1 : s1.length < 2147483647) (h2 : s2.length < 2147483647)
    (hst : (s1.length + 1) * (s2.length + 1) ≤ stack) :
    calculate_edit_distance stack s1 s2
      = Except.ok ((lev s1.reverse s2.reverse : Nat) : Int) := by
  have e1 : toInt32 (s1.length : Int) = s1.length := toInt32_of_small (by omega) (by omega)
  have e2 : toInt32 (s2.length : Int) = s2.length := toInt32_of_small (by omega) (by omega)
  have e3 : toInt32 ((s1.length : Int) + 1) = s1.length + 1 :=
    toInt32_of_small (by omega) (by omega)
  have e4 : toInt32 ((s2.length : Int) + 1) = s2.length + 1 :=
    toInt32_of_small (by omega) (by omega)
  have n1 : ((s1.length : Int) + 1).toNat = s1.length + 1 := by omega
  have n2 : ((s2.length : Int) + 1).toNat = s2.length + 1 := by omega
  have n3 : ((s1.length : Nat) : Int).toNat = s1.length := by omega
  have n4 : ((s2.length : Nat) : Int).toNat = s2.length := by omega
  unfold calculate_edit_distance
  dsimp only
  rw [e1, e2, e3, e4, n1, n2, n3, n4, if_neg (by omega), if_neg (Nat.not_lt.2 hst)]
  -- first column
  obtain ⟨m1, f1, p1⟩ := forLoop_inv (fun i (m : Matrix) => m.write (i : Int) 0 (i : Int))
    (fun i m => Filled s1 s2 m (fun a b => a < i ∧ b = 0)) (s1.length + 1) 0
    (Matrix.mk (s1.length + 1) (s2.length + 1) (fun _ _ => none))
    ⟨rfl, rfl, fun a b _ _ h => absurd h.1 (Nat.not_lt_zero a)⟩
    (by
      intro i m _ hi hp
      obtain ⟨m1, w, q⟩ := hp.write i 0 (by omega) (by omega) (i : Int)
        (by rw [prefixDist_zero_right s1 s2 i (by omega)])
      refine ⟨m1, w, q.mono ?_⟩
      intro a b hal hbl hab
      by_cases e : a = i
      · exact Or.inr ⟨e, hab.2⟩
      · exact Or.inl ⟨by omega, hab.2⟩)
  -- first row
  obtain ⟨m2, f2, p2⟩ := forLoop_inv (fun j (m : Matrix) => m.write 0 (j : Int) (j : Int))
    (fun j m => Filled s1 s2 m (fun a b => b = 0 ∨ (a = 0 ∧ b < j))) (s2.length + 1) 0 m1
    (p1.mono (by
      intro a b hal hbl hab
      rcases hab with hb | hb
      · exact ⟨by omega, hb⟩
      · omega))
    (by
      intro j m _ hj hp
      obtain ⟨m1, w, q⟩ := hp.write 0 j (by omega) (by omega) (j : Int)
        (by rw [prefixDist_zero_left s1 s2 j (by omega)])
      refine ⟨m1, w, q.mono ?_⟩
      intro a b hal hbl hab
      rcases hab with hb | hb
      · exact Or.inl (Or.inl hb)
      · by_cases e : b = j
        · exact Or.inr ⟨hb.1, e⟩
        · exact Or.inl (Or.inr ⟨hb.1, by omega⟩))
  -- the rows, one after the other
  obtain ⟨m3, f3, p3⟩ := forLoop_inv
    (fun i (m : Matrix) => forLoop (fun j m => editCell s1 s2 (i : Int) (j : Int) m) 1
      s2.length m)
    (fun i m => Filled s1 s2 m (fun a b => b = 0 ∨ a = 0 ∨ a < i)) s1.length 1 m2
    (p2.mono (by
      intro a b hal hbl hab
      rcases hab with hb | hb | hb
      · exact Or.inl hb
      · by_cases e : b = 0
        · exact Or.inl e
        · exact Or.inr ⟨hb, by omega⟩
      · exact Or.inr ⟨by omega, by omega⟩))
    (by
      intro i m hi1 hi2 hp
      obtain ⟨m1, w, q⟩ := forLoop_inv (fun j m => editCell s1 s2 (i : Int) (j : Int) m)
        (fun j m => Filled s1 s2 m (fun a b => b = 0 ∨ a = 0 ∨ a < i ∨ (a = i ∧ b < j)))
        s2.length 1 m
        (hp.mono (by
          intro a b hal hbl hab
          rcases hab with hb | hb | hb | hb
          · exact Or.inl hb
          · exact Or.inr (Or.inl hb)
          · exact Or.inr (Or.inr hb)
          · by_cases e : b = 0
            · exact Or.inl e
            · omega))
        (by
          intro j m hj1 hj2 hq
          obtain ⟨i0, rfl⟩ : ∃ i0, i = i0 + 1 := ⟨i - 1, by omega⟩
          obtain ⟨j0, rfl⟩ : ∃ j0, j = j0 + 1 := ⟨j - 1, by omega⟩
          obtain ⟨m1, w, q⟩ := editCell_spec s1 s2 h1 h2 i0 j0 (by omega) (by omega) m _ hq
            (Or.inr (Or.inr (Or.inl (by omega))))
            (by
              by_cases e : j0 = 0
              · exact Or.inl e
              · exact Or.inr (Or.inr (Or.inr ⟨rfl, by omega⟩)))
            (Or.inr (Or.inr (Or.inl (by omega))))
          refine ⟨m1, w, q.mono ?_⟩
          intro a b hal hbl hab
          rcases hab with hb | hb | hb | hb
          · exact Or.inl (Or.inl hb)
          · exact Or.inl (Or.inr (Or.inl hb))
          · exact Or.inl (Or.inr (Or.inr (Or.inl hb)))
          · by_cases e : b = j0 + 1
            · exact Or.inr ⟨hb.1, e⟩
            · exact Or.inl (Or.inr (Or.inr (Or.inr ⟨hb.1, by omega⟩))))
      refine ⟨m1, w, ?_⟩
      refine ⟨q.1, q.2.1, ?_⟩
      intro a b ha hb hab
      apply q.2.2 a b ha hb
      rcases hab with hc | hc | hc
      · exact Or.inl hc
      · exact Or.inr (Or.inl hc)
      · by_cases e : a = i
        · exact Or.inr (Or.inr (Or.inr ⟨e, by omega⟩))
        · exact Or.inr (Or.inr (Or.inl (by omega))))
  have f1' : forLoop (fun i (m : Matrix) => m.write (i : Int) 0 (i : Int)) 0 (s1.length + 1)
      (Matrix.mk (s1.length + 1) (s2.length + 1) (fun _ _ => none)) = Except.ok m1 := f1
  rw [f1', except_bind_ok, f2, except_bind_ok, f3, except_bind_ok]
  have := p3.read s1.length s2.length (Nat.le_refl _) (Nat.le_refl _)
    (by
      by_cases e : s1.length = 0
      · exact Or.inr (Or.inl e)
      · exact Or.inr (Or.inr (by omega)))
  rw [this]
  unfold prefixDist
  rw [List.take_length, List.take_length]

theorem toInt32_two_pow_31 : toInt32 2147483648 = -2147483648 := by
  unfold toInt32; omega

/-- C24, as stated, fails on the code. The table is an array on the stack:
with a stack that holds `2097152` more `int` cells (8 MiB), two equal strings
of 1500 characters are at distance 0, but the table of `1501 * 1501` cells does
not fit and the function returns no value. And whatever the stack, for a
string of `2^31` characters and the empty string the distance is `2^31`, but
the length does not fit in the `int` `len1`, the array dimension `len1 + 1` is
negative and the function returns no value. -/
theorem edit_distance_fails_on_long_string :
    EditSeq (List.replicate 1500 'a') (List.replicate 1500 'a') 0
      ∧ calculate_edit_distance 2097152 (List.replicate 1500 'a') (List.replicate 1500 'a')
          = Except.error Fault.stackOverflow
      ∧ EditSeq (List.replicate 2147483648 'a') [] 2147483648
      ∧ (∀ n, EditSeq (List.replicate 2147483648 'a') [] n → 2147483648 ≤ n)
      ∧ ∀ stack, calculate_edit_distance stack (List.replicate 2147483648 'a') []
          = Except.error Fault.badArraySize := by
  have hs : (List.replicate 1500 'a').length = 1500 := List.length_replicate _ _
  have hl : (List.replicate 2147483648 'a').length = 2147483648 := List.length_replicate _ _
  have hlev : lev (List.replicate 2147483648 'a').reverse ([] : List Char).reverse
      = 2147483648 := by
    rw [List.reverse_nil, lev_nil_right, List.length_reverse, hl]
  obtain ⟨p1, p2⟩ := lev_reverse_min (List.replicate 2147483648 'a') []
  rw [hlev] at p1 p2
  refine ⟨EditSeq.refl _, ?_, p1, p2, ?_⟩
  · exact calculate_edit_distance_overflow 2097152 _ _ (by rw [hs]; omega) (by rw [hs]; omega)
      (by rw [hs]; omega)
  · intro stack
    unfold calculate_edit_distance
    dsimp only
    rw [hl]
    have e : toInt32 ((2147483648 : Nat) : Int) = -2147483648 := toInt32_two_pow_31
    rw [e, if_pos (Or.inl (by unfold toInt32; omega))]

/-- C24, amended: for all strings `s1` and `s2` of fewer than `2^31 - 1`
characters whose table of `(len1 + 1) * (len2 + 1)` cells fits in the stack
space left when the function is entered, `calculate_edit_distance(s1, s2)`
returns the least number `d` of single-character insertions, deletions and
substitutions that change `s1` into `s2`; it is 0 exactly when the strings are
equal, and the function returns the same value with its arguments
exchanged. -/
theorem edit_distance (stack : Nat) (s1 s2 : List Char) (h1 : s1.length < 2147483647)
    (h2 : s2.length < 2147483647) (hst : (s1.length + 1) * (s2.length + 1) ≤ stack) :
    ∃ d : Nat, calculate_edit_distance stack s1 s2 = Except.ok (d : Int)
      ∧ EditSeq s1 s2 d ∧ (∀ n, EditSeq s1 s2 n → d ≤ n)
      ∧ (d = 0 ↔ s1 = s2)
      ∧ calculate_edit_distance stack s2 s1 = Except.ok (d : Int) := by
  obtain ⟨p1, p2⟩ := lev_reverse_min s1 s2
  obtain ⟨q1, q2⟩ := lev_reverse_min s2 s1
  have hsym : lev s2.reverse s1.reverse = lev s1.reverse s2.reverse :=
    Nat.le_antisymm (q2 _ (editSeq_symm p1)) (p2 _ (editSeq_symm q1))
  refine ⟨lev s1.reverse s2.reverse, calculate_edit_distance_eq stack s1 s2 h1 h2 hst,
    p1, p2, ?_, ?_⟩
  · constructor
    · intro h0
      rw [h0] at p1
      exact editSeq_zero p1
    · intro e
      have := p2 0 (by rw [e]; exact EditSeq.refl _)
      omega
  · rw [calculate_edit_distance_eq stack s2 s1 h2 h1 (by rw [Nat.mul_comm]; exact hst), hsym]

/-- C24, amended, on the strings `kitten` and `sitting`, with a stack that
holds the table of two commands of `MAX_CMD_LEN - 1` characters, 2500 cells. -/
theorem edit_distance_witness :
    ∃ d : Nat, calculate_edit_distance 2500 ['k', 'i', 't', 't', 'e', 'n']
          ['s', 'i', 't', 't', 'i', 'n', 'g'] = Except.ok (d : Int)
      ∧ EditSeq ['k', 'i', 't', 't', 'e', 'n'] ['s', 'i', 't', 't', 'i', 'n', 'g'] d
      ∧ (∀ n, EditSeq ['k', 'i', 't', 't', 'e', 'n'] ['s', 'i', 't', 't', 'i', 'n', 'g'] n →
          d ≤ n)
      ∧ (d = 0 ↔ ['k', 'i', 't', 't', 'e', 'n'] = ['s', 'i', 't', 't', 'i', 'n', 'g'])
      ∧ calculate_edit_distance 2500 ['s', 'i', 't', 't', 'i', 'n', 'g']
          ['k', 'i', 't', 't', 'e', 'n'] = Except.ok (d : Int) :=
  edit_distance 2500 ['k', 'i', 't', 't', 'e', 'n'] ['s', 'i', 't', 't', 'i', 'n', 'g']
    (by decide) (by decide) (by decide)

end CommandAuth

/-! # Event log of the energy meter: theorems -/

namespace EnergyMeter

theorem ok_bind {α β : Type} (a : α) (f : α → Except Fault β) :
    (Except.ok a >>= f) = f a := rfl

theorem lookup_cons_block (mem : Mem) (p q : Nat) (n : Node) :
    List.lookup q ((p, n) :: mem) = if q = p then some n else List.lookup q mem := by
  rw [List.lookup_cons]
  by_cases e : q = p
  · rw [if_pos e]; simp [e]
  · rw [if_neg e]
    have : (q == p) = false := by simpa using e
    rw [this]

theorem lookup_dropBlock (mem : Mem) (p q : Nat) :
    List.lookup q (dropBlock mem p) = if q = p then none else List.lookup q mem := by
  unfold dropBlock
  induction mem with
  | nil => simp
  | cons x t ih =>
    obtain ⟨a, n⟩ := x
    by_cases e : a = p
    · rw [List.filter_cons_of_neg (by simpa using e), ih, lookup_cons_block]
      by_cases e2 : q = p
      · rw [if_pos e2, if_pos e2]
      · rw [if_neg e2, if_neg e2, if_neg (by rw [e]; exact e2)]
    · rw [List.filter_cons_of_pos (by simpa using e), lookup_cons_block, lookup_cons_block, ih]
      by_cases e2 : q = p
      · rw [if_pos e2, if_pos e2, if_neg (by rw [e2]; exact fun h => e h.symm)]
      · rw [if_neg e2, if_neg e2]

theorem readNode_ok {mem : Mem} {p : Nat} {n : Node} (h : List.lookup p mem = some n) :
    readNode mem p = Except.ok n := by
  unfold readNode; rw [h]

theorem writeNode_ok {mem : Mem} {p : Nat} {n : Node} (m : Node)
    (h : List.lookup p mem = some n) :
    writeNode mem p m = Except.ok ((p, m) :: dropBlock mem p) := by
  unfold writeNode; rw [h]

theorem freeNode_ok {mem : Mem} {p : Nat} {n : Node} (h : List.lookup p mem = some n) :
    freeNode mem p = Except.ok (dropBlock mem p) := by
  unfold freeNode; rw [h]

theorem lookup_write (mem : Mem) (p q : Nat) (m : Node) :
    List.lookup q ((p, m) :: dropBlock mem p) = if q = p then some m else List.lookup q mem := by
  rw [lookup_cons_block, lookup_dropBlock]
  by_cases e : q = p
  · rw [if_pos e, if_pos e]
  · rw [if_neg e, if_neg e, if_neg e]

/-- A list segment only depends on the contents of its own blocks. -/
theorem Seg.congr {mem mem1 : Mem} : ∀ (cells : List (Nat × MeterEvent)) (prev p last : Nat),
    (∀ q ∈ cells.map Prod.fst, List.lookup q mem1 = List.lookup q mem) →
    Seg mem prev p cells last → Seg mem1 prev p cells last := by
  intro cells
  induction cells with
  | nil => intro prev p last _ h; exact h
  | cons x rest ih =>
    intro prev p last hq h
    obtain ⟨q, e⟩ := x
    obtain ⟨h1, h2, nxt, h3, h4⟩ := h
    refine ⟨h1, h2, nxt, ?_, ih q nxt last (fun a ha => hq a (List.mem_cons_of_mem _ ha)) h4⟩
    rw [hq q (List.mem_cons_self _ _)]; exact h3

theorem Seg.live {mem : Mem} : ∀ (cells : List (Nat × MeterEvent)) (prev p last : Nat),
    Seg mem prev p cells last → ∀ q ∈ cells.map Prod.fst, q ≠ 0 ∧ List.lookup q mem ≠ none := by
  intro cells
  induction cells with
  | nil => intro prev p last _ q hq; simp at hq
  | cons x rest ih =>
    intro prev p last h q hq
    obtain ⟨a, e⟩ := x
    obtain ⟨h1, h2, nxt, h3, h4⟩ := h
    rcases List.mem_cons.mp hq with rfl | hq1
    · exact ⟨h2, by rw [h3]; simp⟩
    · exact ih a nxt last h4 q hq1

theorem Seg.last_mem {mem : Mem} : ∀ (cells : List (Nat × MeterEvent)) (prev p last : Nat),
    Seg mem prev p cells last → cells ≠ [] → last ∈ cells.map Prod.fst := by
  intro cells
  induction cells with
  | nil => intro prev p last _ h; exact absurd rfl h
  | cons x rest ih =>
    intro prev p last h _
    obtain ⟨a, e⟩ := x
    obtain ⟨h1, h2, nxt, h3, h4⟩ := h
    cases rest with
    | nil =>
      obtain ⟨_, hl⟩ := h4
      rw [hl]; simp
    | cons y rest2 =>
      exact List.mem_cons_of_mem _ (ih a nxt last h4 (by simp))

/-- Linking a fresh block after the last block of a non-empty segment. -/
theorem seg_snoc {mem : Mem} (p : Nat) (hp0 : p ≠ 0) (ev : MeterEvent) :
    ∀ (cells : List (Nat × MeterEvent)) (prev h last : Nat),
    Seg mem prev h cells last → cells ≠ [] → (cells.map Prod.fst).Nodup →
    p ∉ cells.map Prod.fst →
    ∃ t, List.lookup last mem = some t
      ∧ Seg ((last, Node.mk t.data p t.prev) :: dropBlock ((p, Node.mk ev 0 last) :: mem) last)
          prev h (cells ++ [(p, ev)]) p := by
  intro cells
  induction cells with
  | nil => intro prev h last _ hne; exact absurd rfl hne
  | cons x rest ih =>
    intro prev h last hs _ hnd hpn
    obtain ⟨a, e⟩ := x
    obtain ⟨h1, h2, nxt, h3, h4⟩ := hs
    have hpa : p ≠ a := fun e => hpn (by rw [e]; simp)
    cases rest with
    | nil =>
      obtain ⟨hn, hl⟩ := h4
      subst hl
      subst hn
      refine ⟨_, h3, ?_⟩
      refine ⟨h1, h2, p, ?_, rfl, hp0, 0, ?_, rfl, rfl⟩
      · rw [lookup_write, if_pos rfl]
      · rw [lookup_write, if_neg hpa, lookup_cons_block, if_pos rfl]
    | cons y rest2 =>
      have hnd1 : (a :: (y :: rest2).map Prod.fst).Nodup := hnd
      have hnd2 : ((y :: rest2).map Prod.fst).Nodup := (List.nodup_cons.mp hnd1).2
      have hpn2 : p ∉ (y :: rest2).map Prod.fst := fun hm => hpn (List.mem_cons_of_mem _ hm)
      obtain ⟨t, ht, hseg⟩ := ih a nxt last h4 (by simp) hnd2 hpn2
      have hlast := Seg.last_mem _ a nxt last h4 (by simp)
      have hal : a ≠ last := by
        intro hal
        apply (List.nodup_cons.mp hnd1).1
        rw [hal]; exact hlast
      refine ⟨t, ht, h1, h2, nxt, ?_, hseg⟩
      rw [lookup_write, if_neg hal, lookup_cons_block, if_neg (fun e => hpa e.symm)]
      exact h3

theorem eventsFrom_of_seg {mem : Mem} : ∀ (cells : List (Nat × MeterEvent)) (prev p last : Nat),
    Seg mem prev p cells last → eventsFrom mem cells.length p = some (cells.map Prod.snd) := by
  intro cells
  induction cells with
  | nil =>
    intro prev p last h
    obtain ⟨h1, _⟩ := h
    simp [eventsFrom, h1]
  | cons x rest ih =>
    intro prev p last h
    obtain ⟨a, e⟩ := x
    obtain ⟨h1, h2, nxt, h3, h4⟩ := h
    subst h1
    simp only [List.length_cons, eventsFrom, if_neg h2, h3, ih p nxt last h4, List.map_cons,
      Option.map_some']

theorem eventsBack_of_seg {mem : Mem} : ∀ (cells : List (Nat × MeterEvent)) (prev p last : Nat)
    (k : Nat) (l0 : List MeterEvent),
    Seg mem prev p cells last → eventsBack mem k prev = some l0 →
    eventsBack mem (cells.length + k) last = some ((cells.map Prod.snd).reverse ++ l0) := by
  intro cells
  induction cells with
  | nil =>
    intro prev p last k l0 h hk
    obtain ⟨_, h2⟩ := h
    rw [h2]
    simpa using hk
  | cons x rest ih =>
    intro prev p last k l0 h hk
    obtain ⟨a, e⟩ := x
    obtain ⟨h1, h2, nxt, h3, h4⟩ := h
    have hstep : eventsBack mem (k + 1) a = some (e :: l0) := by
      simp only [eventsBack, if_neg h2, h3, hk, Option.map_some']
    have := ih a nxt last (k + 1) (e :: l0) h4 hstep
    rw [List.length_cons, show rest.length + 1 + k = rest.length + (k + 1) by omega, this]
    simp

end EnergyMeter

namespace EnergyMeter

theorem toInt32_of_small_int {x : Int} (h0 : -2147483648 ≤ x) (h1 : x < 2147483648) :
    toInt32 x = x := by
  unfold toInt32; omega

/-- `remove_oldest` on a non-empty list unlinks and frees the first block and
leaves the state representing the rest of the list. -/
theorem remove_oldest_spec (log : EventLog) (mem : Mem) (q : Nat) (e : MeterEvent)
    (rest : List (Nat × MeterEvent)) (hr : Represents (log, mem) ((q, e) :: rest)) :
    ∃ s1 : EventLog × Mem, remove_oldest log mem = Except.ok s1 ∧ Represents s1 rest
      ∧ s1.1.next_id = log.next_id := by
  obtain ⟨hseg, hnd, hcount, hlen⟩ := hr
  simp only at hseg hcount
  obtain ⟨hh, hq0, nxt, hq, hrest⟩ := hseg
  have hnd1 : (q :: rest.map Prod.fst).Nodup := hnd
  have hqn : q ∉ rest.map Prod.fst := (List.nodup_cons.mp hnd1).1
  have hnd2 : (rest.map Prod.fst).Nodup := (List.nodup_cons.mp hnd1).2
  simp only [List.length_cons] at hcount hlen
  have hc : toInt32 (log.count - 1) = (rest.length : Int) := by
    rw [hcount, toInt32_of_small_int (by omega) (by omega)]; omega
  subst hh
  have hhead : ¬ log.head = 0 := hq0
  cases rest with
  | nil =>
    obtain ⟨hn, hl⟩ := hrest
    refine ⟨(EventLog.mk 0 0 (if log.cursor = log.head then nxt else log.cursor)
      (toInt32 (log.count - 1)) log.live_mode log.next_id, dropBlock mem log.head), ?_,
      ⟨⟨rfl, rfl⟩, List.nodup_nil, by simpa using hc, by simp⟩, rfl⟩
    unfold remove_oldest
    rw [if_neg hhead]
    by_cases e1 : log.cursor = log.head
    · rw [if_pos e1, if_pos e1, readNode_ok hq]
      simp only [ok_bind, pure_bind]
      rw [if_pos hl.symm, freeNode_ok hq]
      rfl
    · rw [if_neg e1, if_neg e1]
      simp only [ok_bind, pure_bind]
      rw [if_pos hl.symm, freeNode_ok hq]
      rfl
  | cons y rest2 =>
    obtain ⟨q2, e2⟩ := y
    have hlast := Seg.last_mem _ log.head nxt log.tail hrest (by simp)
    have hne : log.head ≠ log.tail := by
      intro e
      apply hqn
      rw [e]; exact hlast
    obtain ⟨hn2, hq20, nxt2, hq2, hrest2⟩ := hrest
    subst hn2
    have hqq2 : log.head ≠ nxt := fun e => hqn (by rw [e]; simp)
    have hq' : List.lookup log.head ((nxt, Node.mk e2 nxt2 0) :: dropBlock mem nxt)
        = some (Node.mk e nxt 0) := by
      rw [lookup_write, if_neg hqq2]; exact hq
    refine ⟨(EventLog.mk nxt log.tail (if log.cursor = log.head then nxt else log.cursor)
      (toInt32 (log.count - 1)) log.live_mode log.next_id,
      dropBlock ((nxt, Node.mk e2 nxt2 0) :: dropBlock mem nxt) log.head), ?_,
      ⟨?_, hnd2, by simpa using hc, by simp only [List.length_cons] at hlen ⊢; omega⟩, rfl⟩
    · unfold remove_oldest
      rw [if_neg hhead]
      by_cases e1 : log.cursor = log.head
      · rw [if_pos e1, if_pos e1, readNode_ok hq]
        simp only [ok_bind, pure_bind]
        rw [if_neg hne, readNode_ok hq2]
        simp only [ok_bind, pure_bind]
        rw [writeNode_ok _ hq2]
        simp only [ok_bind, pure_bind]
        rw [freeNode_ok hq']
        rfl
      · rw [if_neg e1, if_neg e1, readNode_ok hq]
        simp only [ok_bind, pure_bind]
        rw [if_neg hne, readNode_ok hq2]
        simp only [ok_bind, pure_bind]
        rw [writeNode_ok _ hq2]
        simp only [ok_bind, pure_bind]
        rw [freeNode_ok hq']
        rfl
    · refine ⟨rfl, hq20, nxt2, ?_, ?_⟩
      · rw [lookup_dropBlock, if_neg (fun e => hqq2 e.symm), lookup_write, if_pos rfl]
      · refine Seg.congr rest2 nxt nxt2 log.tail ?_ hrest2
        intro a ha
        have hnd3 : (nxt :: rest2.map Prod.fst).Nodup := hnd2
        have ha2 : a ≠ nxt := fun e => (List.nodup_cons.mp hnd3).1 (by rw [← e]; exact ha)
        have ha1 : a ≠ log.head := fun e => hqn (by rw [← e]; exact List.mem_cons_of_mem _ ha)
        rw [lookup_dropBlock, if_neg ha1, lookup_write, if_neg ha2]

/-- One call of `add_event` on a log that is not full, with an allocator
that never fails: a new block with the next id is linked at the end. -/
theorem add_event_room (malloc : Mem → Nat) (hm : GoodAlloc malloc) (log : EventLog)
    (mem : Mem) (cells : List (Nat × MeterEvent)) (hr : Represents (log, mem) cells)
    (hlt : cells.length ≤ 19) (c : Call) :
    ∃ (s1 : EventLog × Mem) (p : Nat),
      add_event malloc (log, mem) c.type c.value c.now = Except.ok s1
      ∧ Represents s1 (cells ++ [(p, MeterEvent.mk log.next_id c.type c.value c.now)])
      ∧ s1.1.next_id = toInt32 (log.next_id + 1) := by
  obtain ⟨hseg, hnd, hcount, _⟩ := hr
  simp only at hseg hcount
  obtain ⟨hp0, hpf⟩ := hm mem
  have hpn : malloc mem ∉ cells.map Prod.fst := fun hmem =>
    (Seg.live cells 0 log.head log.tail hseg _ hmem).2 hpf
  have hc1 : toInt32 (log.count + 1) = ((cells ++ [(malloc mem,
      MeterEvent.mk log.next_id c.type c.value c.now)]).length : Int) := by
    rw [hcount, toInt32_of_small_int (by omega) (by omega)]
    simp
  have hnd1 : ((cells ++ [(malloc mem,
      MeterEvent.mk log.next_id c.type c.value c.now)]).map Prod.fst).Nodup := by
    rw [List.map_append, List.nodup_append]
    refine ⟨hnd, by simp, ?_⟩
    intro a ha hb
    simp only [List.map_cons, List.map_nil, List.mem_singleton] at hb
    exact hpn (by rw [← hb]; exact ha)
  have hno : ¬ log.count ≥ MAX_EVENTS := by
    rw [hcount]; unfold MAX_EVENTS; omega
  unfold add_event
  simp only
  rw [if_neg hno]
  simp only [pure_bind]
  rw [if_neg hp0]
  by_cases hz : cells = []
  · subst hz
    rw [if_pos (by rw [hcount]; rfl)]
    refine ⟨_, malloc mem, rfl, ⟨?_, hnd1, hc1, by simp⟩, rfl⟩
    refine ⟨rfl, hp0, 0, ?_, rfl, rfl⟩
    rw [lookup_cons_block, if_pos rfl]
  · have hcnt : ¬ log.count = 0 := by
      rw [hcount]
      have : 0 < cells.length := List.length_pos.mpr hz
      omega
    rw [if_neg hcnt]
    obtain ⟨t, ht, hs⟩ := seg_snoc (malloc mem) hp0
      (MeterEvent.mk log.next_id c.type c.value c.now) cells 0 log.head log.tail hseg hz hnd hpn
    have hlast := Seg.last_mem cells 0 log.head log.tail hseg hz
    have htp : log.tail ≠ malloc mem := fun e => hpn (by rw [← e]; exact hlast)
    have ht1 : List.lookup log.tail ((malloc mem,
        Node.mk (MeterEvent.mk log.next_id c.type c.value c.now) 0 log.tail) :: mem)
        = some t := by
      rw [lookup_cons_block, if_neg htp]; exact ht
    rw [readNode_ok ht1, ok_bind, writeNode_ok _ ht1, ok_bind]
    have hl20 : (cells ++ [(malloc mem,
        MeterEvent.mk log.next_id c.type c.value c.now)]).length ≤ 20 := by
      simp only [List.length_append, List.length_singleton]; omega
    exact ⟨_, malloc mem, rfl, ⟨hs, hnd1, hc1, hl20⟩, rfl⟩

/-- One call of `add_event` with an allocator that never fails: when the log
is full the oldest block is dropped first, and a new block with the next id
is linked at the end. -/
theorem add_event_spec (malloc : Mem → Nat) (hm : GoodAlloc malloc) (s : EventLog × Mem)
    (cells : List (Nat × MeterEvent)) (hr : Represents s cells) (c : Call) :
    ∃ (s1 : EventLog × Mem) (p : Nat), add_event malloc s c.type c.value c.now = Except.ok s1
      ∧ Represents s1 ((if cells.length = 20 then cells.tail else cells)
          ++ [(p, MeterEvent.mk s.1.next_id c.type c.value c.now)])
      ∧ s1.1.next_id = toInt32 (s.1.next_id + 1) := by
  have hcount := hr.2.2.1
  have hlen := hr.2.2.2
  by_cases h20 : cells.length = 20
  · rw [if_pos h20]
    cases cells with
    | nil => simp at h20
    | cons x rest =>
      obtain ⟨q, e⟩ := x
      obtain ⟨s0, e0, r0, n0⟩ := remove_oldest_spec s.1 s.2 q e rest hr
      simp only [List.length_cons] at h20
      obtain ⟨log0, mem0⟩ := s0
      obtain ⟨s1, p, e1, r1, n1⟩ := add_event_room malloc hm log0 mem0 rest r0 (by omega) c
      have hno : ¬ log0.count ≥ MAX_EVENTS := by
        have := r0.2.2.1
        simp only at this
        rw [this]; unfold MAX_EVENTS; omega
      have heq : add_event malloc s c.type c.value c.now
          = add_event malloc (log0, mem0) c.type c.value c.now := by
        unfold add_event
        simp only
        rw [if_pos (by rw [hcount]; unfold MAX_EVENTS; simp only [List.length_cons]; omega),
          e0, if_neg hno]
        rfl
      simp only at n0
      refine ⟨s1, p, heq.trans e1, ?_, by rw [n1, n0]⟩
      rw [List.tail_cons, ← n0]
      exact r1
  · rw [if_neg h20]
    obtain ⟨log, mem⟩ := s
    exact add_event_room malloc hm log mem cells hr (by omega) c

end EnergyMeter

namespace EnergyMeter

theorem toInt32_add_one (x : Int) : toInt32 (toInt32 x + 1) = toInt32 (x + 1) := by
  unfold toInt32; omega

theorem eventsWrap_length : ∀ (calls : List Call) (f : Int),
    (eventsWrap f calls).length = calls.length := by
  intro calls
  induction calls with
  | nil => intro f; rfl
  | cons c cs ih => intro f; simp [eventsWrap, ih]

theorem eventsOf_length : ∀ (calls : List Call) (f : Int),
    (eventsOf f calls).length = calls.length := by
  intro calls
  induction calls with
  | nil => intro f; rfl
  | cons c cs ih => intro f; simp [eventsOf, ih]

theorem eventsWrap_eq_eventsOf : ∀ (calls : List Call) (f : Int), -2147483648 ≤ f →
    f + calls.length ≤ 2147483647 → eventsWrap f calls = eventsOf f calls := by
  intro calls
  induction calls with
  | nil => intro f _ _; rfl
  | cons c cs ih =>
    intro f h0 h1
    simp only [List.length_cons] at h1
    rw [eventsWrap, eventsOf, toInt32_of_small_int (by omega) (by push_cast at h1; omega)]
    rw [ih (f + 1) (by omega) (by push_cast at h1 ⊢; omega)]

theorem eventsWrap_ids : ∀ (calls : List Call) (f : Int),
    (eventsWrap (toInt32 f) calls).map (fun e => e.id)
      = (List.range calls.length).map (fun (k : Nat) => toInt32 (f + (k : Int))) := by
  intro calls
  induction calls with
  | nil => intro f; rfl
  | cons c cs ih =>
    intro f
    rw [eventsWrap, toInt32_add_one, List.map_cons, ih (f + 1), List.length_cons,
      List.range_succ_eq_map, List.map_cons, List.map_map]
    simp only [Nat.cast_zero, add_zero, List.cons.injEq, true_and]
    apply List.map_congr_left
    intro k _
    simp only [Function.comp, Nat.cast_succ]
    congr 1
    omega

theorem eventsOf_ids : ∀ (calls : List Call) (f : Int),
    (eventsOf f calls).map (fun e => e.id)
      = (List.range calls.length).map (fun (k : Nat) => f + (k : Int)) := by
  intro calls
  induction calls with
  | nil => intro f; rfl
  | cons c cs ih =>
    intro f
    rw [eventsOf, List.map_cons, ih (f + 1), List.length_cons,
      List.range_succ_eq_map, List.map_cons, List.map_map]
    simp only [Nat.cast_zero, add_zero, List.cons.injEq, true_and]
    apply List.map_congr_left
    intro k _
    simp only [Function.comp, Nat.cast_succ]
    omega

/-- A run of calls of `add_event`, from a state that represents a list: the
final state represents the last 20 of the events there were and the events
the calls create. -/
theorem addEvents_spec (malloc : Mem → Nat) (hm : GoodAlloc malloc) :
    ∀ (calls : List Call) (s : EventLog × Mem) (cells : List (Nat × MeterEvent)) (f : Int),
    Represents s cells → s.1.next_id = toInt32 f →
    ∃ (s1 : EventLog × Mem) (cells1 : List (Nat × MeterEvent)),
      addEvents malloc s calls = Except.ok s1 ∧ Represents s1 cells1
      ∧ s1.1.next_id = toInt32 (f + calls.length)
      ∧ cells1.map Prod.snd
          = (cells.map Prod.snd ++ eventsWrap (toInt32 f) calls).drop
              (cells.length + calls.length - 20) := by
  intro calls
  induction calls with
  | nil =>
    intro s cells f hr hf
    have hlen := hr.2.2.2
    refine ⟨s, cells, rfl, hr, by simpa using hf, ?_⟩
    rw [show cells.length + ([] : List Call).length - 20 = 0 by
      simp only [List.length_nil]; omega]
    simp [eventsWrap]
  | cons c cs ih =>
    intro s cells f hr hf
    have hlen := hr.2.2.2
    obtain ⟨s1, p, e1, r1, n1⟩ := add_event_spec malloc hm s cells hr c
    rw [hf, toInt32_add_one] at n1
    obtain ⟨s2, cells2, e2, r2, n2, hl2⟩ := ih s1 _ (f + 1) r1 n1
    refine ⟨s2, cells2, ?_, r2, ?_, ?_⟩
    · rw [addEvents, e1, ok_bind, e2]
    · rw [n2, List.length_cons]
      congr 1
      push_cast
      omega
    · rw [hl2, eventsWrap, ← hf, ← toInt32_add_one f, ← hf]
      by_cases h20 : cells.length = 20
      · rw [if_pos h20]
        cases cells with
        | nil => simp at h20
        | cons x rest =>
          simp only [List.length_cons] at h20
          simp only [List.tail_cons, List.map_append, List.map_cons, List.map_nil,
            List.length_append, List.length_cons, List.length_nil, List.append_assoc,
            List.singleton_append, List.cons_append, List.nil_append]
          rw [show rest.length + 1 + (cs.length + 1) - 20 = (rest.length + (0 + 1) + cs.length - 20) + 1
            by omega, List.drop_succ_cons]
      · rw [if_neg h20]
        simp only [List.map_append, List.map_cons, List.map_nil, List.length_append,
          List.length_cons, List.length_nil, List.append_assoc, List.singleton_append,
          List.nil_append]
        rw [show cells.length + (0 + 1) + cs.length - 20 = cells.length + (cs.length + 1) - 20
          by omega]

theorem lookup_le_bump : ∀ (mem : Mem) (q : Nat), List.lookup q mem ≠ none →
    q ≤ (mem.map Prod.fst).foldr max 0 := by
  intro mem
  induction mem with
  | nil => intro q h; simp at h
  | cons x t ih =>
    intro q h
    obtain ⟨a, n⟩ := x
    rw [lookup_cons_block] at h
    simp only [List.map_cons, List.foldr_cons]
    by_cases e : q = a
    · rw [e]; exact Nat.le_max_left _ _
    · rw [if_neg e] at h
      exact Nat.le_trans (ih q h) (Nat.le_max_right _ _)

theorem bumpAlloc_good : GoodAlloc bumpAlloc := by
  intro mem
  refine ⟨Nat.succ_ne_zero _, ?_⟩
  by_contra h
  have := lookup_le_bump mem _ h
  unfold bumpAlloc at this
  omega

theorem represents_init (log0 : EventLog) : Represents (init_log log0, []) [] :=
  ⟨⟨rfl, rfl⟩, List.nodup_nil, rfl, by simp⟩

/-- The log after any run of calls of `add_event` from `init_log`, with the
wrap-around of the ids taken into account. -/
theorem log_after_calls (malloc : Mem → Nat) (hm : GoodAlloc malloc) (log0 : EventLog)
    (calls : List Call) :
    ∃ (s : EventLog × Mem) (cells : List (Nat × MeterEvent)),
      addEvents malloc (init_log log0, []) calls = Except.ok s ∧ Represents s cells
      ∧ s.1.next_id = toInt32 (101 + calls.length)
      ∧ cells.length = min calls.length 20
      ∧ cells.map Prod.snd = (eventsWrap 101 calls).drop (calls.length - 20) := by
  have hf : (init_log log0, ([] : Mem)).1.next_id = toInt32 101 := rfl
  obtain ⟨s, cells, e, r, n, hl⟩ := addEvents_spec malloc hm calls _ [] 101
    (represents_init log0) hf
  have h101 : toInt32 101 = 101 := rfl
  rw [h101] at hl
  simp only [List.map_nil, List.nil_append, List.length_nil, Nat.zero_add] at hl
  refine ⟨s, cells, e, r, n, ?_, hl⟩
  have := congrArg List.length hl
  rw [List.length_map, List.length_drop, eventsWrap_length] at this
  omega

end EnergyMeter

namespace EnergyMeter

theorem drop_range_map (n d : Nat) (f : Int) :
    ((List.range n).map (fun (k : Nat) => f + (k : Int))).drop d
      = (List.range (n - d)).map (fun (k : Nat) => f + (d : Int) + (k : Int)) := by
  apply List.ext_getElem
  · simp
  · intro i h1 h2
    simp only [List.getElem_drop, List.getElem_map, List.getElem_range]
    push_cast
    omega

/-- The id of the newest event in the log after a non-empty run of calls:
`100 + n` converted to `int`. -/
theorem newest_id (malloc : Mem → Nat) (hm : GoodAlloc malloc) (log0 : EventLog)
    (calls : List Call) (hne : calls ≠ []) :
    ∃ (s : EventLog × Mem) (evs : List MeterEvent),
      addEvents malloc (init_log log0, []) calls = Except.ok s
      ∧ eventsFrom s.2 (min calls.length 20) s.1.head = some evs
      ∧ (evs.map (fun e => e.id)).getLast? = some (toInt32 (100 + (calls.length : Int))) := by
  obtain ⟨s, cells, e, r, _, hl, hc⟩ := log_after_calls malloc hm log0 calls
  have hev := eventsFrom_of_seg cells 0 s.1.head s.1.tail r.1
  rw [hl] at hev
  refine ⟨s, cells.map Prod.snd, e, hev, ?_⟩
  have h101 : eventsWrap 101 calls = eventsWrap (toInt32 101) calls := rfl
  rw [hc, List.map_drop, h101, eventsWrap_ids]
  obtain ⟨m, hm1⟩ : ∃ m, calls.length = m + 1 :=
    ⟨calls.length - 1, by have := List.length_pos.mpr hne; omega⟩
  rw [hm1, List.range_succ, List.map_append, List.drop_append_of_le_length
    (by rw [List.length_map, List.length_range]; omega)]
  simp only [List.map_cons, List.map_nil]
  rw [List.getLast?_append, List.getLast?_singleton]
  show some (toInt32 (101 + (m : Int))) = some (toInt32 (100 + ((m + 1 : Nat) : Int)))
  have e : (101 : Int) + (m : Int) = 100 + ((m + 1 : Nat) : Int) := by push_cast; omega
  rw [e]

/-- C26, as stated, fails on the code: after `2^31 - 100` calls of
`add_event` (here with the allocator `bumpAlloc`, which never fails) the
newest event of the log has id `-2^31`, not `100 + n = 2^31`: the `int`
`next_id` has wrapped around. -/
theorem event_id_wraps :
    GoodAlloc bumpAlloc
      ∧ ∃ (s : EventLog × Mem) (evs : List MeterEvent),
        addEvents bumpAlloc (init_log (EventLog.mk 0 0 0 0 0 0), [])
            (List.replicate 2147483548 (Call.mk EventType.POWER_CONSUMPTION 0 0)) = Except.ok s
        ∧ eventsFrom s.2 20 s.1.head = some evs
        ∧ (evs.map (fun e => e.id)).getLast? = some (-2147483648) := by
  refine ⟨bumpAlloc_good, ?_⟩
  obtain ⟨s, evs, h1, h2, h3⟩ := newest_id bumpAlloc bumpAlloc_good (EventLog.mk 0 0 0 0 0 0)
    (List.replicate 2147483548 (Call.mk EventType.POWER_CONSUMPTION 0 0))
    (by
      intro h
      have := congrArg List.length h
      rw [List.length_replicate] at this
      exact absurd this (by decide))
  rw [List.length_replicate] at h2 h3
  have e1 : min 2147483548 20 = 20 := by decide
  have e2 : toInt32 (100 + ((2147483548 : Nat) : Int)) = -2147483648 := by
    unfold toInt32; omega
  rw [e1] at h2
  rw [e2] at h3
  exact ⟨s, evs, h1, h2, h3⟩

/-- C26, amended: starting from `init_log`, after any sequence of `n` calls of
`add_event`, `n` at most `2^31 - 102`, with an allocator that never fails,
`count` is `min(n, 20)` and at most `MAX_EVENTS`; the list from `head`
following `next` (and from `tail` following `prev`, backwards) holds exactly
the last `min(n, 20)` events added, in the order of insertion, with
consecutive ids that end at `100 + n`; and when the log is full one more call
drops exactly the oldest event and appends the new one. -/
theorem bounded_event_log (malloc : Mem → Nat) (hm : GoodAlloc malloc) (log0 : EventLog)
    (calls : List Call) (hn : calls.length ≤ 2147483546) :
    ∃ (s : EventLog × Mem) (evs : List MeterEvent),
      addEvents malloc (init_log log0, []) calls = Except.ok s
      ∧ s.1.count = ((min calls.length 20 : Nat) : Int) ∧ s.1.count ≤ MAX_EVENTS
      ∧ evs = (eventsOf 101 calls).drop (calls.length - 20)
      ∧ eventsFrom s.2 (min calls.length 20) s.1.head = some evs
      ∧ eventsBack s.2 (min calls.length 20) s.1.tail = some evs.reverse
      ∧ evs.map (fun e => e.id)
          = (List.range (min calls.length 20)).map (fun (k : Nat) =>
              101 + ((calls.length - min calls.length 20 : Nat) : Int) + (k : Int))
      ∧ (20 ≤ calls.length → ∀ c : Call, ∃ s1 : EventLog × Mem,
          add_event malloc s c.type c.value c.now = Except.ok s1 ∧ s1.1.count = 20
          ∧ eventsFrom s1.2 20 s1.1.head
              = some (evs.tail ++ [MeterEvent.mk (101 + (calls.length : Int)) c.type c.value
                  c.now])) := by
  obtain ⟨s, cells, e, r, hnext, hl, hc⟩ := log_after_calls malloc hm log0 calls
  rw [eventsWrap_eq_eventsOf calls 101 (by omega) (by omega)] at hc
  have hnext1 : s.1.next_id = 101 + (calls.length : Int) := by
    rw [hnext, toInt32_of_small_int (by omega) (by omega)]
  have hev := eventsFrom_of_seg cells 0 s.1.head s.1.tail r.1
  have hbk := eventsBack_of_seg cells 0 s.1.head s.1.tail 0 [] r.1 rfl
  rw [hl] at hev
  rw [Nat.add_zero, hl, List.append_nil] at hbk
  have hcount : s.1.count = ((min calls.length 20 : Nat) : Int) := by
    rw [r.2.2.1, hl]
  refine ⟨s, cells.map Prod.snd, e, hcount, ?_, hc, hev, hbk, ?_, ?_⟩
  · rw [hcount]; unfold MAX_EVENTS; omega
  · rw [hc, List.map_drop, eventsOf_ids, drop_range_map]
    rw [show calls.length - (calls.length - 20) = min calls.length 20 by omega,
      show calls.length - min calls.length 20 = calls.length - 20 by omega]
  · intro h20 c
    have hl20 : cells.length = 20 := by omega
    obtain ⟨s1, p, e1, r1, _⟩ := add_event_spec malloc hm s cells r c
    rw [if_pos hl20] at r1
    have hlen1 : (cells.tail ++ [(p, MeterEvent.mk s.1.next_id c.type c.value c.now)]).length
        = 20 := by
      rw [List.length_append, List.length_tail, hl20]; rfl
    have hev1 := eventsFrom_of_seg _ 0 s1.1.head s1.1.tail r1.1
    rw [hlen1] at hev1
    refine ⟨s1, e1, ?_, ?_⟩
    · rw [r1.2.2.1, hlen1]; rfl
    · rw [hev1, List.map_append, List.map_tail, hnext1]
      rfl

/-- C26, amended, on a run of 21 calls of `add_event` with the allocator
`bumpAlloc`. -/
theorem bounded_event_log_witness :
    ∃ (s : EventLog × Mem) (evs : List MeterEvent),
      addEvents bumpAlloc (init_log (EventLog.mk 0 0 0 0 0 0), [])
          (List.replicate 21 (Call.mk EventType.FAULT_ALERT 5 7)) = Except.ok s
      ∧ s.1.count = 20 ∧ s.1.count ≤ MAX_EVENTS
      ∧ evs = (eventsOf 101 (List.replicate 21 (Call.mk EventType.FAULT_ALERT 5 7))).drop 1
      ∧ eventsFrom s.2 20 s.1.head = some evs
      ∧ eventsBack s.2 20 s.1.tail = some evs.reverse
      ∧ evs.map (fun e => e.id)
          = (List.range 20).map (fun (k : Nat) => 101 + ((1 : Nat) : Int) + (k : Int))
      ∧ (∀ c : Call, ∃ s1 : EventLog × Mem,
          add_event bumpAlloc s c.type c.value c.now = Except.ok s1 ∧ s1.1.count = 20
          ∧ eventsFrom s1.2 20 s1.1.head
              = some (evs.tail ++ [MeterEvent.mk (101 + ((21 : Nat) : Int)) c.type c.value
                  c.now])) := by
  obtain ⟨s, evs, h1, h2, h3, h4, h5, h6, h7, h8⟩ := bounded_event_log bumpAlloc bumpAlloc_good
    (EventLog.mk 0 0 0 0 0 0) (List.replicate 21 (Call.mk EventType.FAULT_ALERT 5 7))
    (by decide)
  exact ⟨s, evs, h1, h2, h3, h4, h5, h6, h7, h8 (by decide)⟩

end EnergyMeter

namespace Routing

/-! ## Network routing: the networks built by `add_link` -/

theorem route_bind_ok {α β : Type} (a : α) (f : α → Except Fault β) :
    (Except.ok a >>= f) = f a := rfl

theorem route_pure_ok {α : Type} (a : α) : (pure a : Except Fault α) = Except.ok a := rfl

theorem toInt32_in_range {x : Int} (h0 : -2147483648 ≤ x) (h1 : x < 2147483648) :
    toInt32 x = x := by
  unfold toInt32; omega

/-- A loop whose body keeps an invariant indexed by the loop counter runs to
its end and establishes the invariant at the final value of the counter. -/
theorem forLoop_keeps {σ : Type} (body : Nat → σ → Except Fault σ) (P : Nat → σ → Prop) :
    ∀ (cnt lo : Nat) (s : σ), P lo s →
      (∀ i s, lo ≤ i → i < lo + cnt → P i s → ∃ s1, body i s = Except.ok s1 ∧ P (i + 1) s1) →
      ∃ s1, forLoop body lo cnt s = Except.ok s1 ∧ P (lo + cnt) s1 := by
  intro cnt
  induction cnt with
  | zero => intro lo s h _; exact ⟨s, rfl, h⟩
  | succ cnt ih =>
    intro lo s h hb
    obtain ⟨s1, e1, h1⟩ := hb lo s (Nat.le_refl _) (by omega) h
    obtain ⟨s2, e2, h2⟩ := ih (lo + 1) s1 h1
      (fun i s hi1 hi2 hp => hb i s (by omega) (by omega) hp)
    refine ⟨s2, ?_, ?_⟩
    · rw [forLoop, e1, route_bind_ok, e2]
    · rw [show lo + (cnt + 1) = lo + 1 + cnt by omega]; exact h2

theorem readName_nat (g : NetworkGraph) (i : Nat) (hi : i < 20) :
    readName g (i : Int) = Except.ok (g.names i) := by
  unfold readName MAX_NODES
  rw [if_pos ⟨by omega, by omega⟩]
  simp

/-- The search loop returns the first index in its range that holds the name,
or `-1` when none does. -/
theorem index_loop_spec (g : NetworkGraph) (name : List Char) :
    ∀ (cnt i : Nat), i + cnt ≤ 20 →
      ∃ r, get_node_index_loop g name cnt i = Except.ok r ∧
        ((r = -1 ∧ ∀ k, i ≤ k → k < i + cnt → g.names k ≠ name) ∨
         (∃ k : Nat, r = (k : Int) ∧ i ≤ k ∧ k < i + cnt ∧ g.names k = name
            ∧ ∀ j, i ≤ j → j < k → g.names j ≠ name)) := by
  intro cnt
  induction cnt with
  | zero =>
    intro i _
    exact ⟨-1, rfl, Or.inl ⟨rfl, fun k h1 h2 => by omega⟩⟩
  | succ cnt ih =>
    intro i hi
    by_cases e : g.names i = name
    · refine ⟨(i : Int), ?_, Or.inr ⟨i, rfl, Nat.le_refl _, by omega, e, fun j h1 h2 => by omega⟩⟩
      rw [get_node_index_loop, readName_nat g i (by omega), route_bind_ok, if_pos e]
      rfl
    · obtain ⟨r, e1, h1⟩ := ih (i + 1) (by omega)
      refine ⟨r, ?_, ?_⟩
      · rw [get_node_index_loop, readName_nat g i (by omega), route_bind_ok, if_neg e]
        exact e1
      · rcases h1 with ⟨hr, hk⟩ | ⟨k, hr, hk1, hk2, hk3, hk4⟩
        · refine Or.inl ⟨hr, fun k hk1 hk2 => ?_⟩
          by_cases hki : k = i
          · subst hki; exact e
          · exact hk k (by omega) (by omega)
        · refine Or.inr ⟨k, hr, by omega, by omega, hk3, fun j hj1 hj2 => ?_⟩
          by_cases hji : j = i
          · subst hji; exact e
          · exact hk4 j (by omega) hj2

/-- In a network with distinct names `get_node_index` finds each node by its
name. -/
theorem get_node_index_names {g : NetworkGraph} {n : Nat} (hg : GraphOK g n) (k : Nat)
    (hk : k < n) : get_node_index g (g.names k) = Except.ok (k : Int) := by
  have hb := hg.bound
  obtain ⟨r, e, h⟩ := index_loop_spec g (g.names k) n 0 (by omega)
  unfold get_node_index
  rw [hg.nodes, Int.toNat_ofNat, e]
  rcases h with ⟨_, h2⟩ | ⟨j, hr, _, hj2, hj3, hj4⟩
  · exact absurd rfl (h2 k (Nat.zero_le _) (by omega))
  · have : j = k := hg.distinct j k (by omega) hk hj3
    subst this
    rw [hr]

/-- What `get_node_index` returns. -/
theorem get_node_index_spec {g : NetworkGraph} {n : Nat} (hg : GraphOK g n) (name : List Char) :
    ∃ r, get_node_index g name = Except.ok r ∧
      ((r = -1 ∧ ∀ k, k < n → g.names k ≠ name) ∨
       (∃ k : Nat, r = (k : Int) ∧ k < n ∧ g.names k = name)) := by
  have hb := hg.bound
  obtain ⟨r, e, h⟩ := index_loop_spec g name n 0 (by omega)
  refine ⟨r, ?_, ?_⟩
  · unfold get_node_index
    rw [hg.nodes, Int.toNat_ofNat, e]
  · rcases h with ⟨h1, h2⟩ | ⟨j, hr, _, hj2, hj3, _⟩
    · exact Or.inl ⟨h1, fun k hk => h2 k (Nat.zero_le _) (by omega)⟩
    · exact Or.inr ⟨j, hr, by omega, hj3⟩

/-- The function `add_node` keeps a network well formed, changes no latency and
returns `-1` or the index of a node. -/
theorem add_node_spec {g : NetworkGraph} {n : Nat} (hg : GraphOK g n) (name : List Char)
    (r : NetworkGraph × Int) (h : add_node g name = Except.ok r) :
    ∃ n1, GraphOK r.1 n1 ∧ r.1.adj_matrix = g.adj_matrix
      ∧ (r.2 = -1 ∨ (0 ≤ r.2 ∧ r.2 < 20)) := by
  obtain ⟨idx, e, hidx⟩ := get_node_index_spec hg name
  unfold add_node at h
  rw [e, route_bind_ok] at h
  rcases hidx with ⟨h1, h2⟩ | ⟨k, hk1, hk2, _⟩
  · rw [if_neg (by simp [h1])] at h
    by_cases hfull : g.num_nodes ≥ MAX_NODES
    · rw [if_pos hfull] at h
      cases h
      exact ⟨n, hg, rfl, Or.inl rfl⟩
    · rw [if_neg hfull, if_pos (by rw [hg.nodes]; omega)] at h
      by_cases hlen : name.length < NAME_LEN
      · rw [if_pos hlen] at h
        cases h
        have hn := hg.nodes
        unfold MAX_NODES at hfull
        refine ⟨n + 1, ⟨?_, ?_, hg.nonneg, ?_⟩, rfl, Or.inr ⟨?_, ?_⟩⟩
        · show g.num_nodes + 1 = ((n + 1 : Nat) : Int)
          rw [hn]; push_cast; rfl
        · rw [hn] at hfull
          have : (n : Int) < 20 := by
            have h20 : ((20 : Nat) : Int) = 20 := rfl
            omega
          omega
        · intro i j hi hj hij
          simp only [hn, Int.toNat_ofNat] at hij
          by_cases hin : i = n
          · by_cases hjn : j = n
            · omega
            · rw [if_pos hin, if_neg hjn] at hij
              exact absurd hij.symm (h2 j (by omega))
          · by_cases hjn : j = n
            · rw [if_neg hin, if_pos hjn] at hij
              exact absurd hij (h2 i (by omega))
            · rw [if_neg hin, if_neg hjn] at hij
              exact hg.distinct i j (by omega) (by omega) hij
        · show 0 ≤ g.num_nodes
          rw [hn]; omega
        · show g.num_nodes < 20
          rw [hn] at hfull ⊢
          have h20 : ((20 : Nat) : Int) = 20 := rfl
          omega
      · rw [if_neg hlen] at h
        cases h
  · have hb := hg.bound
    rw [if_pos (by rw [hk1]; omega)] at h
    cases h
    exact ⟨n, hg, rfl, Or.inr ⟨by rw [hk1]; omega, by rw [hk1]; omega⟩⟩

theorem writeAdj_spec {g g1 : NetworkGraph} {n : Nat} (hg : GraphOK g n) (i j v : Int)
    (hv : 0 ≤ v) (h : writeAdj g i j v = Except.ok g1) : GraphOK g1 n := by
  unfold writeAdj at h
  split at h
  · cases h
    refine ⟨hg.nodes, hg.bound, fun a b => ?_, hg.distinct⟩
    show 0 ≤ (if a = i.toNat ∧ b = j.toNat then v else g.adj_matrix a b)
    split
    · exact hv
    · exact hg.nonneg a b
  · cases h

/-- The function `add_link` with a latency that is not negative keeps a network
well formed. -/
theorem add_link_spec {g g1 : NetworkGraph} {n : Nat} (hg : GraphOK g n)
    (u_name v_name : List Char) (latency : Int) (hl : 0 ≤ latency)
    (h : add_link g u_name v_name latency = Except.ok g1) : ∃ n1, GraphOK g1 n1 := by
  unfold add_link at h
  cases e1 : add_node g u_name with
  | error f => rw [e1] at h; cases h
  | ok r1 =>
    rw [e1, route_bind_ok] at h
    obtain ⟨n1, hg1, _, _⟩ := add_node_spec hg u_name r1 e1
    cases e2 : add_node r1.1 v_name with
    | error f => rw [e2] at h; cases h
    | ok r2 =>
      rw [e2, route_bind_ok] at h
      obtain ⟨n2, hg2, _, _⟩ := add_node_spec hg1 v_name r2 e2
      by_cases hc : r1.2 ≠ -1 ∧ r2.2 ≠ -1
      · rw [if_pos hc] at h
        cases e3 : writeAdj r2.1 r1.2 r2.2 latency with
        | error f => rw [e3] at h; cases h
        | ok g3 =>
          rw [e3, route_bind_ok] at h
          exact ⟨n2, writeAdj_spec (writeAdj_spec hg2 _ _ _ hl e3) _ _ _ hl h⟩
      · rw [if_neg hc] at h
        cases h
        exact ⟨n2, hg2⟩

theorem init_network_ok (g : NetworkGraph) : GraphOK (init_network g) 0 := by
  refine ⟨rfl, by omega, fun i j => ?_, fun i j hi => by omega⟩
  show 0 ≤ (if i = j then (0 : Int) else INF)
  split
  · exact le_refl _
  · unfold INF; omega

/-- Every network built by `add_link` with non-negative latencies has between 0
and `MAX_NODES` nodes, distinct names and no negative latency. -/
theorem built_ok {g : NetworkGraph} (h : Built g) : ∃ n, GraphOK g n := by
  induction h with
  | init g => exact ⟨0, init_network_ok g⟩
  | link g g1 u v w _ hw hl ih =>
    obtain ⟨n, hn⟩ := ih
    exact add_link_spec hn u v w hw hl

end Routing

namespace Routing

/-! ## Network routing: the loops of `find_shortest_path` -/

theorem readCell_nat {α : Type} (a : Nat → Option α) (i : Nat) (hi : i < 20) (v : α)
    (h : a i = some v) : readCell a (i : Int) = Except.ok v := by
  unfold readCell MAX_NODES
  rw [if_pos ⟨by omega, by omega⟩, Int.toNat_ofNat, h]

theorem writeCell_nat {α : Type} (a : Nat → Option α) (i : Nat) (hi : i < 20) (v : α) :
    writeCell a (i : Int) v = Except.ok (fun k => if k = i then some v else a k) := by
  unfold writeCell MAX_NODES
  rw [if_pos ⟨by omega, by omega⟩, Int.toNat_ofNat]

theorem readAdj_nat (g : NetworkGraph) (i j : Nat) (hi : i < 20) (hj : j < 20) :
    readAdj g (i : Int) (j : Int) = Except.ok (g.adj_matrix i j) := by
  unfold readAdj MAX_NODES
  rw [if_pos ⟨by omega, by omega, by omega, by omega⟩, Int.toNat_ofNat, Int.toNat_ofNat]

theorem some_getD {α : Type} {o : Option α} (h : o.isSome = true) (d : α) :
    o = some (o.getD d) := by
  cases o with
  | none => cases h
  | some v => rfl

theorem dist_some {l : Locals} {n : Nat} (h : l.Init n) {i : Nat} (hi : i < n) :
    l.dist i = some (l.D i) := some_getD (h i hi).1 0

theorem prev_some {l : Locals} {n : Nat} (h : l.Init n) {i : Nat} (hi : i < n) :
    l.prev i = some (l.P i) := some_getD (h i hi).2.1 0

theorem visited_some {l : Locals} {n : Nat} (h : l.Init n) {i : Nat} (hi : i < n) :
    l.visited i = some (l.V i) := some_getD (h i hi).2.2 false

/-- The initialisation loop writes `INF`, `-1` and `false` in the first `n`
cells. -/
theorem init_loop (n : Nat) (hn : n ≤ 20) :
    ∃ l, forLoop initCell 0 n (Locals.mk (fun _ => none) (fun _ => none) (fun _ => none))
        = Except.ok l ∧ l.Init n
      ∧ ∀ i, i < n → l.D i = INF ∧ l.P i = -1 ∧ l.V i = false := by
  obtain ⟨l, e, h⟩ := forLoop_keeps initCell
    (fun j l => ∀ i, i < j → l.dist i = some INF ∧ l.prev i = some (-1)
      ∧ l.visited i = some false) n 0 _ (fun i hi => by omega)
    (by
      intro i s _ hi2 hp
      refine ⟨Locals.mk (fun k => if k = i then some INF else s.dist k)
        (fun k => if k = i then some (-1) else s.prev k)
        (fun k => if k = i then some false else s.visited k), ?_, ?_⟩
      · unfold initCell
        rw [writeCell_nat _ i (by omega), route_bind_ok, writeCell_nat _ i (by omega),
          route_bind_ok, writeCell_nat _ i (by omega), route_bind_ok]
        rfl
      · intro k hk
        by_cases hki : k = i
        · simp only [hki, if_true, and_self]
        · simp only [if_neg hki]
          exact hp k (by omega))
  rw [Nat.zero_add] at h
  refine ⟨l, e, fun i hi => ?_, fun i hi => ?_⟩
  · obtain ⟨h1, h2, h3⟩ := h i hi
    rw [h1, h2, h3]; exact ⟨rfl, rfl, rfl⟩
  · obtain ⟨h1, h2, h3⟩ := h i hi
    unfold Locals.D Locals.P Locals.V
    rw [h1, h2, h3]; exact ⟨rfl, rfl, rfl⟩

/-- The selection loop returns `-1` when no unvisited node has a distance below
`INF`, and otherwise an unvisited node of least distance. -/
theorem pick_loop (l : Locals) (n : Nat) (hn : n ≤ 20) (hinit : l.Init n) :
    ∃ s, forLoop (pickCell l) 0 n (INF, -1) = Except.ok s ∧
      ((s.2 = -1 ∧ ∀ i, i < n → l.V i = false → INF ≤ l.D i) ∨
       (∃ k : Nat, k < n ∧ s.2 = (k : Int) ∧ l.V k = false ∧ l.D k < INF
          ∧ ∀ i, i < n → l.V i = false → l.D k ≤ l.D i)) := by
  obtain ⟨s, e, h⟩ := forLoop_keeps (pickCell l)
    (fun j s => (s.2 = -1 ∧ s.1 = INF ∧ ∀ i, i < j → l.V i = false → INF ≤ l.D i) ∨
       (∃ k : Nat, k < j ∧ s.2 = (k : Int) ∧ l.V k = false ∧ s.1 = l.D k ∧ l.D k < INF
          ∧ ∀ i, i < j → l.V i = false → l.D k ≤ l.D i)) n 0 (INF, -1)
    (Or.inl ⟨rfl, rfl, fun i hi => by omega⟩)
    (by
      intro i s _ hi2 hp
      have hi : i < n := by omega
      have er : readCell l.visited (i : Int) = Except.ok (l.V i) :=
        readCell_nat _ i (by omega) _ (visited_some hinit hi)
      have ed : readCell l.dist (i : Int) = Except.ok (l.D i) :=
        readCell_nat _ i (by omega) _ (dist_some hinit hi)
      by_cases hv : l.V i = true
      · refine ⟨s, ?_, ?_⟩
        · unfold pickCell
          rw [er, route_bind_ok, if_pos hv]; rfl
        · rcases hp with ⟨h1, h2, h3⟩ | ⟨k, h1, h2, h3, h4, h5, h6⟩
          · refine Or.inl ⟨h1, h2, fun m hm hvm => ?_⟩
            by_cases hmi : m = i
            · subst hmi; rw [hv] at hvm; cases hvm
            · exact h3 m (by omega) hvm
          · refine Or.inr ⟨k, by omega, h2, h3, h4, h5, fun m hm hvm => ?_⟩
            by_cases hmi : m = i
            · subst hmi; rw [hv] at hvm; cases hvm
            · exact h6 m (by omega) hvm
      · have hvf : l.V i = false := by
          cases hb : l.V i with
          | true => exact absurd hb hv
          | false => rfl
        by_cases hd : l.D i < s.1
        · refine ⟨(l.D i, (i : Int)), ?_, ?_⟩
          · unfold pickCell
            rw [er, route_bind_ok, if_neg hv]
            show (readCell l.dist (i : Int) >>= _) = _
            rw [ed, route_bind_ok, if_pos hd]; rfl
          · rcases hp with ⟨h1, h2, h3⟩ | ⟨k, h1, h2, h3, h4, h5, h6⟩
            · rw [h2] at hd
              refine Or.inr ⟨i, by omega, rfl, hvf, rfl, hd, fun m hm hvm => ?_⟩
              by_cases hmi : m = i
              · subst hmi; exact le_refl _
              · have := h3 m (by omega) hvm
                omega
            · rw [h4] at hd
              refine Or.inr ⟨i, by omega, rfl, hvf, rfl, by omega, fun m hm hvm => ?_⟩
              by_cases hmi : m = i
              · subst hmi; exact le_refl _
              · have := h6 m (by omega) hvm
                omega
        · refine ⟨s, ?_, ?_⟩
          · unfold pickCell
            rw [er, route_bind_ok, if_neg hv]
            show (readCell l.dist (i : Int) >>= _) = _
            rw [ed, route_bind_ok, if_neg hd]; rfl
          · rcases hp with ⟨h1, h2, h3⟩ | ⟨k, h1, h2, h3, h4, h5, h6⟩
            · rw [h2] at hd
              refine Or.inl ⟨h1, h2, fun m hm hvm => ?_⟩
              by_cases hmi : m = i
              · subst hmi; omega
              · exact h3 m (by omega) hvm
            · rw [h4] at hd
              refine Or.inr ⟨k, by omega, h2, h3, h4, h5, fun m hm hvm => ?_⟩
              by_cases hmi : m = i
              · subst hmi; omega
              · exact h6 m (by omega) hvm)
  rw [Nat.zero_add] at h
  refine ⟨s, e, ?_⟩
  rcases h with ⟨h1, _, h3⟩ | ⟨k, h1, h2, h3, _, h5, h6⟩
  · exact Or.inl ⟨h1, h3⟩
  · exact Or.inr ⟨k, h1, h2, h3, h5, h6⟩

end Routing

namespace Routing

/-- The update loop leaves `visited` as it is and gives every unvisited
neighbour of `u` that it brings closer the distance through `u` and the
predecessor `u`. -/
theorem relax_loop (g : NetworkGraph) (n : Nat) (hn : n ≤ 20) (l : Locals) (u : Nat)
    (hu : u < n) (hinit : l.Init n) (hV : l.V u = true)
    (hsmall : ∀ v, v < n → l.V v = false → g.adj_matrix u v ≠ INF →
      -2147483648 ≤ l.D u + g.adj_matrix u v ∧ l.D u + g.adj_matrix u v < 2147483648) :
    ∃ l1, forLoop (relaxCell g (u : Int)) 0 n l = Except.ok l1 ∧ l1.Init n
      ∧ l1.visited = l.visited
      ∧ ∀ v, v < n →
        (l1.D v = if l.V v = false ∧ g.adj_matrix u v ≠ INF
            ∧ l.D u + g.adj_matrix u v < l.D v then l.D u + g.adj_matrix u v else l.D v)
        ∧ (l1.P v = if l.V v = false ∧ g.adj_matrix u v ≠ INF
            ∧ l.D u + g.adj_matrix u v < l.D v then (u : Int) else l.P v) := by
  obtain ⟨l1, e, h⟩ := forLoop_keeps (relaxCell g (u : Int))
    (fun j l1 => l1.Init n ∧ l1.visited = l.visited ∧ ∀ v, v < n →
        (v < j → (l1.D v = if l.V v = false ∧ g.adj_matrix u v ≠ INF
            ∧ l.D u + g.adj_matrix u v < l.D v then l.D u + g.adj_matrix u v else l.D v)
          ∧ (l1.P v = if l.V v = false ∧ g.adj_matrix u v ≠ INF
            ∧ l.D u + g.adj_matrix u v < l.D v then (u : Int) else l.P v))
        ∧ (j ≤ v → l1.D v = l.D v ∧ l1.P v = l.P v)) n 0 l
    ⟨hinit, rfl, fun v _ => ⟨fun h => by omega, fun _ => ⟨rfl, rfl⟩⟩⟩
    (by
      intro j s _ hj2 hp
      obtain ⟨hi, hvis, hcells⟩ := hp
      have hj : j < n := by omega
      have hVs : ∀ k, s.V k = l.V k := fun k => by unfold Locals.V; rw [hvis]
      have er : readCell s.visited (j : Int) = Except.ok (l.V j) := by
        rw [← hVs j]
        exact readCell_nat _ j (by omega) _ (visited_some hi hj)
      have hDj : s.D j = l.D j := ((hcells j hj).2 (Nat.le_refl _)).1
      have hPj : s.P j = l.P j := ((hcells j hj).2 (Nat.le_refl _)).2
      have hDu : s.D u = l.D u := by
        by_cases huj : u < j
        · rw [((hcells u hu).1 huj).1, if_neg]
          intro hc; rw [hV] at hc; cases hc.1
        · exact ((hcells u hu).2 (by omega)).1
      -- the state is kept when the cell `j` is not updated
      have keep : ¬ (l.V j = false ∧ g.adj_matrix u j ≠ INF
            ∧ l.D u + g.adj_matrix u j < l.D j) →
          (s.Init n ∧ s.visited = l.visited ∧ ∀ v, v < n →
            (v < j + 1 → (s.D v = if l.V v = false ∧ g.adj_matrix u v ≠ INF
                ∧ l.D u + g.adj_matrix u v < l.D v then l.D u + g.adj_matrix u v else l.D v)
              ∧ (s.P v = if l.V v = false ∧ g.adj_matrix u v ≠ INF
                ∧ l.D u + g.adj_matrix u v < l.D v then (u : Int) else l.P v))
            ∧ (j + 1 ≤ v → s.D v = l.D v ∧ s.P v = l.P v)) := by
        intro hc
        refine ⟨hi, hvis, fun v hv => ⟨fun hvj => ?_, fun hvj => (hcells v hv).2 (by omega)⟩⟩
        by_cases hvj2 : v = j
        · subst hvj2
          rw [if_neg hc, if_neg hc]
          exact ⟨hDj, hPj⟩
        · exact (hcells v hv).1 (by omega)
      by_cases hv : l.V j = true
      · refine ⟨s, ?_, keep (fun hc => by rw [hv] at hc; cases hc.1)⟩
        unfold relaxCell
        rw [er, route_bind_ok, if_pos hv]; rfl
      · have hvf : l.V j = false := by
          cases hb : l.V j with
          | true => exact absurd hb hv
          | false => rfl
        have ea : readAdj g (u : Int) (j : Int) = Except.ok (g.adj_matrix u j) :=
          readAdj_nat g u j (by omega) (by omega)
        by_cases hw : g.adj_matrix u j ≠ INF
        · have edu : readCell s.dist (u : Int) = Except.ok (l.D u) := by
            rw [← hDu]; exact readCell_nat _ u (by omega) _ (dist_some hi hu)
          have edj : readCell s.dist (j : Int) = Except.ok (l.D j) := by
            rw [← hDj]; exact readCell_nat _ j (by omega) _ (dist_some hi hj)
          have halt : toInt32 (l.D u + g.adj_matrix u j) = l.D u + g.adj_matrix u j :=
            toInt32_in_range (hsmall j hj hvf hw).1 (hsmall j hj hvf hw).2
          by_cases hlt : l.D u + g.adj_matrix u j < l.D j
          · refine ⟨Locals.mk
              (fun k => if k = j then some (l.D u + g.adj_matrix u j) else s.dist k)
              (fun k => if k = j then some (u : Int) else s.prev k) s.visited, ?_, ?_⟩
            · unfold relaxCell
              rw [er, route_bind_ok, if_neg hv]
              show (readAdj g (u : Int) (j : Int) >>= _) = _
              rw [ea, route_bind_ok, if_pos hw]
              show (readCell s.dist (u : Int) >>= _) = _
              rw [edu, route_bind_ok]
              show (readCell s.dist (j : Int) >>= _) = _
              rw [edj, route_bind_ok]
              simp only [halt]
              rw [if_pos hlt, writeCell_nat _ j (by omega), route_bind_ok,
                writeCell_nat _ j (by omega), route_bind_ok]
              rfl
            · refine ⟨fun k hk => ?_, hvis, fun v hv2 => ⟨fun hvj => ?_, fun hvj => ?_⟩⟩
              · obtain ⟨h1, h2, h3⟩ := hi k hk
                refine ⟨?_, ?_, h3⟩
                · show (if k = j then some (l.D u + g.adj_matrix u j) else s.dist k).isSome = true
                  split
                  · rfl
                  · exact h1
                · show (if k = j then some (u : Int) else s.prev k).isSome = true
                  split
                  · rfl
                  · exact h2
              · by_cases hvj2 : v = j
                · subst hvj2
                  rw [if_pos ⟨hvf, hw, hlt⟩, if_pos ⟨hvf, hw, hlt⟩]
                  unfold Locals.D Locals.P
                  simp only [if_true, Option.getD_some, and_self]
                · have := (hcells v hv2).1 (by omega)
                  unfold Locals.D Locals.P at this ⊢
                  simp only [if_neg hvj2]
                  exact this
              · have hvj2 : v ≠ j := by omega
                have := (hcells v hv2).2 (by omega)
                unfold Locals.D Locals.P at this ⊢
                simp only [if_neg hvj2]
                exact this
          · refine ⟨s, ?_, keep (fun hc => hlt hc.2.2)⟩
            unfold relaxCell
            rw [er, route_bind_ok, if_neg hv]
            show (readAdj g (u : Int) (j : Int) >>= _) = _
            rw [ea, route_bind_ok, if_pos hw]
            show (readCell s.dist (u : Int) >>= _) = _
            rw [edu, route_bind_ok]
            show (readCell s.dist (j : Int) >>= _) = _
            rw [edj, route_bind_ok]
            simp only [halt]
            rw [if_neg hlt]; rfl
        · refine ⟨s, ?_, keep (fun hc => hw hc.2.1)⟩
          unfold relaxCell
          rw [er, route_bind_ok, if_neg hv]
          show (readAdj g (u : Int) (j : Int) >>= _) = _
          rw [ea, route_bind_ok, if_neg hw]; rfl)
  rw [Nat.zero_add] at h
  obtain ⟨h1, h2, h3⟩ := h
  exact ⟨l1, e, h1, h2, fun v hv => (h3 v hv).1 hv⟩

end Routing

namespace Routing

/-! ## Network routing: walks -/

theorem walkCost_nonneg (g : NetworkGraph) (h : ∀ i j, 0 ≤ g.adj_matrix i j) :
    ∀ p : List Nat, 0 ≤ walkCost g p
  | [] => le_refl _
  | [_] => le_refl _
  | a :: b :: p => by
    have h1 := walkCost_nonneg g h (b :: p)
    have h2 := h a b
    show 0 ≤ g.adj_matrix a b + walkCost g (b :: p)
    omega

theorem walkCost_snoc (g : NetworkGraph) :
    ∀ (p : List Nat) (u v : Nat), p.getLast? = some u →
      walkCost g (p ++ [v]) = walkCost g p + g.adj_matrix u v
  | [], _, _, h => by cases h
  | [a], u, v, h => by
    have : a = u := by simpa using h
    subst this
    show g.adj_matrix a v + 0 = 0 + g.adj_matrix a v
    omega
  | a :: b :: p, u, v, h => by
    have ih := walkCost_snoc g (b :: p) u v (by rw [List.getLast?_cons_cons] at h; exact h)
    show g.adj_matrix a b + walkCost g ((b :: p) ++ [v])
      = g.adj_matrix a b + walkCost g (b :: p) + g.adj_matrix u v
    rw [ih]; omega

theorem isWalk_lt {g : NetworkGraph} {n : Nat} (hg : GraphOK g n) {p : List Nat}
    (h : IsWalk g p) {x : Nat} (hx : x ∈ p) : x < n := by
  have := h.1 x hx
  rw [hg.nodes] at this
  omega

theorem isWalk_tail {g : NetworkGraph} {a : Nat} {p : List Nat} (h : IsWalk g (a :: p)) :
    IsWalk g p :=
  ⟨fun x hx => h.1 x (List.mem_cons_of_mem _ hx), h.2.tail⟩

theorem isWalk_snoc {g : NetworkGraph} {p : List Nat} {u v : Nat} (h : IsWalk g p)
    (hl : p.getLast? = some u) (hv : (v : Int) < g.num_nodes)
    (hlink : g.adj_matrix u v ≠ INF) : IsWalk g (p ++ [v]) := by
  refine ⟨fun x hx => ?_, ?_⟩
  · rcases List.mem_append.1 hx with hx | hx
    · exact h.1 x hx
    · rw [List.mem_singleton] at hx; subst hx; exact hv
  · refine List.Chain'.append h.2 (List.chain'_singleton v) ?_
    intro x hx y hy
    rw [hl] at hx
    simp only [Option.mem_def, Option.some.injEq, List.head?_cons] at hx hy
    subst hx; subst hy
    exact hlink

theorem chain_mem_imp {R S : Nat → Nat → Prop} :
    ∀ p : List Nat, (∀ a b, b ∈ p → R a b → S a b) → p.Chain' R → p.Chain' S
  | [], _, _ => List.chain'_nil
  | [a], _, _ => List.chain'_singleton a
  | a :: b :: p, h, hc => by
    rw [List.chain'_cons] at hc ⊢
    refine ⟨h a b (by simp) hc.1, ?_⟩
    exact chain_mem_imp (b :: p) (fun x y hy => h x y (List.mem_cons_of_mem _ hy)) hc.2

theorem chain_snoc {R : Nat → Nat → Prop} {p : List Nat} {u v : Nat} (h : p.Chain' R)
    (hl : p.getLast? = some u) (hr : R u v) : (p ++ [v]).Chain' R := by
  refine List.Chain'.append h (List.chain'_singleton v) ?_
  intro x hx y hy
  rw [hl] at hx
  simp only [Option.mem_def, Option.some.injEq, List.head?_cons] at hx hy
  subst hx; subst hy
  exact hr

theorem getLast_mem_of {p : List Nat} {u : Nat} (h : p.getLast? = some u) : u ∈ p :=
  List.mem_of_getLast?_eq_some h

theorem nodup_length_le {p : List Nat} {n : Nat} (hp : p.Nodup) (h : ∀ x ∈ p, x < n) :
    p.length ≤ n := by
  have hs : p ⊆ List.range n := fun x hx => List.mem_range.2 (h x hx)
  have := (List.Nodup.subperm hp hs).length_le
  rwa [List.length_range] at this

end Routing

namespace Routing

/-! ## Network routing: the invariant of the main loop -/

/-- A link that leaves a visited node for an unvisited one ends at a node
whose distance is below `INF`. -/
theorem frontier_finite {g : NetworkGraph} {n start : Nat} {l : Locals} (hg : GraphOK g n)
    (hsimple : ∀ p, IsWalk g p → p.Nodup → walkCost g p < INF)
    (hinv : Inv g n start l) {a b : Nat} (ha : a < n) (hb : b < n) (hva : l.V a = true)
    (hvb : l.V b = false) (hlink : g.adj_matrix a b ≠ INF) :
    l.D b ≤ l.D a + g.adj_matrix a b ∧ l.D b < INF := by
  have h1 := hinv.relaxed a b ha hb hva hlink
  obtain ⟨r, hr1, hr2, hr3, _, hr5⟩ := hinv.route a ha (hinv.vfin a ha hva)
  have hnot : b ∉ r := by
    intro hbr
    by_cases hba : b = a
    · subst hba; rw [hva] at hvb; cases hvb
    · have := hr5 b hbr hba
      rw [this] at hvb; cases hvb
  have hw : IsWalk g (r ++ [b]) :=
    isWalk_snoc hr1.1 hr1.2.2 (by rw [hg.nodes]; omega) hlink
  have hn : (r ++ [b]).Nodup := by
    rw [List.nodup_append]
    refine ⟨hr2, List.nodup_singleton b, ?_⟩
    intro x hx hx2
    rw [List.mem_singleton] at hx2
    subst hx2
    exact hnot hx
  have hc := hsimple _ hw hn
  rw [walkCost_snoc g r a b hr1.2.2, hr3] at hc
  exact ⟨h1, by omega⟩

/-- A walk that leaves a visited node and ends at an unvisited one passes an
unvisited node whose distance is below `INF` and is at most the distance of
the first node plus the latency of the walk. -/
theorem frontier {g : NetworkGraph} {n start : Nat} {l : Locals} (hg : GraphOK g n)
    (hsimple : ∀ p, IsWalk g p → p.Nodup → walkCost g p < INF)
    (hinv : Inv g n start l) :
    ∀ (q : List Nat) (a : Nat), IsWalk g (a :: q) → l.V a = true →
      ∀ t, (a :: q).getLast? = some t → l.V t = false →
      ∃ x, x < n ∧ l.V x = false ∧ l.D x < INF ∧ l.D x ≤ l.D a + walkCost g (a :: q)
  | [], a, _, hva, t, hl, hvt => by
    have : a = t := by simpa using hl
    subst this
    rw [hva] at hvt; cases hvt
  | b :: q, a, hw, hva, t, hl, hvt => by
    have ha : a < n := isWalk_lt hg hw (by simp)
    have hb : b < n := isWalk_lt hg hw (by simp)
    have hlink : g.adj_matrix a b ≠ INF := (List.chain'_cons.1 hw.2).1
    have hcost : walkCost g (a :: b :: q) = g.adj_matrix a b + walkCost g (b :: q) := rfl
    by_cases hvb : l.V b = true
    · obtain ⟨x, hx1, hx2, hx3, hx4⟩ := frontier hg hsimple hinv q b (isWalk_tail hw) hvb t
        (by rw [List.getLast?_cons_cons] at hl; exact hl) hvt
      have := hinv.relaxed a b ha hb hva hlink
      exact ⟨x, hx1, hx2, hx3, by rw [hcost]; omega⟩
    · have hvbf : l.V b = false := by
        cases hb2 : l.V b with
        | true => exact absurd hb2 hvb
        | false => rfl
      obtain ⟨h1, h2⟩ := frontier_finite hg hsimple hinv ha hb hva hvbf hlink
      have := walkCost_nonneg g hg.nonneg (b :: q)
      exact ⟨b, hb, hvbf, h2, by rw [hcost]; omega⟩

/-- One turn of the main loop that marks `u` keeps the invariant. -/
theorem inv_step {g : NetworkGraph} {n start : Nat} {l : Locals} (hg : GraphOK g n)
    (hsimple : ∀ p, IsWalk g p → p.Nodup → walkCost g p < INF)
    (hinv : Inv g n start l) (u : Nat) (hu : u < n) (hvu : l.V u = false)
    (hdu : l.D u < INF) (hmin : ∀ i, i < n → l.V i = false → l.D u ≤ l.D i) :
    ∃ vis l1, writeCell l.visited (u : Int) true = Except.ok vis
      ∧ forLoop (relaxCell g (u : Int)) 0 n (Locals.mk l.dist l.prev vis) = Except.ok l1
      ∧ Inv g n start l1 ∧ ∀ k, k < n → l1.V k = if k = u then true else l.V k := by
  have hb := hg.bound
  have hVm : ∀ k, (Locals.mk l.dist l.prev
      (fun k => if k = u then some true else l.visited k)).V k
        = if k = u then true else l.V k := by
    intro k
    unfold Locals.V
    show (if k = u then some true else l.visited k).getD false = _
    split <;> rfl
  have hinit : (Locals.mk l.dist l.prev
      (fun k => if k = u then some true else l.visited k)).Init n := by
    intro i hi
    obtain ⟨h1, h2, h3⟩ := hinv.init i hi
    refine ⟨h1, h2, ?_⟩
    show (if i = u then some true else l.visited i).isSome = true
    split
    · rfl
    · exact h3
  have hrange := hinv.range
  have hadj : ∀ v, v < n → v ≠ u → g.adj_matrix u v ≠ INF → g.adj_matrix u v < INF := by
    intro v hv hvu2 hlink
    have hw : IsWalk g [u, v] := by
      refine ⟨fun x hx => ?_, ?_⟩
      · rw [hg.nodes]
        simp only [List.mem_cons, List.mem_singleton, List.not_mem_nil, or_false] at hx
        rcases hx with hx | hx <;> subst hx <;> omega
      · simp [hlink]
    have hn : [u, v].Nodup := by simp [Ne.symm hvu2]
    have := hsimple _ hw hn
    have hc : walkCost g [u, v] = g.adj_matrix u v + 0 := rfl
    omega
  obtain ⟨l1, e1, hi1, hvis1, hcells⟩ := relax_loop g n hb
    (Locals.mk l.dist l.prev (fun k => if k = u then some true else l.visited k)) u hu hinit
    (by rw [hVm, if_pos rfl])
    (by
      intro v hv hvv hlink
      have hvu2 : v ≠ u := by
        intro hc; rw [hVm, if_pos hc] at hvv; cases hvv
      have h1 := hadj v hv hvu2 hlink
      have h2 := hg.nonneg u v
      have h3 := hrange u hu
      show -2147483648 ≤ l.D u + g.adj_matrix u v ∧ l.D u + g.adj_matrix u v < 2147483648
      unfold INF at h1 h3
      omega)
  have hV1 : ∀ k, l1.V k = if k = u then true else l.V k := by
    intro k
    rw [← hVm k]
    unfold Locals.V
    rw [hvis1]
  -- the cells after the loop, in terms of the cells before it
  have hcase : ∀ v, v < n →
      (l1.D v = l.D v ∧ l1.P v = l.P v
        ∧ ¬ (l1.V v = false ∧ g.adj_matrix u v ≠ INF ∧ l.D u + g.adj_matrix u v < l.D v)) ∨
      (l1.V v = false ∧ g.adj_matrix u v ≠ INF ∧ l.D u + g.adj_matrix u v < l.D v
        ∧ l1.D v = l.D u + g.adj_matrix u v ∧ l1.P v = (u : Int)) := by
    intro v hv
    obtain ⟨h1, h2⟩ := hcells v hv
    rw [hVm] at h1 h2
    change l1.D v = (if (if v = u then true else l.V v) = false ∧ g.adj_matrix u v ≠ INF
      ∧ l.D u + g.adj_matrix u v < l.D v then l.D u + g.adj_matrix u v else l.D v) at h1
    change l1.P v = (if (if v = u then true else l.V v) = false ∧ g.adj_matrix u v ≠ INF
      ∧ l.D u + g.adj_matrix u v < l.D v then (u : Int) else l.P v) at h2
    rw [← hV1 v] at h1 h2
    by_cases hc : l1.V v = false ∧ g.adj_matrix u v ≠ INF
        ∧ l.D u + g.adj_matrix u v < l.D v
    · rw [if_pos hc] at h1 h2
      exact Or.inr ⟨hc.1, hc.2.1, hc.2.2, h1, h2⟩
    · rw [if_neg hc] at h1 h2
      exact Or.inl ⟨h1, h2, hc⟩
  have hle : ∀ v, v < n → l1.D v ≤ l.D v := by
    intro v hv
    rcases hcase v hv with ⟨h1, _, _⟩ | ⟨_, _, h3, h4, _⟩
    · omega
    · omega
  have hkeep : ∀ v, v < n → l1.V v = true → l1.D v = l.D v ∧ l1.P v = l.P v := by
    intro v hv hvv
    rcases hcase v hv with ⟨h1, h2, _⟩ | ⟨h0, _⟩
    · exact ⟨h1, h2⟩
    · rw [hvv] at h0; cases h0
  have hold : ∀ v, l.V v = true → l1.V v = true := by
    intro v hv
    rw [hV1]; split
    · rfl
    · exact hv
  have hnew : ∀ v, l1.V v = true → v = u ∨ l.V v = true := by
    intro v hv
    rw [hV1] at hv
    by_cases hvu2 : v = u
    · exact Or.inl hvu2
    · rw [if_neg hvu2] at hv; exact Or.inr hv
  have hunv : ∀ v, l1.V v = false → v ≠ u ∧ l.V v = false := by
    intro v hv
    rw [hV1] at hv
    by_cases hvu2 : v = u
    · rw [if_pos hvu2] at hv; cases hv
    · rw [if_neg hvu2] at hv; exact ⟨hvu2, hv⟩
  have hu1 : l1.V u = true := by rw [hV1, if_pos rfl]
  refine ⟨_, l1, writeCell_nat _ u (by omega) true, e1, ?_, fun k _ => hV1 k⟩
  refine ⟨hi1, ?_, ?_, ?_, ?_, ?_, ?_, ?_, ?_⟩
  · -- dist[start] = 0
    have hs : start < n := by
      by_contra hc
      obtain ⟨r, hr, _⟩ := hinv.route u hu hdu
      have : start ∈ r := List.mem_of_mem_head? hr.2.1
      exact hc (isWalk_lt hg hr.1 this)
    have h0 := hinv.dstart
    have h1 := (hrange start hs)
    have h2 := hle start hs
    rcases hcase start hs with ⟨h3, _, _⟩ | ⟨_, _, h5, _, _⟩
    · omega
    · have := hg.nonneg u start
      have := (hrange u hu).1
      omega
  · have hs : start < n := by
      by_contra hc
      obtain ⟨r, hr, _⟩ := hinv.route u hu hdu
      have : start ∈ r := List.mem_of_mem_head? hr.2.1
      exact hc (isWalk_lt hg hr.1 this)
    have h0 := hinv.dstart
    rcases hcase start hs with ⟨_, h3, _⟩ | ⟨_, _, h5, _, _⟩
    · rw [h3]; exact hinv.pstart
    · have := hg.nonneg u start
      have := (hrange u hu).1
      omega
  · intro v hv
    have h1 := hrange v hv
    rcases hcase v hv with ⟨h3, _, _⟩ | ⟨_, _, h5, h6, _⟩
    · omega
    · have := hg.nonneg u v
      have := (hrange u hu).1
      omega
  · intro x hx hvx
    rw [(hkeep x hx hvx).1]
    rcases hnew x hvx with h | h
    · subst h; exact hdu
    · exact hinv.vfin x hx h
  · intro x y hx hy hvx hvy
    rw [(hkeep x hx hvx).1]
    obtain ⟨hyu, hvy0⟩ := hunv y hvy
    have hxu : l.D x ≤ l.D u := by
      rcases hnew x hvx with h | h
      · subst h; exact le_refl _
      · exact hinv.order x u hx hu h hvu
    have huy : l.D u ≤ l.D y := hmin y hy hvy0
    rcases hcase y hy with ⟨h3, _, _⟩ | ⟨_, _, _, h6, _⟩
    · omega
    · have := hg.nonneg u y
      omega
  · intro x y hx hy hvx hlink
    rw [(hkeep x hx hvx).1]
    rcases hnew x hvx with h | h
    · subst h
      cases hvy : l1.V y with
      | true =>
        rw [(hkeep y hy hvy).1]
        have := hg.nonneg x y
        rcases hnew y hvy with h2 | h2
        · subst h2; omega
        · have := hinv.order y x hy hx h2 hvu
          omega
      | false =>
        rcases hcase y hy with ⟨h3, _, h5⟩ | ⟨_, _, _, h6, _⟩
        · rw [h3]
          by_contra hc
          exact h5 ⟨hvy, hlink, by omega⟩
        · omega
    · have := hinv.relaxed x y hx hy h hlink
      have := hle y hy
      omega
  · intro v hv hdv
    rcases hcase v hv with ⟨h3, h4, h5⟩ | ⟨h1, h2, h3, h4, h5⟩
    · rw [h3] at hdv
      obtain ⟨r, hr1, hr2, hr3, hr4, hr5⟩ := hinv.route v hv hdv
      refine ⟨r, hr1, hr2, by rw [hr3, h3], ?_, fun x hx hxv => hold x (hr5 x hx hxv)⟩
      refine chain_mem_imp r ?_ hr4
      intro a b hbr hab
      by_cases hbv : b = v
      · subst hbv; rw [h4]; exact hab
      · have hbn : b < n := isWalk_lt hg hr1.1 hbr
        rw [(hkeep b hbn (hold b (hr5 b hbr hbv))).2]; exact hab
    · obtain ⟨r, hr1, hr2, hr3, hr4, hr5⟩ := hinv.route u hu hdu
      obtain ⟨hvu2, hv0⟩ := hunv v h1
      have hnot : v ∉ r := by
        intro hvr
        have := hr5 v hvr hvu2
        rw [this] at hv0; cases hv0
      have hur : u ∈ r := getLast_mem_of hr1.2.2
      have hrne : r ≠ [] := List.ne_nil_of_mem hur
      refine ⟨r ++ [v], ⟨isWalk_snoc hr1.1 hr1.2.2 (by rw [hg.nodes]; omega) h2, ?_, ?_⟩,
        ?_, ?_, ?_, ?_⟩
      · rw [List.head?_append_of_ne_nil _ hrne]; exact hr1.2.1
      · simp
      · rw [List.nodup_append]
        refine ⟨hr2, List.nodup_singleton v, ?_⟩
        intro x hx hx2
        rw [List.mem_singleton] at hx2
        subst hx2
        exact hnot hx
      · rw [walkCost_snoc g r u v hr1.2.2, hr3, h4]
      · refine chain_snoc (chain_mem_imp r ?_ hr4) hr1.2.2 h5
        intro a b hbr hab
        have hbn : b < n := isWalk_lt hg hr1.1 hbr
        have hb1 : l1.V b = true := by
          by_cases hbu : b = u
          · subst hbu; exact hu1
          · exact hold b (hr5 b hbr hbu)
        rw [(hkeep b hbn hb1).2]; exact hab
      · intro x hx hxv
        rcases List.mem_append.1 hx with hx | hx
        · by_cases hxu : x = u
          · subst hxu; exact hu1
          · exact hold x (hr5 x hx hxu)
        · rw [List.mem_singleton] at hx; exact absurd hx hxv
  · intro x hx hvx
    cases hvs : l.V start with
    | true => exact hold start hvs
    | false =>
      obtain ⟨r, hr1, _, _, _, hr5⟩ := hinv.route u hu hdu
      have hsr : start ∈ r := List.mem_of_mem_head? hr1.2.1
      by_cases hsu : start = u
      · rw [hsu]; exact hu1
      · have := hr5 start hsr hsu
        rw [this] at hvs; cases hvs

end Routing

namespace Routing

/-! ## Network routing: the main loop and the route -/

theorem unvisited_mark (p q : Nat → Bool) (u : Nat) (hp : p u = false) :
    ∀ n, (∀ k, k < n → q k = if k = u then true else p k) →
      ((List.range n).filter (fun i => q i = false)).length + (if u < n then 1 else 0)
        = ((List.range n).filter (fun i => p i = false)).length := by
  intro n
  induction n with
  | zero => intro _; rfl
  | succ n ih =>
    intro h
    have ih1 := ih (fun k hk => h k (by omega))
    rw [List.range_succ, List.filter_append, List.filter_append, List.length_append,
      List.length_append]
    by_cases hnu : n = u
    · subst hnu
      have hq : q n = true := by rw [h n (by omega), if_pos rfl]
      rw [if_neg (by omega)] at ih1
      rw [if_pos (by omega)]
      have e1 : [n].filter (fun i => decide (q i = false)) = [] := by simp [hq]
      have e2 : [n].filter (fun i => decide (p i = false)) = [n] := by simp [hp]
      rw [e1, e2]
      simp only [List.length_nil, List.length_singleton]
      omega
    · have hq : q n = p n := by rw [h n (by omega), if_neg hnu]
      have hiff : (if u < n + 1 then 1 else 0) = (if u < n then 1 else 0) := by
        by_cases hun : u < n
        · rw [if_pos hun, if_pos (by omega)]
        · rw [if_neg hun, if_neg (by omega)]
      rw [hiff]
      simp only [List.filter_cons, List.filter_nil, hq]
      omega

theorem unvisited_step {l l1 : Locals} {n u : Nat} (hu : u < n) (hvu : l.V u = false)
    (h : ∀ k, k < n → l1.V k = if k = u then true else l.V k) :
    l1.unvisited n + 1 = l.unvisited n := by
  have := unvisited_mark l.V l1.V u hvu n h
  rw [if_pos hu] at this
  exact this

theorem unvisited_last {l : Locals} {n t : Nat} (ht : t < n) (hvt : l.V t = false)
    (h : l.unvisited n ≤ 1) : ∀ k, k < n → l.V k = false → k = t := by
  intro k hk hvk
  by_contra hkt
  have hn : [k, t].Nodup := by simp [hkt]
  have hs : [k, t] ⊆ (List.range n).filter (fun i => l.V i = false) := by
    intro x hx
    simp only [List.mem_cons, List.mem_singleton, List.not_mem_nil, or_false] at hx
    rw [List.mem_filter, List.mem_range]
    rcases hx with hx | hx <;> subst hx
    · exact ⟨hk, by simp [hvk]⟩
    · exact ⟨ht, by simp [hvt]⟩
  have := (List.Nodup.subperm hn hs).length_le
  unfold Locals.unvisited at h
  simp only [List.length_cons, List.length_nil] at this
  omega

/-- When the loop ends with the target at least as close as every unvisited
node of distance below `INF`, the distance of the target is below `INF` as soon
as a walk reaches it, and is at most the latency of every such walk. -/
theorem final_of_exit {g : NetworkGraph} {n start target : Nat} {l : Locals}
    (hg : GraphOK g n) (hsimple : ∀ p, IsWalk g p → p.Nodup → walkCost g p < INF)
    (hinv : Inv g n start l) (hs : start < n) (hvt : l.V target = false)
    (hexit : ∀ x, x < n → l.V x = false → l.D x < INF →
      l.D target < INF ∧ l.D target ≤ l.D x) :
    ∀ q, WalkFromTo g start target q →
      l.D target < INF ∧ l.D target ≤ walkCost g q := by
  intro q hq
  have hc := walkCost_nonneg g hg.nonneg q
  cases hvs : l.V start with
  | false =>
    have := hexit start hs hvs (by rw [hinv.dstart]; unfold INF; omega)
    rw [hinv.dstart] at this
    exact ⟨this.1, by omega⟩
  | true =>
    cases q with
    | nil => cases hq.2.1
    | cons a q =>
      have ha : a = start := by
        have := hq.2.1
        simpa using this
      subst ha
      obtain ⟨x, hx1, hx2, hx3, hx4⟩ := frontier hg hsimple hinv q a hq.1 hvs target hq.2.2 hvt
      rw [hinv.dstart] at hx4
      have := hexit x hx1 hx2 hx3
      exact ⟨this.1, by omega⟩

/-- The main loop ends, keeps the invariant, and leaves in `dist[target]` a
value that is below `INF` as soon as a walk reaches the target and that is at
most the latency of every such walk. -/
theorem mainLoop_spec {g : NetworkGraph} {n start target : Nat} (hg : GraphOK g n)
    (hsimple : ∀ p, IsWalk g p → p.Nodup → walkCost g p < INF)
    (hs : start < n) (ht : target < n) :
    ∀ (cnt : Nat) (l : Locals), Inv g n start l → l.V target = false →
      l.unvisited n ≤ cnt + 1 →
      ∃ l1, mainLoop g (target : Int) cnt l = Except.ok l1 ∧ Inv g n start l1
        ∧ ∀ q, WalkFromTo g start target q →
            l1.D target < INF ∧ l1.D target ≤ walkCost g q := by
  intro cnt
  induction cnt with
  | zero =>
    intro l hinv hvt hcount
    refine ⟨l, rfl, hinv, final_of_exit hg hsimple hinv hs hvt ?_⟩
    intro x hx hvx hdx
    have := unvisited_last ht hvt hcount x hx hvx
    subst this
    exact ⟨hdx, le_refl _⟩
  | succ cnt ih =>
    intro l hinv hvt hcount
    obtain ⟨s, es, hpick⟩ := pick_loop l n hg.bound hinv.init
    have hnn : g.num_nodes.toNat = n := by rw [hg.nodes, Int.toNat_ofNat]
    rcases hpick with ⟨h1, h2⟩ | ⟨k, hk, h1, h2, h3, h4⟩
    · refine ⟨l, ?_, hinv, final_of_exit hg hsimple hinv hs hvt ?_⟩
      · rw [mainLoop, hnn, es, route_bind_ok, if_pos (Or.inl h1)]; rfl
      · intro x hx hvx hdx
        have := h2 x hx hvx
        omega
    · by_cases hkt : k = target
      · subst hkt
        refine ⟨l, ?_, hinv, final_of_exit hg hsimple hinv hs hvt ?_⟩
        · rw [mainLoop, hnn, es, route_bind_ok, if_pos (Or.inr h1)]; rfl
        · intro x hx hvx _
          exact ⟨h3, h4 x hx hvx⟩
      · obtain ⟨vis, l1, e1, e2, hinv1, hV1⟩ := inv_step hg hsimple hinv k hk h2 h3 h4
        have hvt1 : l1.V target = false := by
          rw [hV1 target ht, if_neg (fun h => hkt h.symm)]; exact hvt
        have hcount1 : l1.unvisited n ≤ cnt + 1 := by
          have := unvisited_step hk h2 hV1
          omega
        obtain ⟨l2, e3, hinv2, hfin⟩ := ih l1 hinv1 hvt1 hcount1
        refine ⟨l2, ?_, hinv2, hfin⟩
        rw [mainLoop, hnn, es, route_bind_ok, if_neg, h1, e1, route_bind_ok, e2, route_bind_ok]
        · exact e3
        · rw [h1]
          intro hc
          rcases hc with hc | hc
          · omega
          · exact hkt (by omega)

/-- The loop that follows `prev` from a node writes the route to that node in
reverse, when the route fits in the cells that are left. -/
theorem tracePath_spec (l : Locals) (n : Nat) (hn : n ≤ 20) (hinit : l.Init n) :
    ∀ (rest : List Nat) (v cap : Nat) (acc : List Int), (v :: rest).length ≤ cap →
      (∀ x ∈ v :: rest, x < n) → (v :: rest).Chain' (fun b a => l.P b = (a : Int)) →
      (∀ s, (v :: rest).getLast? = some s → l.P s = -1) →
      tracePath l cap (v : Int) acc
        = Except.ok (acc ++ (v :: rest).map (fun (x : Nat) => (x : Int))) := by
  intro rest
  induction rest with
  | nil =>
    intro v cap acc hlen hlt _ hlast
    have hv : v < n := hlt v (by simp)
    have hp : l.P v = -1 := hlast v rfl
    cases cap with
    | zero => simp at hlen
    | succ c =>
      rw [tracePath, if_neg (by omega)]
      show (readCell l.prev (v : Int) >>= _) = _
      rw [readCell_nat _ v (by omega) _ (prev_some hinit hv), route_bind_ok, hp,
        tracePath.eq_def]
      dsimp only
      rw [if_pos rfl]
      rfl
  | cons w rest ih =>
    intro v cap acc hlen hlt hch hlast
    have hv : v < n := hlt v (by simp)
    rw [List.chain'_cons] at hch
    cases cap with
    | zero => simp at hlen
    | succ c =>
      rw [tracePath, if_neg (by omega)]
      show (readCell l.prev (v : Int) >>= _) = _
      rw [readCell_nat _ v (by omega) _ (prev_some hinit hv), route_bind_ok, hch.1,
        ih w c (acc ++ [(v : Int)]) (by simp only [List.length_cons] at hlen ⊢; omega)
          (fun x hx => hlt x (List.mem_cons_of_mem _ hx)) hch.2
          (fun s hs => hlast s (by rw [List.getLast?_cons_cons]; exact hs))]
      simp

end Routing

namespace Routing

/-! ## Network routing: the shortest path -/

/-- The arrays at the first head of the main loop satisfy the invariant. -/
theorem inv_start {g : NetworkGraph} {n start : Nat} (hg : GraphOK g n) (hs : start < n)
    (l0 : Locals) (hinit : l0.Init n)
    (h0 : ∀ i, i < n → l0.D i = INF ∧ l0.P i = -1 ∧ l0.V i = false) :
    Inv g n start
      (Locals.mk (fun k => if k = start then some 0 else l0.dist k) l0.prev l0.visited) := by
  have hD : ∀ k, (Locals.mk (fun k => if k = start then some 0 else l0.dist k) l0.prev
      l0.visited).D k = if k = start then 0 else l0.D k := by
    intro k
    unfold Locals.D
    show (if k = start then some 0 else l0.dist k).getD 0 = _
    split <;> rfl
  have hfin : ∀ v, v < n → (Locals.mk (fun k => if k = start then some 0 else l0.dist k)
      l0.prev l0.visited).D v < INF → v = start := by
    intro v hv hd
    by_contra hc
    rw [hD, if_neg hc, (h0 v hv).1] at hd
    omega
  have hV : ∀ v, v < n → (Locals.mk (fun k => if k = start then some 0 else l0.dist k)
      l0.prev l0.visited).V v = false := fun v hv => (h0 v hv).2.2
  refine ⟨?_, ?_, (h0 start hs).2.1, ?_, ?_, ?_, ?_, ?_, ?_⟩
  · intro i hi
    obtain ⟨h1, h2, h3⟩ := hinit i hi
    refine ⟨?_, h2, h3⟩
    show (if i = start then some 0 else l0.dist i).isSome = true
    split
    · rfl
    · exact h1
  · rw [hD, if_pos rfl]
  · intro v hv
    rw [hD]
    split
    · unfold INF; omega
    · rw [(h0 v hv).1]; unfold INF; omega
  · intro u hu hvu
    rw [hV u hu] at hvu; cases hvu
  · intro u v hu _ hvu
    rw [hV u hu] at hvu; cases hvu
  · intro u v hu _ hvu
    rw [hV u hu] at hvu; cases hvu
  · intro v hv hd
    have := hfin v hv hd
    subst this
    refine ⟨[v], ⟨⟨fun x hx => ?_, List.chain'_singleton v⟩, rfl, rfl⟩,
      List.nodup_singleton v, ?_, List.chain'_singleton v, fun x hx hxv => ?_⟩
    · rw [List.mem_singleton] at hx; subst hx; rw [hg.nodes]; omega
    · rw [hD, if_pos rfl]; rfl
    · rw [List.mem_singleton] at hx; exact absurd hx hxv
  · intro u hu hvu
    rw [hV u hu] at hvu; cases hvu

/-- A walk without repeated node costs at most the number of its nodes times
the largest latency of a link between two different nodes. -/
theorem walkCost_le {g : NetworkGraph} (W : Int) (hW0 : 0 ≤ W)
    (hW : ∀ a b : Nat, (a : Int) < g.num_nodes → (b : Int) < g.num_nodes → a ≠ b →
      g.adj_matrix a b ≠ INF → g.adj_matrix a b ≤ W) :
    ∀ p : List Nat, IsWalk g p → p.Nodup → walkCost g p ≤ (p.length : Int) * W
  | [], _, _ => by
    show (0 : Int) ≤ ((0 : Nat) : Int) * W
    simp
  | [a], _, _ => by
    show (0 : Int) ≤ ((1 : Nat) : Int) * W
    simpa using hW0
  | a :: b :: p, hw, hn => by
    have ih := walkCost_le W hW0 hW (b :: p) (isWalk_tail hw) (List.nodup_cons.1 hn).2
    have hab : a ≠ b := by
      intro h
      exact (List.nodup_cons.1 hn).1 (by rw [h]; simp)
    have h1 := hW a b (hw.1 a (by simp)) (hw.1 b (by simp)) hab (List.chain'_cons.1 hw.2).1
    show g.adj_matrix a b + walkCost g (b :: p) ≤ (((b :: p).length + 1 : Nat) : Int) * W
    push_cast
    rw [add_mul, one_mul]
    omega

end Routing

namespace Routing

/-- Claim C23 (shortest path). In a network built by `add_link` with
non-negative latencies in which every path (walk without repeated node along
links, a link being an entry of the matrix other than `INF`) has a total
latency below `INF`, `find_shortest_path`, called with the names of two
existing nodes `s` and `t`, ends without fault; it reports "No valid route"
exactly when no walk leads from `s` to `t`; otherwise it reports a total
latency and a route such that the route is a path from `s` to `t`, the
latencies of its links sum to the total reported, and no walk from `s` to `t`
has a smaller total latency. -/
theorem shortest_path (g : NetworkGraph) (hb : Built g)
    (hsimple : ∀ p, IsWalk g p → p.Nodup → walkCost g p < INF)
    (s t : Nat) (hs : (s : Int) < g.num_nodes) (ht : (t : Int) < g.num_nodes) :
    ∃ out, find_shortest_path g (g.names s) (g.names t) = Except.ok out
      ∧ (out = Outcome.noRoute ↔ ¬ ∃ p, WalkFromTo g s t p)
      ∧ ((∃ p, WalkFromTo g s t p) → ∃ r : List Nat,
          out = Outcome.route (walkCost g r) (r.map (fun (x : Nat) => (x : Int)))
          ∧ WalkFromTo g s t r ∧ r.Nodup
          ∧ ∀ q, WalkFromTo g s t q → walkCost g r ≤ walkCost g q) := by
  obtain ⟨n, hg⟩ := built_ok hb
  have hn := hg.bound
  have hsn : s < n := by rw [hg.nodes] at hs; omega
  have htn : t < n := by rw [hg.nodes] at ht; omega
  have hnn : g.num_nodes.toNat = n := by rw [hg.nodes, Int.toNat_ofNat]
  have hcnt : (g.num_nodes - 1).toNat = n - 1 := by rw [hg.nodes]; omega
  obtain ⟨l0, e0, hinit0, hcells0⟩ := init_loop n hn
  have hinv0 := inv_start hg hsn l0 hinit0 hcells0
  have hcount : (Locals.mk (fun k => if k = s then some 0 else l0.dist k) l0.prev
      l0.visited).unvisited n ≤ n - 1 + 1 := by
    unfold Locals.unvisited
    have := List.length_filter_le (fun i => decide ((Locals.mk
      (fun k => if k = s then some 0 else l0.dist k) l0.prev l0.visited).V i = false))
      (List.range n)
    rw [List.length_range] at this
    omega
  obtain ⟨l, e2, hinv, hfin⟩ := mainLoop_spec hg hsimple hsn htn (n - 1) _ hinv0
    (hcells0 t htn).2.2 hcount
  have e3 : readCell l.dist (t : Int) = Except.ok (l.D t) :=
    readCell_nat _ t (by omega) _ (dist_some hinv.init htn)
  have hstart : find_shortest_path g (g.names s) (g.names t)
      = (if l.D t = INF then pure Outcome.noRoute
          else do
            let path ← tracePath l MAX_NODES (t : Int) []
            pure (Outcome.route (l.D t) path.reverse)) := by
    unfold find_shortest_path
    rw [get_node_index_names hg s hsn, route_bind_ok, get_node_index_names hg t htn,
      route_bind_ok, if_neg (by omega), hnn, e0, route_bind_ok,
      writeCell_nat _ s (by omega), route_bind_ok, hcnt, e2, route_bind_ok, e3, route_bind_ok]
  by_cases hd : l.D t = INF
  · have hno : ¬ ∃ p, WalkFromTo g s t p := by
      rintro ⟨p, hp⟩
      have := (hfin p hp).1
      omega
    refine ⟨Outcome.noRoute, ?_, ⟨fun _ => hno, fun _ => rfl⟩, fun h => absurd h hno⟩
    rw [hstart, if_pos hd]; rfl
  · have hlt : l.D t < INF := by
      have := (hinv.range t htn).2
      omega
    obtain ⟨r, hr1, hr2, hr3, hr4, hr5⟩ := hinv.route t htn hlt
    have hrlt : ∀ x ∈ r, x < n := fun x hx => isWalk_lt hg hr1.1 hx
    have hlen : r.length ≤ n := nodup_length_le hr2 hrlt
    have htr : t ∈ r := getLast_mem_of hr1.2.2
    obtain ⟨rest, hrest⟩ : ∃ rest, r.reverse = t :: rest := by
      have h1 : r.reverse.head? = some t := by rw [List.head?_reverse]; exact hr1.2.2
      cases hrr : r.reverse with
      | nil => rw [hrr] at h1; cases h1
      | cons a rest =>
        rw [hrr] at h1
        have : a = t := by simpa using h1
        subst this
        exact ⟨rest, rfl⟩
    have etrace : tracePath l MAX_NODES (t : Int) []
        = Except.ok ([] ++ (t :: rest).map (fun (x : Nat) => (x : Int))) := by
      apply tracePath_spec l n hn hinv.init rest t MAX_NODES []
      · rw [← hrest, List.length_reverse]; unfold MAX_NODES; omega
      · intro x hx
        rw [← hrest, List.mem_reverse] at hx
        exact hrlt x hx
      · rw [← hrest, List.chain'_reverse]
        exact hr4
      · intro x hx
        rw [← hrest, List.getLast?_reverse, hr1.2.1] at hx
        cases hx
        exact hinv.pstart
    have hpath : ((t :: rest).map (fun (x : Nat) => (x : Int))).reverse
        = r.map (fun (x : Nat) => (x : Int)) := by
      rw [← hrest, List.map_reverse, List.reverse_reverse]
    refine ⟨Outcome.route (walkCost g r) (r.map (fun (x : Nat) => (x : Int))), ?_,
      ⟨fun h => (by cases h), fun h => absurd ⟨r, hr1⟩ h⟩,
      fun _ => ⟨r, rfl, hr1, hr2, fun q hq => ?_⟩⟩
    · rw [hstart, if_neg hd, etrace, route_bind_ok, List.nil_append, hpath, hr3]
      rfl
    · rw [hr3]; exact (hfin q hq).2

end Routing

namespace Routing

/-- Instance of `shortest_path`: the network of the links A-B (8), B-C (7) and
A-C (20), searched from A to C; the route found is A, B, C, of total 15. -/
theorem shortest_path_witness :
    Built sampleNet
      ∧ (∀ p, IsWalk sampleNet p → p.Nodup → walkCost sampleNet p < INF)
      ∧ sampleNet.num_nodes = 3 ∧ sampleNet.names 0 = ['A'] ∧ sampleNet.names 2 = ['C']
      ∧ find_shortest_path sampleNet ['A'] ['C'] = Except.ok (Outcome.route 15 [0, 1, 2])
      ∧ ∃ out, find_shortest_path sampleNet (sampleNet.names 0) (sampleNet.names 2)
          = Except.ok out
        ∧ (out = Outcome.noRoute ↔ ¬ ∃ p, WalkFromTo sampleNet 0 2 p)
        ∧ ((∃ p, WalkFromTo sampleNet 0 2 p) → ∃ r : List Nat,
            out = Outcome.route (walkCost sampleNet r) (r.map (fun (x : Nat) => (x : Int)))
            ∧ WalkFromTo sampleNet 0 2 r ∧ r.Nodup
            ∧ ∀ q, WalkFromTo sampleNet 0 2 q → walkCost sampleNet r ≤ walkCost sampleNet q) := by
  have hb : Built sampleNet :=
    Built.link _ _ ['A'] ['C'] 20
      (Built.link _ _ ['B'] ['C'] 7
        (Built.link _ _ ['A'] ['B'] 8
          (Built.init (NetworkGraph.mk (fun _ => []) (fun _ _ => 0) 0)) (by decide) rfl)
        (by decide) rfl)
      (by decide) rfl
  have hnum : sampleNet.num_nodes = 3 := rfl
  have hsimple : ∀ p, IsWalk sampleNet p → p.Nodup → walkCost sampleNet p < INF := by
    intro p hw hn
    have h1 := walkCost_le 20 (by decide) (by
      intro a b ha hb2 hab
      rw [hnum] at ha hb2
      have ha3 : a < 3 := by omega
      have hb3 : b < 3 := by omega
      interval_cases a <;> interval_cases b <;> decide) p hw hn
    have h2 : p.length ≤ 3 := nodup_length_le hn (fun x hx => by
      have := hw.1 x hx
      rw [hnum] at this
      omega)
    unfold INF
    omega
  exact ⟨hb, hsimple, rfl, rfl, rfl, rfl,
    shortest_path sampleNet hb hsimple 0 2 (by decide) (by decide)⟩

end Routing

namespace Huffman

/-! ## Optimality: prefix-free codes -/

theorem prefixFree_perm {u v : List (List Bool)} (h : u.Perm v) (hu : PrefixFree u) :
    PrefixFree v := by
  unfold PrefixFree at hu ⊢
  exact (List.Perm.pairwise_iff (fun {a b} hab => ⟨hab.2, hab.1⟩) h).1 hu

/-- A word that is not comparable with `w0 ++ [c]`, is not its sibling and is
not longer, is not comparable with `w0`. -/
theorem parent_free {w0 v : List Bool} {c : Bool}
    (h1 : ¬ (w0 ++ [c]) <+: v) (h2 : ¬ v <+: (w0 ++ [c])) (hs : v ≠ w0 ++ [!c])
    (hlen : v.length ≤ w0.length + 1) : ¬ w0 <+: v ∧ ¬ v <+: w0 := by
  refine ⟨?_, fun h => h2 (h.trans (List.prefix_append _ _))⟩
  rintro ⟨t, rfl⟩
  cases t with
  | nil => exact h2 (by rw [List.append_nil]; exact List.prefix_append _ _)
  | cons d t =>
    cases t with
    | nil =>
      by_cases hd : d = c
      · subst hd; exact h1 (List.prefix_refl _)
      · apply hs
        have : d = !c := by
          cases d <;> cases c <;> simp at hd ⊢
        rw [this]
    | cons e t =>
      simp only [List.length_append, List.length_cons] at hlen
      omega

theorem prefixFree_head_ne_nil {w v : List Bool} {rest : List (List Bool)}
    (h : PrefixFree (w :: v :: rest)) : w ≠ [] := by
  intro hw
  subst hw
  have := (List.pairwise_cons.1 h).1 v (by simp)
  exact this.1 List.nil_prefix

/-- Replacing a longest word whose sibling is absent by its parent. -/
theorem prefixFree_shorten {w0 : List Bool} {c : Bool} {rest : List (List Bool)}
    (h : PrefixFree ((w0 ++ [c]) :: rest))
    (hlen : ∀ v ∈ rest, v.length ≤ w0.length + 1) (hs : (w0 ++ [!c]) ∉ rest) :
    PrefixFree (w0 :: rest) := by
  unfold PrefixFree at h ⊢
  rw [List.pairwise_cons] at h ⊢
  refine ⟨fun v hv => ?_, h.2⟩
  exact parent_free (h.1 v hv).1 (h.1 v hv).2 (fun e => hs (e ▸ hv)) (hlen v hv)

/-- Replacing a longest word and its sibling by their parent. -/
theorem prefixFree_merge {w0 : List Bool} {c : Bool} {rest : List (List Bool)}
    (h : PrefixFree ((w0 ++ [c]) :: (w0 ++ [!c]) :: rest))
    (hlen : ∀ v ∈ rest, v.length ≤ w0.length + 1) :
    PrefixFree (w0 :: rest) := by
  unfold PrefixFree at h ⊢
  rw [List.pairwise_cons, List.pairwise_cons] at h
  rw [List.pairwise_cons]
  refine ⟨fun v hv => ?_, h.2.2⟩
  have h1 := h.1 v (List.mem_cons_of_mem _ hv)
  refine parent_free h1.1 h1.2 (fun e => ?_) (hlen v hv)
  have := (h.2.1 v hv).1
  rw [e] at this
  exact this (List.prefix_refl _)

/-! ## Optimality: exchanging weights -/

theorem exists_perm_least {α : Type} (f : α → Nat) :
    ∀ l : List α, l ≠ [] → ∃ m rest, l.Perm (m :: rest) ∧ ∀ p ∈ rest, f m ≤ f p := by
  intro l
  induction l with
  | nil => intro h; exact absurd rfl h
  | cons a l ih =>
    intro _
    by_cases hl : l = []
    · subst hl
      exact ⟨a, [], List.Perm.refl _, fun p hp => by cases hp⟩
    · obtain ⟨m, rest, hp, hm⟩ := ih hl
      by_cases ham : f a ≤ f m
      · refine ⟨a, m :: rest, List.Perm.cons a hp, fun p hp2 => ?_⟩
        rcases List.mem_cons.1 hp2 with rfl | hp3
        · exact ham
        · exact le_trans ham (hm p hp3)
      · refine ⟨m, a :: rest, (List.Perm.cons a hp).trans (List.Perm.swap m a rest),
          fun p hp2 => ?_⟩
        rcases List.mem_cons.1 hp2 with rfl | hp3
        · omega
        · exact hm p hp3

theorem exists_perm_greatest {α : Type} (f : α → Nat) :
    ∀ l : List α, l ≠ [] → ∃ m rest, l.Perm (m :: rest) ∧ ∀ p ∈ rest, f p ≤ f m := by
  intro l
  induction l with
  | nil => intro h; exact absurd rfl h
  | cons a l ih =>
    intro _
    by_cases hl : l = []
    · subst hl
      exact ⟨a, [], List.Perm.refl _, fun p hp => by cases hp⟩
    · obtain ⟨m, rest, hp, hm⟩ := ih hl
      by_cases ham : f m ≤ f a
      · refine ⟨a, m :: rest, List.Perm.cons a hp, fun p hp2 => ?_⟩
        rcases List.mem_cons.1 hp2 with rfl | hp3
        · exact ham
        · exact le_trans (hm p hp3) ham
      · refine ⟨m, a :: rest, (List.Perm.cons a hp).trans (List.Perm.swap m a rest),
          fun p hp2 => ?_⟩
        rcases List.mem_cons.1 hp2 with rfl | hp3
        · omega
        · exact hm p hp3

theorem codeCost_cons (p : Nat × List Bool) (cs : List (Nat × List Bool)) :
    codeCost (p :: cs) = p.1 * p.2.length + codeCost cs := by
  unfold codeCost
  rw [List.map_cons, List.sum_cons]

theorem codeCost_perm {u v : List (Nat × List Bool)} (h : u.Perm v) :
    codeCost u = codeCost v := by
  unfold codeCost
  exact (h.map _).sum_eq

theorem codeTotal_cons (p : Nat × List Bool) (cs : List (Nat × List Bool)) :
    codeTotal (p :: cs) = p.2.length + codeTotal cs := by
  unfold codeTotal
  rw [List.map_cons, List.sum_cons]

theorem codeTotal_perm {u v : List (Nat × List Bool)} (h : u.Perm v) :
    codeTotal u = codeTotal v := by
  unfold codeTotal
  exact (h.map _).sum_eq

theorem exchange_le {m x a b : Nat} (h1 : m ≤ x) (h2 : a ≤ b) :
    m * b + x * a ≤ x * b + m * a := by
  obtain ⟨d, rfl⟩ := Nat.exists_eq_add_of_le h1
  obtain ⟨e, rfl⟩ := Nat.exists_eq_add_of_le h2
  nlinarith [Nat.zero_le (d * e)]

/-- The least weight can be moved to a word that is at least as long as every
other word without making the code more expensive. -/
theorem normalize_head (x : Nat) (w : List Bool) (r : List (Nat × List Bool))
    (hlen : ∀ p ∈ r, p.2.length ≤ w.length) :
    ∃ m r1, (∀ p ∈ r1, m ≤ p.1) ∧ (r1.map Prod.snd).Perm (r.map Prod.snd)
      ∧ (m :: r1.map Prod.fst).Perm (x :: r.map Prod.fst)
      ∧ codeCost ((m, w) :: r1) ≤ codeCost ((x, w) :: r) := by
  by_cases hx : ∀ p ∈ r, x ≤ p.1
  · exact ⟨x, r, hx, List.Perm.refl _, List.Perm.refl _, le_refl _⟩
  · have hne : r ≠ [] := by
      intro h; subst h; exact hx (fun p hp => by cases hp)
    obtain ⟨mu, r2, hp, hm⟩ := exists_perm_least (fun p : Nat × List Bool => p.1) r hne
    have hmx : mu.1 ≤ x := by
      by_contra hc
      apply hx
      intro p hpr
      rcases List.mem_cons.1 (hp.mem_iff.1 hpr) with rfl | hp2
      · omega
      · have := hm p hp2
        omega
    have hmu : mu ∈ r := hp.mem_iff.2 (List.mem_cons_self _ _)
    refine ⟨mu.1, (x, mu.2) :: r2, ?_, ?_, ?_, ?_⟩
    · intro p hp2
      rcases List.mem_cons.1 hp2 with rfl | hp3
      · exact hmx
      · exact hm p hp3
    · exact (hp.map Prod.snd).symm
    · have := (hp.map Prod.fst)
      simp only [List.map_cons] at this ⊢
      exact (List.Perm.swap x mu.1 _).trans (List.Perm.cons x this.symm)
    · rw [codeCost_cons, codeCost_cons, codeCost_cons, codeCost_perm hp, codeCost_cons]
      have := exchange_le hmx (hlen mu hmu)
      simp only
      omega

end Huffman

namespace Huffman

/-! ## Optimality: merging the two least weights of a code -/

/-- A prefix-free code of two words or more, with a longest word put first:
that word is not empty. -/
theorem exists_longest (cs : List (Nat × List Bool)) (hpf : PrefixFree (cs.map Prod.snd))
    (h2 : 2 ≤ cs.length) :
    ∃ x w0 c r1, cs.Perm ((x, w0 ++ [c]) :: r1)
      ∧ (∀ p ∈ r1, p.2.length ≤ w0.length + 1) ∧ r1 ≠ [] := by
  have hne : cs ≠ [] := by
    intro h; subst h; simp at h2
  obtain ⟨m, r1, hp, hm⟩ :=
    exists_perm_greatest (fun p : Nat × List Bool => p.2.length) cs hne
  have hlen := hp.length_eq
  have hr1 : r1 ≠ [] := by
    intro h; subst h
    simp only [List.length_cons, List.length_nil] at hlen
    omega
  have hpf2 : PrefixFree (m.2 :: r1.map Prod.snd) := prefixFree_perm (hp.map Prod.snd) hpf
  have hmne : m.2 ≠ [] := by
    cases r1 with
    | nil => exact absurd rfl hr1
    | cons q r => exact prefixFree_head_ne_nil hpf2
  rcases List.eq_nil_or_concat m.2 with h | ⟨w0, c, h⟩
  · exact absurd h hmne
  · rw [List.concat_eq_append] at h
    refine ⟨m.1, w0, c, r1, ?_, ?_, hr1⟩
    · rw [← h]; exact hp
    · intro p hpr
      have := hm p hpr
      simp only [h, List.length_append, List.length_singleton] at this
      exact this

/-- In a prefix-free code of two words or more the two least weights can be
replaced by their sum, on one word less, at a saving of that sum at least. -/
theorem reduce_code : ∀ (T : Nat) (cs : List (Nat × List Bool)), codeTotal cs ≤ T →
    PrefixFree (cs.map Prod.snd) → 2 ≤ cs.length →
    ∃ a b rs cs1, (cs.map Prod.fst).Perm (a :: b :: rs) ∧ a ≤ b ∧ (∀ z ∈ rs, b ≤ z)
      ∧ PrefixFree (cs1.map Prod.snd) ∧ (cs1.map Prod.fst).Perm ((a + b) :: rs)
      ∧ codeCost cs1 + a + b ≤ codeCost cs := by
  intro T
  induction T with
  | zero =>
    intro cs hT hpf h2
    obtain ⟨x, w0, c, r1, hp, _, _⟩ := exists_longest cs hpf h2
    have := codeTotal_perm hp
    rw [codeTotal_cons] at this
    simp only [List.length_append, List.length_singleton] at this
    omega
  | succ T ih =>
    intro cs hT hpf h2
    obtain ⟨x, w0, c, r1, hp, hlen1, hr1⟩ := exists_longest cs hpf h2
    have hpf1 : PrefixFree ((w0 ++ [c]) :: r1.map Prod.snd) :=
      prefixFree_perm (hp.map Prod.snd) hpf
    have hlenw : ∀ v ∈ r1.map Prod.snd, v.length ≤ w0.length + 1 := by
      intro v hv
      obtain ⟨p, hp1, rfl⟩ := List.mem_map.1 hv
      exact hlen1 p hp1
    by_cases hs : (w0 ++ [!c]) ∈ r1.map Prod.snd
    · -- the sibling of the longest word is a word of the code
      have hlen1w : ∀ p ∈ r1, p.2.length ≤ (w0 ++ [c]).length := by
        intro p hp1
        simp only [List.length_append, List.length_singleton]
        exact hlen1 p hp1
      obtain ⟨a, ra, hamin, hwa, hfa, hca⟩ := normalize_head x (w0 ++ [c]) r1 hlen1w
      have hs2 : (w0 ++ [!c]) ∈ ra.map Prod.snd := hwa.mem_iff.2 hs
      obtain ⟨q, hq1, hq2⟩ := List.mem_map.1 hs2
      obtain ⟨r2, hq⟩ : ∃ r2, ra.Perm (q :: r2) := ⟨_, List.perm_cons_erase hq1⟩
      have hlenra : ∀ p ∈ ra, p.2.length ≤ w0.length + 1 := by
        intro p hp1
        exact hlenw p.2 (hwa.mem_iff.1 (List.mem_map_of_mem _ hp1))
      have hlen2 : ∀ p ∈ r2, p.2.length ≤ q.2.length := by
        intro p hp1
        rw [hq2]
        simp only [List.length_append, List.length_singleton]
        exact hlenra p (hq.mem_iff.2 (List.mem_cons_of_mem _ hp1))
      obtain ⟨b, rb, hbmin, hwb, hfb, hcb⟩ := normalize_head q.1 q.2 r2 hlen2
      have hfra : (b :: rb.map Prod.fst).Perm (ra.map Prod.fst) := by
        refine hfb.trans ?_
        have := (hq.map Prod.fst).symm
        simpa only [List.map_cons] using this
      have hwra : ((w0 ++ [!c]) :: rb.map Prod.snd).Perm (ra.map Prod.snd) := by
        have h1 : ((w0 ++ [!c]) :: rb.map Prod.snd).Perm (q.2 :: r2.map Prod.snd) := by
          rw [hq2]; exact List.Perm.cons _ hwb
        refine h1.trans ?_
        have := (hq.map Prod.snd).symm
        simpa only [List.map_cons] using this
      have hab : a ≤ b := by
        have : b ∈ ra.map Prod.fst := hfra.mem_iff.1 (List.mem_cons_self _ _)
        obtain ⟨p, hp1, hp2⟩ := List.mem_map.1 this
        rw [← hp2]; exact hamin p hp1
      refine ⟨a, b, rb.map Prod.fst, (a + b, w0) :: rb, ?_, hab, ?_, ?_, ?_, ?_⟩
      · have h1 : (cs.map Prod.fst).Perm (x :: r1.map Prod.fst) := by
          have := hp.map Prod.fst
          simpa only [List.map_cons] using this
        exact h1.trans (hfa.symm.trans (List.Perm.cons a hfra.symm))
      · intro z hz
        obtain ⟨p, hp1, rfl⟩ := List.mem_map.1 hz
        exact hbmin p hp1
      · have h1 : PrefixFree ((w0 ++ [c]) :: (w0 ++ [!c]) :: rb.map Prod.snd) :=
          prefixFree_perm (List.Perm.cons _ (hwa.symm.trans hwra.symm)) hpf1
        have h2 : ∀ v ∈ rb.map Prod.snd, v.length ≤ w0.length + 1 := by
          intro v hv
          exact hlenw v (hwa.mem_iff.1 (hwra.mem_iff.1 (List.mem_cons_of_mem _ hv)))
        have := prefixFree_merge h1 h2
        simpa only [List.map_cons] using this
      · simp only [List.map_cons]
        exact List.Perm.refl _
      · have e1 : codeCost cs = codeCost ((x, w0 ++ [c]) :: r1) := codeCost_perm hp
        have e2 : codeCost ra = codeCost (q :: r2) := codeCost_perm hq
        rw [← e1] at hca
        simp only [codeCost_cons, hq2, List.length_append, List.length_singleton]
          at hca hcb e2 ⊢
        have e3 : (a + b) * w0.length + a + b = a * (w0.length + 1) + b * (w0.length + 1) := by
          ring
        omega
    · -- the sibling is absent: the longest word loses its last character
      have hpf2 : PrefixFree (w0 :: r1.map Prod.snd) := prefixFree_shorten hpf1 hlenw hs
      have hT1 : codeTotal ((x, w0) :: r1) ≤ T := by
        have := codeTotal_perm hp
        rw [codeTotal_cons] at this ⊢
        simp only [List.length_append, List.length_singleton] at this ⊢
        omega
      have hl : 2 ≤ ((x, w0) :: r1).length := by
        have := hp.length_eq
        simp only [List.length_cons] at this ⊢
        omega
      obtain ⟨a, b, rs, cs1, h1, h3, h4, h5, h6, h7⟩ := ih ((x, w0) :: r1)
        hT1 (by simpa only [List.map_cons] using hpf2) hl
      refine ⟨a, b, rs, cs1, ?_, h3, h4, h5, h6, ?_⟩
      · refine ((hp.map Prod.fst).trans ?_).trans h1
        simp only [List.map_cons]
        exact List.Perm.refl _
      · have e1 : codeCost cs = codeCost ((x, w0 ++ [c]) :: r1) := codeCost_perm hp
        rw [codeCost_cons] at e1 h7
        simp only [List.length_append, List.length_singleton] at e1 h7
        have : x * w0.length ≤ x * (w0.length + 1) := Nat.mul_le_mul_left _ (by omega)
        omega

end Huffman

namespace Huffman

/-! ## Optimality: the least weighted length -/

theorem sort_eq_of_perm {u v : List Nat} (h : u.Perm v) :
    List.insertionSort (· ≤ ·) u = List.insertionSort (· ≤ ·) v :=
  List.eq_of_perm_of_sorted
    ((List.perm_insertionSort _ u).trans (h.trans (List.perm_insertionSort _ v).symm))
    (List.sorted_insertionSort _ u) (List.sorted_insertionSort _ v)

theorem sort_two_least (a b : Nat) (rs : List Nat) (hab : a ≤ b) (hb : ∀ z ∈ rs, b ≤ z) :
    List.insertionSort (· ≤ ·) (a :: b :: rs) = a :: b :: List.insertionSort (· ≤ ·) rs := by
  apply List.eq_of_perm_of_sorted (r := (· ≤ ·))
  · exact (List.perm_insertionSort _ _).trans
      (List.Perm.cons a (List.Perm.cons b (List.perm_insertionSort _ rs).symm))
  · exact List.sorted_insertionSort _ _
  · have hs := List.sorted_insertionSort (· ≤ ·) rs
    have hm : ∀ z ∈ List.insertionSort (· ≤ ·) rs, b ≤ z := fun z hz =>
      hb z ((List.perm_insertionSort _ rs).mem_iff.1 hz)
    rw [List.sorted_cons, List.sorted_cons]
    refine ⟨fun z hz => ?_, hm, hs⟩
    rcases List.mem_cons.1 hz with rfl | hz2
    · exact hab
    · exact le_trans hab (hm z hz2)

theorem huffCost_two (a b : Nat) (rest : List Nat) :
    huffCost (a :: b :: rest) = a + b + huffCost (List.orderedInsert (· ≤ ·) (a + b) rest) := by
  rw [huffCost]

theorem huffCost_single (a : Nat) : huffCost [a] = 0 := by
  rw [huffCost]

/-- Replacing the two least weights by their sum: the cost of the list is the
sum plus the cost of the new list. -/
theorem huffCost_merge (a b : Nat) (rs : List Nat) (hab : a ≤ b) (hb : ∀ z ∈ rs, b ≤ z) :
    huffCost (List.insertionSort (· ≤ ·) (a :: b :: rs))
      = a + b + huffCost (List.insertionSort (· ≤ ·) ((a + b) :: rs)) := by
  rw [sort_two_least a b rs hab hb, huffCost_two]
  rfl

/-- No prefix-free code is cheaper than the repeated merge of the two least
weights. -/
theorem huffCost_le_codeCost : ∀ (n : Nat) (cs : List (Nat × List Bool)),
    cs.length = n + 1 → PrefixFree (cs.map Prod.snd) →
    huffCost (List.insertionSort (· ≤ ·) (cs.map Prod.fst)) ≤ codeCost cs := by
  intro n
  induction n with
  | zero =>
    intro cs hl _
    cases cs with
    | nil => simp at hl
    | cons p cs =>
      cases cs with
      | nil =>
        show huffCost [p.1] ≤ _
        rw [huffCost_single]
        exact Nat.zero_le _
      | cons q cs => simp at hl
  | succ n ih =>
    intro cs hl hpf
    obtain ⟨a, b, rs, cs1, h1, h2, h3, h4, h5, h6⟩ :=
      reduce_code (codeTotal cs) cs (le_refl _) hpf (by omega)
    have hl1 : cs1.length = n + 1 := by
      have e1 := h1.length_eq
      have e2 := h5.length_eq
      simp only [List.length_map, List.length_cons] at e1 e2
      omega
    have := ih cs1 hl1 h4
    rw [sort_eq_of_perm h1, huffCost_merge a b rs h2 h3, ← sort_eq_of_perm h5]
    omega

end Huffman

namespace Huffman

/-! ## Optimality: the cost of the tree of `buildHuffmanTree` -/

theorem cost_newNode (d f : Nat) : (newNode d f).cost = 0 := by
  simp [newNode, MinHeapNode.cost, MinHeapNode.isNull]

theorem cost_inner (d f : Nat) (l r : MinHeapNode) (hl : l ≠ MinHeapNode.null) :
    (MinHeapNode.node d f l r).cost = l.cost + r.cost + l.weight + r.weight := by
  cases l with
  | null => exact absurd rfl hl
  | node d1 f1 l1 r1 => simp [MinHeapNode.cost, MinHeapNode.isNull]

/-- At every head of the merge loop the weighted path lengths of the trees in
the heap, plus the cost of merging their frequencies, make the cost of merging
the nonzero counts of the table. -/
theorem mergeState_cost (freq : List Nat) (unique_chars : Int)
    (h2 : 2 ≤ (nonzeroSymbols freq).length)
    (hcap : (nonzeroSymbols freq).length ≤ toUInt32 unique_chars)
    (hmax : toUInt32 unique_chars ≤ 2147483647)
    (hsum : ((List.range 256).map (fun i => freq.getD i 0)).sum < U32) (h : MinHeap)
    (hm : MergeState freq unique_chars h) :
    (h.live.map MinHeapNode.cost).sum
        + huffCost (List.insertionSort (· ≤ ·) (h.live.map MinHeapNode.freqVal))
      = huffCost (List.insertionSort (· ≤ ·)
          ((nonzeroSymbols freq).map (fun i => freq.getD i 0))) := by
  induction hm with
  | start g1 g2 e1 e2 =>
    obtain ⟨k1, k2, f1, f2, hw, hs, ho, hp⟩ := seeded_heap freq unique_chars h2 hcap hmax
    rw [e1] at f1
    have q1 : g1 = k1 := by injection f1
    subst q1
    rw [e2] at f2
    have q2 : g2 = k2 := by injection f2
    subst q2
    have hc : (g2.live.map MinHeapNode.cost).sum = 0 := by
      rw [(hp.map MinHeapNode.cost).sum_eq, List.map_map]
      have : (MinHeapNode.cost ∘ fun i => newNode i (freq.getD i 0)) = fun _ => 0 := by
        funext i; exact cost_newNode _ _
      rw [this]
      simp
    have hf : (g2.live.map MinHeapNode.freqVal).Perm
        ((nonzeroSymbols freq).map (fun i => freq.getD i 0)) := by
      have := hp.map MinHeapNode.freqVal
      rw [List.map_map] at this
      exact this
    rw [hc, sort_eq_of_perm hf, Nat.zero_add]
  | step h h1 h2' h3 l r fl fr hm hs e1 e2 e3 e4 e5 ih =>
    obtain ⟨ht, hsm⟩ := MergeState.sums freq unique_chars h2 hcap hmax hsum h hm
    obtain ⟨hw, hs1, ho, hpr⟩ := MergeState.ordered freq unique_chars h2 hcap hmax h hm
    obtain ⟨hw1, hw2, hw3, s1, s2, s3, hroom, p1, p2, p3, efl, efr⟩ :=
      merge_step_facts h h1 h2' h3 l r fl fr hw (by omega) e1 e2 e3 e4 e5
    obtain ⟨ho1, hmin1⟩ := extractMin_ordered h hw hs1 ho l h1 e1
    obtain ⟨_, hmin2⟩ := extractMin_ordered h1 hw1 (by omega) ho1 r h2' e2
    have hl_mem : l ∈ h.live := p1.mem_iff.mp (List.mem_cons_self _ _)
    have hr_mem1 : r ∈ h1.live := p2.mem_iff.mp (List.mem_cons_self _ _)
    have hr_mem : r ∈ h.live := p1.mem_iff.mp (List.mem_cons_of_mem _ hr_mem1)
    have q12 : (l :: r :: h2'.live).Perm h.live := (List.Perm.cons l p2).trans p1
    have hsum12 : l.weight + (r.weight + (h2'.live.map MinHeapNode.weight).sum)
        = ((List.range 256).map (fun i => freq.getD i 0)).sum := by
      rw [← hsm, ← (q12.map MinHeapNode.weight).sum_eq]
      simp only [List.map_cons, List.sum_cons]
    have hlne : l ≠ MinHeapNode.null := Proper.ne_null (hpr l hl_mem).1
    have hno : (fl + fr) % U32 = l.freqVal + r.freqVal := by
      rw [efl, efr]
      apply Nat.mod_eq_of_lt
      rw [(ht l hl_mem).2, (ht r hr_mem).2]
      omega
    have hf : (h.live.map MinHeapNode.freqVal).Perm
        (l.freqVal :: r.freqVal :: h2'.live.map MinHeapNode.freqVal) := by
      have := (q12.map MinHeapNode.freqVal).symm
      simpa only [List.map_cons] using this
    have hf3 : (h3.live.map MinHeapNode.freqVal).Perm
        ((l.freqVal + r.freqVal) :: h2'.live.map MinHeapNode.freqVal) := by
      have := p3.map MinHeapNode.freqVal
      simp only [List.map_cons] at this
      have e : (MinHeapNode.node 36 ((fl + fr) % U32) l r).freqVal = l.freqVal + r.freqVal := hno
      rw [e] at this
      exact this
    have hc : (h.live.map MinHeapNode.cost).sum
        = l.cost + (r.cost + (h2'.live.map MinHeapNode.cost).sum) := by
      rw [← (q12.map MinHeapNode.cost).sum_eq]
      simp only [List.map_cons, List.sum_cons]
    have hc3 : (h3.live.map MinHeapNode.cost).sum
        = (l.cost + r.cost + l.weight + r.weight) + (h2'.live.map MinHeapNode.cost).sum := by
      rw [(p3.map MinHeapNode.cost).sum_eq]
      simp only [List.map_cons, List.sum_cons]
      rw [cost_inner _ _ _ _ hlne]
    have hb : ∀ z ∈ h2'.live.map MinHeapNode.freqVal, r.freqVal ≤ z := by
      intro z hz
      obtain ⟨p, hp1, rfl⟩ := List.mem_map.1 hz
      exact hmin2 p (p2.mem_iff.mp (List.mem_cons_of_mem _ hp1))
    rw [sort_eq_of_perm hf, huffCost_merge _ _ _ (hmin1 r hr_mem) hb, hc] at ih
    rw [sort_eq_of_perm hf3, hc3, ← (ht l hl_mem).2, ← (ht r hr_mem).2]
    omega

/-- The weighted length of a table of lengths that gives every leaf its depth
below a node at depth `k`, summed over the leaves of the node. -/
theorem tree_cost_lengths {t : MinHeapNode} (ht : t.Proper) :
    ∀ (len : Nat → Nat) (k : Nat), (∀ p ∈ t.codePaths, len p.1 = k + p.2.length) →
      (t.leafPairs.map (fun lp => lp.2 * len lp.1)).sum = t.cost + k * t.weight := by
  induction ht with
  | leaf d f =>
    intro len k h
    have := h (d, []) (by simp [MinHeapNode.codePaths, MinHeapNode.isNull])
    simp only [List.length_nil, Nat.add_zero] at this
    have hw : (MinHeapNode.node d f MinHeapNode.null MinHeapNode.null).weight = f :=
      weight_newNode d f
    have hc : (MinHeapNode.node d f MinHeapNode.null MinHeapNode.null).cost = 0 :=
      cost_newNode d f
    rw [hw, hc]
    simp only [MinHeapNode.leafPairs, MinHeapNode.isNull, Bool.and_self, if_true, List.map_cons,
      List.map_nil, List.sum_cons, List.sum_nil, this]
    rw [Nat.mul_comm]; omega
  | inner d f l r hl hr ihl ihr =>
    intro len k h
    rw [codePaths_inner d f l r hl] at h
    have h1 := ihl len (k + 1) (fun p hp => by
      have := h (p.1, false :: p.2) (List.mem_append_left _
        (List.mem_map.2 ⟨p, hp, rfl⟩))
      simp only [List.length_cons] at this
      omega)
    have h2 := ihr len (k + 1) (fun p hp => by
      have := h (p.1, true :: p.2) (List.mem_append_right _
        (List.mem_map.2 ⟨p, hp, rfl⟩))
      simp only [List.length_cons] at this
      omega)
    rw [leafPairs_node_of_ne_null _ _ _ _ (Proper.ne_null hl), List.map_append,
      List.sum_append, h1, h2, cost_inner _ _ _ _ (Proper.ne_null hl),
      weight_inner _ _ _ _ (Proper.ne_null hl)]
    ring

end Huffman

namespace Huffman

/-! ## Optimality of the generated code -/

theorem sum_filter_mul (f g : Nat → Nat) : ∀ l : List Nat,
    ((l.filter (fun i => 0 < f i)).map (fun i => f i * g i)).sum
      = (l.map (fun i => f i * g i)).sum := by
  intro l
  induction l with
  | nil => rfl
  | cons a t ih =>
    by_cases h : 0 < f a
    · rw [List.filter_cons_of_pos (by simpa using h)]
      simp only [List.map_cons, List.sum_cons, ih]
    · rw [List.filter_cons_of_neg (by simpa using h)]
      simp only [List.map_cons, List.sum_cons, ih]
      have : f a = 0 := by omega
      rw [this, Nat.zero_mul, Nat.zero_add]

theorem bitsMSB_mod : ∀ (n x y : Nat), bitsMSB n x = bitsMSB n y → x % 2 ^ n = y % 2 ^ n := by
  intro n
  induction n with
  | zero => intro x y _; simp [Nat.mod_one]
  | succ n ih =>
    intro x y h
    rw [bitsMSB, bitsMSB] at h
    injection h with h1 h2
    have e1 := ih x y h2
    have hx : x / 2 ^ n % 2 < 2 := Nat.mod_lt _ (by decide)
    have hy : y / 2 ^ n % 2 < 2 := Nat.mod_lt _ (by decide)
    have e2 : x / 2 ^ n % 2 = y / 2 ^ n % 2 := by
      have h3 : (x / 2 ^ n % 2 = 1) ↔ (y / 2 ^ n % 2 = 1) := by
        constructor
        · intro hx1
          have : decide (x / 2 ^ n % 2 = 1) = true := decide_eq_true hx1
          rw [h1] at this
          exact of_decide_eq_true this
        · intro hy1
          have : decide (y / 2 ^ n % 2 = 1) = true := decide_eq_true hy1
          rw [← h1] at this
          exact of_decide_eq_true this
      omega
    rw [Nat.mod_pow_succ, Nat.mod_pow_succ, e1, e2]

theorem bitsMSB_eight_inj {a b : Nat} (ha : a < 256) (hb : b < 256)
    (h : bitsMSB 8 a = bitsMSB 8 b) : a = b := by
  have := bitsMSB_mod 8 a b h
  have e : (2 : Nat) ^ 8 = 256 := by decide
  rw [e, Nat.mod_eq_of_lt ha, Nat.mod_eq_of_lt hb] at this
  exact this

theorem sum_eight_bits (f : Nat → Nat) : ∀ l : List Nat,
    (l.map (fun c => f c * (bitsMSB 8 c).length)).sum = 8 * (l.map f).sum := by
  intro l
  induction l with
  | nil => rfl
  | cons a t ih =>
    rw [List.map_cons, List.sum_cons, ih, bitsMSB_length, List.map_cons, List.sum_cons]
    omega

/-- The weighted length of a code of the symbols with a nonzero count is at
least the cost of merging the counts. -/
theorem huffCost_le_table (freq : List Nat) (h2 : 2 ≤ (nonzeroSymbols freq).length)
    (other : Nat → List Bool)
    (hpf : ∀ a ∈ nonzeroSymbols freq, ∀ b ∈ nonzeroSymbols freq, a ≠ b →
      ¬ other a <+: other b) :
    huffCost (List.insertionSort (· ≤ ·) ((nonzeroSymbols freq).map (fun i => freq.getD i 0)))
      ≤ ((List.range 256).map (fun c => freq.getD c 0 * (other c).length)).sum := by
  have h := huffCost_le_codeCost ((nonzeroSymbols freq).length - 1)
    ((nonzeroSymbols freq).map (fun c => (freq.getD c 0, other c)))
    (by rw [List.length_map]; omega)
    (by
      unfold PrefixFree
      rw [List.map_map, List.pairwise_map]
      refine List.Pairwise.imp_of_mem ?_ (nonzeroSymbols_nodup freq)
      intro a b ha hb hab
      exact ⟨hpf a ha b hb hab, hpf b hb a ha (Ne.symm hab)⟩)
  rw [List.map_map] at h
  have e1 : (Prod.fst ∘ fun c => (freq.getD c 0, other c)) = fun i => freq.getD i 0 := rfl
  rw [e1] at h
  have e2 : codeCost ((nonzeroSymbols freq).map (fun c => (freq.getD c 0, other c)))
      = ((List.range 256).map (fun c => freq.getD c 0 * (other c).length)).sum := by
    unfold codeCost
    rw [List.map_map]
    exact sum_filter_mul (fun c => freq.getD c 0) (fun c => (other c).length) (List.range 256)
  rw [e2] at h
  exact h

/-- The weighted length of the table `storeCodes` fills from the tree of
`buildHuffmanTree` is the cost of merging the nonzero counts. -/
theorem table_cost (freq : List Nat) (h2 : 2 ≤ (nonzeroSymbols freq).length)
    (hsum : ((List.range 256).map (fun i => freq.getD i 0)).sum < 4294967296)
    (arr : List Nat) (harr : arr.length = MAX_TREE_HT) (codes0 : CodeTable) :
    ∃ root arr1 codes, buildHuffmanTree freq (countUnique freq) = Except.ok root
      ∧ storeCodes root arr 0 codes0 = Except.ok (arr1, codes)
      ∧ ((List.range 256).map (fun c => freq.getD c 0 * (codes c).length)).sum
        = huffCost (List.insertionSort (· ≤ ·)
            ((nonzeroSymbols freq).map (fun i => freq.getD i 0))) := by
  have hle := nonzeroSymbols_length_le freq
  have hu : toUInt32 (countUnique freq) = (nonzeroSymbols freq).length := by
    rw [countUnique_eq]
    exact toUInt32_natCast _ (by omega)
  obtain ⟨g, k, root, _, hmk, _, hk, e⟩ := buildHuffmanTree_run freq (countUnique freq) h2
    (by rw [hu]) (by rw [hu]; omega)
  obtain ⟨root1, e1, hpr, hperm⟩ := buildHuffmanTree_spec freq (countUnique freq) h2
    (by rw [hu]) (by rw [hu]; omega)
  rw [e] at e1
  have q : root = root1 := by injection e1
  subst q
  have hleaves : root.leaves.Perm (nonzeroSymbols freq) := by
    have := hperm.map Prod.fst
    rw [List.map_map] at this
    have e3 : (Prod.fst ∘ fun i => (i, freq.getD i 0)) = id := rfl
    rw [e3, List.map_id] at this
    exact this
  obtain ⟨arr1, codes, es, hcodes, _⟩ := storeCodes_tree freq root hpr hleaves arr harr codes0
  have hcost := mergeState_cost freq (countUnique freq) h2 (by rw [hu]) (by rw [hu]; omega)
    hsum k hmk
  rw [hk] at hcost
  have e4 : List.insertionSort (· ≤ ·) (List.map MinHeapNode.freqVal [root])
      = [root.freqVal] := rfl
  rw [e4, huffCost_single] at hcost
  simp only [List.map_cons, List.map_nil, List.sum_cons, List.sum_nil, Nat.add_zero] at hcost
  have hlen := tree_cost_lengths hpr (fun c => (codes c).length) 0 (fun p hp => by
    show (codes p.1).length = 0 + p.2.length
    rw [hcodes p hp, List.length_map]; omega)
  rw [Nat.zero_mul, Nat.add_zero, (hperm.map _).sum_eq, List.map_map] at hlen
  refine ⟨root, arr1, codes, e, es, ?_⟩
  rw [← hcost, ← hlen]
  exact (sum_filter_mul (fun c => freq.getD c 0) (fun c => (codes c).length)
    (List.range 256)).symm

/-- Claim C21 (optimality of the generated code). For every frequency table
with at least two nonzero entries whose counts add up to less than `2^32`,
`buildHuffmanTree` and `storeCodes` return, and the weighted length of the
table filled, the sum over the symbols `c` of `freq[c]` times the length of
the row `c`, is at most the weighted length of every binary code in which no
word of a symbol with a nonzero count is a prefix of the word of another such
symbol; in particular it is at most 8 times the sum of the counts. -/
theorem huffman_optimal (freq : List Nat) (h2 : 2 ≤ (nonzeroSymbols freq).length)
    (hsum : ((List.range 256).map (fun i => freq.getD i 0)).sum < 4294967296)
    (arr : List Nat) (harr : arr.length = MAX_TREE_HT) (codes0 : CodeTable) :
    ∃ root arr1 codes, buildHuffmanTree freq (countUnique freq) = Except.ok root
      ∧ storeCodes root arr 0 codes0 = Except.ok (arr1, codes)
      ∧ (∀ other : Nat → List Bool,
          (∀ a ∈ nonzeroSymbols freq, ∀ b ∈ nonzeroSymbols freq, a ≠ b →
            ¬ other a <+: other b) →
          ((List.range 256).map (fun c => freq.getD c 0 * (codes c).length)).sum
            ≤ ((List.range 256).map (fun c => freq.getD c 0 * (other c).length)).sum)
      ∧ ((List.range 256).map (fun c => freq.getD c 0 * (codes c).length)).sum
          ≤ 8 * ((List.range 256).map (fun c => freq.getD c 0)).sum := by
  obtain ⟨root, arr1, codes, e, es, hc⟩ := table_cost freq h2 hsum arr harr codes0
  refine ⟨root, arr1, codes, e, es, ?_, ?_⟩
  · intro other hpf
    rw [hc]
    exact huffCost_le_table freq h2 other hpf
  · rw [hc]
    have h8 := huffCost_le_table freq h2 (fun c => bitsMSB 8 c) (by
      intro a ha b hb hab hpre
      have := List.IsPrefix.eq_of_length hpre (by rw [bitsMSB_length, bitsMSB_length])
      exact hab (bitsMSB_eight_inj (nonzeroSymbols_lt ha) (nonzeroSymbols_lt hb) this))
    exact le_trans h8 (le_of_eq (sum_eight_bits (fun c => freq.getD c 0) (List.range 256)))

end Huffman

namespace Huffman

set_option maxRecDepth 100000

/-- Instance of `huffman_optimal`: the table with the counts 500, 250 and 250
for `'A'`, `'B'` and `'C'`. -/
theorem huffman_optimal_witness :
    ∃ root arr1 codes, buildHuffmanTree sampleFreq (countUnique sampleFreq) = Except.ok root
      ∧ storeCodes root (List.replicate 256 0) 0 (fun _ => []) = Except.ok (arr1, codes)
      ∧ (∀ other : Nat → List Bool,
          (∀ a ∈ nonzeroSymbols sampleFreq, ∀ b ∈ nonzeroSymbols sampleFreq, a ≠ b →
            ¬ other a <+: other b) →
          ((List.range 256).map (fun c => sampleFreq.getD c 0 * (codes c).length)).sum
            ≤ ((List.range 256).map (fun c => sampleFreq.getD c 0 * (other c).length)).sum)
      ∧ ((List.range 256).map (fun c => sampleFreq.getD c 0 * (codes c).length)).sum
          ≤ 8 * ((List.range 256).map (fun c => sampleFreq.getD c 0)).sum :=
  huffman_optimal sampleFreq (by decide) (by decide) (List.replicate 256 0) (by decide)
    (fun _ => [])

end Huffman
